import Mathlib

/-!
# Pattern tree of the FP-Stream engine (`Analytics/PatternTree.cpp`)

A shallow embedding of `Analytics::PatternTree` and of the parts of
`TTWDefinition`, `TiltedTimeWindow`, `FPNode` and `Constraints` it relies on,
followed by theorems about the embedded functions.

`PatternTree.cpp`, `TTWDefinition.h` and the unit tests are translated from the
sources.  `TiltedTimeWindow.cpp`, `TTWDefinition.cpp`, `FPNode.h`,
`Constraints.cpp`, `Item.h` and `PatternTree.h` are not among the sources; what
is needed of them is modelled from the specification and from the unit tests
that exercise them, and every such definition says so in its doc comment.
-/

namespace Analytics

/-! ## Basic types -/

abbrev ItemID := Nat
abbrev ItemName := String
abbrev ItemIDList := List ItemID
abbrev SupportCount := Nat
abbrev Bucket := Nat
abbrev Granularity := Nat

/-- The reserved item of the root node (`ROOT_ITEMID`); the data model reserves
`0` as the ROOT sentinel. -/
def ROOT_ITEMID : ItemID := 0

/-- Number of values of a C++ `uint` / `quint32` (2^32). -/
def UINT_MODULUS : Nat := 4294967296

/-- Modelled from the spec: the typedef of `SupportCount` (`Item.h`) is not among
the sources; the data model states it is a `u64`, so support arithmetic wraps at
2^64. -/
def SUPPORT_MODULUS : Nat := 18446744073709551616

/-- Modelled from the spec: `TTW_BUCKET_UNUSED` (`TiltedTimeWindow.h`), the
sentinel that marks an empty slot: `-1` cast to `SupportCount`, the maximum
value (the unit test compares unused buckets with `(SupportCount) -1`). -/
def TTW_BUCKET_UNUSED : SupportCount := SUPPORT_MODULUS - 1

/-- A C++ `(int)` cast of a `uint`: the value is reinterpreted as a signed
32-bit integer. -/
def uintToInt (n : Nat) : Int :=
  if n % UINT_MODULUS < 2147483648 then ((n % UINT_MODULUS : Nat) : Int)
  else ((n % UINT_MODULUS : Nat) : Int) - 4294967296

/-- Assigning an `int` to a `uint`: reduction modulo 2^32. -/
def intToUint (i : Int) : Nat := (i % 4294967296).toNat

/-! ## TTWDefinition -/

/-- The class `TTWDefinition` (`TTWDefinition.h`).  The stored data are
`secPerWindow`, `bucketCount` and `granularityChar`; the fields
`numGranularities`, `numBuckets` and `bucketOffset` of the header are functions
of those (see below), as the data model describes them. -/
structure TTWDefinition where
  secPerWindow : Nat
  bucketCount : List Bucket
  granularityChar : List Char
deriving DecidableEq, Repr

namespace TTWDefinition

/-- The default constructor `TTWDefinition() {}`: no granularity. -/
def empty : TTWDefinition := { secPerWindow := 0, bucketCount := [], granularityChar := [] }

/-- Field `numGranularities`. -/
def numGranularities (d : TTWDefinition) : Nat := d.bucketCount.length

/-- Field `numBuckets`: the sum of the bucket counts. -/
def numBuckets (d : TTWDefinition) : Nat := d.bucketCount.sum

/-- Field `bucketOffset`: the prefix sum of the earlier granularities' counts. -/
def bucketOffset (d : TTWDefinition) (g : Granularity) : Bucket := (d.bucketCount.take g).sum

/-- Capacity of granularity `g` (`bucketCount[g]`). -/
def capacity (d : TTWDefinition) (g : Granularity) : Nat := d.bucketCount.getD g 0

/-- Decimal digits of a number, most significant first, with a bound on the
number of digits (`QString::number`). -/
def decimalDigits : Nat → Nat → List Char → List Char
  | 0, _, acc => acc
  | fuel + 1, n, acc =>
    let acc1 := Char.ofNat (48 + n % 10) :: acc
    if n / 10 = 0 then acc1 else decimalDigits fuel (n / 10) acc1

/-- Decimal representation of a number. -/
def natToDecimal (n : Nat) : List Char := decimalDigits (n + 1) n []

/-- Value of a decimal digit character, if it is one. -/
def digitValue (c : Char) : Option Nat :=
  if 48 ≤ c.toNat ∧ c.toNat ≤ 57 then some (c.toNat - 48) else none

/-- Reads a non-empty string of decimal digits (`QString::toUInt`, without the
range check). -/
def readDigits : List Char → Nat → Option Nat
  | [], acc => some acc
  | c :: cs, acc =>
    match digitValue c with
    | some v => readDigits cs (acc * 10 + v)
    | none => none

/-- Reads a decimal `uint`: digits only, at least one, value below 2^32. -/
def decimalToUint (cs : List Char) : Option Nat :=
  match cs with
  | [] => none
  | _ :: _ =>
    match readDigits cs 0 with
    | some n => if n < UINT_MODULUS then some n else none
    | none => none

/-- Groups a string of granularity characters into runs of identical
characters: each run is a granularity, its length the bucket count. -/
def runs : List Char → List (Char × Nat)
  | [] => []
  | c :: cs =>
    match runs cs with
    | (c1, n) :: rest => if c = c1 then (c, n + 1) :: rest else (c, 1) :: (c1, n) :: rest
    | [] => [(c, 1)]

/-- Modelled from the spec: `TTWDefinition::serialize` (`TTWDefinition.cpp` is
not among the sources).  The format is `"<secPerWindow>:<granularityChars>"`,
the granularity characters being each granularity's tag repeated `bucketCount`
times. -/
def serialize (d : TTWDefinition) : String :=
  String.mk (natToDecimal d.secPerWindow ++ ':' ::
    (List.zip d.granularityChar d.bucketCount).flatMap (fun p => List.replicate p.2 p.1))

/-- Modelled from the spec: `TTWDefinition::deserialize` (`TTWDefinition.cpp` is
not among the sources), as the definition it reads, `none` standing for the
result `false`.  The input is `"<secPerWindow>:<granularityChars>"`; runs of
identical characters form the granularities; an input without granularity
characters is rejected, and so is one in which the tag of a run occurs again in
a later run. -/
def deserialize (serialized : String) : Option TTWDefinition :=
  let cs := serialized.data
  let num := cs.takeWhile (fun c => c != ':')
  match cs.dropWhile (fun c => c != ':') with
  | [] => none
  | _ :: tags =>
    match decimalToUint num with
    | none => none
    | some sec =>
      let rs := runs tags
      if rs = [] then none
      else if (rs.map Prod.fst).Nodup then
        some { secPerWindow := sec, bucketCount := rs.map Prod.snd,
               granularityChar := rs.map Prod.fst }
      else none

/-- The definitions that `serialize` and `deserialize` are meant for: at least
one granularity, every bucket count at least 1, one tag per granularity, the
tags pairwise distinct, and `secPerWindow` a `uint`. -/
def Valid (d : TTWDefinition) : Prop :=
  d.bucketCount ≠ [] ∧ (∀ n ∈ d.bucketCount, 1 ≤ n) ∧
  d.granularityChar.length = d.bucketCount.length ∧ d.granularityChar.Nodup ∧
  d.secPerWindow < UINT_MODULUS

instance (d : TTWDefinition) : Decidable d.Valid := by
  unfold Valid; infer_instance

/-- The definition every unit test and the version 1 fallback use:
900 seconds, 4 Q, 24 H, 31 D, 12 M and 1 Y buckets. -/
def default : TTWDefinition :=
  { secPerWindow := 900, bucketCount := [4, 24, 31, 12, 1],
    granularityChar := ['Q', 'H', 'D', 'M', 'Y'] }

/-- The definition string of the version 1 fallback in
`PatternTree::deserialize`. -/
def legacyString : String :=
  "900:QQQQHHHHHHHHHHHHHHHHHHHHHHHHDDDDDDDDDDDDDDDDDDDDDDDDDDDDDDDMMMMMMMMMMMMY"

end TTWDefinition

/-! ## TiltedTimeWindow -/

/-- Modelled from the spec: the class `TiltedTimeWindow` (`TiltedTimeWindow.h`
is not among the sources).  A fixed-length array of slots (`buckets`, of length
`numBuckets` of its definition), a usage counter per granularity
(`capacityUsed`), the marker returned by `getOldestBucketFilled()` and
`lastUpdate`, the update ID of the most recent append. -/
structure TiltedTimeWindow where
  ttwDef : TTWDefinition
  buckets : List SupportCount
  capacityUsed : List Nat
  oldestBucketFilled : Bucket
  lastUpdate : Nat
deriving DecidableEq, Repr

namespace TiltedTimeWindow

/-- Modelled from the spec: `TiltedTimeWindow::build(def)`.  Every slot is
`UNUSED`, every usage counter 0; a freshly built window has `lastUpdate` 0
(`TestPatternTree::basic` reads `getLastUpdate() == 0` on a node that was only
built) and, being empty, oldest bucket 0. -/
def build (d : TTWDefinition) : TiltedTimeWindow :=
  { ttwDef := d,
    buckets := List.replicate d.numBuckets TTW_BUCKET_UNUSED,
    capacityUsed := List.replicate d.numGranularities 0,
    oldestBucketFilled := 0,
    lastUpdate := 0 }

/-- The default constructor `TiltedTimeWindow()`: a window that has not been
built yet. -/
def unbuilt : TiltedTimeWindow := build TTWDefinition.empty

/-- Modelled from the spec: `getCapacityUsed(g)`, the usage counter of
granularity `g`. -/
def getCapacityUsed (w : TiltedTimeWindow) (g : Granularity) : Nat := w.capacityUsed.getD g 0

/-- Modelled from the spec: `getLastUpdate()`. -/
def getLastUpdate (w : TiltedTimeWindow) : Nat := w.lastUpdate

/-- Modelled from the spec: `getBuckets(n)` returns the first `n` slot values,
preserving the `UNUSED` sentinel. -/
def getBuckets (w : TiltedTimeWindow) (n : Nat) : List SupportCount := w.buckets.take n

/-- Sum of slot values with `UNUSED` counted as 0, in `SupportCount`
arithmetic. -/
def sumSlots (slots : List SupportCount) : SupportCount :=
  ((slots.filter (fun b => b != TTW_BUCKET_UNUSED)).sum) % SUPPORT_MODULUS

/-- Modelled from the spec: `getSupportForRange(from, to)` returns the sum of
the stored values in the slots `[from, to]` (inclusive, bucket-indexed across
all granularities), treating `UNUSED` as 0. -/
def getSupportForRange (w : TiltedTimeWindow) (fromBucket toBucket : Bucket) : SupportCount :=
  sumSlots ((w.buckets.drop fromBucket).take (toBucket + 1 - fromBucket))

/-- Writes `s` into slot `offset` after moving the `used` slots that start
there one position towards the older end; the slot `offset + used` is
overwritten and every other slot keeps its value. -/
def shiftInsert (slots : List SupportCount) (offset used : Nat) (s : SupportCount) :
    List SupportCount :=
  slots.take offset ++ s :: (slots.drop offset).take used ++ slots.drop (offset + used + 1)

/-- Resets the slots of one granularity to `UNUSED`. -/
def resetSlots (slots : List SupportCount) (offset count : Nat) : List SupportCount :=
  slots.take offset ++ List.replicate (min count (slots.length - offset)) TTW_BUCKET_UNUSED ++
    slots.drop (offset + count)

/-- Modelled from the spec: the shift-cascade of `append`, storing `s` in
granularity `g` (`fuel` bounds the number of granularities still to visit).
If the granularity is not full, the stored values move one slot towards the
older end and `s` is written at the first slot (the unit tests read the newest
value first: `[93, 88, 67, 45]`).  If it is full and it is the coarsest one,
the oldest value falls off (sliding window: `[4,3,2,1]` becomes `[5,4,3,2]`).
If it is full and a coarser granularity exists, its slots are aggregated into
one value, reset to `UNUSED`, the aggregate is stored in granularity `g + 1`,
and `s` is written at the first slot.  The oldest-bucket marker only moves
towards older buckets. -/
def store : Nat → Granularity → SupportCount → TiltedTimeWindow → TiltedTimeWindow
  | 0, _, _, w => w
  | fuel + 1, g, s, w =>
    let offset := w.ttwDef.bucketOffset g
    let count := w.ttwDef.capacity g
    let used := w.getCapacityUsed g
    if used < count then
      { w with
        buckets := shiftInsert w.buckets offset used s,
        capacityUsed := w.capacityUsed.set g (used + 1),
        oldestBucketFilled := max w.oldestBucketFilled (offset + used) }
    else if g + 1 < w.ttwDef.numGranularities then
      let v := sumSlots ((w.buckets.drop offset).take count)
      let w1 := { w with buckets := resetSlots w.buckets offset count,
                         capacityUsed := w.capacityUsed.set g 0 }
      let w2 := store fuel (g + 1) v w1
      { w2 with
        buckets := shiftInsert w2.buckets offset 0 s,
        capacityUsed := w2.capacityUsed.set g 1,
        oldestBucketFilled := max w2.oldestBucketFilled offset }
    else
      { w with
        buckets := shiftInsert w.buckets offset (count - 1) s,
        oldestBucketFilled := max w.oldestBucketFilled (offset + count - 1) }

/-- Modelled from the spec: `TiltedTimeWindow::append(support, updateID)`
(`TiltedTimeWindow.cpp` is not among the sources).  When `updateID` equals
`lastUpdate` the support is folded into slot 0 and nothing advances; otherwise
the shift-cascade runs from granularity 0 and `lastUpdate` becomes `updateID`.
The update ID 0 never folds: `PatternTree::addPattern` synchronises the quarters
with `append(0, 0)`, and `TestPatternTree::additionsRemainInSync` requires that
this call on a freshly built window (whose `lastUpdate` is 0) stores a zero
bucket, `getBuckets(2) == [2, 0]`. -/
def append (w : TiltedTimeWindow) (support : SupportCount) (updateID : Nat) :
    TiltedTimeWindow :=
  if updateID ≠ 0 ∧ updateID = w.lastUpdate then
    match w.buckets with
    | [] => w
    | b :: rest => { w with buckets := ((b + support) % SUPPORT_MODULUS) :: rest }
  else
    { store w.ttwDef.numGranularities 0 support w with lastUpdate := updateID }

/-- Modelled from the spec: the object produced by
`TiltedTimeWindow::toVariantMap`.  The spec lists `lastUpdate`, the
per-granularity fill state and the raw slot array, and requires the round trip
to be exact: the map carries the usage counters and the oldest-bucket marker
next to the slots. -/
structure TTWVariantMap where
  lastUpdate : Nat
  oldestBucketFilled : Bucket
  capacityUsed : List Nat
  buckets : List SupportCount
deriving DecidableEq, Repr

/-- Modelled from the spec: `TiltedTimeWindow::toVariantMap`. -/
def toVariantMap (w : TiltedTimeWindow) : TTWVariantMap :=
  { lastUpdate := w.lastUpdate, oldestBucketFilled := w.oldestBucketFilled,
    capacityUsed := w.capacityUsed, buckets := w.buckets }

/-- Modelled from the spec: `TiltedTimeWindow::fromVariantMap`, which overwrites
the state of a built window with the serialized one; the definition of the
window is kept. -/
def fromVariantMap (w : TiltedTimeWindow) (m : TTWVariantMap) : TiltedTimeWindow :=
  { w with lastUpdate := m.lastUpdate, oldestBucketFilled := m.oldestBucketFilled,
           capacityUsed := m.capacityUsed, buckets := m.buckets }

end TiltedTimeWindow

/-! ## FPNode -/

/-- Modelled from the spec: the class template `FPNode<T>` (`FPNode.h` is not
among the sources).  A node carries an item ID, a value of the parameter type
and its children, an insertion-ordered map from child item ID to owned child
node: the list holds the children in insertion order.  The non-owning parent
reference is represented by the position of the node in the tree: a pointer to
a node is the list of nodes from that node up to the root (see
`findNodeChain`). -/
inductive FPNode (T : Type) where
  | mk (itemID : ItemID) (value : T) (children : List (FPNode T)) : FPNode T

namespace FPNode

variable {T : Type}

/-- Getter `getItemID()`. -/
def getItemID : FPNode T → ItemID
  | mk i _ _ => i

/-- Getter `getValue()`. -/
def getValue : FPNode T → T
  | mk _ v _ => v

/-- Getter `getChildren()`: the children, in insertion order. -/
def getChildren : FPNode T → List (FPNode T)
  | mk _ _ cs => cs

/-- Query `numChildren()`. -/
def numChildren (n : FPNode T) : Nat := n.getChildren.length

/-- Query `hasChild(itemID)`. -/
def hasChild (n : FPNode T) (i : ItemID) : Bool := n.getChildren.any (fun c => c.getItemID == i)

/-- Query `getChild(itemID)`: the child stored under that item ID. -/
def getChild (n : FPNode T) (i : ItemID) : Option (FPNode T) :=
  n.getChildren.find? (fun c => c.getItemID == i)

mutual
/-- Number of nodes of the subtree rooted at a node, the node included. -/
def size : FPNode T → Nat
  | mk _ _ cs => 1 + sizeList cs
/-- Number of nodes of the subtrees rooted at the nodes of a list. -/
def sizeList : List (FPNode T) → Nat
  | [] => 0
  | c :: cs => size c + sizeList cs
end

/-- Modelled from the spec: `getNumDescendants()`, the number of nodes below a
node. -/
def getNumDescendants (n : FPNode T) : Nat := sizeList n.getChildren

/-- Replaces the child stored under item ID `i` by `new`. -/
def replaceChild (i : ItemID) (new : FPNode T) : List (FPNode T) → List (FPNode T)
  | [] => []
  | c :: cs => if c.getItemID == i then new :: cs else c :: replaceChild i new cs

/-- Removes the child stored under item ID `i`. -/
def eraseChild (i : ItemID) : List (FPNode T) → List (FPNode T)
  | [] => []
  | c :: cs => if c.getItemID == i then cs else c :: eraseChild i cs

/-- The node reached from `n` by following the item IDs of `pattern` through
`getChild`, if every step exists. -/
def findNode : ItemIDList → FPNode T → Option (FPNode T)
  | [], n => some n
  | i :: rest, n =>
    match n.getChild i with
    | some c => findNode rest c
    | none => none

/-- A pointer to the node reached from `n` by following `pattern`: the nodes
on the way, the reached node first and the starting node last (each node is
followed by its parent).  `above` holds the ancestors of `n`. -/
def findNodeChain : ItemIDList → FPNode T → List (FPNode T) → Option (List (FPNode T))
  | [], n, above => some (n :: above)
  | i :: rest, n, above =>
    match n.getChild i with
    | some c => findNodeChain rest c (n :: above)
    | none => none

/-- Modelled from the spec: `findNodeByPattern(pattern)`, the exact lookup
behind `PatternTree::getPatternSupport`: a pointer to the value of the node
whose path from this node is `pattern`, or null. -/
def findNodeByPattern (n : FPNode T) (pattern : ItemIDList) : Option T :=
  (findNode pattern n).map getValue

/-- Applies `f` to the value of the node reached by following `pattern` (a
write through the pointer returned by `findNodeByPattern`); nothing changes
when there is no such node. -/
def modifyValueAt (f : T → T) : ItemIDList → FPNode T → FPNode T
  | [], mk i v cs => mk i (f v) cs
  | x :: rest, mk i v cs =>
    match (mk i v cs).getChild x with
    | some c => mk i v (replaceChild x (modifyValueAt f rest c) cs)
    | none => mk i v cs

/-- The walk of `PatternTree::addPattern` below a node: for each item ID the
existing child is entered, or a new node with a freshly built value is created
(incrementing `nodeCount`) and attached as the last child (`setParent`); on
arrival `f` is applied to the value of the destination node.  Returns the
updated node and node count. -/
def addPath (fresh : T) (f : T → T) : ItemIDList → FPNode T → Nat → FPNode T × Nat
  | [], mk i v cs, nodeCount => (mk i (f v) cs, nodeCount)
  | x :: rest, mk i v cs, nodeCount =>
    match (mk i v cs).getChild x with
    | some c =>
      let r := addPath fresh f rest c nodeCount
      (mk i v (replaceChild x r.1 cs), r.2)
    | none =>
      let r := addPath fresh f rest (mk x fresh []) (nodeCount + 1)
      (mk i v (cs ++ [r.1]), r.2)

/-- Modelled from the spec: destroying the node reached by following
`i :: rest` from `n` (`delete node`), which detaches it from its parent's
children together with its whole subtree. -/
def removeAt : ItemID → ItemIDList → FPNode T → FPNode T
  | i, [], mk j v cs => mk j v (eraseChild i cs)
  | i, x :: rest, mk j v cs =>
    match (mk j v cs).getChild i with
    | some c => mk j v (replaceChild i (removeAt x rest c) cs)
    | none => mk j v cs

mutual
/-- All nodes of the subtree rooted at a node in depth-first pre-order
(children in insertion order), each with its root-path itemset: the item IDs
from below the root down to the node, `path` being the itemset of the
parent. -/
def preorder : ItemIDList → FPNode T → List (ItemIDList × FPNode T)
  | path, mk i v cs => (path ++ [i], mk i v cs) :: preorderList (path ++ [i]) cs
/-- Pre-order listing of the subtrees rooted at the nodes of a list. -/
def preorderList : ItemIDList → List (FPNode T) → List (ItemIDList × FPNode T)
  | _, [] => []
  | path, c :: cs => preorder path c ++ preorderList path cs
end

end FPNode

/-! ## Constraints and frequent itemsets -/

/-- Modelled from the spec: the class `Constraints` (`Constraints.cpp` is not
among the sources), reduced to the preprocessed item IDs of its constraint
groups: the groups of type Positive and those of type Negative. -/
structure Constraints where
  positive : List (List ItemID)
  negative : List (List ItemID)
deriving DecidableEq, Repr

namespace Constraints

/-- Constraints without any group (a default-constructed `Constraints`). -/
def none : Constraints := { positive := [], negative := [] }

/-- Modelled from the spec: `matchItemset(itemset)` is true iff every Positive
group intersects the itemset and every Negative group is disjoint from it;
empty constraints match everything. -/
def matchItemset (c : Constraints) (itemset : ItemIDList) : Bool :=
  c.positive.all (fun g => g.any (fun i => itemset.contains i)) &&
  c.negative.all (fun g => g.all (fun i => !itemset.contains i))

end Constraints

/-- The struct `FrequentItemset` (`Item.h`): an itemset and its support. -/
structure FrequentItemset where
  itemset : ItemIDList
  support : SupportCount
deriving DecidableEq, Repr

/-- Modelled from the spec: the default constructor `FrequentItemset()`
(`Item.h` is not among the sources): no item and support 0 (with any other
default support `TestPatternTree::getFrequentItemsetsForRange` would find the
empty itemset of the root in its results). -/
def FrequentItemset.default : FrequentItemset := { itemset := [], support := 0 }

/-! ## PatternTree -/

/-- The class `PatternTree`: the root node (an `FPNode<TiltedTimeWindow>`), the
definition used to build the windows of new nodes, the running `nodeCount` and
`currentQuarter`.  `nodeCount` is an unsigned counter of heap-allocated nodes;
it is modelled without wrap-around, a tree never holding 2^32 nodes. -/
structure PatternTree where
  root : FPNode TiltedTimeWindow
  ttwDef : TTWDefinition
  nodeCount : Nat
  currentQuarter : Nat

namespace PatternTree

/-- The constructor `PatternTree::PatternTree()`: a root with item `ROOT_ITEMID`
and a window that is not built yet, no node, quarter 0. -/
def new : PatternTree :=
  { root := FPNode.mk ROOT_ITEMID TiltedTimeWindow.unbuilt [],
    ttwDef := TTWDefinition.empty, nodeCount := 0, currentQuarter := 0 }

/-- Modelled from the spec: `setTTWDefinition(def)` (`PatternTree.h` is not
among the sources) stores the definition from which the windows of the tree are
built, and builds the window of the root from it. -/
def setTTWDefinition (t : PatternTree) (d : TTWDefinition) : PatternTree :=
  { t with ttwDef := d,
           root := FPNode.mk t.root.getItemID (TiltedTimeWindow.build d) t.root.getChildren }

/-- Modelled from the spec: `nextQuarter()` is `currentQuarter += 1`, without
any per-node mutation. -/
def nextQuarter (t : PatternTree) : PatternTree :=
  { t with currentQuarter := t.currentQuarter + 1 }

/-- Getter `getNodeCount()`. -/
def getNodeCount (t : PatternTree) : Nat := t.nodeCount

/-- `PatternTree::getPatternSupport(pattern)`: null (`none`) when the pattern
has no node. -/
def getPatternSupport (t : PatternTree) (pattern : ItemIDList) : Option TiltedTimeWindow :=
  t.root.findNodeByPattern pattern

/-- The end of `PatternTree::addPattern`: the quarters are brought in sync by
`append(0, 0)` for `i` from `getCapacityUsed(0)` up to `currentQuarter`, then the
support is appended. -/
def syncAndAppend (currentQuarter : Nat) (support : SupportCount) (updateID : Nat)
    (ttw : TiltedTimeWindow) : TiltedTimeWindow :=
  (Nat.iterate (fun w => w.append 0 0) (currentQuarter - ttw.getCapacityUsed 0) ttw).append
    support updateID

/-- `PatternTree::addPattern(pattern, updateID)`. -/
def addPattern (t : PatternTree) (pattern : FrequentItemset) (updateID : Nat) : PatternTree :=
  let r := FPNode.addPath (TiltedTimeWindow.build t.ttwDef)
    (syncAndAppend t.currentQuarter pattern.support updateID) pattern.itemset t.root t.nodeCount
  { t with root := r.1, nodeCount := r.2 }

/-- `PatternTree::removePattern(node)`.  The pointer `node` is given as the
itemset of the node (its path from the root); the result is `none` when it does
not designate a node below the root of this tree, which the method requires. -/
def removePattern (t : PatternTree) (node : ItemIDList) : Option PatternTree :=
  match node with
  | [] => Option.none
  | i :: rest =>
    match FPNode.findNode (i :: rest) t.root with
    | Option.none => Option.none
    | some n =>
      some { t with nodeCount := t.nodeCount - (1 + n.getNumDescendants),
                    root := FPNode.removeAt i rest t.root }

/-- `PatternTree::getPatternForNode(node)`.  The pointer `node` is the chain of
nodes from the node up to the root (`FPNode.findNodeChain`); the loop prepends
item IDs and follows `getParent()` until it meets `ROOT_ITEMID`.  Following the
parent of the topmost node dereferences a null pointer: `none`. -/
def getPatternForNode : List (FPNode TiltedTimeWindow) → ItemIDList → Option ItemIDList
  | [], _ => Option.none
  | n :: above, pattern =>
    if n.getItemID ≠ ROOT_ITEMID then getPatternForNode above (n.getItemID :: pattern)
    else some pattern

mutual
/-- `PatternTree::getFrequentItemsetsForRange` called on a node other than
`NULL`; `path` is the parameter named prefix in the source. -/
def getFrequentItemsetsForRangeAt (minSupport : SupportCount) (c : Constraints)
    (fromBucket toBucket : Bucket) :
    ItemIDList → FPNode TiltedTimeWindow → List FrequentItemset
  | path, FPNode.mk i v cs =>
    let frequentItemset : FrequentItemset :=
      { itemset := path ++ [i], support := v.getSupportForRange fromBucket toBucket }
    (if frequentItemset.support > minSupport ∧ c.matchItemset frequentItemset.itemset = true
      then [frequentItemset] else []) ++
    getFrequentItemsetsForRangeChildren minSupport c fromBucket toBucket frequentItemset.itemset cs
/-- The loop over the children in `PatternTree::getFrequentItemsetsForRange`. -/
def getFrequentItemsetsForRangeChildren (minSupport : SupportCount) (c : Constraints)
    (fromBucket toBucket : Bucket) :
    ItemIDList → List (FPNode TiltedTimeWindow) → List FrequentItemset
  | _, [] => []
  | path, child :: rest =>
    getFrequentItemsetsForRangeAt minSupport c fromBucket toBucket path child ++
    getFrequentItemsetsForRangeChildren minSupport c fromBucket toBucket path rest
end

/-- `PatternTree::getFrequentItemsetsForRange(minSupport, constraints, from, to)`
as called from outside (`node == NULL`): the traversal starts at the root with
a default-constructed frequent itemset. -/
def getFrequentItemsetsForRange (t : PatternTree) (minSupport : SupportCount) (c : Constraints)
    (fromBucket toBucket : Bucket) : List FrequentItemset :=
  let frequentItemset := FrequentItemset.default
  (if frequentItemset.support > minSupport ∧ c.matchItemset frequentItemset.itemset = true
    then [frequentItemset] else []) ++
  getFrequentItemsetsForRangeChildren minSupport c fromBucket toBucket frequentItemset.itemset
    t.root.getChildren

mutual
/-- `PatternTree::totalSupportForRangeHelper`: returns `matches` and the updated
`totalSupport` (a `uint`, passed by reference in the source). -/
def totalSupportForRangeHelper (c : Constraints) (fromBucket toBucket : Bucket) :
    Nat → ItemIDList → FPNode TiltedTimeWindow → Bool × Nat
  | totalSupport, path, FPNode.mk i v cs =>
    let frequentItemset := path ++ [i]
    let r := totalSupportForRangeChildren c fromBucket toBucket totalSupport frequentItemset false cs
    let matched := if !r.1 || cs.length == 0 then c.matchItemset frequentItemset else r.1
    (matched,
     if matched then (r.2 + v.getSupportForRange fromBucket toBucket) % UINT_MODULUS else r.2)
/-- The loop over the children in `PatternTree::totalSupportForRangeHelper`. -/
def totalSupportForRangeChildren (c : Constraints) (fromBucket toBucket : Bucket) :
    Nat → ItemIDList → Bool → List (FPNode TiltedTimeWindow) → Bool × Nat
  | totalSupport, _, matched, [] => (matched, totalSupport)
  | totalSupport, path, matched, child :: rest =>
    let r := totalSupportForRangeHelper c fromBucket toBucket totalSupport path child
    totalSupportForRangeChildren c fromBucket toBucket r.2 path (r.1 || matched) rest
end

/-- `PatternTree::getTotalSupportForRange(c, from, to)`. -/
def getTotalSupportForRange (t : PatternTree) (c : Constraints) (fromBucket toBucket : Bucket) :
    SupportCount :=
  (totalSupportForRangeHelper c fromBucket toBucket 0 [] t.root).2

/-! ### Serialization -/

/-- One line of the persisted state, as `PatternTree::deserialize` reads it
through `QxtJSON::parse(...).toMap()` and the accessors it applies: `v` is
`json["v"].toInt()`, `currentQuarter` is `json["currentQuarter"].toInt()`,
`definition` is the string under the key "tilted time window definition" when
the key is present, `pattern` the strings of `json["pattern"].toList()` and
`ttw` is `json["tilted time window"].toMap()`.  An absent key reads as 0, as the
empty list or as the empty map.  `QxtJSON` is an external library; writing a
line with `stringify` and reading it back with `parse` is taken to return the
same values. -/
structure JSONLine where
  v : Int
  currentQuarter : Int
  definition : Option String
  pattern : List ItemName
  ttw : TiltedTimeWindow.TTWVariantMap
deriving DecidableEq, Repr

/-- The empty `QVariantMap` read as a tilted time window. -/
def emptyVariantMap : TiltedTimeWindow.TTWVariantMap :=
  { lastUpdate := 0, oldestBucketFilled := 0, capacityUsed := [], buckets := [] }

/-- The metadata line written by `PatternTree::serialize`. -/
def metadataLine (t : PatternTree) : JSONLine :=
  { v := 2, currentQuarter := uintToInt t.currentQuarter,
    definition := some t.ttwDef.serialize, pattern := [], ttw := emptyVariantMap }

/-- A pattern line written by `PatternTree::recursiveSerializer`. -/
def patternLine (pattern : List ItemName) (ttw : TiltedTimeWindow) : JSONLine :=
  { v := 0, currentQuarter := 0, definition := Option.none, pattern := pattern,
    ttw := ttw.toVariantMap }

mutual
/-- `PatternTree::recursiveSerializer`: the lines written for a node and its
descendants; `itemIDNameHash` is read with `operator[]`. -/
def recursiveSerializer (itemIDNameHash : ItemID → ItemName) :
    FPNode TiltedTimeWindow → List ItemName → List JSONLine
  | FPNode.mk itemID v cs, pattern =>
    if itemID ≠ ROOT_ITEMID then
      patternLine (pattern ++ [itemIDNameHash itemID]) v ::
        recursiveSerializerChildren itemIDNameHash cs (pattern ++ [itemIDNameHash itemID])
    else recursiveSerializerChildren itemIDNameHash cs pattern
/-- The loop over the children in `PatternTree::recursiveSerializer`. -/
def recursiveSerializerChildren (itemIDNameHash : ItemID → ItemName) :
    List (FPNode TiltedTimeWindow) → List ItemName → List JSONLine
  | [], _ => []
  | child :: rest, pattern =>
    recursiveSerializer itemIDNameHash child pattern ++
    recursiveSerializerChildren itemIDNameHash rest pattern
end

/-- `PatternTree::serialize(output, itemIDNameHash)`: the result and the lines
written to `output`. -/
def serialize (t : PatternTree) (itemIDNameHash : ItemID → ItemName) : Bool × List JSONLine :=
  (true, metadataLine t :: recursiveSerializer itemIDNameHash t.root [])

/-- The body of the `while (!input.atEnd())` loop of `PatternTree::deserialize`
for one line: the pattern is stored with `addPattern` (the frequent itemset
keeps its default support), then the window of its node is overwritten by
`fromVariantMap`. -/
def loadPatternLine (itemNameIDHash : ItemName → ItemID) (updateID : Nat) (t : PatternTree)
    (line : JSONLine) : PatternTree :=
  let frequentItemset : FrequentItemset :=
    { FrequentItemset.default with itemset := line.pattern.map itemNameIDHash }
  let t1 := t.addPattern frequentItemset updateID
  { t1 with root := FPNode.modifyValueAt (fun w => w.fromVariantMap line.ttw)
                      frequentItemset.itemset t1.root }

/-- `PatternTree::deserialize(input, itemIDNameHash, itemNameIDHash, updateID)`:
the result and the tree afterwards.  `input` holds the lines of the stream
(reading the first line of an empty stream gives an empty map);
`itemIDNameHash` is only used in debug builds.  A failed
`TTWDefinition::deserialize` leaves the definition as it was. -/
def deserialize (t : PatternTree) (input : List JSONLine) (itemNameIDHash : ItemName → ItemID)
    (updateID : Nat) : Bool × PatternTree :=
  match input with
  | [] => (true, t)
  | json :: rest =>
    if json.v = 1 ∨ json.v = 2 then
      let futureCurrentQuarter := intToUint json.currentQuarter
      let newDef : Option TTWDefinition :=
        match json.definition with
        | some serialized => TTWDefinition.deserialize serialized
        | Option.none =>
          some ((TTWDefinition.deserialize TTWDefinition.legacyString).getD t.ttwDef)
      match newDef with
      | Option.none => (false, t)
      | some d =>
        let t1 : PatternTree :=
          { t with ttwDef := d,
                   root := FPNode.mk t.root.getItemID (TiltedTimeWindow.build d)
                             t.root.getChildren }
        let t2 := rest.foldl (loadPatternLine itemNameIDHash updateID) t1
        (true, { t2 with currentQuarter := futureCurrentQuarter })
    else (true, t)

end PatternTree

/-! ## Reference notions used in the statements -/

namespace PatternTree

/-- The frequent itemset reported for a node with root-path itemset `p.1`: the
itemset and the support of the window of the node over the range. -/
def rangeItemset (fromBucket toBucket : Bucket) (p : ItemIDList × FPNode TiltedTimeWindow) :
    FrequentItemset :=
  { itemset := p.1, support := p.2.getValue.getSupportForRange fromBucket toBucket }

/-- A node qualifies when its support over the range is strictly greater than
`minSupport` and its root-path itemset matches the constraints. -/
def qualifies (minSupport : SupportCount) (c : Constraints) (fromBucket toBucket : Bucket)
    (p : ItemIDList × FPNode TiltedTimeWindow) : Bool :=
  decide (minSupport < p.2.getValue.getSupportForRange fromBucket toBucket) &&
    c.matchItemset p.1

end PatternTree

namespace FPNode

/-- The itemsets of all nodes below a node whose own itemset is `itemset` and
whose children are given, in depth-first pre-order. -/
def itemsetsBelow {T : Type} : ItemIDList → List (FPNode T) → List ItemIDList
  | _, [] => []
  | itemset, FPNode.mk i _ cs :: rest =>
    (itemset ++ [i]) :: (itemsetsBelow (itemset ++ [i]) cs ++ itemsetsBelow itemset rest)

end FPNode

namespace PatternTree

/-- Support over the range of the window of a listed node. -/
def supportOver (fromBucket toBucket : Bucket) (p : ItemIDList × FPNode TiltedTimeWindow) :
    SupportCount :=
  p.2.getValue.getSupportForRange fromBucket toBucket

/-- All nodes of the tree, the root included, in depth-first pre-order, each
with the itemset `totalSupportForRangeHelper` builds for it: `ROOT_ITEMID`
followed by the item IDs on the path from the root. -/
def allNodes (t : PatternTree) : List (ItemIDList × FPNode TiltedTimeWindow) :=
  FPNode.preorder [] t.root

/-- The patterns of the tree: the nodes below the root in depth-first
pre-order, each with its root-path itemset. -/
def patterns (t : PatternTree) : List (ItemIDList × FPNode TiltedTimeWindow) :=
  FPNode.preorderList [] t.root.getChildren

/-- Sum of the supports over the range of the leaf patterns only. -/
def leafSupportSum (t : PatternTree) (fromBucket toBucket : Bucket) : Nat :=
  ((t.patterns.filter (fun p => p.2.numChildren == 0)).map (supportOver fromBucket toBucket)).sum

/-- The subtree of a listed node, the node included, contains a node whose
itemset matches the constraints. -/
def subtreeHasMatch (c : Constraints) (p : ItemIDList × FPNode TiltedTimeWindow) : Bool :=
  c.matchItemset p.1 || (FPNode.itemsetsBelow p.1 p.2.getChildren).any c.matchItemset

/-- Sum of the supports over the range of the nodes whose own itemset matches
the constraints. -/
def matchingSupportSum (t : PatternTree) (c : Constraints) (fromBucket toBucket : Bucket) : Nat :=
  ((t.allNodes.filter (fun p => c.matchItemset p.1)).map (supportOver fromBucket toBucket)).sum

/-- The tree built by `TestPatternTree::buildBasicPatternTree`, with the
definition `TTWDefinition.default`. -/
def buildBasicPatternTree : PatternTree :=
  ((((PatternTree.new.setTTWDefinition TTWDefinition.default).addPattern
      { itemset := [1, 2, 3], support := 1 } 1).addPattern
      { itemset := [1, 2], support := 2 } 1).addPattern
      { itemset := [1, 2], support := 2 } 2).addPattern
      { itemset := [1, 4], support := 5 } 1

/-- A tree with the pattern `[1]` (support 7) and its superset `[1, 2]`
(support 2), both added in the first batch. -/
def ancestorTree : PatternTree :=
  ((PatternTree.new.setTTWDefinition TTWDefinition.default).addPattern
      { itemset := [1], support := 7 } 1).addPattern
      { itemset := [1, 2], support := 2 } 1


/-- A call on a pattern tree. -/
inductive Op where
  | addPattern (pattern : FrequentItemset) (updateID : Nat) : Op
  | removePattern (node : ItemIDList) : Op
  | nextQuarter : Op

/-- Performs one call; `none` when `removePattern` is given a pointer that does
not designate a node below the root. -/
def applyOp (t : PatternTree) : Op → Option PatternTree
  | Op.addPattern pattern updateID => some (t.addPattern pattern updateID)
  | Op.removePattern node => t.removePattern node
  | Op.nextQuarter => some t.nextQuarter

/-- Performs a sequence of calls, from left to right. -/
def applyOps : PatternTree → List Op → Option PatternTree
  | t, [] => some t
  | t, op :: rest =>
    match applyOp t op with
    | some t1 => applyOps t1 rest
    | Option.none => Option.none

/-- The number of nodes of the tree other than the root. -/
def nonRootCount (t : PatternTree) : Nat := FPNode.sizeList t.root.getChildren


/-- A sequence of calls on the empty tree, used to instantiate the statements. -/
def exampleOps : List Op :=
  [Op.addPattern { itemset := [1, 2, 3], support := 1 } 1,
   Op.addPattern { itemset := [1, 4], support := 5 } 1,
   Op.nextQuarter,
   Op.removePattern [1, 2]]

/-- The tree reached by `exampleOps`. -/
def exampleOpsResult : PatternTree :=
  let t := (((PatternTree.new.setTTWDefinition TTWDefinition.default).addPattern
    { itemset := [1, 2, 3], support := 1 } 1).addPattern
    { itemset := [1, 4], support := 5 } 1).nextQuarter
  (t.removePattern [1, 2]).getD t


/-- The window `addPattern` appends to: the window of the node of the itemset
when the tree has one, a window freshly built from the definition of the tree
otherwise. -/
def destinationWindow (t : PatternTree) (itemset : ItemIDList) : TiltedTimeWindow :=
  (t.getPatternSupport itemset).getD (TiltedTimeWindow.build t.ttwDef)

end PatternTree

namespace TiltedTimeWindow

/-- A window in the state `build` establishes and `append` preserves: one usage
counter per granularity and one slot per bucket of its definition. -/
def Built (w : TiltedTimeWindow) : Prop :=
  w.capacityUsed.length = w.ttwDef.numGranularities ∧ w.buckets.length = w.ttwDef.numBuckets

instance (w : TiltedTimeWindow) : Decidable w.Built := by
  unfold Built; infer_instance

end TiltedTimeWindow

namespace PatternTree

/-- Usage of granularity 0 of the window found for the itemset of a pattern
right after `addPattern(pattern, updateID)`. -/
def usageAfterAddPattern (t : PatternTree) (pattern : FrequentItemset) (updateID : Nat) :
    Option Nat :=
  ((t.addPattern pattern updateID).getPatternSupport pattern.itemset).map
    (fun w => w.getCapacityUsed 0)

/-- An empty tree with the definition `TTWDefinition.default`. -/
def emptyDefaultTree : PatternTree := PatternTree.new.setTTWDefinition TTWDefinition.default

/-- The tree of `TestPatternTree::additionsRemainInSync` before the pattern
`{4, 5}` is added: `{1, 2, 3}` was added in the first quarter, and the second
quarter has begun. -/
def secondQuarterTree : PatternTree :=
  (emptyDefaultTree.addPattern { itemset := [1, 2, 3], support := 1 } 1).nextQuarter

end PatternTree

namespace FPNode

/-- Attaches `c` as the last child of a node. -/
def addChild {T : Type} (c : FPNode T) : FPNode T → FPNode T
  | mk i v cs => mk i v (cs ++ [c])

/-- Attaches `c` as the last child of the node reached by following `path`;
nothing changes when there is no such node. -/
def graft {T : Type} (c : FPNode T) : ItemIDList → FPNode T → FPNode T
  | [], n => addChild c n
  | x :: rest, mk i v cs =>
    match (mk i v cs).getChild x with
    | some ch => mk i v (replaceChild x (graft c rest ch) cs)
    | none => mk i v cs

end FPNode

namespace PatternTree

mutual
/-- A node that `serialize` writes in a form `deserialize` reads back: its item
is not `ROOT_ITEMID`, the name of its item is mapped back to the item, its
window carries the definition `d`, its children carry pairwise distinct items
(they are the values of a map keyed by item ID), and so for all nodes below. -/
def loadableNode (itemIDNameHash : ItemID → ItemName) (itemNameIDHash : ItemName → ItemID)
    (d : TTWDefinition) : FPNode TiltedTimeWindow → Bool
  | FPNode.mk i v cs =>
    decide (i ≠ ROOT_ITEMID) && decide (itemNameIDHash (itemIDNameHash i) = i) &&
    decide (v.ttwDef = d) && decide ((cs.map FPNode.getItemID).Nodup) &&
    loadableList itemIDNameHash itemNameIDHash d cs
/-- All nodes of a list are loadable. -/
def loadableList (itemIDNameHash : ItemID → ItemName) (itemNameIDHash : ItemName → ItemID)
    (d : TTWDefinition) : List (FPNode TiltedTimeWindow) → Bool
  | [] => true
  | c :: cs =>
    loadableNode itemIDNameHash itemNameIDHash d c &&
    loadableList itemIDNameHash itemNameIDHash d cs
end

/-- The trees the round-trip statements are about: the root carries
`ROOT_ITEMID` and no other node does, the items of the tree are mapped
one-to-one by the two tables (the name of an item is mapped back to the item),
the children of a node carry pairwise distinct items, every window below the
root was built from the definition of the tree, that definition is valid, and
`currentQuarter` is a `uint`. -/
def Loadable (t : PatternTree) (itemIDNameHash : ItemID → ItemName)
    (itemNameIDHash : ItemName → ItemID) : Prop :=
  t.root.getItemID = ROOT_ITEMID ∧
  (t.root.getChildren.map FPNode.getItemID).Nodup ∧
  loadableList itemIDNameHash itemNameIDHash t.ttwDef t.root.getChildren = true ∧
  t.ttwDef.Valid ∧ t.currentQuarter < UINT_MODULUS

instance (t : PatternTree) (itemIDNameHash : ItemID → ItemName)
    (itemNameIDHash : ItemName → ItemID) :
    Decidable (t.Loadable itemIDNameHash itemNameIDHash) := by
  unfold Loadable; infer_instance

/-- Item names of the examples. -/
def exampleNames : ItemID → ItemName := fun i =>
  if i = 1 then "a" else if i = 2 then "b" else if i = 3 then "c" else if i = 4 then "d" else ""

/-- The inverse table of `exampleNames`; a name that is not in the table reads
as 0, as `QHash::operator[]` returns a default-constructed value. -/
def exampleIDs : ItemName → ItemID := fun s =>
  if s = "a" then 1 else if s = "b" then 2 else if s = "c" then 3 else if s = "d" then 4 else 0


/-- What loading the lines written for a node does: when the parent of the node
is in the tree and has no child with the item of the node, the lines rebuild
the node with its whole subtree as the last child of the parent, and
`nodeCount` grows by the number of nodes rebuilt. -/
def NodeLoads (itemIDNameHash : ItemID → ItemName) (itemNameIDHash : ItemName → ItemID)
    (updateID : Nat) (d : TTWDefinition) (c : FPNode TiltedTimeWindow) : Prop :=
  loadableNode itemIDNameHash itemNameIDHash d c = true →
  ∀ (t : PatternTree) (path : ItemIDList) (p : FPNode TiltedTimeWindow),
    t.ttwDef = d → (path.map itemIDNameHash).map itemNameIDHash = path →
    FPNode.findNode path t.root = some p → p.getChild c.getItemID = none →
    (recursiveSerializer itemIDNameHash c (path.map itemIDNameHash)).foldl
        (loadPatternLine itemNameIDHash updateID) t =
      { t with root := FPNode.graft c path t.root, nodeCount := t.nodeCount + FPNode.size c }


/-- A metadata line with the unsupported version 3 and the default
definition. -/
def unsupportedVersionLine : JSONLine :=
  { v := 3, currentQuarter := 5, definition := some TTWDefinition.legacyString, pattern := [],
    ttw := emptyVariantMap }

/-- A version 2 metadata line whose definition string has no granularity. -/
def invalidDefinitionLine : JSONLine :=
  { v := 2, currentQuarter := 5, definition := some "900:", pattern := [],
    ttw := emptyVariantMap }


/-- What `totalSupportForRangeHelper` does at one node: the returned flag tells
whether the subtree contains a matching node, the total grows (modulo 2^32) by
the supports of the nodes of the subtree whose own subtree contains a matching
node, and the total stays a `uint`. -/
def HelperSpec (c : Constraints) (fromBucket toBucket : Bucket)
    (n : FPNode TiltedTimeWindow) : Prop :=
  ∀ (total : Nat) (path : ItemIDList),
    (totalSupportForRangeHelper c fromBucket toBucket total path n).1 =
        subtreeHasMatch c (path ++ [n.getItemID], n) ∧
    (totalSupportForRangeHelper c fromBucket toBucket total path n).2 % UINT_MODULUS =
        (total + (((FPNode.preorder path n).filter (subtreeHasMatch c)).map
          (supportOver fromBucket toBucket)).sum) % UINT_MODULUS ∧
    (total < UINT_MODULUS →
      (totalSupportForRangeHelper c fromBucket toBucket total path n).2 < UINT_MODULUS)

end PatternTree

namespace TiltedTimeWindow

/-- Modelled from the spec: `getOldestBucketFilled()` (`TiltedTimeWindow.cpp`
is not among the sources) returns the oldest-bucket marker, which is 0 for an
empty window. -/
def getOldestBucketFilled (w : TiltedTimeWindow) : Bucket := w.oldestBucketFilled

/-- Modelled from the spec: `dropTail(g)` resets all granularities at index
`g` and above to `UNUSED` and sets their usage counts to 0; `lastUpdate` is
unchanged.  The oldest-bucket marker is moved back to the last bucket of
granularity `g - 1` when it pointed into the dropped tail:
`TestTiltedTimeWindow::basic` reads `getOldestBucketFilled() == 3` after
`dropTail(1)` on a window whose marker was 28 and whose granularity 0 has 4
buckets. -/
def dropTail (w : TiltedTimeWindow) (g : Granularity) : TiltedTimeWindow :=
  { w with
    buckets := w.buckets.take (w.ttwDef.bucketOffset g) ++
      List.replicate (w.buckets.length - w.ttwDef.bucketOffset g) TTW_BUCKET_UNUSED,
    capacityUsed := w.capacityUsed.take g ++ List.replicate (w.capacityUsed.length - g) 0,
    oldestBucketFilled := min w.oldestBucketFilled (w.ttwDef.bucketOffset g - 1) }

/-- A sequence of `append(support, updateID)` calls, from left to right. -/
def appendAll (w : TiltedTimeWindow) : List (SupportCount × Nat) → TiltedTimeWindow
  | [] => w
  | (s, u) :: rest => appendAll (w.append s u) rest

/-- The supports appended by `TestTiltedTimeWindow::basic`, with the update IDs
1, 2, 3, ... of the test. -/
def basicTestAppends : List (SupportCount × Nat) :=
  List.zip ([45, 67, 88, 93, 34, 49, 36, 97, 50, 50, 50, 50] ++ List.replicate 84 25 ++
    [10, 10, 10, 10, 20, 20, 20, 20, 30]) (List.range' 1 105)

end TiltedTimeWindow

namespace TiltedTimeWindow

/-- The highest index, counted from `i`, of a slot that holds a value other
than `UNUSED`; 0 when there is none. -/
def highestFilled : Nat → List SupportCount → Nat
  | _, [] => 0
  | i, b :: bs => max (if b ≠ TTW_BUCKET_UNUSED then i else 0) (highestFilled (i + 1) bs)

/-- The highest bucket index that currently holds a non-`UNUSED` value, or 0
when the window is empty. -/
def highestFilledBucket (w : TiltedTimeWindow) : Bucket := highestFilled 0 w.buckets

end TiltedTimeWindow

namespace PatternTree

/-- A version 2 metadata line with a valid definition and quarter 5. -/
def validMetadataLine : JSONLine :=
  { v := 2, currentQuarter := 5, definition := some TTWDefinition.legacyString, pattern := [],
    ttw := emptyVariantMap }

/-- A pattern line whose pattern names an item that is not in the name table
and that carries no tilted time window. -/
def unknownItemLine : JSONLine :=
  { v := 0, currentQuarter := 0, definition := Option.none, pattern := ["zz"],
    ttw := emptyVariantMap }

end PatternTree

namespace PatternTree

/-- One `addPattern(pattern, updateID)` call, made after `quarters` calls of
`nextQuarter()`. -/
structure AddCall where
  quarters : Nat
  pattern : FrequentItemset
  updateID : Nat

/-- A sequence of `addPattern` calls interleaved with `nextQuarter` calls. -/
def addPatterns : PatternTree → List AddCall → PatternTree
  | t, [] => t
  | t, c :: rest =>
    addPatterns ((Nat.iterate nextQuarter c.quarters t).addPattern c.pattern c.updateID) rest

/-- The `lastUpdate` of the window of a pattern, if the pattern has a node. -/
def lastUpdateOf (t : PatternTree) (itemset : ItemIDList) : Option Nat :=
  (t.getPatternSupport itemset).map TiltedTimeWindow.getLastUpdate

/-- The calls of `TestPatternTree::additionsRemainInSync`. -/
def additionsRemainInSyncCalls : List AddCall :=
  [{ quarters := 0, pattern := { itemset := [1, 2, 3], support := 1 }, updateID := 1 },
   { quarters := 1, pattern := { itemset := [1, 2, 3], support := 1 }, updateID := 2 },
   { quarters := 0, pattern := { itemset := [4, 5], support := 2 }, updateID := 2 }]

end PatternTree

namespace PatternTree

/-- Every window found in the tree has a `lastUpdate` of at most `bound`. -/
def LastUpdatesBelow (t : PatternTree) (bound : Nat) : Prop :=
  ∀ (itemset : ItemIDList) (w : TiltedTimeWindow),
    t.getPatternSupport itemset = some w → w.lastUpdate ≤ bound

end PatternTree

namespace TiltedTimeWindow

/-- The slots of one granularity of capacity `c` whose used values, newest
first, are `q`: the values followed by `UNUSED` slots up to the capacity. -/
def padLevel (c : Nat) (q : List SupportCount) : List SupportCount :=
  q ++ List.replicate (c - q.length) TTW_BUCKET_UNUSED

/-- The slot array that holds, granularity by granularity, the used values
`levels` for the capacities `caps`. -/
def render : List Nat → List (List SupportCount) → List SupportCount
  | c :: cs, q :: qs => padLevel c q ++ render cs qs
  | _, _ => []

/-- One list of used values per granularity, none longer than the capacity of
its granularity, every capacity at least 1. -/
def LevelsFit : List Nat → List (List SupportCount) → Prop
  | [], [] => True
  | c :: cs, q :: qs => 1 ≤ c ∧ q.length ≤ c ∧ LevelsFit cs qs
  | _, _ => False

/-- The window `w` holds exactly the used values `levels`: its slot array is
their rendering and its usage counters are their lengths. -/
def Represents (w : TiltedTimeWindow) (levels : List (List SupportCount)) : Prop :=
  LevelsFit w.ttwDef.bucketCount levels ∧
  w.buckets = render w.ttwDef.bucketCount levels ∧
  w.capacityUsed = levels.map List.length

/-- The shift-cascade of `store` on the used values of the granularities:
a granularity that is not full takes the value at its head; a full one that is
not the coarsest hands the sum of its values to the next one and restarts with
the value; a full coarsest one loses its oldest value. -/
def storeLevels : List Nat → List (List SupportCount) → SupportCount →
    List (List SupportCount)
  | c :: cs, q :: qs, s =>
    if q.length < c then (s :: q) :: qs
    else if cs ≠ [] then [s] :: storeLevels cs qs (sumSlots q)
    else (s :: q.take (c - 1)) :: qs
  | _, levels, _ => levels

/-- The oldest-bucket marker after the shift-cascade of `store`, for the
granularities that start at slot `off`. -/
def storeMarker : Nat → List Nat → List (List SupportCount) → Bucket → Bucket
  | off, c :: cs, q :: qs, m =>
    if q.length < c then max m (off + q.length)
    else if cs ≠ [] then max (storeMarker (off + c) cs qs m) off
    else max m (off + c - 1)
  | _, _, _, m => m

end TiltedTimeWindow

namespace TiltedTimeWindow

/-- The used values of the granularities after storing the supports `vs` one
after the other, each with the shift-cascade. -/
def storeAll (caps : List Nat) (levels : List (List SupportCount)) (vs : List SupportCount) :
    List (List SupportCount) :=
  vs.foldl (storeLevels caps) levels

/-- The appends of `TestTiltedTimeWindow::slidingWindow` on the definition
`3600:HHHH`: the supports 1 to 5 with the update IDs 1 to 5. -/
def slidingWindowAppends : List (SupportCount × Nat) := [(1, 1), (2, 2), (3, 3), (4, 4), (5, 5)]

/-- The definition `3600:HHHH` of `TestTiltedTimeWindow::slidingWindow`. -/
def slidingWindowDefinition : TTWDefinition :=
  { secPerWindow := 3600, bucketCount := [4], granularityChar := ['H'] }

end TiltedTimeWindow

namespace TiltedTimeWindow

/-- The sums, in `SupportCount` arithmetic, of the first `k` groups of `c0`
consecutive supports of `vs`, oldest group first. -/
def groupSums (c0 : Nat) (vs : List SupportCount) (k : Nat) : List SupportCount :=
  (List.range k).map (fun j => ((vs.drop (j * c0)).take c0).sum % SUPPORT_MODULUS)

/-- The definition with 4 `Q` and 2 `H` buckets of
`TestTiltedTimeWindow::slidingWindow`. -/
def doubleGranularityDefinition : TTWDefinition :=
  { secPerWindow := 3600, bucketCount := [4, 2], granularityChar := ['Q', 'H'] }

/-- The thirteen appends of the second half of
`TestTiltedTimeWindow::slidingWindow`, with the update IDs 1 to 13. -/
def doubleGranularityAppends : List (SupportCount × Nat) :=
  List.zip [10, 10, 10, 10, 20, 20, 20, 20, 30, 30, 30, 30, 40] (List.range' 1 13)

end TiltedTimeWindow

namespace TiltedTimeWindow

/-- The fold of `append` on the used values: the support is added to the newest
value of granularity 0. -/
def foldLevels : List (List SupportCount) → SupportCount → List (List SupportCount)
  | (b :: q) :: qs, s => (((b + s) % SUPPORT_MODULUS) :: q) :: qs
  | levels, _ => levels

/-- The effect of `append(s, u)` on the used values of a window whose last
update ID is `lastUpdate`. -/
def appendLevels (caps : List Nat) (levels : List (List SupportCount)) (lastUpdate : Nat)
    (s : SupportCount) (u : Nat) : List (List SupportCount) :=
  if u ≠ 0 ∧ u = lastUpdate then foldLevels levels s else storeLevels caps levels s

/-- Granularity 0 holds at least one value. -/
def HeadUsed : List (List SupportCount) → Prop
  | (_ :: _) :: _ => True
  | _ => False

/-- The effect of `dropTail(g)` on the used values: the granularities from `g`
on are emptied. -/
def dropLevels (g : Nat) (levels : List (List SupportCount)) : List (List SupportCount) :=
  levels.take g ++ List.replicate (levels.length - g) []

/-- The sum of all used values, as a natural number. -/
def levelsTotal (levels : List (List SupportCount)) : Nat := (levels.map List.sum).sum

end TiltedTimeWindow

namespace TiltedTimeWindow

/-- One call on a tilted time window: `append(support, updateID)` or
`dropTail(g)`. -/
inductive TTWOp where
  | append (support : SupportCount) (updateID : Nat)
  | dropTail (g : Granularity)
deriving DecidableEq, Repr

/-- Applies one call to a window. -/
def applyTTWOp (w : TiltedTimeWindow) : TTWOp → TiltedTimeWindow
  | .append s u => w.append s u
  | .dropTail g => w.dropTail g

/-- Applies a sequence of calls, from left to right. -/
def applyTTWOps (w : TiltedTimeWindow) : List TTWOp → TiltedTimeWindow
  | [] => w
  | op :: rest => applyTTWOps (applyTTWOp w op) rest

/-- The sum of the supports that a sequence of calls appends, as a natural
number. -/
def opsSupport : List TTWOp → Nat
  | [] => 0
  | .append s _ :: rest => s + opsSupport rest
  | .dropTail _ :: rest => opsSupport rest

/-- Every `dropTail` of the sequence keeps granularity 0. -/
def KeepsFirstGranularity : List TTWOp → Prop
  | [] => True
  | .append _ _ :: rest => KeepsFirstGranularity rest
  | .dropTail g :: rest => 1 ≤ g ∧ KeepsFirstGranularity rest

/-- Within every granularity the slots that hold a value are exactly the first
`getCapacityUsed(g)` slots of the granularity. -/
def UsedSlotsContiguous (w : TiltedTimeWindow) : Prop :=
  ∀ g i, g < w.ttwDef.numGranularities → i < w.ttwDef.capacity g →
    (w.buckets.getD (w.ttwDef.bucketOffset g + i) TTW_BUCKET_UNUSED ≠ TTW_BUCKET_UNUSED ↔
      i < w.getCapacityUsed g)

end TiltedTimeWindow

namespace TiltedTimeWindow

/-- Decision procedure for `KeepsFirstGranularity`. -/
def decideKeepsFirstGranularity : (ops : List TTWOp) → Decidable (KeepsFirstGranularity ops)
  | [] => isTrue trivial
  | .append _ _ :: rest => decideKeepsFirstGranularity rest
  | .dropTail g :: rest =>
    @instDecidableAnd _ _ (Nat.decLe 1 g) (decideKeepsFirstGranularity rest)

instance (ops : List TTWOp) : Decidable (KeepsFirstGranularity ops) :=
  decideKeepsFirstGranularity ops

/-- The calls of `TestTiltedTimeWindow::basic` up to the `append(100, 105)` that
follows `dropTail(1)`. -/
def basicTestOps : List TTWOp :=
  basicTestAppends.map (fun x => TTWOp.append x.1 x.2) ++ [.dropTail 1, .append 100 105]

end TiltedTimeWindow

namespace TiltedTimeWindow

/-- The highest slot index that holds a used value, for the granularities that
start at slot `off`; 0 when no granularity holds a value. -/
def topFrom : Nat → List Nat → List (List SupportCount) → Nat
  | off, c :: cs, q :: qs =>
    max (if q = [] then 0 else off + (q.length - 1)) (topFrom (off + c) cs qs)
  | _, _, _ => 0

/-- The sum of the supports of a sequence of appends, as a natural number. -/
def appendedSupport (xs : List (SupportCount × Nat)) : Nat := (xs.map Prod.fst).sum

end TiltedTimeWindow

namespace TiltedTimeWindow

/-- The call `append(_, u)` on `w` makes a value fall off the coarsest
granularity: it does not fold, and every granularity is full, so that the
shift-cascade reaches the coarsest granularity and finds it full. -/
def LosesValue (w : TiltedTimeWindow) (u : Nat) : Prop :=
  ¬(u ≠ 0 ∧ u = w.lastUpdate) ∧ w.capacityUsed = w.ttwDef.bucketCount

instance (w : TiltedTimeWindow) (u : Nat) : Decidable (LosesValue w u) := by
  unfold LosesValue; infer_instance

/-- No call of the sequence of appends, started on `w`, makes a value fall off
the coarsest granularity. -/
def NoValueFallsOff : TiltedTimeWindow → List (SupportCount × Nat) → Prop
  | _, [] => True
  | w, (s, u) :: rest => ¬LosesValue w u ∧ NoValueFallsOff (w.append s u) rest

/-- Decision procedure for `NoValueFallsOff`. -/
def decideNoValueFallsOff : (xs : List (SupportCount × Nat)) → (w : TiltedTimeWindow) →
    Decidable (NoValueFallsOff w xs)
  | [], _ => isTrue trivial
  | (s, u) :: rest, w =>
    @instDecidableAnd _ _ (instDecidableNot) (decideNoValueFallsOff rest (w.append s u))

instance (w : TiltedTimeWindow) (xs : List (SupportCount × Nat)) :
    Decidable (NoValueFallsOff w xs) :=
  decideNoValueFallsOff xs w

/-- The buckets of granularity `g` that hold a value, newest first: the first
`getCapacityUsed(g)` slots from the bucket offset of the granularity. -/
def usedBuckets (w : TiltedTimeWindow) (g : Granularity) : List SupportCount :=
  (w.buckets.drop (w.ttwDef.bucketOffset g)).take (w.getCapacityUsed g)

/-- What `getSupportForRange` returns for the range of all buckets of
granularity `g`. -/
def granularitySupport (w : TiltedTimeWindow) (g : Granularity) : SupportCount :=
  w.getSupportForRange (w.ttwDef.bucketOffset g)
    (w.ttwDef.bucketOffset g + w.ttwDef.capacity g - 1)

end TiltedTimeWindow

namespace PatternTree

/-- The positive constraint on item 2 of `TestPatternTree::getTotalSupportForRange`. -/
def positiveTwo : Constraints := { positive := [[2]], negative := [] }

/-- The positive constraint on item 2 together with the negative constraint on
item 3 of `TestPatternTree::getTotalSupportForRange`. -/
def positiveTwoNegativeThree : Constraints := { positive := [[2]], negative := [[3]] }

end PatternTree

namespace FPNode

/-- The number of items of `pattern` that can be followed from a node through
`getChild` before a child is missing: the length of the longest initial part of
`pattern` that is a path from the node. -/
def matchedLength {T : Type} : ItemIDList → FPNode T → Nat
  | [], _ => 0
  | x :: rest, n =>
    match n.getChild x with
    | some c => 1 + matchedLength rest c
    | none => 0

mutual
/-- The shape of the subtree rooted at a node: its nodes with their item IDs,
the values erased. -/
def shape {T : Type} : FPNode T → FPNode Unit
  | mk i _ cs => mk i () (shapeList cs)
/-- The shapes of the subtrees rooted at the nodes of a list. -/
def shapeList {T : Type} : List (FPNode T) → List (FPNode Unit)
  | [] => []
  | c :: cs => shape c :: shapeList cs
end

end FPNode

namespace PatternTree

/-- A version 1 metadata line: quarter 3 and no definition field. -/
def legacyMetadataLine : JSONLine :=
  { v := 1, currentQuarter := 3, definition := Option.none, pattern := [],
    ttw := emptyVariantMap }

/-- The tree in which `PatternTree::deserialize` loads the pattern lines: the
definition is replaced and the window of the root is rebuilt from it. -/
def withDefinition (t : PatternTree) (d : TTWDefinition) : PatternTree :=
  { t with ttwDef := d,
           root := FPNode.mk t.root.getItemID (TiltedTimeWindow.build d) t.root.getChildren }

end PatternTree

namespace PatternTree

/-- The pattern `itemset` added once in each of the quarters 0, 1, ...: `xs`
lists the support and the update ID of each quarter, and `nextQuarter` is called
once between two consecutive quarters. -/
def addEveryQuarter (itemset : ItemIDList) :
    PatternTree → List (SupportCount × Nat) → PatternTree
  | t, [] => t
  | t, [(s, u)] => t.addPattern { itemset := itemset, support := s } u
  | t, (s, u) :: x :: rest =>
    addEveryQuarter itemset (t.addPattern { itemset := itemset, support := s } u).nextQuarter
      (x :: rest)

/-- Six quarters of additions, with the supports and the update IDs 1 to 6. -/
def sixQuarters : List (SupportCount × Nat) := [(1, 1), (2, 2), (3, 3), (4, 4), (5, 5), (6, 6)]

end PatternTree

/-! ## JSONLogParser -/

namespace JSONLogParser

/-- `Parser::calculateBatchID(t)` (`JSONLogParser.cpp`).  The function-static
`minBatchID` is passed in and handed back: the result is the returned batch ID
and the value of `minBatchID` after the call.  `batchID` is a `quint32`, so the
quotient is stored modulo 2^32; `secPerBatch` is the `uint` the constructor
stores (dividing by a `secPerBatch` of 0 is undefined in the source). -/
def calculateBatchID (secPerBatch : Nat) (minBatchID : Nat) (t : Nat) : Nat × Nat :=
  let batchID := (t / secPerBatch) % UINT_MODULUS
  if batchID > minBatchID then (batchID, batchID)
  else if minBatchID > batchID then (minBatchID, minBatchID)
  else (batchID, minBatchID)

/-- The batch IDs returned by successive calls `calculateBatchID(t1)`, ...,
`calculateBatchID(tn)`, the static `minBatchID` holding `minBatchID` before the
first of them. -/
def calculateBatchIDs (secPerBatch : Nat) : Nat → List Nat → List Nat
  | _, [] => []
  | minBatchID, t :: ts =>
    (calculateBatchID secPerBatch minBatchID t).1 ::
      calculateBatchIDs secPerBatch (calculateBatchID secPerBatch minBatchID t).2 ts

/-- The largest number of a list, 0 for the empty list. -/
def maximum (l : List Nat) : Nat := l.foldl max 0

/-- The struct `Config::Episode` as `JSONLogParser.cpp` uses it (its header is
not among the sources): the ID of the episode and its duration, an `int`. -/
structure Episode where
  id : Nat
  duration : Int
deriving DecidableEq, Repr

/-- The struct `Config::Sample` as `JSONLogParser.cpp` uses it (its header is
not among the sources): the circumstances, a set of strings given as the list
that `toList()` returns, the episodes and the time. -/
structure Sample where
  circumstances : List String
  episodes : List Episode
  time : Nat
deriving DecidableEq, Repr

/-- One pass of the `foreach (episode, sample.episodes)` loop of
`Parser::mapSampleToTransactions`, on the pair of `transactions` and the
`transaction` under construction: the items `episode:<name>` and
`duration:<speed>` and the circumstances are appended to `transaction`, which
is appended to `transactions` and cleared. -/
def mapEpisode (episodeIDNameHash : Nat → String) (episodeNameFieldNameHash : String → String)
    (discretize : String → Int → List String → String) (sample : Sample)
    (state : List (List String) × List String) (episode : Episode) :
    List (List String) × List String :=
  let episodeName := episodeIDNameHash episode.id
  let transaction := state.2 ++
    ["episode:" ++ episodeName,
     "duration:" ++ discretize (episodeNameFieldNameHash episodeName) episode.duration
        sample.circumstances] ++ sample.circumstances
  (state.1 ++ [transaction], [])

/-- `Parser::mapSampleToTransactions(sample, config)` (`JSONLogParser.cpp`).
The static hashes `episodeIDNameHash` and `episodeNameFieldNameHash` are read
with `operator[]`, and `discretize` stands for `config->discretize`, which is
not among the sources. -/
def mapSampleToTransactions (episodeIDNameHash : Nat → String)
    (episodeNameFieldNameHash : String → String)
    (discretize : String → Int → List String → String) (sample : Sample) :
    List (List String) :=
  let r := sample.episodes.foldl
    (mapEpisode episodeIDNameHash episodeNameFieldNameHash discretize sample) ([], [])
  if sample.episodes.isEmpty then r.1 ++ [r.2 ++ sample.circumstances] else r.1

/-- The transaction of one episode of a sample: the item `episode:<name>`, the
item `duration:<discretized duration>` and the circumstances of the sample. -/
def episodeTransaction (episodeIDNameHash : Nat → String)
    (episodeNameFieldNameHash : String → String)
    (discretize : String → Int → List String → String) (sample : Sample) (episode : Episode) :
    List String :=
  ["episode:" ++ episodeIDNameHash episode.id,
   "duration:" ++ discretize (episodeNameFieldNameHash (episodeIDNameHash episode.id))
      episode.duration sample.circumstances] ++ sample.circumstances

/-- Episode names of the examples. -/
def exampleEpisodeNames : Nat → String := fun i =>
  if i = 0 then "css" else if i = 1 then "js" else ""

/-- Field names of the examples: the name of the episode itself. -/
def exampleFieldNames : String → String := fun s => s

/-- A discretization for the examples: durations up to 100 are fast. -/
def exampleDiscretize : String → Int → List String → String := fun _ d _ =>
  if d ≤ 100 then "fast" else "slow"

/-- A sample with two episodes and two circumstances. -/
def exampleSample : Sample :=
  { circumstances := ["url:/home", "status:200"],
    episodes := [{ id := 0, duration := 50 }, { id := 1, duration := 400 }], time := 1000 }

end JSONLogParser

namespace JSONLogParser

/-- The type `RawTransaction` of `JSONLogParser.cpp`: a `QStringList`, the items
of one transaction. -/
abbrev RawTransaction := List String

/-- Modelled from the spec: the struct `BatchMetadata` (`Batch.h` is not among
the sources), which carries `batchID`, `isLastChunk`, timing and counts: the
fields that `JSONLogParser.cpp` writes.  The counts are not bounded, and the two
ratios `transactionsPerSample` and `itemsPerTransaction`, quotients of `double`
values, are left out. -/
structure BatchMetadata where
  batchID : Nat
  isLastChunk : Bool
  discardedSamples : Nat
  samples : Nat
  startTime : Nat
  endTime : Nat
  items : Nat
  transactions : Nat
deriving DecidableEq, Repr

/-- Modelled from the spec: a default-constructed `BatchMetadata`. -/
def BatchMetadata.default : BatchMetadata :=
  { batchID := 0, isLastChunk := false, discardedSamples := 0, samples := 0, startTime := 0,
    endTime := 0, items := 0, transactions := 0 }

/-- Modelled from the spec: `setChunkInfo(batchID, isLastChunk, discardedSamples)`
(`Batch.h` is not among the sources) stores its three arguments. -/
def BatchMetadata.setChunkInfo (m : BatchMetadata) (batchID : Nat) (isLastChunk : Bool)
    (discardedSamples : Nat) : BatchMetadata :=
  { m with batchID := batchID, isLastChunk := isLastChunk, discardedSamples := discardedSamples }

/-- Modelled from the spec: the struct `Batch<T>` (`Batch.h` is not among the
sources): the metadata and the data. -/
structure Batch (α : Type) where
  meta : BatchMetadata
  data : List α
deriving DecidableEq, Repr

/-- One pass of the loop `foreach (transactionGroup, groupedTransactions)` of
`Parser::processChunkOfBatch`, on the pair of `b.data` and `b.meta.items`: the
group is appended to the data and the size of each of its transactions is added
to the number of items. -/
def mergeTransactionGroup (state : List RawTransaction × Nat)
    (transactionGroup : List RawTransaction) : List RawTransaction × Nat :=
  (state.1 ++ transactionGroup,
   transactionGroup.foldl (fun items transaction => items + transaction.length) state.2)

/-- `Parser::processChunkOfBatch(s)` (`JSONLogParser.cpp`): the batch `b` that is
emitted with `parsedChunkOfBatch(b)`.  `mapper` is the `SampleToTransactionMapper`
that `QtConcurrent::blockingMapped` applies to every sample, in order (its class
is declared in a header that is not among the sources).  `s.data.first()` and
`s.data.last()` require a list that is not empty: `none` otherwise.  The wait
for the consumer that ends the function is not modelled. -/
def processChunkOfBatch (mapper : Sample → List RawTransaction) (s : Batch Sample) :
    Option (Batch RawTransaction) :=
  match s.data.head?, s.data.getLast? with
  | some first, some last =>
    let groupedTransactions := s.data.map mapper
    let r := groupedTransactions.foldl mergeTransactionGroup ([], 0)
    some { meta :=
             { s.meta with samples := s.data.length, startTime := first.time,
                               endTime := last.time, items := r.2, transactions := r.1.length },
           data := r.1 }
  | _, _ => Option.none

/-- The enumeration `WindowMarkerMethod` as `JSONLogParser.cpp` uses it. -/
inductive WindowMarkerMethod where
  | WindowMarkerMethodTimestamp : WindowMarkerMethod
  | WindowMarkerMethodMarkerLine : WindowMarkerMethod
deriving DecidableEq, Repr

/-- `Parser::getWindowMarkerMethod()`, which a subclass may override. -/
def getWindowMarkerMethod : WindowMarkerMethod := WindowMarkerMethod.WindowMarkerMethodTimestamp

/-- `Parser::getWindowMarkerLine()`, which a subclass may override: the null
string, which compares equal to the empty string. -/
def getWindowMarkerLine : String := ""

/-- The variables of `Parser::processParsedChunk` and what it hands on: the
function-static `batchID`, `b` and `discardedSamples`, the function-static
`minBatchID` of `calculateBatchID`, the local `sampleNumber` (a `quint16`), and
`processed`, the batches given to `processChunkOfBatch` so far, in call order.
The function-static `markerMethod` never changes after its initialisation and
is a parameter. -/
structure ParserState where
  batchID : Nat
  b : Batch Sample
  discardedSamples : Nat
  minBatchID : Nat
  sampleNumber : Nat
  processed : List (Batch Sample)
deriving DecidableEq, Repr

/-- The variables before the first call of `processParsedChunk`. -/
def ParserState.initial : ParserState :=
  { batchID := 0, b := { meta := BatchMetadata.default, data := [] }, discardedSamples := 0,
    minBatchID := 0, sampleNumber := 0, processed := [] }

/-- The statements `b.meta.setChunkInfo(batchID, isLastChunk, discardedSamples);
this->processChunkOfBatch(b); discardedSamples = 0; b.data.clear();`, which
`processParsedChunk` has in three places. -/
def processBatch (isLastChunk : Bool) (l : ParserState) : ParserState :=
  let chunkInfo := l.b.meta.setChunkInfo l.batchID isLastChunk l.discardedSamples
  { l with processed := l.processed ++ [{ meta := chunkInfo, data := l.b.data }],
           discardedSamples := 0,
           b := { meta := chunkInfo, data := [] } }

/-- The part of the loop body of `processParsedChunk` that runs when
`markerMethod == WindowMarkerMethodTimestamp`. -/
def checkTime (secPerBatch CHECK_TIME_INTERVAL : Nat) (l : ParserState) (sample : Sample) :
    ParserState :=
  let l :=
    if l.batchID = 0 then
      let r := calculateBatchID secPerBatch l.minBatchID sample.time
      { l with batchID := r.1, minBatchID := r.2 }
    else l
  if l.sampleNumber % CHECK_TIME_INTERVAL = 0 then
    let l := { l with sampleNumber := 0 }
    let r := calculateBatchID secPerBatch l.minBatchID sample.time
    let l := { l with minBatchID := r.2 }
    if r.1 > l.batchID ∧ l.b.data.isEmpty = false then
      { processBatch true l with batchID := r.1 }
    else l
  else l

/-- The body of the loop `foreach (sample, samples)` of
`Parser::processParsedChunk`.  `PROCESS_CHUNK_SIZE` and `CHECK_TIME_INTERVAL` are
macros of a header that is not among the sources (a `CHECK_TIME_INTERVAL` of 0
is a division by zero in the source); `discardedSamples` is a `quint32` and
`sampleNumber` a `quint16`. -/
def processSample (secPerBatch PROCESS_CHUNK_SIZE CHECK_TIME_INTERVAL : Nat)
    (markerMethod : WindowMarkerMethod) (l : ParserState) (sample : Sample) : ParserState :=
  if sample.circumstances.isEmpty then
    { l with discardedSamples := (l.discardedSamples + 1) % UINT_MODULUS }
  else
    let l := { l with sampleNumber := (l.sampleNumber + 1) % 65536 }
    let l :=
      if markerMethod = WindowMarkerMethod.WindowMarkerMethodTimestamp then
        checkTime secPerBatch CHECK_TIME_INTERVAL l sample
      else l
    let l := if l.b.data.length = PROCESS_CHUNK_SIZE then processBatch false l else l
    { l with b := { l.b with data := l.b.data ++ [sample] } }

/-- `Parser::processParsedChunk(chunk, finishesTimeWindow, forceProcessing)`
(`JSONLogParser.cpp`).  `samples` is the list that
`QtConcurrent::blockingMapped(chunk, mapper)` returns, one sample per line of
the chunk (the class `ParseSampleMapper` is declared in a header that is not
among the sources). -/
def processParsedChunk (secPerBatch PROCESS_CHUNK_SIZE CHECK_TIME_INTERVAL : Nat)
    (markerMethod : WindowMarkerMethod) (l : ParserState) (samples : List Sample)
    (finishesTimeWindow forceProcessing : Bool) : ParserState :=
  let l := samples.foldl
    (processSample secPerBatch PROCESS_CHUNK_SIZE CHECK_TIME_INTERVAL markerMethod)
    { l with sampleNumber := 0 }
  let l :=
    if (finishesTimeWindow || forceProcessing) && !l.b.data.isEmpty then processBatch true l
    else l
  if finishesTimeWindow then { l with batchID := (l.batchID + 1) % UINT_MODULUS } else l

/-- A sequence of calls of `processParsedChunk`, each given by its samples and
its two flags, from left to right. -/
def processParsedChunks (secPerBatch PROCESS_CHUNK_SIZE CHECK_TIME_INTERVAL : Nat)
    (markerMethod : WindowMarkerMethod) (l : ParserState)
    (calls : List (List Sample × Bool × Bool)) : ParserState :=
  calls.foldl (fun l call =>
    processParsedChunk secPerBatch PROCESS_CHUNK_SIZE CHECK_TIME_INTERVAL markerMethod l
      call.1 call.2.1 call.2.2) l

/-- A sample without episodes, with one circumstance. -/
def plainSample (time : Nat) : Sample :=
  { circumstances := ["url:/home"], episodes := [], time := time }

/-- A sample without circumstances, as `parseSample` returns for a checkpoint
line. -/
def discardedSample : Sample := { circumstances := [], episodes := [], time := 0 }

/-- The bounds that `processParsedChunk` keeps: the batch under construction
holds at most `PROCESS_CHUNK_SIZE` samples, all with circumstances, and every
batch given to `processChunkOfBatch` holds between 1 and `PROCESS_CHUNK_SIZE`
samples, all with circumstances. -/
def BatchesWithinBounds (PROCESS_CHUNK_SIZE : Nat) (l : ParserState) : Prop :=
  l.b.data.length ≤ PROCESS_CHUNK_SIZE ∧
  (∀ sample ∈ l.b.data, sample.circumstances ≠ []) ∧
  ∀ batch ∈ l.processed, 1 ≤ batch.data.length ∧ batch.data.length ≤ PROCESS_CHUNK_SIZE ∧
    ∀ sample ∈ batch.data, sample.circumstances ≠ []

/-- Two calls of `processParsedChunk` for the examples: six lines, one of them
without circumstances, then one line with forced processing. -/
def exampleCalls : List (List Sample × Bool × Bool) :=
  [([plainSample 1000, discardedSample, plainSample 1100, plainSample 1200, plainSample 2000,
     plainSample 2100], false, false),
   ([plainSample 3000], false, true)]

end JSONLogParser

namespace JSONLogParser

/-- A `QHash<Key, T>` as `JSONLogParser.cpp` uses it: the pairs of a key and its
value, each key once, kept in the order in which the keys were inserted (the
file never iterates over a hash). -/
structure QHash (κ ν : Type) where
  entries : List (κ × ν)
deriving DecidableEq, Repr

namespace QHash

variable {κ ν : Type} [DecidableEq κ]

/-- A default-constructed hash. -/
def empty : QHash κ ν := { entries := [] }

/-- `QHash::value(key)` for a key of the hash; `none` for a key that the hash
does not contain, where `operator[]` gives a default-constructed value. -/
def value (h : QHash κ ν) (key : κ) : Option ν :=
  (h.entries.find? (fun p => decide (p.1 = key))).map Prod.snd

/-- `QHash::contains(key)`. -/
def contains (h : QHash κ ν) (key : κ) : Bool := (h.value key).isSome

/-- `QHash::size()`: the number of keys. -/
def size (h : QHash κ ν) : Nat := h.entries.length

/-- `QHash::insert(key, value)`: the value of a key that the hash contains is
replaced, a new key is added. -/
def insert (h : QHash κ ν) (key : κ) (v : ν) : QHash κ ν :=
  if h.contains key then
    { entries := h.entries.map (fun p => if p.1 = key then (key, v) else p) }
  else { entries := h.entries ++ [(key, v)] }

end QHash

/-- The static hashes of the class `Parser`. -/
structure EpisodeHashes where
  episodeNameIDHash : QHash String Nat
  episodeIDNameHash : QHash Nat String
  episodeNameFieldNameHash : QHash String String
deriving DecidableEq, Repr

/-- The static hashes before the first call of `mapEpisodeNameToID`. -/
def EpisodeHashes.empty : EpisodeHashes :=
  { episodeNameIDHash := QHash.empty, episodeIDNameHash := QHash.empty,
    episodeNameFieldNameHash := QHash.empty }

/-- `Parser::mapEpisodeNameToID(name, fieldName)` (`JSONLogParser.cpp`), run by
one thread: the returned ID and the static hashes after the call.  The type
`Config::EpisodeID` is declared in a header that is not among the sources; it
is taken to be an unsigned integer type of `episodeIDRange` values, so that the
conversion of `size()` to it keeps the remainder. -/
def mapEpisodeNameToID (episodeIDRange : Nat) (hashes : EpisodeHashes)
    (name fieldName : String) : Nat × EpisodeHashes :=
  let hashes :=
    if !hashes.episodeNameIDHash.contains name then
      let id := hashes.episodeNameIDHash.size % episodeIDRange
      { episodeNameIDHash := hashes.episodeNameIDHash.insert name id,
        episodeIDNameHash := hashes.episodeIDNameHash.insert id name,
        episodeNameFieldNameHash := hashes.episodeNameFieldNameHash.insert name fieldName }
    else hashes
  ((hashes.episodeNameIDHash.value name).getD 0, hashes)

/-- A sequence of calls of `mapEpisodeNameToID`, each given by its name and its
field name, from left to right: the returned IDs and the hashes after the last
call. -/
def mapEpisodeNamesToIDs (episodeIDRange : Nat) :
    EpisodeHashes → List (String × String) → List Nat × EpisodeHashes
  | hashes, [] => ([], hashes)
  | hashes, call :: rest =>
    let r := mapEpisodeNameToID episodeIDRange hashes call.1 call.2
    let rs := mapEpisodeNamesToIDs episodeIDRange r.2 rest
    (r.1 :: rs.1, rs.2)

/-- Calls of `mapEpisodeNameToID` for the examples: three names, the first of
them three times. -/
def exampleNameCalls : List (String × String) :=
  [("css", "css"), ("js", "js"), ("css", "css"), ("totaltime", "t_done"), ("css", "css")]

/-- The relation between the static hashes that `mapEpisodeNameToID` keeps: the
IDs of the registered names are 0, 1, 2, ... in the order of registration, the
ID-to-name hash holds the same pairs the other way round, and no name is
registered twice. -/
def HashesConsistent (hashes : EpisodeHashes) : Prop :=
  hashes.episodeNameIDHash.entries.map Prod.snd =
    List.range hashes.episodeNameIDHash.entries.length ∧
  hashes.episodeIDNameHash.entries = hashes.episodeNameIDHash.entries.map Prod.swap ∧
  (hashes.episodeNameIDHash.entries.map Prod.fst).Nodup

end JSONLogParser

namespace JSONLogParser

/-- The struct `Config::Attribute` as `Parser::parseSample` reads it (its header
is not among the sources); a null `QString` is `none`. -/
structure Attribute where
  name : String
  field : String
  isEpisode : Bool
  parentAttribute : Option String
  hierarchySeparator : Option String
deriving DecidableEq, Repr

/-- The object `config` as `Parser::parseSample` reads it (the class
`Config::Config` and the class `Constraints` are not among the sources): the
attributes returned by `getCategoricalAttributes()` and
`getNumericalAttributes()`, the result of `matchItemset` for a `Constraints`
object holding the item constraints of `getParserCategoricalItemConstraints()`
and of `getParserNumericalItemConstraints()`, and `discretize`. -/
structure Config where
  categoricalAttributes : QHash String Attribute
  numericalAttributes : QHash String Attribute
  parserCategoricalItemConstraints : List String → Bool
  parserNumericalItemConstraints : List String → Bool
  discretize : String → Int → List String → String

/-- A `QVariantMap` as `Parser::parseSample` reads it: the pairs of a key and
its value in the order of `keys()` (ascending keys), the values being what
`toString()` or `toInt()` returns for them. -/
structure QVariantMap (ν : Type) where
  entries : List (String × ν)
deriving DecidableEq, Repr

namespace QVariantMap

variable {ν : Type}

/-- `QMap::keys()`. -/
def keys (m : QVariantMap ν) : List String := m.entries.map Prod.fst

/-- `QMap::contains(key)`. -/
def contains (m : QVariantMap ν) (key : String) : Bool := m.entries.any (fun p => p.1 = key)

/-- `operator[]` of a constant map, followed by the conversion of the value:
`default` is what a default-constructed `QVariant` converts to. -/
def value (m : QVariantMap ν) (key : String) (default : ν) : ν :=
  ((m.entries.find? (fun p => decide (p.1 = key))).map Prod.snd).getD default

end QVariantMap

/-- The maps `json["normal"].toMap()`, `json["denorm"].toMap()` and
`json["int"].toMap()` of a parsed sample. -/
structure ParsedSample where
  normal : QVariantMap String
  denorm : QVariantMap String
  integers : QVariantMap Int
deriving DecidableEq, Repr

/-- What `Parser::parseSample` takes from libraries and from declarations that
are not among the sources: `QxtJSON::parse` followed by `toMap()`,
`QString::contains`, `QString::count`, `QString::section(sep, start, end)`, the
conversion of an `int` to the type `Time`, and the number of values of the type
`Config::EpisodeID`. -/
structure Externals where
  parse : String → ParsedSample
  stringContains : String → String → Bool
  stringCount : String → String → Nat
  stringSection : String → String → Nat → Nat → String
  toTime : Int → Nat
  episodeIDRange : Nat

/-- `QString::at(i)`, which requires `0 <= i < size()`: `none` for a position
outside the string. -/
def charAt (s : String) (i : Nat) : Option Char := s.toList[i]?

/-- `QSet::insert(value)` on the circumstances of a sample, a set of strings
given as the list of its elements. -/
def insertCircumstance (circumstances : List String) (value : String) : List String :=
  if value ∈ circumstances then circumstances else circumstances ++ [value]

/-- The body of the loop `foreach (key, normals.keys())` of
`Parser::parseSample`, on `sample.circumstances`. -/
def processNormal (x : Externals) (categoricalAttributes : QHash String Attribute)
    (normals : QVariantMap String) (circumstances : List String) (key : String) : List String :=
  match categoricalAttributes.value key with
  | none => circumstances
  | some attr =>
    let value := normals.value key ""
    match attr.parentAttribute with
    | some parentAttribute =>
      if normals.contains parentAttribute then
        insertCircumstance circumstances
          (attr.name ++ ":" ++ normals.value parentAttribute "" ++ ":" ++ value)
      else circumstances
    | none =>
      match attr.hierarchySeparator with
      | some hierarchySeparator =>
        if x.stringContains value hierarchySeparator then
          insertCircumstance
            ((List.range (x.stringCount value hierarchySeparator)).foldl
              (fun circumstances i => insertCircumstance circumstances
                (attr.name ++ x.stringSection value hierarchySeparator 0 i))
              circumstances)
            (attr.name ++ ":" ++ value)
        else insertCircumstance circumstances (attr.name ++ ":" ++ value)
      | none => insertCircumstance circumstances (attr.name ++ ":" ++ value)

/-- The loop `foreach (key, normals.keys())` of `Parser::parseSample` over the
given keys. -/
def processNormals (x : Externals) (categoricalAttributes : QHash String Attribute)
    (normals : QVariantMap String) (keys : List String) (circumstances : List String) :
    List String :=
  keys.foldl (processNormal x categoricalAttributes normals) circumstances

/-- The body of the loop `foreach (key, denorms.keys())` of
`Parser::parseSample`. -/
def processDenorm (categoricalAttributes : QHash String Attribute)
    (denorms : QVariantMap String) (circumstances : List String) (key : String) : List String :=
  match categoricalAttributes.value key with
  | none => circumstances
  | some attr => insertCircumstance circumstances (attr.name ++ ":" ++ denorms.value key "")

/-- The body of the loop `foreach (key, integers.keys())` of
`Parser::parseSample`, on the sample and the static hashes. -/
def processInteger (x : Externals) (config : Config) (categoricalCircumstances : List String)
    (integers : QVariantMap Int) (state : Sample × EpisodeHashes) (key : String) :
    Sample × EpisodeHashes :=
  match config.numericalAttributes.value key with
  | none => state
  | some attr =>
    if attr.isEpisode then
      let r := mapEpisodeNameToID x.episodeIDRange state.2 attr.name attr.field
      let episode : Episode := { id := r.1, duration := integers.value key 0 }
      if episode.duration > 0 then
        ({ state.1 with episodes := state.1.episodes ++ [episode] }, r.2)
      else (state.1, r.2)
    else
      let speed := config.discretize attr.field (integers.value key 0)
        categoricalCircumstances
      ({ state.1 with
          circumstances := insertCircumstance state.1.circumstances (attr.name ++ ":" ++ speed) },
       state.2)

/-- `Parser::parseSample(rawSample, config)` (`JSONLogParser.cpp`): the sample
and the static hashes after the call; `none` when `rawSample.at(0)` is outside
the string.  A default-constructed sample has no circumstances and no episodes;
its time is taken to be 0 (the struct is declared in a header that is not among
the sources). -/
def parseSample (x : Externals) (config : Config) (hashes : EpisodeHashes) (rawSample : String) :
    Option (Sample × EpisodeHashes) :=
  let sample : Sample := { circumstances := [], episodes := [], time := 0 }
  match charAt rawSample 0 with
  | none => none
  | some first =>
    if first = '#' then some (sample, hashes)
    else
      let json := x.parse rawSample
      let sample := { sample with
        circumstances := processNormals x config.categoricalAttributes json.normal
          json.normal.keys sample.circumstances }
      let sample := { sample with
        circumstances := json.denorm.keys.foldl
          (processDenorm config.categoricalAttributes json.denorm) sample.circumstances }
      if !config.parserCategoricalItemConstraints sample.circumstances then
        some ({ sample with circumstances := [] }, hashes)
      else
        let categoricalCircumstances := sample.circumstances
        let r := json.integers.keys.foldl
          (processInteger x config categoricalCircumstances json.integers) (sample, hashes)
        if !config.parserNumericalItemConstraints r.1.circumstances then
          some ({ r.1 with circumstances := [] }, r.2)
        else some ({ r.1 with time := x.toTime (json.integers.value "time" 0) }, r.2)

/-- One pass of the loop `while (!in.atEnd())` of `Parser::parse`, on the pair
of `chunk` and the calls of `processParsedChunk` made so far, each with its
chunk and its arguments `finishesTimeWindow` and `forceProcessing`.
`PARSE_CHUNK_SIZE` is a macro and `forceProcessingDefault` the default argument
of a declaration; their header is not among the sources. -/
def parseLine (markerMethod : WindowMarkerMethod) (timeWindowMarkerLine : String)
    (PARSE_CHUNK_SIZE : Nat) (forceProcessingDefault : Bool)
    (state : List String × List (List String × Bool × Bool)) (line : String) :
    List String × List (List String × Bool × Bool) :=
  let state :=
    if markerMethod = WindowMarkerMethod.WindowMarkerMethodMarkerLine then
      if line = timeWindowMarkerLine then
        ([], state.2 ++ [(state.1, true, forceProcessingDefault)])
      else (state.1 ++ [line], state.2)
    else (state.1 ++ [line], state.2)
  if state.1.length = PARSE_CHUNK_SIZE then
    ([], state.2 ++ [(state.1, false, forceProcessingDefault)])
  else state

/-- `Parser::parse(fileName)` for a file that could be opened and whose lines,
as `readLine()` returns them, are given: the calls of `processParsedChunk`, in
order. -/
def parse (markerMethod : WindowMarkerMethod) (timeWindowMarkerLine : String)
    (PARSE_CHUNK_SIZE : Nat) (forceProcessingDefault : Bool) (lines : List String) :
    List (List String × Bool × Bool) :=
  let state := lines.foldl
    (parseLine markerMethod timeWindowMarkerLine PARSE_CHUNK_SIZE forceProcessingDefault) ([], [])
  if state.1.length > 0 then state.2 ++ [(state.1, false, true)] else state.2

/-- An attribute `browser` whose parent attribute is `os`, and an attribute
`status` without parent, for the examples. -/
def exampleAttributes : QHash String Attribute :=
  { entries :=
      [("browser", { name := "browser", field := "browser", isEpisode := false,
                     parentAttribute := some "os", hierarchySeparator := Option.none }),
       ("status", { name := "status", field := "status", isEpisode := false,
                    parentAttribute := Option.none, hierarchySeparator := Option.none })] }

/-- Library functions for the examples: every object parses to the normal
fields `browser` and `status`, without the field `os`. -/
def exampleExternals : Externals :=
  { parse := fun _ =>
      { normal := { entries := [("browser", "firefox"), ("status", "200")] },
        denorm := { entries := [] }, integers := { entries := [("time", 1000)] } },
    stringContains := fun _ _ => false, stringCount := fun _ _ => 0,
    stringSection := fun s _ _ _ => s, toTime := Int.toNat, episodeIDRange := 256 }

/-- A configuration for the examples, without item constraints. -/
def exampleConfig : Config :=
  { categoricalAttributes := exampleAttributes, numericalAttributes := QHash.empty,
    parserCategoricalItemConstraints := fun _ => true,
    parserNumericalItemConstraints := fun _ => true,
    discretize := exampleDiscretize }

/-- Normal fields in which the parent attribute `os` of `browser` is present. -/
def exampleNormalsWithParent : QVariantMap String :=
  { entries := [("browser", "firefox"), ("os", "linux"), ("status", "200")] }

/-- Normal fields in which the parent attribute `os` of `browser` is missing. -/
def exampleNormalsWithoutParent : QVariantMap String :=
  { entries := [("browser", "firefox"), ("status", "200")] }

end JSONLogParser

/-! # Theorems -/

/-! ## Induction over nodes -/

/-- Induction over a tree of nodes: a property holds of every node when it
holds of a node as soon as it holds of all of its children. -/
theorem FPNode.induct {T : Type} {P : FPNode T → Prop}
    (h : ∀ i v cs, (∀ c ∈ cs, P c) → P (FPNode.mk i v cs)) : ∀ n, P n := by
  intro n
  exact @FPNode.rec T P (fun cs => ∀ c ∈ cs, P c) h
    (by intro c hc; cases hc)
    (by
      intro hd tl hhd htl c hc
      rcases List.mem_cons.mp hc with rfl | hc
      · exact hhd
      · exact htl c hc) n

namespace PatternTree

theorem getFrequentItemsetsForRangeChildren_of_forall (minSupport : SupportCount)
    (c : Constraints) (fromBucket toBucket : Bucket) (cs : List (FPNode TiltedTimeWindow))
    (h : ∀ n ∈ cs, ∀ path,
      getFrequentItemsetsForRangeAt minSupport c fromBucket toBucket path n =
        ((FPNode.preorder path n).filter (qualifies minSupport c fromBucket toBucket)).map
          (rangeItemset fromBucket toBucket)) (path : ItemIDList) :
    getFrequentItemsetsForRangeChildren minSupport c fromBucket toBucket path cs =
      ((FPNode.preorderList path cs).filter (qualifies minSupport c fromBucket toBucket)).map
        (rangeItemset fromBucket toBucket) := by
  induction cs with
  | nil => simp [getFrequentItemsetsForRangeChildren, FPNode.preorderList]
  | cons n rest ih =>
    rw [getFrequentItemsetsForRangeChildren, FPNode.preorderList, List.filter_append,
      List.map_append, h n (List.mem_cons_self _ _) path,
      ih (fun m hm => h m (List.mem_cons_of_mem _ hm))]

theorem getFrequentItemsetsForRangeAt_eq (minSupport : SupportCount)
    (c : Constraints) (fromBucket toBucket : Bucket) (n : FPNode TiltedTimeWindow) :
    ∀ path, getFrequentItemsetsForRangeAt minSupport c fromBucket toBucket path n =
        ((FPNode.preorder path n).filter (qualifies minSupport c fromBucket toBucket)).map
          (rangeItemset fromBucket toBucket) := by
  induction n using FPNode.induct with
  | h i v cs ih =>
    intro path
    rw [getFrequentItemsetsForRangeAt, FPNode.preorder,
      getFrequentItemsetsForRangeChildren_of_forall minSupport c fromBucket toBucket cs ih]
    by_cases hq : minSupport < v.getSupportForRange fromBucket toBucket ∧
        c.matchItemset (path ++ [i]) = true
    · have : qualifies minSupport c fromBucket toBucket (path ++ [i], FPNode.mk i v cs) = true := by
        simp [qualifies, FPNode.getValue, hq.1, hq.2]
      simp [List.filter_cons, this, hq, rangeItemset, FPNode.getValue]
    · have : qualifies minSupport c fromBucket toBucket (path ++ [i], FPNode.mk i v cs) = false := by
        simp only [qualifies, FPNode.getValue, Bool.and_eq_false_iff, decide_eq_false_iff_not]
        by_cases h1 : minSupport < v.getSupportForRange fromBucket toBucket
        · right
          simpa [h1] using hq
        · left; exact h1
      simp [List.filter_cons, this, hq]

/-- C1. `getFrequentItemsetsForRange` returns exactly the pairs (root-path
itemset, support over the range) of the non-root nodes, listed in depth-first
pre-order with the children in insertion order, restricted to the nodes whose
support over the range is strictly greater than `minSupport` and whose itemset
matches the constraints.  The root is not part of the listing, and the listing
contains the descendants of every node, qualifying or not. -/
theorem getFrequentItemsetsForRange_eq_preorder_filter (t : PatternTree)
    (minSupport : SupportCount) (c : Constraints) (fromBucket toBucket : Bucket) :
    t.getFrequentItemsetsForRange minSupport c fromBucket toBucket =
      ((FPNode.preorderList [] t.root.getChildren).filter
          (qualifies minSupport c fromBucket toBucket)).map
        (rangeItemset fromBucket toBucket) := by
  have h := getFrequentItemsetsForRangeChildren_of_forall minSupport c fromBucket toBucket
    t.root.getChildren
    (fun n _ => getFrequentItemsetsForRangeAt_eq minSupport c fromBucket toBucket n) []
  simp [getFrequentItemsetsForRange, FrequentItemset.default, h]


theorem sum_filter_append_support (c : Constraints) (fromBucket toBucket : Bucket)
    (l1 l2 : List (ItemIDList × FPNode TiltedTimeWindow)) :
    (((l1 ++ l2).filter (subtreeHasMatch c)).map (supportOver fromBucket toBucket)).sum =
      ((l1.filter (subtreeHasMatch c)).map (supportOver fromBucket toBucket)).sum +
      ((l2.filter (subtreeHasMatch c)).map (supportOver fromBucket toBucket)).sum := by
  simp [List.filter_append, List.map_append, List.sum_append]

theorem totalSupportForRangeChildren_spec (c : Constraints) (fromBucket toBucket : Bucket)
    (cs : List (FPNode TiltedTimeWindow))
    (h : ∀ n ∈ cs, HelperSpec c fromBucket toBucket n) :
    ∀ (total : Nat) (path : ItemIDList) (m : Bool),
      (totalSupportForRangeChildren c fromBucket toBucket total path m cs).1 =
          (m || (FPNode.itemsetsBelow path cs).any c.matchItemset) ∧
      (totalSupportForRangeChildren c fromBucket toBucket total path m cs).2 % UINT_MODULUS =
          (total + (((FPNode.preorderList path cs).filter (subtreeHasMatch c)).map
            (supportOver fromBucket toBucket)).sum) % UINT_MODULUS ∧
      (total < UINT_MODULUS →
        (totalSupportForRangeChildren c fromBucket toBucket total path m cs).2 < UINT_MODULUS) := by
  induction cs with
  | nil =>
    intro total path m
    simp [totalSupportForRangeChildren, FPNode.itemsetsBelow, FPNode.preorderList]
  | cons n rest ih =>
    intro total path m
    obtain ⟨h1, h2, h3⟩ := h n (List.mem_cons_self _ _) total path
    obtain ⟨k1, k2, k3⟩ := ih (fun x hx => h x (List.mem_cons_of_mem _ hx))
      (totalSupportForRangeHelper c fromBucket toBucket total path n).2 path
      ((totalSupportForRangeHelper c fromBucket toBucket total path n).1 || m)
    rw [totalSupportForRangeChildren]
    refine ⟨?_, ?_, ?_⟩
    · rw [k1, h1]
      cases n with
      | mk i v cs' =>
        simp only [subtreeHasMatch, FPNode.getItemID, FPNode.getChildren, FPNode.itemsetsBelow,
          List.any_cons, List.any_append]
        cases m <;> cases c.matchItemset (path ++ [i]) <;>
          cases (FPNode.itemsetsBelow (path ++ [i]) cs').any c.matchItemset <;> simp
    · rw [k2, FPNode.preorderList, sum_filter_append_support, ← Nat.add_assoc,
        Nat.add_mod, h2, ← Nat.add_mod]
    · intro ht
      exact k3 (h3 ht)

theorem totalSupportForRangeHelper_spec (c : Constraints) (fromBucket toBucket : Bucket)
    (n : FPNode TiltedTimeWindow) : HelperSpec c fromBucket toBucket n := by
  induction n using FPNode.induct with
  | h i v cs ih =>
    intro total path
    obtain ⟨k1, k2, k3⟩ := totalSupportForRangeChildren_spec c fromBucket toBucket cs ih
      total (path ++ [i]) false
    rw [totalSupportForRangeHelper]
    simp only [Bool.false_or] at k1
    have hflag : (if (!(totalSupportForRangeChildren c fromBucket toBucket total (path ++ [i])
          false cs).1 || cs.length == 0) = true then c.matchItemset (path ++ [i])
        else (totalSupportForRangeChildren c fromBucket toBucket total (path ++ [i]) false cs).1) =
        subtreeHasMatch c (path ++ [i], FPNode.mk i v cs) := by
      rw [k1]
      simp only [subtreeHasMatch, FPNode.getChildren]
      cases cs with
      | nil => simp [FPNode.itemsetsBelow]
      | cons x xs =>
        cases (FPNode.itemsetsBelow (path ++ [i]) (x :: xs)).any c.matchItemset <;> simp
    simp only [hflag, FPNode.getItemID, FPNode.preorder, List.filter_cons]
    refine ⟨trivial, ?_, ?_⟩
    · cases hm : subtreeHasMatch c (path ++ [i], FPNode.mk i v cs)
      · simp [k2]
      · simp only [if_true, List.map_cons, List.sum_cons, supportOver, FPNode.getValue,
          Nat.mod_mod]
        rw [Nat.add_mod, k2, ← Nat.add_mod]
        congr 1
        omega
    · intro ht
      cases hm : subtreeHasMatch c (path ++ [i], FPNode.mk i v cs)
      · simpa using k3 ht
      · simp only [if_true]
        exact Nat.mod_lt _ (by decide)

theorem getTotalSupportForRange_eq_sum (t : PatternTree) (c : Constraints)
    (fromBucket toBucket : Bucket) :
    t.getTotalSupportForRange c fromBucket toBucket =
      ((t.allNodes.filter (subtreeHasMatch c)).map (supportOver fromBucket toBucket)).sum %
        UINT_MODULUS := by
  obtain ⟨_, h2, h3⟩ := totalSupportForRangeHelper_spec c fromBucket toBucket t.root 0 []
  unfold getTotalSupportForRange allNodes
  rw [← Nat.mod_eq_of_lt (h3 (by decide)), h2, Nat.zero_add]

theorem subtreeHasMatch_none (p : ItemIDList × FPNode TiltedTimeWindow) :
    subtreeHasMatch Constraints.none p = true := by
  simp [subtreeHasMatch, Constraints.matchItemset, Constraints.none]

/-- C2 (as stated, refuted). On the tree of `TestPatternTree::buildBasicPatternTree`
the total support over the whole range with empty constraints is 10, as the unit
test expects, while the supports of the leaf patterns `[1,2,3]` and `[1,4]` sum
to 6: the internal pattern `[1,2]` contributes its support 4. -/
theorem getTotalSupportForRange_ne_leafSupportSum :
    buildBasicPatternTree.getTotalSupportForRange Constraints.none 0 71 = 10 ∧
    buildBasicPatternTree.leafSupportSum 0 71 = 6 ∧
    buildBasicPatternTree.getTotalSupportForRange Constraints.none 0 71 ≠
      buildBasicPatternTree.leafSupportSum 0 71 := by
  decide

/-- C2 (amended). With empty constraints `getTotalSupportForRange` is the sum of
the supports over the range of all nodes of the tree, the root, the internal
patterns and the leaf patterns alike, reduced modulo 2^32 (the accumulator is a
`uint`). -/
theorem getTotalSupportForRange_none_eq_sum_allNodes (t : PatternTree)
    (fromBucket toBucket : Bucket) :
    t.getTotalSupportForRange Constraints.none fromBucket toBucket =
      (t.allNodes.map (supportOver fromBucket toBucket)).sum % UINT_MODULUS := by
  rw [getTotalSupportForRange_eq_sum, List.filter_eq_self.mpr (fun p _ => subtreeHasMatch_none p)]

/-- C3 (the code at the failing input). On the tree with the patterns `[1]`
(support 7) and `[1,2]` (support 2), with the positive constraint on item 2 and
the range of bucket 0: the pattern `[1]` does not match, yet its support 7 is
added because its descendant `[1,2]` matches, and `getTotalSupportForRange`
returns 9, while the supports of the matching nodes sum to 2 and
`getFrequentItemsetsForRange`, which tests every node itself, returns `[1,2]`
alone. -/
theorem getTotalSupportForRange_counts_ancestor :
    ancestorTree.getTotalSupportForRange { positive := [[2]], negative := [] } 0 0 = 9 ∧
    ancestorTree.matchingSupportSum { positive := [[2]], negative := [] } 0 0 = 2 ∧
    Constraints.matchItemset { positive := [[2]], negative := [] } [ROOT_ITEMID, 1] = false ∧
    ancestorTree.getTotalSupportForRange { positive := [[2]], negative := [] } 0 0 ≠
      ancestorTree.matchingSupportSum { positive := [[2]], negative := [] } 0 0 ∧
    ancestorTree.getFrequentItemsetsForRange 0 { positive := [[2]], negative := [] } 0 0 =
      [{ itemset := [1, 2], support := 2 }] ∧
    ancestorTree.getFrequentItemsetsForRange 0 Constraints.none 0 0 =
      [{ itemset := [1], support := 7 }, { itemset := [1, 2], support := 2 }] := by
  decide

/-- What `getTotalSupportForRange` computes on every tree: it adds the support
over the range of a node to the total exactly when the subtree of the node, the
node included, contains a node whose itemset (`ROOT_ITEMID` followed by its root
path) matches the constraints; the total is the sum over those nodes, modulo
2^32.  An ancestor of a matching node is counted whether or not it matches, a
node without matching descendant is counted iff it matches itself. -/
theorem getTotalSupportForRange_eq_sum_subtreeHasMatch (t : PatternTree) (c : Constraints)
    (fromBucket toBucket : Bucket) :
    t.getTotalSupportForRange c fromBucket toBucket =
      ((t.allNodes.filter (subtreeHasMatch c)).map (supportOver fromBucket toBucket)).sum %
        UINT_MODULUS :=
  getTotalSupportForRange_eq_sum t c fromBucket toBucket

end PatternTree

namespace FPNode

variable {T : Type}

theorem size_mk (i : ItemID) (v : T) (cs : List (FPNode T)) :
    size (mk i v cs) = 1 + sizeList cs := by
  rw [size]

theorem sizeList_nil : sizeList ([] : List (FPNode T)) = 0 := by
  rw [sizeList]

theorem sizeList_cons (c : FPNode T) (cs : List (FPNode T)) :
    sizeList (c :: cs) = size c + sizeList cs := by
  rw [sizeList]

theorem sizeList_append (xs ys : List (FPNode T)) :
    sizeList (xs ++ ys) = sizeList xs + sizeList ys := by
  induction xs with
  | nil => simp [sizeList_nil]
  | cons x xs ih => simp [sizeList_cons, ih, Nat.add_assoc]

theorem size_eq_succ_getNumDescendants (n : FPNode T) : size n = 1 + n.getNumDescendants := by
  cases n with
  | mk i v cs => simp [size_mk, getNumDescendants, getChildren]

theorem getChild_mk (i : ItemID) (v : T) (cs : List (FPNode T)) (x : ItemID) :
    (mk i v cs).getChild x = cs.find? (fun c => c.getItemID == x) := rfl

theorem sizeList_replaceChild (x : ItemID) (new c : FPNode T) (cs : List (FPNode T))
    (h : cs.find? (fun c => c.getItemID == x) = some c) :
    sizeList (replaceChild x new cs) + size c = sizeList cs + size new := by
  induction cs with
  | nil => simp at h
  | cons a as ih =>
    by_cases ha : (a.getItemID == x) = true
    · simp only [List.find?_cons, ha, Option.some.injEq] at h
      subst h
      simp [replaceChild, ha, sizeList_cons]
      omega
    · simp only [List.find?_cons, ha] at h
      have := ih h
      simp only [replaceChild, ha, Bool.false_eq_true, if_false, sizeList_cons]
      omega

theorem sizeList_eraseChild (x : ItemID) (c : FPNode T) (cs : List (FPNode T))
    (h : cs.find? (fun c => c.getItemID == x) = some c) :
    sizeList (eraseChild x cs) + size c = sizeList cs := by
  induction cs with
  | nil => simp at h
  | cons a as ih =>
    by_cases ha : (a.getItemID == x) = true
    · simp only [List.find?_cons, ha, Option.some.injEq] at h
      subst h
      simp [eraseChild, ha, sizeList_cons]
      omega
    · simp only [List.find?_cons, ha] at h
      have := ih h
      simp only [eraseChild, ha, Bool.false_eq_true, if_false, sizeList_cons]
      omega

/-- The walk of `addPattern` increments the node count once per created node. -/
theorem addPath_nodeCount (fresh : T) (f : T → T) (itemset : ItemIDList) :
    ∀ (n : FPNode T) (count : Nat),
      (addPath fresh f itemset n count).2 + size n =
        count + size (addPath fresh f itemset n count).1 := by
  induction itemset with
  | nil =>
    intro n count
    cases n with
    | mk i v cs => simp [addPath, size_mk]
  | cons x rest ih =>
    intro n count
    cases n with
    | mk i v cs =>
      rw [addPath]
      cases hc : (mk i v cs).getChild x with
      | none =>
        have := ih (mk x fresh []) (count + 1)
        simp only [size_mk, sizeList_append, sizeList_cons, sizeList_nil] at this ⊢
        omega
      | some c =>
        have h1 := ih c count
        have h2 := sizeList_replaceChild x (addPath fresh f rest c count).1 c cs
          (by rw [← getChild_mk i v cs x]; exact hc)
        simp only [size_mk]
        omega

/-- Destroying a node removes the nodes of its subtree, and only those. -/
theorem size_removeAt (rest : ItemIDList) :
    ∀ (i : ItemID) (root n : FPNode T), findNode (i :: rest) root = some n →
      size (removeAt i rest root) + size n = size root := by
  induction rest with
  | nil =>
    intro i root n h
    cases root with
    | mk j v cs =>
      rw [findNode] at h
      cases hc : (mk j v cs).getChild i with
      | none => simp [hc] at h
      | some c =>
        simp only [hc, findNode, Option.some.injEq] at h
        subst h
        have := sizeList_eraseChild i c cs (by rw [← getChild_mk j v cs i]; exact hc)
        simp only [removeAt, size_mk]
        omega
  | cons x rest ih =>
    intro i root n h
    cases root with
    | mk j v cs =>
      rw [findNode] at h
      cases hc : (mk j v cs).getChild i with
      | none => simp [hc] at h
      | some c =>
        simp only [hc] at h
        have h1 := ih x c n h
        have h2 := sizeList_replaceChild i (removeAt x rest c) c cs
          (by rw [← getChild_mk j v cs i]; exact hc)
        simp only [removeAt, hc, size_mk]
        omega

end FPNode

namespace PatternTree

theorem size_root_eq (t : PatternTree) : FPNode.size t.root = 1 + t.nonRootCount := by
  cases h : t.root with
  | mk i v cs => simp [nonRootCount, h, FPNode.size_mk, FPNode.getChildren]

theorem nonRootCount_new_setTTWDefinition (d : TTWDefinition) :
    (PatternTree.new.setTTWDefinition d).nodeCount =
      (PatternTree.new.setTTWDefinition d).nonRootCount := by
  simp [PatternTree.new, setTTWDefinition, nonRootCount, FPNode.getChildren, FPNode.sizeList_nil]

theorem addPattern_nodeCount_invariant (t : PatternTree) (pattern : FrequentItemset)
    (updateID : Nat) (h : t.nodeCount = t.nonRootCount) :
    (t.addPattern pattern updateID).nodeCount = (t.addPattern pattern updateID).nonRootCount := by
  have h1 := FPNode.addPath_nodeCount (TiltedTimeWindow.build t.ttwDef)
    (syncAndAppend t.currentQuarter pattern.support updateID) pattern.itemset t.root t.nodeCount
  have h2 := size_root_eq t
  have h3 := size_root_eq (t.addPattern pattern updateID)
  simp only [addPattern] at h3 ⊢
  omega

theorem removePattern_nodeCount (t t1 : PatternTree) (node : ItemIDList)
    (h : t.nodeCount = t.nonRootCount) (hr : t.removePattern node = some t1) :
    t1.nodeCount = t1.nonRootCount ∧
    ∃ n, FPNode.findNode node t.root = some n ∧
      t1.nodeCount + (1 + n.getNumDescendants) = t.nodeCount := by
  cases node with
  | nil => simp [removePattern] at hr
  | cons i rest =>
    rw [removePattern] at hr
    cases hf : FPNode.findNode (i :: rest) t.root with
    | none => simp [hf] at hr
    | some n =>
      simp only [hf, Option.some.injEq] at hr
      subst hr
      have h1 := FPNode.size_removeAt rest i t.root n hf
      have h2 := size_root_eq t
      have h3 := size_root_eq
        { t with nodeCount := t.nodeCount - (1 + n.getNumDescendants),
                 root := FPNode.removeAt i rest t.root }
      have h4 := FPNode.size_eq_succ_getNumDescendants n
      simp only at h3
      refine ⟨?_, n, rfl, ?_⟩
      · simp only
        omega
      · simp only
        omega

theorem applyOp_nodeCount_invariant (t t1 : PatternTree) (op : Op)
    (h : t.nodeCount = t.nonRootCount) (ho : applyOp t op = some t1) :
    t1.nodeCount = t1.nonRootCount := by
  cases op with
  | addPattern pattern updateID =>
    simp only [applyOp, Option.some.injEq] at ho
    subst ho
    exact addPattern_nodeCount_invariant t pattern updateID h
  | removePattern node =>
    exact (removePattern_nodeCount t t1 node h ho).1
  | nextQuarter =>
    simp only [applyOp, Option.some.injEq] at ho
    subst ho
    exact h

theorem applyOps_nodeCount_invariant (ops : List Op) :
    ∀ (t t1 : PatternTree), t.nodeCount = t.nonRootCount → applyOps t ops = some t1 →
      t1.nodeCount = t1.nonRootCount := by
  induction ops with
  | nil =>
    intro t t1 h ho
    simp only [applyOps, Option.some.injEq] at ho
    subst ho
    exact h
  | cons op rest ih =>
    intro t t1 h ho
    rw [applyOps] at ho
    cases hop : applyOp t op with
    | none => simp [hop] at ho
    | some t2 =>
      simp only [hop] at ho
      exact ih t2 t1 (applyOp_nodeCount_invariant t t2 op h hop) ho

/-- C4. Starting from an empty tree, after every sequence of `addPattern`,
`removePattern` and `nextQuarter` calls (each `removePattern` being given a node
below the root) `nodeCount` equals the number of non-root nodes; and a further
`removePattern(node)` lowers `nodeCount` by exactly 1 plus the number of
descendants of `node`, keeping it equal to the number of non-root nodes. -/
theorem nodeCount_eq_nonRootCount (d : TTWDefinition) (ops : List Op) (t : PatternTree)
    (h : applyOps (PatternTree.new.setTTWDefinition d) ops = some t) :
    t.nodeCount = t.nonRootCount ∧
    ∀ (node : ItemIDList) (t1 : PatternTree), t.removePattern node = some t1 →
      t1.nodeCount = t1.nonRootCount ∧
      ∃ n, FPNode.findNode node t.root = some n ∧
        t1.nodeCount + (1 + n.getNumDescendants) = t.nodeCount := by
  have hinv := applyOps_nodeCount_invariant ops _ t (nonRootCount_new_setTTWDefinition d) h
  exact ⟨hinv, fun node t1 hr => removePattern_nodeCount t t1 node hinv hr⟩


/-- Instance of `nodeCount_eq_nonRootCount`: two patterns are added, the quarter
advances and the subtree of `[1, 2]` is removed. -/
theorem nodeCount_eq_nonRootCount_witness :
    applyOps (PatternTree.new.setTTWDefinition TTWDefinition.default) exampleOps =
      some exampleOpsResult ∧
    exampleOpsResult.nodeCount = exampleOpsResult.nonRootCount :=
  ⟨rfl, (nodeCount_eq_nonRootCount TTWDefinition.default exampleOps exampleOpsResult rfl).1⟩

end PatternTree

namespace FPNode

variable {T : Type}

theorem getItemID_of_find (x : ItemID) (c : FPNode T) (cs : List (FPNode T))
    (h : cs.find? (fun c => c.getItemID == x) = some c) : c.getItemID = x := by
  have := List.find?_some h
  simpa using this

theorem find_replaceChild (x : ItemID) (new c : FPNode T) (cs : List (FPNode T))
    (h : cs.find? (fun c => c.getItemID == x) = some c) (hnew : new.getItemID = x) :
    (replaceChild x new cs).find? (fun c => c.getItemID == x) = some new := by
  induction cs with
  | nil => simp at h
  | cons a as ih =>
    by_cases ha : (a.getItemID == x) = true
    · simp [replaceChild, ha, List.find?_cons, hnew]
    · simp only [List.find?_cons, ha] at h
      simp only [replaceChild, ha, Bool.false_eq_true, if_false, List.find?_cons]
      exact ih h

theorem find_append_new (x : ItemID) (new : FPNode T) (cs : List (FPNode T))
    (h : cs.find? (fun c => c.getItemID == x) = none) (hnew : new.getItemID = x) :
    (cs ++ [new]).find? (fun c => c.getItemID == x) = some new := by
  rw [List.find?_append, h]
  simp [List.find?_cons, hnew]

theorem getItemID_addPath (fresh : T) (f : T → T) (itemset : ItemIDList) (n : FPNode T)
    (count : Nat) : (addPath fresh f itemset n count).1.getItemID = n.getItemID := by
  cases n with
  | mk i v cs =>
    cases itemset with
    | nil => simp [addPath, getItemID]
    | cons x rest =>
      rw [addPath]
      cases (mk i v cs).getChild x <;> simp [getItemID]

theorem findNode_fresh (x : ItemID) (fresh : T) (rest : ItemIDList) :
    ((findNode rest (mk x fresh [])).map getValue).getD fresh = fresh := by
  cases rest with
  | nil => simp [findNode, getValue]
  | cons y ys => simp [findNode, getChild, getChildren]

/-- After the walk of `addPattern`, the lookup of the same itemset succeeds and
finds the value `f` was applied to: the value of the node that existed before,
or the fresh value of the created node. -/
theorem findNode_addPath (fresh : T) (f : T → T) (itemset : ItemIDList) :
    ∀ (n : FPNode T) (count : Nat),
      (findNode itemset (addPath fresh f itemset n count).1).map getValue =
        some (f (((findNode itemset n).map getValue).getD fresh)) := by
  induction itemset with
  | nil =>
    intro n count
    cases n with
    | mk i v cs => simp [addPath, findNode, getValue]
  | cons x rest ih =>
    intro n count
    cases n with
    | mk i v cs =>
      rw [addPath]
      cases hc : (mk i v cs).getChild x with
      | none =>
        have hfind : (mk i v (cs ++ [(addPath fresh f rest (mk x fresh []) (count + 1)).1])).getChild x
            = some (addPath fresh f rest (mk x fresh []) (count + 1)).1 := by
          rw [getChild_mk]
          exact find_append_new x _ cs (by rw [← getChild_mk i v cs x]; exact hc)
            (by rw [getItemID_addPath]; rfl)
        simp only [findNode, hfind, hc, ih, findNode_fresh, Option.map_none', Option.getD_none]
      | some c =>
        have hc1 : cs.find? (fun c => c.getItemID == x) = some c := by
          rw [← getChild_mk i v cs x]; exact hc
        have hfind : (mk i v (replaceChild x (addPath fresh f rest c count).1 cs)).getChild x
            = some (addPath fresh f rest c count).1 := by
          rw [getChild_mk]
          exact find_replaceChild x _ c cs hc1
            (by rw [getItemID_addPath]; exact getItemID_of_find x c cs hc1)
        simp only [findNode, hfind, hc, ih]

/-- The chain built by a lookup starts with the node found; the nodes below the
starting node carry the item IDs of the pattern, deepest first. -/
theorem findNodeChain_spec (pattern : ItemIDList) :
    ∀ (n : FPNode T) (above : List (FPNode T)),
      (findNodeChain pattern n above = none ∧ findNode pattern n = none) ∨
      ∃ m l, findNode pattern n = some m ∧ findNodeChain pattern n above = some (l ++ n :: above) ∧
        (l ++ [n]).head? = some m ∧ l.map getItemID = pattern.reverse := by
  induction pattern with
  | nil =>
    intro n above
    right
    exact ⟨n, [], by simp [findNode, findNodeChain]⟩
  | cons x rest ih =>
    intro n above
    cases hc : n.getChild x with
    | none => left; simp [findNode, findNodeChain, hc]
    | some c =>
      rcases ih c (n :: above) with ⟨h1, h2⟩ | ⟨m, l, h1, h2, h3, h4⟩
      · left; simp [findNode, findNodeChain, hc, h1, h2]
      · right
        refine ⟨m, l ++ [c], ?_, ?_, ?_, ?_⟩
        · simp [findNode, hc, h1]
        · simp [findNodeChain, hc, h2]
        · cases l with
          | nil => simpa using h3
          | cons a as => simpa using h3
        · have hcx : c.getItemID = x := by
            cases n with
            | mk i v cs => exact getItemID_of_find x c cs (by rw [← getChild_mk i v cs x]; exact hc)
          simp [h4, hcx]

end FPNode

namespace PatternTree

/-- The loop of `getPatternForNode` climbs a chain whose nodes carry no
`ROOT_ITEMID` up to a root that does, collecting the item IDs top-down. -/
theorem getPatternForNode_chain (root : FPNode TiltedTimeWindow)
    (above : List (FPNode TiltedTimeWindow)) (hroot : root.getItemID = ROOT_ITEMID) :
    ∀ (l : List (FPNode TiltedTimeWindow)) (acc : ItemIDList),
      (∀ a ∈ l, a.getItemID ≠ ROOT_ITEMID) →
      getPatternForNode (l ++ root :: above) acc = some ((l.map FPNode.getItemID).reverse ++ acc) := by
  intro l
  induction l with
  | nil =>
    intro acc _
    simp [getPatternForNode, hroot]
  | cons a as ih =>
    intro acc h
    have ha : a.getItemID ≠ ROOT_ITEMID := h a (List.mem_cons_self _ _)
    rw [List.cons_append, getPatternForNode, if_pos ha,
      ih (a.getItemID :: acc) (fun b hb => h b (List.mem_cons_of_mem _ hb))]
    simp

/-- In a tree whose root carries `ROOT_ITEMID`, a lookup by an itemset without
`ROOT_ITEMID` that succeeds yields a pointer from which `getPatternForNode`
recovers the itemset. -/
theorem getPatternForNode_findNodeChain (root : FPNode TiltedTimeWindow)
    (itemset : ItemIDList) (hroot : root.getItemID = ROOT_ITEMID)
    (h0 : ROOT_ITEMID ∉ itemset) (m : FPNode TiltedTimeWindow)
    (hm : FPNode.findNode itemset root = some m) :
    ∃ chain, FPNode.findNodeChain itemset root [] = some chain ∧
      chain.head? = some m ∧ getPatternForNode chain [] = some itemset := by
  rcases FPNode.findNodeChain_spec itemset root [] with ⟨_, h2⟩ | ⟨m1, l, h1, h2, h3, h4⟩
  · rw [h2] at hm; cases hm
  · rw [h1] at hm
    cases hm
    refine ⟨l ++ [root], h2, h3, ?_⟩
    have hl : ∀ a ∈ l, a.getItemID ≠ ROOT_ITEMID := by
      intro a ha hcontra
      apply h0
      have : a.getItemID ∈ l.map FPNode.getItemID := List.mem_map_of_mem _ ha
      rw [h4, hcontra] at this
      exact List.mem_reverse.mp this
    rw [getPatternForNode_chain root [] hroot l [] hl, h4]
    simp

theorem getPatternSupport_addPattern (t : PatternTree) (pattern : FrequentItemset)
    (updateID : Nat) :
    (t.addPattern pattern updateID).getPatternSupport pattern.itemset =
      some (syncAndAppend t.currentQuarter pattern.support updateID
        (t.destinationWindow pattern.itemset)) := by
  simp only [getPatternSupport, FPNode.findNodeByPattern, addPattern, destinationWindow]
  exact FPNode.findNode_addPath _ _ _ _ _

/-- C7. For a tree whose root carries `ROOT_ITEMID` and a non-empty itemset that
does not contain `ROOT_ITEMID`: after `addPattern` the lookup of the itemset
finds a node `n`, `getPatternSupport` returns the window of `n`, and
`getPatternForNode(n)` is the itemset.  Moreover, in the tree after
`addPattern`, every lookup by an itemset without `ROOT_ITEMID` that finds a
node yields a pointer from which `getPatternForNode` returns that itemset. -/
theorem getPatternForNode_getPatternSupport_addPattern (t : PatternTree)
    (pattern : FrequentItemset) (updateID : Nat)
    (hroot : t.root.getItemID = ROOT_ITEMID) (_hne : pattern.itemset ≠ [])
    (h0 : ROOT_ITEMID ∉ pattern.itemset) :
    (∃ n above,
      FPNode.findNodeChain pattern.itemset (t.addPattern pattern updateID).root [] =
        some (n :: above) ∧
      (t.addPattern pattern updateID).getPatternSupport pattern.itemset = some n.getValue ∧
      getPatternForNode (n :: above) [] = some pattern.itemset) ∧
    ∀ (itemset : ItemIDList) (m : FPNode TiltedTimeWindow), ROOT_ITEMID ∉ itemset →
      FPNode.findNode itemset (t.addPattern pattern updateID).root = some m →
      ∃ chain, FPNode.findNodeChain itemset (t.addPattern pattern updateID).root [] = some chain ∧
        chain.head? = some m ∧ getPatternForNode chain [] = some itemset := by
  have hlook := getPatternSupport_addPattern t pattern updateID
  have hroot1 : (t.addPattern pattern updateID).root.getItemID = ROOT_ITEMID := by
    simp only [addPattern]
    rw [FPNode.getItemID_addPath]
    exact hroot
  refine ⟨?_, fun itemset m hi hm => getPatternForNode_findNodeChain
    (t.addPattern pattern updateID).root itemset hroot1 hi m hm⟩
  cases hf : FPNode.findNode pattern.itemset (t.addPattern pattern updateID).root with
  | none =>
    simp [getPatternSupport, FPNode.findNodeByPattern, hf] at hlook
  | some m =>
    obtain ⟨chain, hc1, hc2, hc3⟩ := getPatternForNode_findNodeChain
      (t.addPattern pattern updateID).root pattern.itemset hroot1 h0 m hf
    cases chain with
    | nil => simp at hc2
    | cons n above =>
      simp only [List.head?_cons, Option.some.injEq] at hc2
      subst hc2
      exact ⟨n, above, hc1, by simp [getPatternSupport, FPNode.findNodeByPattern, hf], hc3⟩

end PatternTree

namespace TiltedTimeWindow

theorem bucketOffset_zero (d : TTWDefinition) : d.bucketOffset 0 = 0 := by
  simp [TTWDefinition.bucketOffset]

theorem shiftInsert_zero (b : List SupportCount) (k : Nat) (s : SupportCount) :
    shiftInsert b 0 k s = s :: (b.take k ++ b.drop (k + 1)) := by
  simp [shiftInsert]

theorem length_shiftInsert_zero (b : List SupportCount) (k : Nat) (s : SupportCount)
    (hk : k < b.length) : (shiftInsert b 0 k s).length = b.length := by
  rw [shiftInsert_zero]
  simp only [List.length_cons, List.length_append, List.length_take, List.length_drop]
  omega

theorem take_shiftInsert_zero (b : List SupportCount) (k : Nat) (s : SupportCount)
    (hk : k ≤ b.length) : (shiftInsert b 0 k s).take (k + 1) = s :: b.take k := by
  rw [shiftInsert_zero, List.take_succ_cons, List.take_append_of_le_length (by simp [hk])]
  simp [List.take_take]

theorem capacity_le_numBuckets (d : TTWDefinition) : d.capacity 0 ≤ d.numBuckets := by
  unfold TTWDefinition.capacity TTWDefinition.numBuckets
  cases d.bucketCount with
  | nil => simp
  | cons a as => simp

/-- An append that does not fold, into a granularity 0 that is not full: the
stored values move by one slot, the support is written at slot 0 and the usage
of granularity 0 grows by one. -/
theorem append_of_not_full (w : TiltedTimeWindow) (s : SupportCount) (u : Nat)
    (hfold : u = 0 ∨ u ≠ w.lastUpdate)
    (hused : w.getCapacityUsed 0 < w.ttwDef.capacity 0) :
    w.append s u =
      { ttwDef := w.ttwDef,
        buckets := shiftInsert w.buckets 0 (w.getCapacityUsed 0) s,
        capacityUsed := w.capacityUsed.set 0 (w.getCapacityUsed 0 + 1),
        oldestBucketFilled := max w.oldestBucketFilled (w.getCapacityUsed 0),
        lastUpdate := u } := by
  have hnum : ∃ k, w.ttwDef.numGranularities = k + 1 := by
    unfold TTWDefinition.capacity at hused
    unfold TTWDefinition.numGranularities
    cases h : w.ttwDef.bucketCount with
    | nil => simp [h] at hused
    | cons a as => exact ⟨as.length, rfl⟩
  obtain ⟨k, hk⟩ := hnum
  have hcond : ¬ (u ≠ 0 ∧ u = w.lastUpdate) := by
    rintro ⟨h1, h2⟩
    rcases hfold with h | h
    · exact h1 h
    · exact h h2
  rw [append, if_neg hcond, hk, store]
  simp [hused, bucketOffset_zero]

theorem getCapacityUsed_set_zero (l : List Nat) (v : Nat) (h : 0 < l.length) :
    (l.set 0 v).getD 0 0 = v := by
  cases l with
  | nil => simp at h
  | cons a as => simp

/-- The quarter synchronisation: `k` calls of `append(0, 0)` on a window whose
granularity 0 has room for them write `k` zero buckets in front of the stored
values of granularity 0. -/
theorem iterate_append_zero (w : TiltedTimeWindow) (hlen : 0 < w.capacityUsed.length)
    (hbuckets : w.ttwDef.capacity 0 ≤ w.buckets.length) :
    ∀ k, w.getCapacityUsed 0 + k ≤ w.ttwDef.capacity 0 →
      (Nat.iterate (fun x => x.append 0 0) k w).ttwDef = w.ttwDef ∧
      (Nat.iterate (fun x => x.append 0 0) k w).capacityUsed.length = w.capacityUsed.length ∧
      (Nat.iterate (fun x => x.append 0 0) k w).getCapacityUsed 0 = w.getCapacityUsed 0 + k ∧
      (Nat.iterate (fun x => x.append 0 0) k w).buckets.length = w.buckets.length ∧
      (Nat.iterate (fun x => x.append 0 0) k w).buckets.take (w.getCapacityUsed 0 + k) =
        List.replicate k 0 ++ w.buckets.take (w.getCapacityUsed 0) ∧
      (0 < k → (Nat.iterate (fun x => x.append 0 0) k w).lastUpdate = 0) := by
  intro k
  induction k with
  | zero => intro _; simp
  | succ k ih =>
    intro hk
    obtain ⟨h1, h2, h3, h4, h5, _⟩ := ih (by omega)
    rw [Function.iterate_succ_apply']
    have hroom : (Nat.iterate (fun x => x.append 0 0) k w).getCapacityUsed 0 <
        (Nat.iterate (fun x => x.append 0 0) k w).ttwDef.capacity 0 := by
      rw [h1, h3]; omega
    rw [append_of_not_full _ 0 0 (Or.inl rfl) hroom]
    refine ⟨h1, ?_, ?_, ?_, ?_, fun _ => rfl⟩
    · simp [h2]
    · show (List.set _ 0 _).getD 0 0 = _
      rw [getCapacityUsed_set_zero _ _ (by rw [h2]; exact hlen), h3]
      omega
    · simp only
      rw [length_shiftInsert_zero _ _ _ (by rw [h3, h4]; omega), h4]
    · simp only
      rw [h3, ← Nat.add_assoc, take_shiftInsert_zero _ _ _ (by rw [h4]; omega), h5,
        List.replicate_succ, List.cons_append]

/-- The end of `addPattern` on a window whose granularity 0 holds at most
`currentQuarter` values and has room for `currentQuarter + 1`: zero buckets are
written for the missing quarters, then the support at slot 0. -/
theorem syncAndAppend_spec (w : TiltedTimeWindow) (q : Nat) (s : SupportCount) (u : Nat)
    (hlen : 0 < w.capacityUsed.length) (hbuckets : w.ttwDef.capacity 0 ≤ w.buckets.length)
    (hused : w.getCapacityUsed 0 ≤ q) (hq : q < w.ttwDef.capacity 0)
    (hfold : u = 0 ∨ u ≠ w.lastUpdate) :
    (PatternTree.syncAndAppend q s u w).getCapacityUsed 0 = q + 1 ∧
    (PatternTree.syncAndAppend q s u w).buckets.take (q + 1) =
      s :: (List.replicate (q - w.getCapacityUsed 0) 0 ++ w.buckets.take (w.getCapacityUsed 0)) ∧
    (PatternTree.syncAndAppend q s u w).lastUpdate = u := by
  obtain ⟨h1, h2, h3, h4, h5, h6⟩ := iterate_append_zero w hlen hbuckets
    (q - w.getCapacityUsed 0) (by omega)
  have hsum : w.getCapacityUsed 0 + (q - w.getCapacityUsed 0) = q := by omega
  rw [hsum] at h3 h5
  have hfold1 : u = 0 ∨
      u ≠ (Nat.iterate (fun x => x.append 0 0) (q - w.getCapacityUsed 0) w).lastUpdate := by
    by_cases hk : 0 < q - w.getCapacityUsed 0
    · rw [h6 hk]
      by_cases hu : u = 0
      · exact Or.inl hu
      · exact Or.inr hu
    · have : q - w.getCapacityUsed 0 = 0 := by omega
      rw [this]
      exact hfold
  unfold PatternTree.syncAndAppend
  rw [append_of_not_full _ s u hfold1 (by rw [h1, h3]; exact hq)]
  refine ⟨?_, ?_, rfl⟩
  · show (List.set _ 0 _).getD 0 0 = _
    rw [getCapacityUsed_set_zero _ _ (by rw [h2]; exact hlen), h3]
  · simp only
    rw [h3, take_shiftInsert_zero _ _ _ (by rw [h4]; omega), h5]

end TiltedTimeWindow

namespace PatternTree

theorem built_build (d : TTWDefinition) : (TiltedTimeWindow.build d).Built := by
  simp [TiltedTimeWindow.Built, TiltedTimeWindow.build]

theorem syncAndAppend_of_built (w : TiltedTimeWindow) (q : Nat) (s : SupportCount) (u : Nat)
    (hbuilt : w.Built) (hused : w.getCapacityUsed 0 ≤ q) (hq : q < w.ttwDef.capacity 0)
    (hfold : u = 0 ∨ u ≠ w.lastUpdate) :
    (syncAndAppend q s u w).getCapacityUsed 0 = q + 1 ∧
    (syncAndAppend q s u w).buckets.take (q + 1) =
      s :: (List.replicate (q - w.getCapacityUsed 0) 0 ++ w.buckets.take (w.getCapacityUsed 0)) ∧
    (syncAndAppend q s u w).lastUpdate = u := by
  have hcap := TiltedTimeWindow.capacity_le_numBuckets w.ttwDef
  have hlen : 0 < w.capacityUsed.length := by
    rw [hbuilt.1]
    unfold TTWDefinition.capacity at hq
    unfold TTWDefinition.numGranularities
    cases h : w.ttwDef.bucketCount with
    | nil => simp [h] at hq
    | cons a as => simp
  exact TiltedTimeWindow.syncAndAppend_spec w q s u hlen (by rw [hbuilt.2]; exact hcap)
    hused hq hfold

/-- C5 (as stated, refuted). Three tree states in which the usage of
granularity 0 after `addPattern` is not `currentQuarter + 1`: the pattern
`{1, 2}` added a second time in quarter 0, as in
`TestPatternTree::buildBasicPatternTree` (usage 2); a new pattern added in
quarter 4, beyond the 4 buckets of granularity 0 (the window cascades, usage 1);
and a pattern added again in the next quarter under the update ID of its last
append (the support is folded into slot 0, usage 1). -/
theorem usageAfterAddPattern_ne_currentQuarter_succ :
    (usageAfterAddPattern (emptyDefaultTree.addPattern { itemset := [1, 2], support := 2 } 1)
        { itemset := [1, 2], support := 2 } 2 = some 2 ∧
      usageAfterAddPattern (emptyDefaultTree.addPattern { itemset := [1, 2], support := 2 } 1)
        { itemset := [1, 2], support := 2 } 2 ≠
      some (((emptyDefaultTree.addPattern { itemset := [1, 2], support := 2 } 1).addPattern
        { itemset := [1, 2], support := 2 } 2).currentQuarter + 1)) ∧
    (usageAfterAddPattern emptyDefaultTree.nextQuarter.nextQuarter.nextQuarter.nextQuarter
        { itemset := [1], support := 1 } 1 = some 1 ∧
      usageAfterAddPattern emptyDefaultTree.nextQuarter.nextQuarter.nextQuarter.nextQuarter
        { itemset := [1], support := 1 } 1 ≠
      some ((emptyDefaultTree.nextQuarter.nextQuarter.nextQuarter.nextQuarter.addPattern
        { itemset := [1], support := 1 } 1).currentQuarter + 1)) ∧
    (usageAfterAddPattern
        (emptyDefaultTree.addPattern { itemset := [1], support := 1 } 1).nextQuarter
        { itemset := [1], support := 1 } 1 = some 1 ∧
      usageAfterAddPattern
        (emptyDefaultTree.addPattern { itemset := [1], support := 1 } 1).nextQuarter
        { itemset := [1], support := 1 } 1 ≠
      some (((emptyDefaultTree.addPattern { itemset := [1], support := 1 } 1).nextQuarter.addPattern
        { itemset := [1], support := 1 } 1).currentQuarter + 1)) := by
  decide

/-- C5 (amended). When the window `addPattern` appends to (the window of the
node of the itemset, or a freshly built one when the node is created) is built,
holds at most `currentQuarter` values in granularity 0, `currentQuarter` is
below the capacity of granularity 0, and `updateID` is 0 or differs from the
`lastUpdate` of that window, then after `addPattern` the window of the itemset
has usage `currentQuarter + 1` in granularity 0. -/
theorem usageAfterAddPattern_eq_currentQuarter_succ (t : PatternTree)
    (pattern : FrequentItemset) (updateID : Nat)
    (hbuilt : (t.destinationWindow pattern.itemset).Built)
    (hused : (t.destinationWindow pattern.itemset).getCapacityUsed 0 ≤ t.currentQuarter)
    (hq : t.currentQuarter < (t.destinationWindow pattern.itemset).ttwDef.capacity 0)
    (hfold : updateID = 0 ∨ updateID ≠ (t.destinationWindow pattern.itemset).lastUpdate) :
    usageAfterAddPattern t pattern updateID =
      some ((t.addPattern pattern updateID).currentQuarter + 1) := by
  unfold usageAfterAddPattern
  rw [getPatternSupport_addPattern, Option.map_some',
    (syncAndAppend_of_built _ _ pattern.support updateID hbuilt hused hq hfold).1]
  rfl

/-- Instance of `usageAfterAddPattern_eq_currentQuarter_succ`: the pattern
`{4, 5}` added in the second quarter of
`TestPatternTree::additionsRemainInSync`. -/
theorem usageAfterAddPattern_eq_currentQuarter_succ_witness :
    (secondQuarterTree.destinationWindow [4, 5]).Built ∧
    (secondQuarterTree.destinationWindow [4, 5]).getCapacityUsed 0 ≤
      secondQuarterTree.currentQuarter ∧
    secondQuarterTree.currentQuarter <
      (secondQuarterTree.destinationWindow [4, 5]).ttwDef.capacity 0 ∧
    ((2 : Nat) = 0 ∨ 2 ≠ (secondQuarterTree.destinationWindow [4, 5]).lastUpdate) ∧
    usageAfterAddPattern secondQuarterTree { itemset := [4, 5], support := 2 } 2 =
      some ((secondQuarterTree.addPattern { itemset := [4, 5], support := 2 } 2).currentQuarter
        + 1) :=
  ⟨by decide, by decide, by decide, by decide,
    usageAfterAddPattern_eq_currentQuarter_succ secondQuarterTree
      { itemset := [4, 5], support := 2 } 2 (by decide) (by decide) (by decide) (by decide)⟩

/-- C6. In a tree whose `currentQuarter` is `q` with `0 < q` below the capacity
of granularity 0, `addPattern` of an itemset that has no node yet, with support
`s` and a non-zero update ID, leaves the window of the pattern with
`getBuckets(q + 1) == [s, 0, ..., 0]`: `q` zero buckets are back-filled. -/
theorem getBuckets_addPattern_backfill (t : PatternTree) (itemset : ItemIDList)
    (s : SupportCount) (updateID : Nat)
    (_hq0 : 0 < t.currentQuarter) (hq : t.currentQuarter < t.ttwDef.capacity 0)
    (hnew : t.getPatternSupport itemset = none) (hu : updateID ≠ 0) :
    ((t.addPattern { itemset := itemset, support := s } updateID).getPatternSupport itemset).map
        (fun w => w.getBuckets (t.currentQuarter + 1)) =
      some (s :: List.replicate t.currentQuarter 0) := by
  have hdest : t.destinationWindow itemset = TiltedTimeWindow.build t.ttwDef := by
    simp [destinationWindow, hnew]
  have hused : (TiltedTimeWindow.build t.ttwDef).getCapacityUsed 0 = 0 := by
    unfold TiltedTimeWindow.getCapacityUsed TiltedTimeWindow.build
    cases t.ttwDef.numGranularities <;> simp [List.replicate]
  have h := (syncAndAppend_of_built (TiltedTimeWindow.build t.ttwDef) t.currentQuarter s updateID
    (built_build t.ttwDef) (by rw [hused]; exact Nat.zero_le _) hq (Or.inr hu)).2.1
  rw [hused] at h
  have hlook := getPatternSupport_addPattern t { itemset := itemset, support := s } updateID
  simp only [hdest] at hlook
  rw [hlook, Option.map_some', TiltedTimeWindow.getBuckets, h]
  simp

/-- Instance of `getBuckets_addPattern_backfill`: the scenario of
`TestPatternTree::additionsRemainInSync`, where `{4, 5}` is added with support 2
in the second quarter and `getBuckets(2)` is `[2, 0]`. -/
theorem getBuckets_addPattern_backfill_witness :
    0 < secondQuarterTree.currentQuarter ∧
    secondQuarterTree.currentQuarter < secondQuarterTree.ttwDef.capacity 0 ∧
    secondQuarterTree.getPatternSupport [4, 5] = none ∧ (2 : Nat) ≠ 0 ∧
    ((secondQuarterTree.addPattern { itemset := [4, 5], support := 2 } 2).getPatternSupport
        [4, 5]).map (fun w => w.getBuckets (secondQuarterTree.currentQuarter + 1)) =
      some (2 :: List.replicate secondQuarterTree.currentQuarter 0) :=
  ⟨by decide, by decide, by decide, by decide,
    getBuckets_addPattern_backfill secondQuarterTree [4, 5] 2 2 (by decide) (by decide)
      (by decide) (by decide)⟩

/-- Instance of `getPatternForNode_getPatternSupport_addPattern`: the pattern
`{1, 2, 3}` added to the empty tree. -/
theorem getPatternForNode_getPatternSupport_addPattern_witness :
    emptyDefaultTree.root.getItemID = ROOT_ITEMID ∧ ([1, 2, 3] : ItemIDList) ≠ [] ∧
    ROOT_ITEMID ∉ ([1, 2, 3] : ItemIDList) ∧
    ∃ n above,
      FPNode.findNodeChain [1, 2, 3]
        (emptyDefaultTree.addPattern { itemset := [1, 2, 3], support := 1 } 1).root [] =
        some (n :: above) ∧
      (emptyDefaultTree.addPattern { itemset := [1, 2, 3], support := 1 } 1).getPatternSupport
        [1, 2, 3] = some n.getValue ∧
      getPatternForNode (n :: above) [] = some [1, 2, 3] :=
  ⟨by decide, by decide, by decide,
    (getPatternForNode_getPatternSupport_addPattern emptyDefaultTree
      { itemset := [1, 2, 3], support := 1 } 1 (by decide) (by decide) (by decide)).1⟩

end PatternTree

namespace TTWDefinition

theorem digitValue_ofNat (k : Nat) (hk : k < 10) : digitValue (Char.ofNat (48 + k)) = some k := by
  interval_cases k <;> rfl

theorem ofNat_ne_colon (k : Nat) (hk : k < 10) : (Char.ofNat (48 + k) != ':') = true := by
  interval_cases k <;> rfl

theorem readDigits_decimalDigits (fuel : Nat) :
    ∀ (n : Nat) (acc : List Char), n < fuel →
      readDigits (decimalDigits fuel n acc) 0 = readDigits acc n := by
  induction fuel with
  | zero => intro n acc h; omega
  | succ fuel ih =>
    intro n acc h
    rw [decimalDigits]
    by_cases hn : n / 10 = 0
    · have hlt : n < 10 := by omega
      have hmod : n % 10 = n := Nat.mod_eq_of_lt hlt
      simp only [hn, if_true, readDigits, hmod, digitValue_ofNat n hlt]
      simp
    · simp only [hn, if_false]
      rw [ih (n / 10) _ (by omega), readDigits, digitValue_ofNat (n % 10) (Nat.mod_lt _ (by decide))]
      simp only
      rw [Nat.mul_comm, Nat.div_add_mod]

theorem decimalDigits_all (fuel : Nat) :
    ∀ (n : Nat) (acc : List Char), (∀ c ∈ acc, (c != ':') = true) →
      ∀ c ∈ decimalDigits fuel n acc, (c != ':') = true := by
  induction fuel with
  | zero => intro n acc h; simpa [decimalDigits] using h
  | succ fuel ih =>
    intro n acc h
    have hacc1 : ∀ c ∈ Char.ofNat (48 + n % 10) :: acc, (c != ':') = true := by
      intro c hc
      rcases List.mem_cons.mp hc with rfl | hc
      · exact ofNat_ne_colon _ (Nat.mod_lt _ (by decide))
      · exact h c hc
    rw [decimalDigits]
    by_cases hn : n / 10 = 0
    · simpa only [hn, if_true] using hacc1
    · simpa only [hn, if_false] using ih (n / 10) _ hacc1

theorem decimalDigits_ne_nil (fuel : Nat) :
    ∀ (n : Nat) (acc : List Char), acc ≠ [] → decimalDigits fuel n acc ≠ [] := by
  induction fuel with
  | zero => intro n acc h; simpa [decimalDigits] using h
  | succ fuel ih =>
    intro n acc _
    rw [decimalDigits]
    by_cases hn : n / 10 = 0
    · simp [hn]
    · simp only [hn, if_false]
      exact ih _ _ (by simp)

theorem natToDecimal_ne_nil (n : Nat) : natToDecimal n ≠ [] := by
  unfold natToDecimal
  rw [decimalDigits]
  by_cases hn : n / 10 = 0
  · simp [hn]
  · simp only [hn, if_false]
    exact decimalDigits_ne_nil _ _ _ (by simp)

theorem decimalToUint_natToDecimal (n : Nat) (h : n < UINT_MODULUS) :
    decimalToUint (natToDecimal n) = some n := by
  have h1 : readDigits (natToDecimal n) 0 = some n := by
    unfold natToDecimal
    rw [readDigits_decimalDigits (n + 1) n [] (by omega), readDigits]
  have h2 := natToDecimal_ne_nil n
  unfold decimalToUint
  cases hd : natToDecimal n with
  | nil => exact absurd hd h2
  | cons a as =>
    rw [hd] at h1
    simp [h1, h]

theorem takeWhile_colon (ds tags : List Char) (h : ∀ c ∈ ds, (c != ':') = true) :
    (ds ++ ':' :: tags).takeWhile (fun c => c != ':') = ds ∧
    (ds ++ ':' :: tags).dropWhile (fun c => c != ':') = ':' :: tags := by
  induction ds with
  | nil => simp [List.takeWhile, List.dropWhile]
  | cons d ds ih =>
    have hd := h d (List.mem_cons_self _ _)
    have := ih (fun c hc => h c (List.mem_cons_of_mem _ hc))
    rw [List.cons_append, List.takeWhile_cons, List.dropWhile_cons, if_pos hd, if_pos hd,
      this.1, this.2]
    exact ⟨rfl, rfl⟩

theorem runs_replicate_append (c : Char) (n : Nat) (rest : List Char)
    (h : ∀ p ∈ (runs rest).head?, p.1 ≠ c) :
    runs (List.replicate (n + 1) c ++ rest) = (c, n + 1) :: runs rest := by
  induction n with
  | zero =>
    simp only [List.replicate, List.cons_append, List.nil_append, Nat.zero_add]
    rw [runs]
    cases hr : runs rest with
    | nil => rfl
    | cons p ps =>
      obtain ⟨c1, m⟩ := p
      have : c1 ≠ c := h (c1, m) (by simp [hr])
      simp [Ne.symm this]
  | succ n ih =>
    rw [List.replicate_succ, List.cons_append, runs, ih]
    simp

theorem runs_flatMap (ps : List (Char × Nat)) (hpos : ∀ p ∈ ps, 1 ≤ p.2)
    (hnodup : (ps.map Prod.fst).Nodup) :
    runs (ps.flatMap (fun p => List.replicate p.2 p.1)) = ps := by
  induction ps with
  | nil => simp [runs]
  | cons p ps ih =>
    obtain ⟨c, n⟩ := p
    have hn : 1 ≤ n := hpos (c, n) (List.mem_cons_self _ _)
    obtain ⟨k, rfl⟩ : ∃ k, n = k + 1 := ⟨n - 1, by omega⟩
    rw [List.map_cons, List.nodup_cons] at hnodup
    have ih1 := ih (fun q hq => hpos q (List.mem_cons_of_mem _ hq)) hnodup.2
    rw [List.flatMap_cons, runs_replicate_append, ih1]
    intro q hq
    rw [ih1] at hq
    intro hqc
    apply hnodup.1
    have hmem : q ∈ ps := List.mem_of_mem_head? hq
    rw [← hqc]
    exact List.mem_map_of_mem _ hmem

/-- The round-trip law of the definition: a valid definition is read back from
its serialized form. -/
theorem deserialize_serialize (d : TTWDefinition) (h : d.Valid) :
    deserialize d.serialize = some d := by
  obtain ⟨hne, hpos, hlen, hnodup, hsec⟩ := h
  have hfst : (List.zip d.granularityChar d.bucketCount).map Prod.fst = d.granularityChar := by
    rw [← List.unzip_fst, List.unzip_zip hlen]
  have hsnd : (List.zip d.granularityChar d.bucketCount).map Prod.snd = d.bucketCount := by
    rw [← List.unzip_snd, List.unzip_zip hlen]
  have hruns := runs_flatMap (List.zip d.granularityChar d.bucketCount)
    (fun p hp => hpos p.2 (by rw [← hsnd]; exact List.mem_map_of_mem _ hp))
    (by rw [hfst]; exact hnodup)
  have hdigits : ∀ c ∈ natToDecimal d.secPerWindow, (c != ':') = true :=
    decimalDigits_all _ _ [] (by simp)
  obtain ⟨htake, hdrop⟩ := takeWhile_colon (natToDecimal d.secPerWindow)
    ((List.zip d.granularityChar d.bucketCount).flatMap (fun p => List.replicate p.2 p.1)) hdigits
  have hzip : List.zip d.granularityChar d.bucketCount ≠ [] := by
    intro hz
    rw [hz] at hsnd
    exact hne hsnd.symm
  unfold deserialize serialize
  simp only [htake, hdrop, decimalToUint_natToDecimal _ hsec, hruns, hzip, if_false, hfst, hsnd,
    hnodup, if_true]

end TTWDefinition

namespace TiltedTimeWindow

theorem ttwDef_store (fuel : Nat) :
    ∀ (g : Granularity) (s : SupportCount) (w : TiltedTimeWindow),
      (store fuel g s w).ttwDef = w.ttwDef := by
  induction fuel with
  | zero => intro g s w; rfl
  | succ fuel ih =>
    intro g s w
    rw [store]
    simp only
    split
    · rfl
    · split
      · simp only [ih]
      · rfl

theorem ttwDef_append (w : TiltedTimeWindow) (s : SupportCount) (u : Nat) :
    (w.append s u).ttwDef = w.ttwDef := by
  unfold append
  split
  · cases w.buckets <;> rfl
  · exact ttwDef_store _ _ _ _

theorem ttwDef_iterate_append (k : Nat) (w : TiltedTimeWindow) :
    (Nat.iterate (fun x => x.append 0 0) k w).ttwDef = w.ttwDef := by
  induction k with
  | zero => rfl
  | succ k ih => rw [Function.iterate_succ_apply', ttwDef_append, ih]

theorem ttwDef_syncAndAppend (q : Nat) (s : SupportCount) (u : Nat) (w : TiltedTimeWindow) :
    (PatternTree.syncAndAppend q s u w).ttwDef = w.ttwDef := by
  unfold PatternTree.syncAndAppend
  rw [ttwDef_append, ttwDef_iterate_append]

/-- The round-trip law of the window: `fromVariantMap` applied to a window of
the same definition restores the serialized window. -/
theorem fromVariantMap_toVariantMap (w w1 : TiltedTimeWindow) (h : w1.ttwDef = w.ttwDef) :
    w1.fromVariantMap w.toVariantMap = w := by
  cases w
  cases w1
  simp only [fromVariantMap, toVariantMap] at h ⊢
  simp [h]

end TiltedTimeWindow

namespace FPNode

variable {T : Type}

theorem replaceChild_append_new (x : ItemID) (new n1 : FPNode T) (cs : List (FPNode T))
    (h : cs.find? (fun c => c.getItemID == x) = none) (hnew : new.getItemID = x) :
    replaceChild x n1 (cs ++ [new]) = cs ++ [n1] := by
  induction cs with
  | nil => simp [replaceChild, hnew]
  | cons a as ih =>
    by_cases ha : (a.getItemID == x) = true
    · simp [List.find?_cons, ha] at h
    · simp only [List.find?_cons, ha] at h
      rw [List.cons_append, replaceChild, if_neg ha, ih h, List.cons_append]

theorem replaceChild_replaceChild (x : ItemID) (a b : FPNode T) (cs : List (FPNode T))
    (hb : b.getItemID = x) :
    replaceChild x a (replaceChild x b cs) = replaceChild x a cs := by
  induction cs with
  | nil => rfl
  | cons c cs ih =>
    by_cases hc : (c.getItemID == x) = true
    · simp [replaceChild, hc, hb]
    · simp only [replaceChild, hc, Bool.false_eq_true, if_false, ih]

theorem getItemID_addChild (c n : FPNode T) : (addChild c n).getItemID = n.getItemID := by
  cases n; rfl

theorem getItemID_graft (c : FPNode T) (path : ItemIDList) (n : FPNode T) :
    (graft c path n).getItemID = n.getItemID := by
  cases n with
  | mk i v cs =>
    cases path with
    | nil => rfl
    | cons x rest =>
      rw [graft]
      cases (mk i v cs).getChild x <;> rfl

theorem findNode_snoc (path : ItemIDList) (x : ItemID) :
    ∀ (n : FPNode T), findNode (path ++ [x]) n = (findNode path n).bind (fun p => p.getChild x) := by
  induction path with
  | nil =>
    intro n
    simp only [List.nil_append, findNode, Option.some_bind]
    cases n.getChild x <;> rfl
  | cons y rest ih =>
    intro n
    simp only [List.cons_append, findNode]
    cases n.getChild y with
    | none => rfl
    | some c => exact ih c

theorem findNode_graft (c : FPNode T) (path : ItemIDList) :
    ∀ (root p : FPNode T), findNode path root = some p →
      findNode path (graft c path root) = some (addChild c p) := by
  induction path with
  | nil =>
    intro root p h
    simp only [findNode, Option.some.injEq] at h
    subst h
    rfl
  | cons x rest ih =>
    intro root p h
    cases root with
    | mk i v cs =>
      rw [findNode] at h
      cases hc : (mk i v cs).getChild x with
      | none => simp [hc] at h
      | some ch =>
        simp only [hc] at h
        have hc1 : cs.find? (fun c => c.getItemID == x) = some ch := by
          rw [← getChild_mk i v cs x]; exact hc
        have hfind : (mk i v (replaceChild x (graft c rest ch) cs)).getChild x
            = some (graft c rest ch) := by
          rw [getChild_mk]
          exact find_replaceChild x _ ch cs hc1
            (by rw [getItemID_graft]; exact getItemID_of_find x ch cs hc1)
        simp only [graft, hc, findNode, hfind]
        exact ih ch p h

theorem getChild_addChild_self (c p : FPNode T) (h : p.getChild c.getItemID = none) :
    (addChild c p).getChild c.getItemID = some c := by
  cases p with
  | mk i v cs =>
    rw [getChild_mk] at h
    simp only [addChild, getChild_mk]
    exact find_append_new _ c cs h rfl

theorem getChild_addChild_ne (c p : FPNode T) (x : ItemID) (h : p.getChild x = none)
    (hx : c.getItemID ≠ x) : (addChild c p).getChild x = none := by
  cases p with
  | mk i v cs =>
    rw [getChild_mk] at h
    have hb : (c.getItemID == x) = false := by simp [hx]
    simp [addChild, getChild_mk, List.find?_append, h, List.find?_cons, hb]

/-- Attaching a node below a node that was just attached is attaching the latter
with one more child. -/
theorem graft_snoc_graft (c1 n : FPNode T) (path : ItemIDList) :
    ∀ (root p : FPNode T), findNode path root = some p → p.getChild n.getItemID = none →
      graft c1 (path ++ [n.getItemID]) (graft n path root) = graft (addChild c1 n) path root := by
  induction path with
  | nil =>
    intro root p h hp
    simp only [findNode, Option.some.injEq] at h
    subst h
    cases root with
    | mk i v cs =>
      rw [getChild_mk] at hp
      have hfind : (mk i v (cs ++ [n])).getChild n.getItemID = some n := by
        rw [getChild_mk]; exact find_append_new _ n cs hp rfl
      simp only [List.nil_append, graft, addChild, hfind]
      rw [replaceChild_append_new _ n _ cs hp rfl]
  | cons x rest ih =>
    intro root p h hp
    cases root with
    | mk i v cs =>
      rw [findNode] at h
      cases hc : (mk i v cs).getChild x with
      | none => simp [hc] at h
      | some ch =>
        simp only [hc] at h
        have hc1 : cs.find? (fun c => c.getItemID == x) = some ch := by
          rw [← getChild_mk i v cs x]; exact hc
        have hid : (graft n rest ch).getItemID = x := by
          rw [getItemID_graft]; exact getItemID_of_find x ch cs hc1
        have hfind : (mk i v (replaceChild x (graft n rest ch) cs)).getChild x
            = some (graft n rest ch) := by
          rw [getChild_mk]
          exact find_replaceChild x _ ch cs hc1 hid
        simp only [List.cons_append, graft, hc, hfind]
        rw [replaceChild_replaceChild x _ _ cs hid, ih ch p h hp]

theorem foldl_graft_snoc (i : ItemID) (v : T) (path : ItemIDList) (root p : FPNode T)
    (h : findNode path root = some p) (hp : p.getChild i = none) :
    ∀ (cs pre : List (FPNode T)),
      cs.foldl (fun r c => graft c (path ++ [i]) r) (graft (mk i v pre) path root) =
        graft (mk i v (pre ++ cs)) path root := by
  intro cs
  induction cs with
  | nil => intro pre; simp
  | cons c cs ih =>
    intro pre
    rw [List.foldl_cons]
    have := graft_snoc_graft c (mk i v pre) path root p h hp
    simp only [getItemID, addChild] at this
    rw [this, ih (pre ++ [c])]
    simp

theorem foldl_graft_nil (i : ItemID) (v : T) :
    ∀ (cs pre : List (FPNode T)),
      cs.foldl (fun r c => graft c [] r) (mk i v pre) = mk i v (pre ++ cs) := by
  intro cs
  induction cs with
  | nil => intro pre; simp
  | cons c cs ih =>
    intro pre
    have hg : graft c [] (mk i v pre) = mk i v (pre ++ [c]) := rfl
    rw [List.foldl_cons, hg, ih (pre ++ [c])]
    simp

/-- Storing a pattern whose parent has a node and which has none itself, then
writing through the pointer found for it, attaches one new node below the
parent. -/
theorem modifyValueAt_addPath_new (fresh : T) (f g : T → T) (i : ItemID) (path : ItemIDList) :
    ∀ (root p : FPNode T) (k : Nat), findNode path root = some p → p.getChild i = none →
      modifyValueAt g (path ++ [i]) (addPath fresh f (path ++ [i]) root k).1 =
        graft (mk i (g (f fresh)) []) path root ∧
      (addPath fresh f (path ++ [i]) root k).2 = k + 1 := by
  induction path with
  | nil =>
    intro root p k h hp
    simp only [findNode, Option.some.injEq] at h
    subst h
    cases root with
    | mk j v cs =>
      have hp1 := hp
      rw [getChild_mk] at hp1
      have hfind : (mk j v (cs ++ [mk i (f fresh) []])).getChild i = some (mk i (f fresh) []) := by
        rw [getChild_mk]; exact find_append_new _ _ cs hp1 rfl
      have hadd : addPath fresh f [i] (mk j v cs) k = (mk j v (cs ++ [mk i (f fresh) []]), k + 1) := by
        simp only [addPath, hp]
      rw [List.nil_append, hadd]
      refine ⟨?_, rfl⟩
      show modifyValueAt g [i] (mk j v (cs ++ [mk i (f fresh) []])) =
        mk j v (cs ++ [mk i (g (f fresh)) []])
      rw [modifyValueAt]
      simp only [hfind]
      rw [replaceChild_append_new i (mk i (f fresh) []) _ cs hp1 rfl]
      rfl
  | cons x rest ih =>
    intro root p k h hp
    cases root with
    | mk j v cs =>
      rw [findNode] at h
      cases hc : (mk j v cs).getChild x with
      | none => simp [hc] at h
      | some ch =>
        simp only [hc] at h
        obtain ⟨h1, h2⟩ := ih ch p k h hp
        have hc1 : cs.find? (fun c => c.getItemID == x) = some ch := by
          rw [← getChild_mk j v cs x]; exact hc
        have hid : (addPath fresh f (rest ++ [i]) ch k).1.getItemID = x := by
          rw [getItemID_addPath]; exact getItemID_of_find x ch cs hc1
        have hfind : (mk j v (replaceChild x (addPath fresh f (rest ++ [i]) ch k).1 cs)).getChild x
            = some (addPath fresh f (rest ++ [i]) ch k).1 := by
          rw [getChild_mk]
          exact find_replaceChild x _ ch cs hc1 hid
        have hadd : addPath fresh f (x :: (rest ++ [i])) (mk j v cs) k =
            (mk j v (replaceChild x (addPath fresh f (rest ++ [i]) ch k).1 cs),
             (addPath fresh f (rest ++ [i]) ch k).2) := by
          simp only [addPath, hc]
        rw [List.cons_append, hadd]
        refine ⟨?_, h2⟩
        show modifyValueAt g (x :: (rest ++ [i]))
            (mk j v (replaceChild x (addPath fresh f (rest ++ [i]) ch k).1 cs)) = _
        rw [modifyValueAt]
        simp only [hfind]
        rw [replaceChild_replaceChild x _ _ cs hid, h1, graft]
        simp only [hc]

end FPNode

namespace PatternTree

theorem loadableList_iff (names : ItemID → ItemName) (ids : ItemName → ItemID)
    (d : TTWDefinition) (cs : List (FPNode TiltedTimeWindow)) :
    loadableList names ids d cs = true ↔ ∀ c ∈ cs, loadableNode names ids d c = true := by
  induction cs with
  | nil => simp [loadableList]
  | cons c cs ih => simp [loadableList, ih]

theorem loadableNode_mk (names : ItemID → ItemName) (ids : ItemName → ItemID)
    (d : TTWDefinition) (i : ItemID) (v : TiltedTimeWindow) (cs : List (FPNode TiltedTimeWindow))
    (h : loadableNode names ids d (FPNode.mk i v cs) = true) :
    i ≠ ROOT_ITEMID ∧ ids (names i) = i ∧ v.ttwDef = d ∧ (cs.map FPNode.getItemID).Nodup ∧
      loadableList names ids d cs = true := by
  simpa [loadableNode, and_assoc] using h

/-- One iteration of the loading loop on the line written for a node whose
parent is in the tree and which is not: the node is attached below its parent
with the serialized window, and `nodeCount` grows by one. -/
theorem loadPatternLine_new (t : PatternTree) (names : ItemID → ItemName)
    (ids : ItemName → ItemID) (updateID : Nat) (path : ItemIDList) (i : ItemID)
    (w : TiltedTimeWindow) (p : FPNode TiltedTimeWindow) (hdef : w.ttwDef = t.ttwDef)
    (hnames : ((path ++ [i]).map names).map ids = path ++ [i])
    (hfind : FPNode.findNode path t.root = some p) (hchild : p.getChild i = none) :
    loadPatternLine ids updateID t (patternLine ((path ++ [i]).map names) w) =
      { t with root := FPNode.graft (FPNode.mk i w []) path t.root,
               nodeCount := t.nodeCount + 1 } := by
  obtain ⟨h1, h2⟩ := FPNode.modifyValueAt_addPath_new (TiltedTimeWindow.build t.ttwDef)
    (syncAndAppend t.currentQuarter FrequentItemset.default.support updateID)
    (fun x => x.fromVariantMap w.toVariantMap) i path t.root p t.nodeCount hfind hchild
  have hw : (syncAndAppend t.currentQuarter FrequentItemset.default.support updateID
      (TiltedTimeWindow.build t.ttwDef)).fromVariantMap w.toVariantMap = w :=
    TiltedTimeWindow.fromVariantMap_toVariantMap w _
      (by rw [TiltedTimeWindow.ttwDef_syncAndAppend, hdef]; rfl)
  simp only [hw] at h1
  simp only [loadPatternLine, patternLine, hnames, addPattern, h1, h2]

theorem loadForest (names : ItemID → ItemName) (ids : ItemName → ItemID) (updateID : Nat)
    (d : TTWDefinition) (cs : List (FPNode TiltedTimeWindow))
    (hP : ∀ c ∈ cs, NodeLoads names ids updateID d c)
    (hload : loadableList names ids d cs = true) (hnodup : (cs.map FPNode.getItemID).Nodup) :
    ∀ (t : PatternTree) (path : ItemIDList) (p : FPNode TiltedTimeWindow),
      t.ttwDef = d → (path.map names).map ids = path →
      FPNode.findNode path t.root = some p → (∀ c ∈ cs, p.getChild c.getItemID = none) →
      (recursiveSerializerChildren names cs (path.map names)).foldl
          (loadPatternLine ids updateID) t =
        { t with root := cs.foldl (fun r c => FPNode.graft c path r) t.root,
                 nodeCount := t.nodeCount + FPNode.sizeList cs } := by
  induction cs with
  | nil =>
    intro t path p _ _ _ _
    simp [recursiveSerializerChildren, FPNode.sizeList_nil]
  | cons c cs ih =>
    intro t path p hd hnames hfind hnone
    rw [loadableList_iff] at hload
    rw [List.map_cons, List.nodup_cons] at hnodup
    have hc := hP c (List.mem_cons_self _ _) (hload c (List.mem_cons_self _ _)) t path p hd hnames
      hfind (hnone c (List.mem_cons_self _ _))
    rw [recursiveSerializerChildren, List.foldl_append, hc]
    have hrest := ih (fun x hx => hP x (List.mem_cons_of_mem _ hx))
      ((loadableList_iff names ids d cs).mpr (fun x hx => hload x (List.mem_cons_of_mem _ hx)))
      hnodup.2
      { t with root := FPNode.graft c path t.root, nodeCount := t.nodeCount + FPNode.size c }
      path (FPNode.addChild c p) hd hnames (FPNode.findNode_graft c path t.root p hfind)
      (by
        intro x hx
        apply FPNode.getChild_addChild_ne c p _ (hnone x (List.mem_cons_of_mem _ hx))
        intro heq
        apply hnodup.1
        rw [heq]
        exact List.mem_map_of_mem _ hx)
    rw [hrest]
    simp [FPNode.sizeList_cons, Nat.add_assoc]

theorem nodeLoads (names : ItemID → ItemName) (ids : ItemName → ItemID) (updateID : Nat)
    (d : TTWDefinition) (c : FPNode TiltedTimeWindow) : NodeLoads names ids updateID d c := by
  induction c using FPNode.induct with
  | h i v cs ih =>
    intro hl t path p hd hnames hfind hchild
    obtain ⟨hi, hid, hv, hnodup, hcs⟩ := loadableNode_mk names ids d i v cs hl
    have hnames1 : ((path ++ [i]).map names).map ids = path ++ [i] := by
      simp only [List.map_append, List.map_cons, List.map_nil, hnames, hid]
    have hline := loadPatternLine_new t names ids updateID path i v p (by rw [hv, hd]) hnames1
      hfind hchild
    have hpn : path.map names ++ [names i] = (path ++ [i]).map names := by simp
    have hfind1 : FPNode.findNode (path ++ [i])
        (FPNode.graft (FPNode.mk i v []) path t.root) = some (FPNode.mk i v []) := by
      rw [FPNode.findNode_snoc, FPNode.findNode_graft _ path t.root p hfind, Option.some_bind]
      exact FPNode.getChild_addChild_self (FPNode.mk i v []) p hchild
    have hforest := loadForest names ids updateID d cs ih hcs hnodup
      { t with root := FPNode.graft (FPNode.mk i v []) path t.root,
               nodeCount := t.nodeCount + 1 }
      (path ++ [i]) (FPNode.mk i v []) hd hnames1 hfind1
      (by intro x _; rfl)
    rw [recursiveSerializer, if_pos hi, List.foldl_cons, hpn, hline, hforest]
    simp only [FPNode.getItemID] at hchild
    rw [FPNode.foldl_graft_snoc i v path t.root p hfind hchild cs []]
    simp [FPNode.size_mk, Nat.add_assoc]


theorem intToUint_uintToInt (n : Nat) (h : n < UINT_MODULUS) : intToUint (uintToInt n) = n := by
  unfold UINT_MODULUS at h
  unfold intToUint uintToInt UINT_MODULUS
  split <;> omega

theorem findNode_congr_children {T : Type} (itemset : ItemIDList) (n1 n2 : FPNode T)
    (hne : itemset ≠ []) (h : n1.getChildren = n2.getChildren) :
    FPNode.findNode itemset n1 = FPNode.findNode itemset n2 := by
  cases itemset with
  | nil => exact absurd rfl hne
  | cons x rest =>
    cases n1 with
    | mk i1 v1 cs1 =>
      cases n2 with
      | mk i2 v2 cs2 =>
        simp only [FPNode.getChildren] at h
        subst h
        simp only [FPNode.findNode, FPNode.getChild_mk]

theorem getChildren_mk {T : Type} (i : ItemID) (v : T) (cs : List (FPNode T)) :
    (FPNode.mk i v cs).getChildren = cs := rfl

theorem getItemID_mk {T : Type} (i : ItemID) (v : T) (cs : List (FPNode T)) :
    (FPNode.mk i v cs).getItemID = i := rfl

theorem recursiveSerializer_root (names : ItemID → ItemName) (n : FPNode TiltedTimeWindow)
    (h : n.getItemID = ROOT_ITEMID) :
    recursiveSerializer names n [] = recursiveSerializerChildren names n.getChildren [] := by
  cases n with
  | mk i v cs =>
    simp only [FPNode.getItemID] at h
    rw [recursiveSerializer]
    simp [h, FPNode.getChildren]

/-- Loading the output of `serialize` into a new tree succeeds and rebuilds the
definition, the quarter and all nodes below the root; the window of the root is
freshly built. -/
theorem deserialize_serialize_eq (t : PatternTree) (names : ItemID → ItemName)
    (ids : ItemName → ItemID) (updateID : Nat) (h : t.Loadable names ids) :
    PatternTree.new.deserialize (t.serialize names).2 ids updateID =
      (true, { root := FPNode.mk ROOT_ITEMID (TiltedTimeWindow.build t.ttwDef) t.root.getChildren,
               ttwDef := t.ttwDef, nodeCount := t.nonRootCount,
               currentQuarter := t.currentQuarter }) := by
  obtain ⟨hroot, hnodup, hload, hvalid, hq⟩ := h
  have hforest := loadForest names ids updateID t.ttwDef t.root.getChildren
    (fun c _ => nodeLoads names ids updateID t.ttwDef c) hload hnodup
    { root := FPNode.mk ROOT_ITEMID (TiltedTimeWindow.build t.ttwDef) [],
      ttwDef := t.ttwDef, nodeCount := 0, currentQuarter := 0 }
    [] (FPNode.mk ROOT_ITEMID (TiltedTimeWindow.build t.ttwDef) []) rfl rfl rfl
    (by intro c _; rfl)
  simp only [List.map_nil] at hforest
  rw [FPNode.foldl_graft_nil] at hforest
  simp only [serialize, deserialize, metadataLine, recursiveSerializer_root names t.root hroot,
    TTWDefinition.deserialize_serialize t.ttwDef hvalid, intToUint_uintToInt _ hq,
    PatternTree.new, getItemID_mk, getChildren_mk, hforest]
  simp [nonRootCount]

/-- C8. For a tree whose items are mapped one-to-one by the two tables, without
ROOT item below the root, and whose `nodeCount` is its number of non-root
nodes: serializing it and deserializing the output into a new tree succeeds and
yields a tree with the same `nodeCount`, the same `currentQuarter` and, for
every pattern (non-empty itemset) present before, a tilted time window equal to
the original one. -/
theorem deserialize_serialize_roundtrip (t : PatternTree) (names : ItemID → ItemName)
    (ids : ItemName → ItemID) (updateID : Nat) (h : t.Loadable names ids)
    (hcount : t.nodeCount = t.nonRootCount) :
    (PatternTree.new.deserialize (t.serialize names).2 ids updateID).1 = true ∧
    (PatternTree.new.deserialize (t.serialize names).2 ids updateID).2.nodeCount = t.nodeCount ∧
    (PatternTree.new.deserialize (t.serialize names).2 ids updateID).2.currentQuarter =
      t.currentQuarter ∧
    ∀ (itemset : ItemIDList) (w : TiltedTimeWindow), itemset ≠ [] →
      t.getPatternSupport itemset = some w →
      (PatternTree.new.deserialize (t.serialize names).2 ids updateID).2.getPatternSupport
        itemset = some w := by
  rw [deserialize_serialize_eq t names ids updateID h]
  refine ⟨rfl, hcount.symm, rfl, ?_⟩
  intro itemset w hne hw
  simp only [getPatternSupport, FPNode.findNodeByPattern] at hw ⊢
  rw [findNode_congr_children itemset _ t.root hne (by rfl)]
  exact hw

/-- Instance of `deserialize_serialize_roundtrip`: the tree of
`TestPatternTree::buildBasicPatternTree` with the names `a` to `d` for the items
1 to 4. -/
theorem deserialize_serialize_roundtrip_witness :
    buildBasicPatternTree.Loadable exampleNames exampleIDs ∧
    buildBasicPatternTree.nodeCount = buildBasicPatternTree.nonRootCount ∧
    (PatternTree.new.deserialize (buildBasicPatternTree.serialize exampleNames).2 exampleIDs
      7).2.nodeCount = buildBasicPatternTree.nodeCount :=
  ⟨by decide, by decide,
    (deserialize_serialize_roundtrip buildBasicPatternTree exampleNames exampleIDs 7
      (by decide) (by decide)).2.1⟩

/-- C9. For a tree with one-to-one item naming, serializing, deserializing the
output into a new tree and serializing again produces the same lines in the
same order as the first serialization. -/
theorem serialize_deserialize_serialize (t : PatternTree) (names : ItemID → ItemName)
    (ids : ItemName → ItemID) (updateID : Nat) (h : t.Loadable names ids) :
    (PatternTree.new.deserialize (t.serialize names).2 ids updateID).2.serialize names =
      t.serialize names := by
  rw [deserialize_serialize_eq t names ids updateID h]
  simp only [serialize, metadataLine, recursiveSerializer_root names t.root h.1]
  rw [recursiveSerializer_root names _ (by rfl)]
  rfl

/-- Instance of `serialize_deserialize_serialize`: the tree of
`TestPatternTree::buildBasicPatternTree` with the names `a` to `d` for the items
1 to 4. -/
theorem serialize_deserialize_serialize_witness :
    buildBasicPatternTree.Loadable exampleNames exampleIDs ∧
    (PatternTree.new.deserialize (buildBasicPatternTree.serialize exampleNames).2 exampleIDs
      7).2.serialize exampleNames = buildBasicPatternTree.serialize exampleNames :=
  ⟨by decide,
    serialize_deserialize_serialize buildBasicPatternTree exampleNames exampleIDs 7 (by decide)⟩


theorem deserialize_of_unsupported_version (t : PatternTree) (json : JSONLine)
    (rest : List JSONLine) (ids : ItemName → ItemID) (updateID : Nat)
    (h1 : json.v ≠ 1) (h2 : json.v ≠ 2) :
    t.deserialize (json :: rest) ids updateID = (true, t) := by
  simp [deserialize, h1, h2]

/-- C10 (the code at the failing input). A metadata line with version 3 makes
`deserialize` return `true`, whatever follows it, leaving `currentQuarter` and
`nodeCount` as they were; a version 2 line with an invalid definition string
makes it return `false`. -/
theorem deserialize_unsupported_version_returns_true :
    (emptyDefaultTree.deserialize
      [unsupportedVersionLine, patternLine ["a"] (TiltedTimeWindow.build TTWDefinition.default)]
      exampleIDs 1).1 = true ∧
    (emptyDefaultTree.deserialize
      [unsupportedVersionLine, patternLine ["a"] (TiltedTimeWindow.build TTWDefinition.default)]
      exampleIDs 1).2.currentQuarter = 0 ∧
    (emptyDefaultTree.deserialize
      [unsupportedVersionLine, patternLine ["a"] (TiltedTimeWindow.build TTWDefinition.default)]
      exampleIDs 1).2.nodeCount = 0 ∧
    (emptyDefaultTree.deserialize [invalidDefinitionLine] exampleIDs 1).1 = false := by
  decide

end PatternTree

namespace TiltedTimeWindow

/-- C13 (as stated, refuted). A freshly built window has `lastUpdate` 0, and
`append(5, 0)` on it does not fold: the usage of granularity 0 goes from 0 to 1
and slot 0 holds 5 (the quarter synchronisation of `addPattern` relies on it,
and `TestPatternTree::additionsRemainInSync` checks it). -/
theorem append_zero_updateID_advances :
    (build TTWDefinition.default).lastUpdate = 0 ∧
    (build TTWDefinition.default).getCapacityUsed 0 = 0 ∧
    ((build TTWDefinition.default).append 5 0).getCapacityUsed 0 = 1 ∧
    ((build TTWDefinition.default).append 5 0).getBuckets 1 = [5] ∧
    ((build TTWDefinition.default).append 5 0).capacityUsed ≠
      (build TTWDefinition.default).capacityUsed := by
  decide

/-- C13 (amended). For a window whose `lastUpdate` equals a non-zero update ID
`u`, `append(s, u)` adds `s` to bucket 0 (in `SupportCount` arithmetic) and
leaves every other bucket, every usage count, the oldest-bucket marker and
`lastUpdate` unchanged. -/
theorem append_same_updateID_folds (w : TiltedTimeWindow) (s : SupportCount) (u : Nat)
    (hu : u ≠ 0) (hlast : w.lastUpdate = u) :
    (w.append s u).buckets.head? = w.buckets.head?.map (fun b => (b + s) % SUPPORT_MODULUS) ∧
    (w.append s u).buckets.tail = w.buckets.tail ∧
    (w.append s u).capacityUsed = w.capacityUsed ∧
    (w.append s u).lastUpdate = w.lastUpdate ∧
    (w.append s u).getOldestBucketFilled = w.getOldestBucketFilled := by
  have hcond : u ≠ 0 ∧ u = w.lastUpdate := ⟨hu, hlast.symm⟩
  unfold append
  rw [if_pos hcond]
  cases hb : w.buckets with
  | nil => simp [hb, getOldestBucketFilled]
  | cons b rest => simp [hb, getOldestBucketFilled]

/-- Instance of `append_same_updateID_folds`: the last step of
`TestTiltedTimeWindow::basic`, `append(100, 105)` after 105 appends and
`dropTail(1)`. -/
theorem append_same_updateID_folds_witness :
    (105 : Nat) ≠ 0 ∧
    ((build TTWDefinition.default).append 30 105).lastUpdate = 105 ∧
    (((build TTWDefinition.default).append 30 105).append 100 105).buckets.head? =
      ((build TTWDefinition.default).append 30 105).buckets.head?.map
        (fun b => (b + 100) % SUPPORT_MODULUS) :=
  ⟨by decide, by decide,
    (append_same_updateID_folds ((build TTWDefinition.default).append 30 105) 100 105
      (by decide) (by decide)).1⟩

theorem getElem?_take_append_replicate {α : Type} (l : List α) (n i : Nat) (x : α) :
    (l.take n ++ List.replicate (l.length - n) x)[i]? =
      if i < n then l[i]? else if i < l.length then some x else none := by
  have hlen : (l.take n).length = min n l.length := List.length_take _ _
  by_cases hi : i < n
  · rw [if_pos hi]
    by_cases hil : i < l.length
    · rw [List.getElem?_append_left (by rw [hlen]; omega), List.getElem?_take_of_lt hi]
    · rw [List.getElem?_eq_none (by simp only [List.length_append, List.length_replicate, hlen]; omega),
        List.getElem?_eq_none (by omega)]
  · rw [if_neg hi]
    by_cases hil : i < l.length
    · rw [if_pos hil, List.getElem?_append_right (by rw [hlen]; omega),
        List.getElem?_replicate, if_pos (by rw [hlen]; omega)]
    · rw [if_neg hil]
      exact List.getElem?_eq_none
        (by simp only [List.length_append, List.length_replicate, hlen]; omega)

/-- C14. For every window and every granularity index `g >= 1`, `dropTail(g)`
sets every bucket from the offset of granularity `g` on to `UNUSED` and the
usage of every granularity `g` and above to 0, and leaves the buckets and the
usage of the granularities below `g`, the number of buckets and `lastUpdate`
unchanged. -/
theorem dropTail_frame (w : TiltedTimeWindow) (g : Granularity) (_hg : 1 ≤ g) :
    (∀ (i : Nat) (b : SupportCount), w.ttwDef.bucketOffset g ≤ i →
      (w.dropTail g).buckets[i]? = some b → b = TTW_BUCKET_UNUSED) ∧
    (∀ j, g ≤ j → (w.dropTail g).getCapacityUsed j = 0) ∧
    (∀ i, i < w.ttwDef.bucketOffset g → (w.dropTail g).buckets[i]? = w.buckets[i]?) ∧
    (∀ j, j < g → (w.dropTail g).getCapacityUsed j = w.getCapacityUsed j) ∧
    (w.dropTail g).buckets.length = w.buckets.length ∧
    (w.dropTail g).lastUpdate = w.lastUpdate := by
  refine ⟨?_, ?_, ?_, ?_, ?_, rfl⟩
  · intro i b hi hb
    simp only [dropTail] at hb
    rw [getElem?_take_append_replicate, if_neg (Nat.not_lt.mpr hi)] at hb
    split at hb
    · exact (Option.some.inj hb).symm
    · cases hb
  · intro j hj
    simp only [dropTail, getCapacityUsed, List.getD_eq_getElem?_getD]
    rw [getElem?_take_append_replicate, if_neg (Nat.not_lt.mpr hj)]
    split <;> rfl
  · intro i hi
    simp only [dropTail]
    rw [getElem?_take_append_replicate, if_pos hi]
  · intro j hj
    simp only [dropTail, getCapacityUsed, List.getD_eq_getElem?_getD]
    rw [getElem?_take_append_replicate, if_pos hj]
  · simp only [dropTail, List.length_append, List.length_take, List.length_replicate]
    omega

/-- Instance of `dropTail_frame`: `dropTail(1)` after the appends of
`TestTiltedTimeWindow::basic`. -/
theorem dropTail_frame_witness :
    (1 : Nat) ≤ 1 ∧
    ((appendAll (build TTWDefinition.default) basicTestAppends).dropTail 1).lastUpdate =
      (appendAll (build TTWDefinition.default) basicTestAppends).lastUpdate :=
  ⟨by decide,
    (dropTail_frame (appendAll (build TTWDefinition.default) basicTestAppends) 1
      (by decide)).2.2.2.2.2⟩

theorem oldestBucketFilled_store (fuel : Nat) :
    ∀ (g : Granularity) (s : SupportCount) (w : TiltedTimeWindow) (m : Nat),
      m ≤ w.oldestBucketFilled → m ≤ (store fuel g s w).oldestBucketFilled := by
  induction fuel with
  | zero => intro g s w m hm; exact hm
  | succ fuel ih =>
    intro g s w m hm
    rw [store]
    simp only
    split
    · exact Nat.le_trans hm (Nat.le_max_left _ _)
    · split
      · show m ≤ max _ _
        apply le_max_of_le_left
        apply ih
        exact hm
      · exact Nat.le_trans hm (Nat.le_max_left _ _)

theorem oldestBucketFilled_append (w : TiltedTimeWindow) (s : SupportCount) (u : Nat) :
    w.getOldestBucketFilled ≤ (w.append s u).getOldestBucketFilled := by
  unfold append getOldestBucketFilled
  split
  · cases w.buckets <;> exact Nat.le_refl _
  · exact oldestBucketFilled_store _ _ _ _ _ (Nat.le_refl _)

theorem oldestBucketFilled_appendAll (xs : List (SupportCount × Nat)) :
    ∀ (w : TiltedTimeWindow),
      w.getOldestBucketFilled ≤ (appendAll w xs).getOldestBucketFilled := by
  induction xs with
  | nil => intro w; exact Nat.le_refl _
  | cons x xs ih =>
    intro w
    obtain ⟨s, u⟩ := x
    rw [appendAll]
    exact Nat.le_trans (oldestBucketFilled_append w s u) (ih _)

theorem appendAll_append (xs ys : List (SupportCount × Nat)) :
    ∀ (w : TiltedTimeWindow), appendAll w (xs ++ ys) = appendAll (appendAll w xs) ys := by
  induction xs with
  | nil => intro w; rfl
  | cons x xs ih =>
    intro w
    obtain ⟨s, u⟩ := x
    rw [List.cons_append, appendAll, appendAll, ih]

/-- C17. For every window and every sequence of `append` calls,
`getOldestBucketFilled()` never decreases: its value after the first calls of
the sequence is at most its value after any further calls, and each single
`append` keeps or raises it. -/
theorem getOldestBucketFilled_monotone (w : TiltedTimeWindow)
    (xs ys : List (SupportCount × Nat)) (s : SupportCount) (u : Nat) :
    w.getOldestBucketFilled ≤ (w.append s u).getOldestBucketFilled ∧
    (appendAll w xs).getOldestBucketFilled ≤ (appendAll w (xs ++ ys)).getOldestBucketFilled := by
  refine ⟨oldestBucketFilled_append w s u, ?_⟩
  rw [appendAll_append]
  exact oldestBucketFilled_appendAll ys _

end TiltedTimeWindow

namespace PatternTree

theorem deserialize_of_invalid_definition (t : PatternTree) (json : JSONLine)
    (rest : List JSONLine) (ids : ItemName → ItemID) (updateID : Nat) (serialized : String)
    (hv : json.v = 1 ∨ json.v = 2) (hd : json.definition = some serialized)
    (hbad : TTWDefinition.deserialize serialized = Option.none) :
    t.deserialize (json :: rest) ids updateID = (false, t) := by
  simp [deserialize, hv, hd, hbad]

/-- C11 (the code at the failing input). A version 2 stream with a valid
metadata line followed by a line whose pattern names an unknown item is loaded
without any error: `deserialize` returns `true`, `currentQuarter` goes from 0 to
5, `nodeCount` from 0 to 1, and the tree has a node for the item 0 that the
unknown name reads as. -/
theorem deserialize_malformed_pattern_mutates :
    emptyDefaultTree.currentQuarter = 0 ∧ emptyDefaultTree.nodeCount = 0 ∧
    (emptyDefaultTree.deserialize [validMetadataLine, unknownItemLine] exampleIDs 1).1 = true ∧
    (emptyDefaultTree.deserialize [validMetadataLine, unknownItemLine] exampleIDs
      1).2.currentQuarter = 5 ∧
    (emptyDefaultTree.deserialize [validMetadataLine, unknownItemLine] exampleIDs
      1).2.nodeCount = 1 ∧
    (emptyDefaultTree.getPatternSupport [0]).isSome = false ∧
    ((emptyDefaultTree.deserialize [validMetadataLine, unknownItemLine] exampleIDs
      1).2.getPatternSupport [0]).isSome = true := by
  decide

end PatternTree

namespace FPNode

variable {T : Type}

theorem find_replaceChild_ne (x y : ItemID) (new : FPNode T) (cs : List (FPNode T))
    (hnew : new.getItemID = x) (hxy : y ≠ x) :
    (replaceChild x new cs).find? (fun c => c.getItemID == y) =
      cs.find? (fun c => c.getItemID == y) := by
  induction cs with
  | nil => rfl
  | cons a as ih =>
    rw [replaceChild]
    by_cases ha : (a.getItemID == x) = true
    · rw [if_pos ha]
      have hax : a.getItemID = x := by simpa using ha
      have h1 : (new.getItemID == y) = false := by
        rw [hnew]; simpa using (Ne.symm hxy)
      have h2 : (a.getItemID == y) = false := by
        rw [hax]; simpa using (Ne.symm hxy)
      simp only [List.find?_cons, h1, h2]
    · rw [if_neg ha]
      simp only [List.find?_cons, ih]

theorem find_append_ne (y : ItemID) (new : FPNode T) (cs : List (FPNode T))
    (hnew : new.getItemID ≠ y) :
    (cs ++ [new]).find? (fun c => c.getItemID == y) = cs.find? (fun c => c.getItemID == y) := by
  have h1 : (new.getItemID == y) = false := by simpa using hnew
  rw [List.find?_append]
  cases cs.find? (fun c => c.getItemID == y) <;> simp [List.find?_cons, h1]

theorem getValue_addPath_cons (fresh : T) (f : T → T) (x : ItemID) (rest : ItemIDList)
    (n : FPNode T) (k : Nat) :
    (addPath fresh f (x :: rest) n k).1.getValue = n.getValue := by
  cases n with
  | mk i v cs =>
    rw [addPath]
    cases (mk i v cs).getChild x <;> rfl

/-- The walk of `addPattern` leaves the value found for every other itemset as
it was; an itemset that had no node either still has none or got a node with
the fresh value. -/
theorem findNode_addPath_other (fresh : T) (f : T → T) (itemset : ItemIDList) :
    ∀ (n : FPNode T) (k : Nat) (other : ItemIDList), other ≠ itemset →
      (findNode other (addPath fresh f itemset n k).1).map getValue =
          (findNode other n).map getValue ∨
      (findNode other n = none ∧
        (findNode other (addPath fresh f itemset n k).1).map getValue = some fresh) := by
  induction itemset with
  | nil =>
    intro n k other hne
    left
    cases n with
    | mk i v cs =>
      cases other with
      | nil => exact absurd rfl hne
      | cons y ys => simp only [addPath, findNode, getChild_mk]
  | cons x rest ih =>
    intro n k other hne
    cases other with
    | nil =>
      left
      simp only [findNode, Option.map_some', getValue_addPath_cons]
    | cons y ys =>
      cases n with
      | mk i v cs =>
        rw [addPath]
        cases hc : (mk i v cs).getChild x with
        | none =>
          have hc1 : cs.find? (fun c => c.getItemID == x) = none := by
            rw [← getChild_mk i v cs x]; exact hc
          by_cases hyx : y = x
          · subst hyx
            have hys : ys ≠ rest := fun h => hne (by rw [h])
            have hfind : (mk i v (cs ++ [(addPath fresh f rest (mk y fresh []) (k + 1)).1])).getChild y
                = some (addPath fresh f rest (mk y fresh []) (k + 1)).1 := by
              rw [getChild_mk]
              exact find_append_new y _ cs hc1 (by rw [getItemID_addPath]; rfl)
            simp only [findNode, hfind, hc]
            rcases ih (mk y fresh []) (k + 1) ys hys with h | ⟨_, h⟩
            · rw [h]
              cases ys with
              | nil => right; exact ⟨trivial, rfl⟩
              | cons z zs => left; simp [findNode, getChild, getChildren]
            · right; exact ⟨trivial, h⟩
          · left
            have hfind : (mk i v (cs ++ [(addPath fresh f rest (mk x fresh []) (k + 1)).1])).getChild y
                = (mk i v cs).getChild y := by
              rw [getChild_mk, getChild_mk]
              exact find_append_ne y _ cs
                (by rw [getItemID_addPath]; exact fun h => hyx h.symm)
            simp only [findNode, hfind]
        | some c =>
          have hc1 : cs.find? (fun c => c.getItemID == x) = some c := by
            rw [← getChild_mk i v cs x]; exact hc
          have hid : (addPath fresh f rest c k).1.getItemID = x := by
            rw [getItemID_addPath]; exact getItemID_of_find x c cs hc1
          by_cases hyx : y = x
          · subst hyx
            have hys : ys ≠ rest := fun h => hne (by rw [h])
            have hfind : (mk i v (replaceChild y (addPath fresh f rest c k).1 cs)).getChild y
                = some (addPath fresh f rest c k).1 := by
              rw [getChild_mk]
              exact find_replaceChild y _ c cs hc1 hid
            simp only [findNode, hfind, hc]
            exact ih c k ys hys
          · left
            have hfind : (mk i v (replaceChild x (addPath fresh f rest c k).1 cs)).getChild y
                = (mk i v cs).getChild y := by
              rw [getChild_mk, getChild_mk]
              exact find_replaceChild_ne x y _ cs hid hyx
            simp only [findNode, hfind]

end FPNode

namespace PatternTree

theorem lastUpdate_append (w : TiltedTimeWindow) (s : SupportCount) (u : Nat) :
    (w.append s u).lastUpdate = u := by
  unfold TiltedTimeWindow.append
  split
  · rename_i h
    cases hb : w.buckets <;> simp only <;> exact h.2.symm
  · rfl

theorem lastUpdate_syncAndAppend (q : Nat) (s : SupportCount) (u : Nat) (w : TiltedTimeWindow) :
    (syncAndAppend q s u w).lastUpdate = u := by
  unfold syncAndAppend
  exact lastUpdate_append _ s u

theorem lastUpdateOf_addPattern_self (t : PatternTree) (pattern : FrequentItemset) (u : Nat) :
    lastUpdateOf (t.addPattern pattern u) pattern.itemset = some u := by
  unfold lastUpdateOf
  rw [getPatternSupport_addPattern, Option.map_some', TiltedTimeWindow.getLastUpdate,
    lastUpdate_syncAndAppend]

theorem getPatternSupport_addPattern_other (t : PatternTree) (pattern : FrequentItemset)
    (u : Nat) (other : ItemIDList) (hne : other ≠ pattern.itemset) :
    (t.addPattern pattern u).getPatternSupport other = t.getPatternSupport other ∨
    (t.getPatternSupport other = none ∧
      (t.addPattern pattern u).getPatternSupport other =
        some (TiltedTimeWindow.build t.ttwDef)) := by
  simp only [getPatternSupport, FPNode.findNodeByPattern, addPattern]
  rcases FPNode.findNode_addPath_other (TiltedTimeWindow.build t.ttwDef)
    (syncAndAppend t.currentQuarter pattern.support u) pattern.itemset t.root t.nodeCount other hne
    with h | ⟨h1, h2⟩
  · left; exact h
  · right; exact ⟨by rw [h1]; rfl, h2⟩

theorem root_iterate_nextQuarter (k : Nat) (t : PatternTree) :
    (Nat.iterate nextQuarter k t).root = t.root ∧
    (Nat.iterate nextQuarter k t).ttwDef = t.ttwDef := by
  induction k with
  | zero => exact ⟨rfl, rfl⟩
  | succ k ih =>
    rw [Function.iterate_succ_apply']
    exact ih

theorem getPatternSupport_iterate_nextQuarter (k : Nat) (t : PatternTree)
    (itemset : ItemIDList) :
    (Nat.iterate nextQuarter k t).getPatternSupport itemset = t.getPatternSupport itemset := by
  unfold getPatternSupport
  rw [(root_iterate_nextQuarter k t).1]

/-- One `addPattern` call with an update ID that is at least every `lastUpdate`
of the tree: no `lastUpdate` decreases, no pattern disappears, and the update
ID bounds every `lastUpdate` afterwards. -/
theorem addCall_step (t : PatternTree) (bound : Nat) (c : AddCall)
    (hB : LastUpdatesBelow t bound) (hc : bound ≤ c.updateID) :
    LastUpdatesBelow ((Nat.iterate nextQuarter c.quarters t).addPattern c.pattern c.updateID)
      c.updateID ∧
    ∀ (itemset : ItemIDList) (a : Nat), lastUpdateOf t itemset = some a →
      ∃ b, lastUpdateOf ((Nat.iterate nextQuarter c.quarters t).addPattern c.pattern c.updateID)
        itemset = some b ∧ a ≤ b := by
  constructor
  · intro itemset w hw
    by_cases hi : itemset = c.pattern.itemset
    · subst hi
      rw [getPatternSupport_addPattern] at hw
      cases hw
      rw [lastUpdate_syncAndAppend]
    · rcases getPatternSupport_addPattern_other (Nat.iterate nextQuarter c.quarters t) c.pattern
        c.updateID itemset hi with h | ⟨_, h⟩
      · rw [h, getPatternSupport_iterate_nextQuarter] at hw
        exact Nat.le_trans (hB itemset w hw) hc
      · rw [h] at hw
        cases hw
        exact Nat.zero_le _
  · intro itemset a ha
    by_cases hi : itemset = c.pattern.itemset
    · subst hi
      refine ⟨c.updateID, lastUpdateOf_addPattern_self _ _ _, ?_⟩
      unfold lastUpdateOf at ha
      cases hw : t.getPatternSupport c.pattern.itemset with
      | none => rw [hw] at ha; cases ha
      | some w =>
        rw [hw] at ha
        cases ha
        exact Nat.le_trans (hB _ w hw) hc
    · refine ⟨a, ?_, Nat.le_refl _⟩
      unfold lastUpdateOf at ha ⊢
      rcases getPatternSupport_addPattern_other (Nat.iterate nextQuarter c.quarters t) c.pattern
        c.updateID itemset hi with h | ⟨h, _⟩
      · rw [h, getPatternSupport_iterate_nextQuarter]
        exact ha
      · rw [getPatternSupport_iterate_nextQuarter] at h
        rw [h] at ha
        cases ha

theorem addPatterns_monotone (calls : List AddCall) :
    ∀ (t : PatternTree) (bound : Nat), LastUpdatesBelow t bound →
      (∀ c ∈ calls, bound ≤ c.updateID) →
      (calls.map AddCall.updateID).Pairwise (fun x y => x ≤ y) →
      (∀ (itemset : ItemIDList) (a : Nat), lastUpdateOf t itemset = some a →
        ∃ b, lastUpdateOf (addPatterns t calls) itemset = some b ∧ a ≤ b) ∧
      ∀ m, bound ≤ m → (∀ c ∈ calls, c.updateID ≤ m) →
        LastUpdatesBelow (addPatterns t calls) m := by
  induction calls with
  | nil =>
    intro t bound hB _ _
    refine ⟨fun itemset a ha => ⟨a, ha, Nat.le_refl _⟩, ?_⟩
    intro m hm _ itemset w hw
    exact Nat.le_trans (hB itemset w hw) hm
  | cons c rest ih =>
    intro t bound hB hge hsorted
    rw [List.map_cons, List.pairwise_cons] at hsorted
    obtain ⟨hstep1, hstep2⟩ := addCall_step t bound c hB (hge c (List.mem_cons_self _ _))
    obtain ⟨ih1, ih2⟩ := ih _ c.updateID hstep1
      (fun x hx => hsorted.1 x.updateID (List.mem_map_of_mem _ hx)) hsorted.2
    refine ⟨?_, ?_⟩
    · intro itemset a ha
      obtain ⟨b, hb, hab⟩ := hstep2 itemset a ha
      obtain ⟨b1, hb1, hbb⟩ := ih1 itemset b hb
      exact ⟨b1, hb1, Nat.le_trans hab hbb⟩
    · intro m _ hle
      exact ih2 m (hle c (List.mem_cons_self _ _)) (fun x hx => hle x (List.mem_cons_of_mem _ hx))

theorem addPatterns_append (xs ys : List AddCall) :
    ∀ (t : PatternTree), addPatterns t (xs ++ ys) = addPatterns (addPatterns t xs) ys := by
  induction xs with
  | nil => intro t; rfl
  | cons x xs ih =>
    intro t
    rw [List.cons_append, addPatterns, addPatterns, ih]

theorem lastUpdatesBelow_new (d : TTWDefinition) :
    LastUpdatesBelow (PatternTree.new.setTTWDefinition d) 0 := by
  intro itemset w hw
  cases itemset with
  | nil =>
    simp only [getPatternSupport, FPNode.findNodeByPattern, FPNode.findNode, setTTWDefinition,
      Option.map_some', Option.some.injEq, FPNode.getValue] at hw
    subst hw
    exact Nat.le_refl _
  | cons x rest =>
    simp [getPatternSupport, FPNode.findNodeByPattern, FPNode.findNode, setTTWDefinition,
      PatternTree.new, FPNode.getChild, FPNode.getChildren] at hw

/-- C20. After `addPattern(itemset, s, u)` the `lastUpdate` of the window of the
pattern is `u`; and across a sequence of `addPattern` calls (interleaved with
`nextQuarter` calls) on an empty tree whose update IDs are non-decreasing, the
`lastUpdate` of every pattern, read between the calls, never decreases, whatever
zeros the quarter synchronisation appends with update ID 0 inside a call. -/
theorem lastUpdate_addPattern_monotone (t : PatternTree) (pattern : FrequentItemset)
    (u : Nat) (d : TTWDefinition) (calls1 calls2 : List AddCall) (itemset : ItemIDList)
    (a b : Nat)
    (hsorted : ((calls1 ++ calls2).map AddCall.updateID).Pairwise (fun x y => x ≤ y))
    (ha : lastUpdateOf (addPatterns (PatternTree.new.setTTWDefinition d) calls1) itemset = some a)
    (hb : lastUpdateOf (addPatterns (PatternTree.new.setTTWDefinition d) (calls1 ++ calls2))
      itemset = some b) :
    lastUpdateOf (t.addPattern pattern u) pattern.itemset = some u ∧ a ≤ b := by
  refine ⟨lastUpdateOf_addPattern_self t pattern u, ?_⟩
  rw [List.map_append, List.pairwise_append] at hsorted
  obtain ⟨hs1, hs2, hcross⟩ := hsorted
  rw [addPatterns_append] at hb
  obtain ⟨_, hinv1⟩ := addPatterns_monotone calls1 _ 0 (lastUpdatesBelow_new d)
    (fun c _ => Nat.zero_le _) hs1
  cases calls2 with
  | nil =>
    rw [addPatterns, ha] at hb
    cases hb
    exact Nat.le_refl _
  | cons c rest =>
    have hbelow : LastUpdatesBelow (addPatterns (PatternTree.new.setTTWDefinition d) calls1)
        c.updateID :=
      hinv1 c.updateID (Nat.zero_le _)
        (fun x hx => hcross x.updateID (List.mem_map_of_mem _ hx) c.updateID
          (List.mem_map_of_mem _ (List.mem_cons_self _ _)))
    rw [List.map_cons, List.pairwise_cons] at hs2
    obtain ⟨hmono, _⟩ := addPatterns_monotone (c :: rest) _ c.updateID hbelow
      (by
        intro x hx
        rcases List.mem_cons.mp hx with rfl | hx
        · exact Nat.le_refl _
        · exact hs2.1 x.updateID (List.mem_map_of_mem _ hx))
      (by rw [List.map_cons, List.pairwise_cons]; exact hs2)
    obtain ⟨b1, hb1, hab⟩ := hmono itemset a ha
    rw [hb1] at hb
    cases hb
    exact hab

/-- Instance of `lastUpdate_addPattern_monotone`: the calls of
`TestPatternTree::additionsRemainInSync`, where the pattern `{1, 2, 3}` has
`lastUpdate` 1 after the first call and 2 after all calls. -/
theorem lastUpdate_addPattern_monotone_witness :
    ((((additionsRemainInSyncCalls.take 1) ++ (additionsRemainInSyncCalls.drop 1)).map
      AddCall.updateID).Pairwise (fun x y => x ≤ y)) ∧
    lastUpdateOf (addPatterns emptyDefaultTree (additionsRemainInSyncCalls.take 1)) [1, 2, 3] =
      some 1 ∧
    lastUpdateOf (addPatterns emptyDefaultTree
      ((additionsRemainInSyncCalls.take 1) ++ (additionsRemainInSyncCalls.drop 1))) [1, 2, 3] =
      some 2 ∧
    (lastUpdateOf (emptyDefaultTree.addPattern { itemset := [4, 5], support := 2 } 2) [4, 5] =
      some 2 ∧ 1 ≤ 2) :=
  ⟨by decide, by decide, by decide,
    lastUpdate_addPattern_monotone emptyDefaultTree { itemset := [4, 5], support := 2 } 2
      TTWDefinition.default (additionsRemainInSyncCalls.take 1) (additionsRemainInSyncCalls.drop 1)
      [1, 2, 3] 1 2 (by decide) (by decide) (by decide)⟩

end PatternTree

namespace TiltedTimeWindow

theorem store_succ (fuel : Nat) (g : Granularity) (s : SupportCount) (w : TiltedTimeWindow) :
    store (fuel + 1) g s w =
      if w.getCapacityUsed g < w.ttwDef.capacity g then
        { w with
          buckets := shiftInsert w.buckets (w.ttwDef.bucketOffset g) (w.getCapacityUsed g) s,
          capacityUsed := w.capacityUsed.set g (w.getCapacityUsed g + 1),
          oldestBucketFilled :=
            max w.oldestBucketFilled (w.ttwDef.bucketOffset g + w.getCapacityUsed g) }
      else if g + 1 < w.ttwDef.numGranularities then
        { store fuel (g + 1)
            (sumSlots ((w.buckets.drop (w.ttwDef.bucketOffset g)).take (w.ttwDef.capacity g)))
            { w with
              buckets := resetSlots w.buckets (w.ttwDef.bucketOffset g) (w.ttwDef.capacity g),
              capacityUsed := w.capacityUsed.set g 0 } with
          buckets := shiftInsert (store fuel (g + 1)
            (sumSlots ((w.buckets.drop (w.ttwDef.bucketOffset g)).take (w.ttwDef.capacity g)))
            { w with
              buckets := resetSlots w.buckets (w.ttwDef.bucketOffset g) (w.ttwDef.capacity g),
              capacityUsed := w.capacityUsed.set g 0 }).buckets (w.ttwDef.bucketOffset g) 0 s,
          capacityUsed := (store fuel (g + 1)
            (sumSlots ((w.buckets.drop (w.ttwDef.bucketOffset g)).take (w.ttwDef.capacity g)))
            { w with
              buckets := resetSlots w.buckets (w.ttwDef.bucketOffset g) (w.ttwDef.capacity g),
              capacityUsed := w.capacityUsed.set g 0 }).capacityUsed.set g 1,
          oldestBucketFilled := max (store fuel (g + 1)
            (sumSlots ((w.buckets.drop (w.ttwDef.bucketOffset g)).take (w.ttwDef.capacity g)))
            { w with
              buckets := resetSlots w.buckets (w.ttwDef.bucketOffset g) (w.ttwDef.capacity g),
              capacityUsed := w.capacityUsed.set g 0 }).oldestBucketFilled
            (w.ttwDef.bucketOffset g) }
      else
        { w with
          buckets := shiftInsert w.buckets (w.ttwDef.bucketOffset g) (w.ttwDef.capacity g - 1) s,
          oldestBucketFilled :=
            max w.oldestBucketFilled (w.ttwDef.bucketOffset g + w.ttwDef.capacity g - 1) } := by
  rw [store]

theorem shiftInsert_append (pre q tl : List SupportCount) (x s : SupportCount) :
    shiftInsert (pre ++ (q ++ x :: tl)) pre.length q.length s = pre ++ (s :: q ++ tl) := by
  unfold shiftInsert
  rw [List.take_left, List.drop_left]
  have h1 : (q ++ x :: tl).take q.length = q := List.take_left _ _
  have h2 : (pre ++ (q ++ x :: tl)).drop (pre.length + q.length + 1) = tl := by
    rw [Nat.add_assoc, ← List.drop_drop, List.drop_left, ← List.drop_drop, List.drop_left]
    rfl
  rw [h1, h2]
  simp

theorem shiftInsert_append_eq (pre q tl : List SupportCount) (x s : SupportCount) (n k : Nat)
    (hn : pre.length = n) (hk : q.length = k) :
    shiftInsert (pre ++ (q ++ x :: tl)) n k s = pre ++ (s :: q ++ tl) := by
  rw [← hn, ← hk, shiftInsert_append]

theorem resetSlots_append (pre mid rest : List SupportCount) :
    resetSlots (pre ++ (mid ++ rest)) pre.length mid.length =
      pre ++ (List.replicate mid.length TTW_BUCKET_UNUSED ++ rest) := by
  unfold resetSlots
  rw [List.take_left, ← List.drop_drop, List.drop_left, List.drop_left]
  have : min mid.length ((pre ++ (mid ++ rest)).length - pre.length) = mid.length := by
    simp
  rw [this, List.append_assoc]

theorem padLevel_length (c : Nat) (q : List SupportCount) (h : q.length ≤ c) :
    (padLevel c q).length = c := by
  unfold padLevel
  rw [List.length_append, List.length_replicate]
  omega

theorem padLevel_full (c : Nat) (q : List SupportCount) (h : c ≤ q.length) :
    padLevel c q = q := by
  unfold padLevel
  rw [Nat.sub_eq_zero_of_le h]
  simp

theorem padLevel_not_full (c : Nat) (q : List SupportCount) (h : q.length < c) :
    padLevel c q = q ++ TTW_BUCKET_UNUSED :: List.replicate (c - (q.length + 1))
      TTW_BUCKET_UNUSED := by
  unfold padLevel
  have : c - q.length = (c - (q.length + 1)) + 1 := by omega
  rw [this, List.replicate_succ]

theorem getD_append_length (l r : List Nat) (x : Nat) : (l ++ x :: r).getD l.length 0 = x := by
  induction l with
  | nil => rfl
  | cons a l ih => simpa using ih

theorem exists_take_snoc (q : List SupportCount) (c : Nat) (h : q.length = c) (hc : 1 ≤ c) :
    ∃ x, q = q.take (c - 1) ++ [x] := by
  have hd : (q.drop (c - 1)).length = 1 := by rw [List.length_drop]; omega
  cases hdrop : q.drop (c - 1) with
  | nil => rw [hdrop] at hd; simp at hd
  | cons x r =>
    rw [hdrop] at hd
    have hr : r = [] := by
      cases r with
      | nil => rfl
      | cons _ _ => simp at hd
    subst hr
    refine ⟨x, ?_⟩
    rw [← hdrop, List.take_append_drop]

theorem bucketOffset_append (d : TTWDefinition) (capsPre caps : List Nat)
    (h : d.bucketCount = capsPre ++ caps) : d.bucketOffset capsPre.length = capsPre.sum := by
  unfold TTWDefinition.bucketOffset
  rw [h, List.take_left]

theorem capacity_append (d : TTWDefinition) (capsPre cs : List Nat) (c : Nat)
    (h : d.bucketCount = capsPre ++ c :: cs) : d.capacity capsPre.length = c := by
  unfold TTWDefinition.capacity
  rw [h, getD_append_length]

theorem getCapacityUsed_append (w : TiltedTimeWindow) (usedPre rest : List Nat) (n k : Nat)
    (hlen : usedPre.length = n) (h : w.capacityUsed = usedPre ++ k :: rest) :
    w.getCapacityUsed n = k := by
  unfold getCapacityUsed
  rw [h, ← hlen, getD_append_length]

theorem set_append_length (usedPre rest : List Nat) (n k j : Nat) (hlen : usedPre.length = n) :
    (usedPre ++ k :: rest).set n j = usedPre ++ j :: rest := by
  rw [← hlen]
  simp

/-- The shift-cascade `store`, started at the granularity that follows the
granularities `capsPre`, computes `storeLevels` and `storeMarker` on the used
values of the granularities `caps` it may touch, and leaves the slots and the
usage counters of the earlier granularities alone. -/
theorem store_refines : ∀ (caps : List Nat) (levels : List (List SupportCount)) (fuel : Nat)
    (capsPre : List Nat) (pre : List SupportCount) (usedPre : List Nat) (s : SupportCount)
    (w : TiltedTimeWindow),
    w.ttwDef.bucketCount = capsPre ++ caps → caps ≠ [] → caps.length ≤ fuel →
    LevelsFit caps levels → pre.length = capsPre.sum → usedPre.length = capsPre.length →
    w.buckets = pre ++ render caps levels → w.capacityUsed = usedPre ++ levels.map List.length →
    store fuel capsPre.length s w =
      { w with
        buckets := pre ++ render caps (storeLevels caps levels s),
        capacityUsed := usedPre ++ (storeLevels caps levels s).map List.length,
        oldestBucketFilled := storeMarker capsPre.sum caps levels w.oldestBucketFilled } := by
  intro caps
  induction caps with
  | nil => intro _ _ _ _ _ _ _ _ h; exact absurd rfl h
  | cons c cs ih =>
    intro levels fuel capsPre pre usedPre s w hd _ hfuel hfit hpre hused hb hu
    cases levels with
    | nil => exact absurd hfit (by simp [LevelsFit])
    | cons q qs =>
      obtain ⟨hc1, hqc, hfit1⟩ := hfit
      cases fuel with
      | zero => simp at hfuel
      | succ fuel =>
        have hfuel1 : cs.length ≤ fuel := by
          simp only [List.length_cons] at hfuel; omega
        rw [List.map_cons] at hu
        have hoff := bucketOffset_append w.ttwDef capsPre (c :: cs) hd
        have hcap := capacity_append w.ttwDef capsPre cs c hd
        have hcu := getCapacityUsed_append w usedPre (qs.map List.length) capsPre.length
          q.length hused hu
        have hng : w.ttwDef.numGranularities = capsPre.length + 1 + cs.length := by
          unfold TTWDefinition.numGranularities
          rw [hd, List.length_append, List.length_cons]; omega
        rw [store_succ, hoff, hcap, hcu, hng]
        by_cases hlt : q.length < c
        · rw [if_pos hlt]
          simp only [storeLevels, storeMarker, if_pos hlt, render, List.map_cons,
            List.length_cons]
          rw [hb, hu, set_append_length _ _ _ _ _ hused]
          simp only [render]
          rw [padLevel_not_full c q hlt, List.append_assoc, List.cons_append,
            shiftInsert_append_eq _ _ _ _ _ _ _ hpre rfl]
          have : padLevel c (s :: q) = s :: q ++ List.replicate (c - (q.length + 1))
              TTW_BUCKET_UNUSED := by
            unfold padLevel; rfl
          rw [this]
          simp only [List.append_assoc, List.cons_append]
        · rw [if_neg hlt]
          have hqlen : q.length = c := by omega
          by_cases hcs : cs = []
          · subst hcs
            have hqs : qs = [] := by
              cases qs with
              | nil => rfl
              | cons _ _ => exact absurd hfit1 (by simp [LevelsFit])
            subst hqs
            rw [if_neg (by simp)]
            simp only [storeLevels, storeMarker, if_neg hlt, render, List.map_cons,
              List.length_cons, ne_eq, not_true_eq_false, if_false, List.map_nil]
            obtain ⟨x, hx⟩ := exists_take_snoc q c hqlen hc1
            have hlen1 : (q.take (c - 1)).length = c - 1 := by
              rw [List.length_take]; omega
            have hpad : padLevel c (s :: q.take (c - 1)) = s :: q.take (c - 1) := by
              apply padLevel_full
              rw [List.length_cons, hlen1]; omega
            have hins : shiftInsert (pre ++ (q ++ [])) capsPre.sum (c - 1) s =
                pre ++ (s :: q.take (c - 1) ++ []) := by
              nth_rewrite 1 [hx]
              rw [List.append_assoc, List.singleton_append]
              exact shiftInsert_append_eq _ _ _ _ _ _ _ hpre hlen1
            rw [hb, hu]
            simp only [render]
            rw [padLevel_full c q (by omega), hpad, hins, hlen1]
            have : c - 1 + 1 = q.length := by omega
            rw [this]
            rfl
          · have hcond : capsPre.length + 1 < capsPre.length + 1 + cs.length := by
              have : 0 < cs.length := List.length_pos.mpr hcs
              omega
            rw [if_pos hcond]
            simp only [storeLevels, storeMarker, if_neg hlt, if_pos hcs, render, List.map_cons,
              List.length_cons, List.length_nil]
            rw [hb, hu, set_append_length _ _ _ _ _ hused]
            simp only [render]
            have hpadlen : (padLevel c q).length = c := padLevel_length c q hqc
            have hreset : resetSlots (pre ++ (padLevel c q ++ render cs qs)) capsPre.sum c =
                pre ++ (List.replicate c TTW_BUCKET_UNUSED ++ render cs qs) := by
              have := resetSlots_append pre (padLevel c q) (render cs qs)
              rw [hpadlen, hpre] at this
              exact this
            have hsum : ((pre ++ (padLevel c q ++ render cs qs)).drop capsPre.sum).take c = q := by
              rw [← hpre, List.drop_left]
              have := List.take_left (padLevel c q) (render cs qs)
              rw [hpadlen] at this
              rw [this, padLevel_full c q (by omega)]
            rw [hreset, hsum]
            have key := ih qs fuel (capsPre ++ [c])
              (pre ++ List.replicate c TTW_BUCKET_UNUSED) (usedPre ++ [0]) (sumSlots q)
              { ttwDef := w.ttwDef,
                buckets := pre ++ (List.replicate c TTW_BUCKET_UNUSED ++ render cs qs),
                capacityUsed := usedPre ++ 0 :: qs.map List.length,
                oldestBucketFilled := w.oldestBucketFilled,
                lastUpdate := w.lastUpdate }
              (by rw [hd]; simp) hcs hfuel1 hfit1
              (by rw [List.length_append, List.length_replicate, List.sum_append, hpre]; simp)
              (by rw [List.length_append, List.length_append, hused]; rfl)
              (by simp) (by simp)
            rw [List.length_append, List.length_singleton, List.sum_append, List.sum_singleton]
              at key
            rw [key]
            simp only
            have hins : shiftInsert (pre ++ List.replicate c TTW_BUCKET_UNUSED ++
                render cs (storeLevels cs qs (sumSlots q))) capsPre.sum 0 s =
                pre ++ (padLevel c [s] ++ render cs (storeLevels cs qs (sumSlots q))) := by
              have hrep : List.replicate c TTW_BUCKET_UNUSED =
                  TTW_BUCKET_UNUSED :: List.replicate (c - 1) TTW_BUCKET_UNUSED := by
                have : c = (c - 1) + 1 := by omega
                nth_rewrite 1 [this]
                rw [List.replicate_succ]
              have := shiftInsert_append_eq pre [] (List.replicate (c - 1) TTW_BUCKET_UNUSED ++
                render cs (storeLevels cs qs (sumSlots q))) TTW_BUCKET_UNUSED s capsPre.sum 0
                hpre rfl
              rw [hrep, List.append_assoc, List.cons_append]
              rw [List.nil_append] at this
              rw [this]
              rfl
            rw [hins, List.append_assoc, List.singleton_append,
              set_append_length _ _ _ _ _ hused]

end TiltedTimeWindow

namespace TiltedTimeWindow

theorem levelsFit_storeLevels : ∀ (caps : List Nat) (levels : List (List SupportCount))
    (s : SupportCount), LevelsFit caps levels → LevelsFit caps (storeLevels caps levels s) := by
  intro caps
  induction caps with
  | nil => intro levels s h; cases levels <;> simpa [storeLevels] using h
  | cons c cs ih =>
    intro levels s h
    cases levels with
    | nil => exact absurd h (by simp [LevelsFit])
    | cons q qs =>
      obtain ⟨hc, hq, hfit⟩ := h
      unfold storeLevels
      split
      · rename_i hlt
        exact ⟨hc, by rw [List.length_cons]; omega, hfit⟩
      · split
        · exact ⟨hc, by rw [List.length_singleton]; exact hc, ih qs _ hfit⟩
        · refine ⟨hc, ?_, hfit⟩
          rw [List.length_cons, List.length_take]
          omega

theorem render_replicate_nil : ∀ (caps : List Nat),
    render caps (List.replicate caps.length []) = List.replicate caps.sum TTW_BUCKET_UNUSED := by
  intro caps
  induction caps with
  | nil => rfl
  | cons c cs ih =>
    rw [List.length_cons, List.replicate_succ, render, ih, List.sum_cons,
      List.replicate_add]
    rfl

theorem levelsFit_replicate_nil : ∀ (caps : List Nat), (∀ n ∈ caps, 1 ≤ n) →
    LevelsFit caps (List.replicate caps.length []) := by
  intro caps
  induction caps with
  | nil => intro _; exact trivial
  | cons c cs ih =>
    intro h
    exact ⟨h c (List.mem_cons_self _ _), Nat.zero_le _,
      ih (fun n hn => h n (List.mem_cons_of_mem _ hn))⟩

/-- A freshly built window holds no values. -/
theorem represents_build (d : TTWDefinition) (h : ∀ n ∈ d.bucketCount, 1 ≤ n) :
    Represents (build d) (List.replicate d.bucketCount.length []) := by
  refine ⟨levelsFit_replicate_nil _ h, ?_, ?_⟩
  · exact (render_replicate_nil d.bucketCount).symm
  · show List.replicate d.numGranularities 0 = _
    rw [List.map_replicate]
    rfl

/-- The shift-cascade from granularity 0 on a window that holds `levels`. -/
theorem store_of_represents (w : TiltedTimeWindow) (levels : List (List SupportCount))
    (s : SupportCount) (hrep : Represents w levels) (hne : w.ttwDef.bucketCount ≠ []) :
    store w.ttwDef.numGranularities 0 s w =
      { w with
        buckets := render w.ttwDef.bucketCount (storeLevels w.ttwDef.bucketCount levels s),
        capacityUsed := (storeLevels w.ttwDef.bucketCount levels s).map List.length,
        oldestBucketFilled :=
          storeMarker 0 w.ttwDef.bucketCount levels w.oldestBucketFilled } := by
  obtain ⟨hfit, hb, hu⟩ := hrep
  have := store_refines w.ttwDef.bucketCount levels w.ttwDef.numGranularities [] [] [] s w
    rfl hne (Nat.le_refl _) hfit rfl rfl hb hu
  exact this

/-- An append that does not fold stores the support with the shift-cascade. -/
theorem append_of_represents (w : TiltedTimeWindow) (levels : List (List SupportCount))
    (s : SupportCount) (u : Nat) (hrep : Represents w levels)
    (hne : w.ttwDef.bucketCount ≠ []) (hu : ¬(u ≠ 0 ∧ u = w.lastUpdate)) :
    w.append s u =
      { ttwDef := w.ttwDef,
        buckets := render w.ttwDef.bucketCount (storeLevels w.ttwDef.bucketCount levels s),
        capacityUsed := (storeLevels w.ttwDef.bucketCount levels s).map List.length,
        oldestBucketFilled :=
          storeMarker 0 w.ttwDef.bucketCount levels w.oldestBucketFilled,
        lastUpdate := u } := by
  unfold append
  rw [if_neg hu, store_of_represents w levels s hrep hne]

theorem represents_append (w : TiltedTimeWindow) (levels : List (List SupportCount))
    (s : SupportCount) (u : Nat) (hrep : Represents w levels)
    (hne : w.ttwDef.bucketCount ≠ []) (hu : ¬(u ≠ 0 ∧ u = w.lastUpdate)) :
    Represents (w.append s u) (storeLevels w.ttwDef.bucketCount levels s) := by
  rw [append_of_represents w levels s u hrep hne hu]
  exact ⟨levelsFit_storeLevels _ _ _ hrep.1, rfl, rfl⟩

/-- Appends with pairwise distinct non-zero update IDs, none of them the
`lastUpdate` of the window, never fold: each stores its support with the
shift-cascade. -/
theorem appendAll_of_distinct : ∀ (xs : List (SupportCount × Nat)) (w : TiltedTimeWindow)
    (levels : List (List SupportCount)), Represents w levels → w.ttwDef.bucketCount ≠ [] →
    (xs.map Prod.snd).Nodup → (∀ x ∈ xs, x.2 ≠ 0) → w.lastUpdate ∉ xs.map Prod.snd →
    Represents (appendAll w xs) (storeAll w.ttwDef.bucketCount levels (xs.map Prod.fst)) ∧
    (appendAll w xs).ttwDef = w.ttwDef := by
  intro xs
  induction xs with
  | nil => intro w levels hrep _ _ _ _; exact ⟨hrep, rfl⟩
  | cons x rest ih =>
    intro w levels hrep hne hnd hnz hlast
    obtain ⟨s, u⟩ := x
    rw [List.map_cons, List.nodup_cons] at hnd
    have hu : ¬(u ≠ 0 ∧ u = w.lastUpdate) := by
      intro h
      apply hlast
      rw [List.map_cons, ← h.2]
      exact List.mem_cons_self _ _
    have hrep1 := represents_append w levels s u hrep hne hu
    have hdef : (w.append s u).ttwDef = w.ttwDef := ttwDef_append w s u
    have hlast1 : (w.append s u).lastUpdate = u := by
      rw [append_of_represents w levels s u hrep hne hu]
    have := ih (w.append s u) (storeLevels w.ttwDef.bucketCount levels s) hrep1
      (by rw [hdef]; exact hne) hnd.2 (fun y hy => hnz y (List.mem_cons_of_mem _ hy))
      (by rw [hlast1]; exact hnd.1)
    rw [hdef] at this
    exact this

theorem take_append_take (n : Nat) (a b : List SupportCount) :
    (a ++ b.take n).take n = (a ++ b).take n := by
  rw [List.take_append_eq_append_take, List.take_append_eq_append_take, List.take_take]
  congr 2
  omega

theorem storeLevels_single (n : Nat) (hn : 1 ≤ n) (q : List SupportCount) (s : SupportCount) :
    storeLevels [n] [q] s = [(s :: q).take n] := by
  unfold storeLevels
  split
  · rename_i hlt
    rw [List.take_of_length_le (by rw [List.length_cons]; omega)]
  · rw [if_neg (by simp)]
    have : n = (n - 1) + 1 := by omega
    nth_rewrite 2 [this]
    rw [List.take_succ_cons]

/-- A single granularity of capacity `n` keeps the newest `n` values. -/
theorem storeAll_single (n : Nat) (hn : 1 ≤ n) : ∀ (vs q : List SupportCount),
    q.length ≤ n → storeAll [n] [q] vs = [(vs.reverse ++ q).take n] := by
  intro vs
  induction vs with
  | nil =>
    intro q hq
    rw [List.reverse_nil, List.nil_append, List.take_of_length_le hq]
    rfl
  | cons v vs ih =>
    intro q _
    have hstep : storeAll [n] [q] (v :: vs) = storeAll [n] (storeLevels [n] [q] v) vs := rfl
    rw [hstep, storeLevels_single n hn, ih _ (by rw [List.length_take]; omega),
      take_append_take, List.reverse_cons, List.append_assoc, List.singleton_append]

/-- C15. For a single-granularity definition with `n` buckets, after appending
the supports of `xs` with pairwise distinct non-zero update IDs to a fresh
window, `getBuckets(n)` lists the last `min(m, n)` supports newest first,
followed by `UNUSED` slots when fewer than `n` supports were appended; the
supports older than the newest `n` are lost. -/
theorem getBuckets_single_granularity (d : TTWDefinition) (n : Nat)
    (xs : List (SupportCount × Nat)) (hd : d.bucketCount = [n])
    (hids : (xs.map Prod.snd).Nodup) (hnz : ∀ x ∈ xs, x.2 ≠ 0) :
    (appendAll (build d) xs).getBuckets n =
      (xs.map Prod.fst).reverse.take n ++ List.replicate (n - xs.length) TTW_BUCKET_UNUSED := by
  cases n with
  | zero => simp [getBuckets]
  | succ k =>
    have hvalid : ∀ c ∈ d.bucketCount, 1 ≤ c := by
      intro c hc
      rw [hd, List.mem_singleton] at hc
      subst hc
      exact Nat.succ_le_succ (Nat.zero_le _)
    have hlast : (build d).lastUpdate ∉ xs.map Prod.snd := by
      intro hmem
      obtain ⟨x, hx, hx0⟩ := List.mem_map.mp hmem
      exact hnz x hx hx0
    have hrep0 : Represents (build d) [[]] := by
      have := represents_build d hvalid
      rw [hd] at this
      exact this
    obtain ⟨⟨_, hb, _⟩, hdef⟩ := appendAll_of_distinct xs (build d) _ hrep0
      (by show d.bucketCount ≠ []; rw [hd]; simp) hids hnz hlast
    have hdef1 : (appendAll (build d) xs).ttwDef.bucketCount = [k + 1] := by
      rw [hdef]; exact hd
    have hcaps : (build d).ttwDef.bucketCount = [k + 1] := hd
    rw [hdef1, hcaps] at hb
    rw [storeAll_single (k + 1) (by omega) _ [] (Nat.zero_le _), List.append_nil] at hb
    unfold getBuckets
    rw [hb]
    simp only [render, padLevel, List.append_nil]
    rw [List.take_of_length_le]
    · congr 2
      rw [List.length_take, List.length_reverse, List.length_map]
      omega
    · rw [List.length_append, List.length_replicate, List.length_take, List.length_reverse,
        List.length_map]
      omega

/-- Instance of `getBuckets_single_granularity`: `TestTiltedTimeWindow::slidingWindow`
appends 1 to 5 to a window with the definition `3600:HHHH` and reads
`[5, 4, 3, 2]`. -/
theorem getBuckets_single_granularity_witness :
    slidingWindowDefinition.bucketCount = [4] ∧
    (slidingWindowAppends.map Prod.snd).Nodup ∧
    (∀ x ∈ slidingWindowAppends, x.2 ≠ 0) ∧
    (appendAll (build slidingWindowDefinition) slidingWindowAppends).getBuckets 4 =
      [5, 4, 3, 2] :=
  ⟨rfl, by decide, by decide,
    getBuckets_single_granularity slidingWindowDefinition 4 slidingWindowAppends rfl
      (by decide) (by decide)⟩

end TiltedTimeWindow

namespace TiltedTimeWindow

theorem sumSlots_reverse (q : List SupportCount) : sumSlots q.reverse = sumSlots q := by
  unfold sumSlots
  rw [List.filter_reverse, List.sum_reverse]

theorem sumSlots_of_ne_unused (q : List SupportCount) (h : ∀ v ∈ q, v ≠ TTW_BUCKET_UNUSED) :
    sumSlots q = q.sum % SUPPORT_MODULUS := by
  unfold sumSlots
  rw [List.filter_eq_self.mpr]
  intro v hv
  simpa using h v hv

theorem group_append (vs : List SupportCount) (s : SupportCount) (c0 j : Nat)
    (h : j * c0 + c0 ≤ vs.length) :
    ((vs ++ [s]).drop (j * c0)).take c0 = (vs.drop (j * c0)).take c0 := by
  rw [List.drop_append_of_le_length (by omega),
    List.take_append_of_le_length (by rw [List.length_drop]; omega)]

theorem storeAll_snoc (caps : List Nat) (levels : List (List SupportCount))
    (vs : List SupportCount) (s : SupportCount) :
    storeAll caps levels (vs ++ [s]) = storeLevels caps (storeAll caps levels vs) s := by
  unfold storeAll
  rw [List.foldl_append]
  rfl

theorem map_group_append (vs : List SupportCount) (s : SupportCount) (c0 k : Nat)
    (h : k * c0 ≤ vs.length) :
    (List.range k).map (fun j => sumSlots (((vs ++ [s]).drop (j * c0)).take c0)) =
      (List.range k).map (fun j => sumSlots ((vs.drop (j * c0)).take c0)) := by
  apply List.map_congr_left
  intro j hj
  rw [List.mem_range] at hj
  have : j * c0 + c0 ≤ k * c0 := by
    have := Nat.mul_le_mul_right c0 (Nat.succ_le_of_lt hj)
    rw [Nat.succ_mul] at this
    exact this
  rw [group_append vs s c0 j (by omega)]

/-- Two granularities of capacities `c0` and `c1` after storing `k` complete
groups of `c0` values and `r` further ones: the finer granularity holds the
values after the last complete group, the coarser one the newest `c1` group
sums. -/
theorem storeAll_two (c0 c1 : Nat) (h0 : 1 ≤ c0) (h1 : 1 ≤ c1) :
    ∀ (vs : List SupportCount) (k r : Nat), vs.length = k * c0 + r → r ≤ c0 →
      (r = 0 → k = 0) →
      storeAll [c0, c1] [[], []] vs =
        [(vs.drop (k * c0)).reverse,
          (((List.range k).map
            (fun j => sumSlots ((vs.drop (j * c0)).take c0))).reverse).take c1] := by
  intro vs
  induction vs using List.reverseRecOn with
  | nil =>
    intro k r hlen _ hr
    have hr0 : r = 0 := by simp at hlen; omega
    rw [hr hr0]
    simp [storeAll]
  | append_singleton vs s ih =>
    intro k r hlen hrc hr
    rw [List.length_append, List.length_singleton] at hlen
    rw [storeAll_snoc]
    by_cases hcase : r = 1 ∧ 1 ≤ k
    · obtain ⟨hr1, hk1⟩ := hcase
      obtain ⟨k0, rfl⟩ : ∃ k0, k = k0 + 1 := ⟨k - 1, by omega⟩
      have hlenvs : vs.length = k0 * c0 + c0 := by
        rw [Nat.succ_mul] at hlen; omega
      rw [ih k0 c0 hlenvs (Nat.le_refl _) (by omega)]
      have hg0 : ((vs.drop (k0 * c0)).reverse).length = c0 := by
        rw [List.length_reverse, List.length_drop]; omega
      unfold storeLevels
      rw [if_neg (by omega), if_pos (by simp), storeLevels_single c1 h1]
      have hdrop : (vs ++ [s]).drop ((k0 + 1) * c0) = [s] := by
        rw [Nat.succ_mul, ← hlenvs, List.drop_left]
      rw [hdrop, List.range_succ, List.map_append, List.reverse_append]
      simp only [List.map_cons, List.map_nil, List.reverse_cons, List.reverse_nil,
        List.nil_append, List.singleton_append]
      rw [map_group_append vs s c0 k0 (by omega), group_append vs s c0 k0 (by omega),
        sumSlots_reverse]
      have htake : (vs.drop (k0 * c0)).take c0 = vs.drop (k0 * c0) := by
        apply List.take_of_length_le
        rw [List.length_drop]; omega
      rw [htake]
      have := take_append_take c1 [sumSlots (vs.drop (k0 * c0))]
        ((List.range k0).map (fun j => sumSlots ((vs.drop (j * c0)).take c0))).reverse
      rw [List.singleton_append, List.singleton_append] at this
      rw [this]
    · have hr1 : 1 ≤ r := by
        rcases Nat.eq_zero_or_pos r with h | h
        · have := hr h; subst this; subst h; simp at hlen
        · exact h
      have hlenvs : vs.length = k * c0 + (r - 1) := by omega
      rw [ih k (r - 1) hlenvs (by omega) (by
        intro h
        rcases Nat.eq_zero_or_pos k with hk | hk
        · exact hk
        · exact absurd ⟨by omega, hk⟩ hcase)]
      have hg0 : ((vs.drop (k * c0)).reverse).length = r - 1 := by
        rw [List.length_reverse, List.length_drop]; omega
      unfold storeLevels
      rw [if_pos (by omega), List.drop_append_of_le_length (by omega), List.reverse_append,
        List.reverse_singleton, List.singleton_append,
        map_group_append vs s c0 k (by omega)]

theorem map_sumSlots_eq_groupSums (c0 : Nat) (vs : List SupportCount) (k : Nat)
    (h : ∀ v ∈ vs, v ≠ TTW_BUCKET_UNUSED) :
    (List.range k).map (fun j => sumSlots ((vs.drop (j * c0)).take c0)) = groupSums c0 vs k := by
  unfold groupSums
  apply List.map_congr_left
  intro j _
  apply sumSlots_of_ne_unused
  intro v hv
  exact h v (List.mem_of_mem_drop (List.mem_of_mem_take hv))

/-- C12. For a two-granularity definition with capacities `(c0, c1)`, after
`m >= 1` appends with pairwise distinct non-zero update IDs of supports below
the `UNUSED` sentinel to a freshly built window, granularity 0 holds the last
`r = ((m - 1) mod c0) + 1` supports newest first, the remaining slots `UNUSED`,
and granularity 1 holds, newest first, the sums of the preceding
`(m - 1) / c0` complete groups of `c0` supports, of which only the newest `c1`
are kept. -/
theorem getBuckets_two_granularities (d : TTWDefinition) (c0 c1 : Nat)
    (xs : List (SupportCount × Nat)) (hd : d.bucketCount = [c0, c1]) (h0 : 1 ≤ c0)
    (h1 : 1 ≤ c1) (hm : 1 ≤ xs.length) (hids : (xs.map Prod.snd).Nodup)
    (hnz : ∀ x ∈ xs, x.2 ≠ 0) (hval : ∀ x ∈ xs, x.1 < TTW_BUCKET_UNUSED) :
    (appendAll (build d) xs).getBuckets (c0 + c1) =
      padLevel c0 ((xs.map Prod.fst).reverse.take ((xs.length - 1) % c0 + 1)) ++
      padLevel c1 ((groupSums c0 (xs.map Prod.fst) ((xs.length - 1) / c0)).reverse.take c1) := by
  have hvalid : ∀ c ∈ d.bucketCount, 1 ≤ c := by
    intro c hc
    rw [hd] at hc
    rcases List.mem_cons.mp hc with rfl | hc
    · exact h0
    · rw [List.mem_singleton] at hc
      subst hc
      exact h1
  have hlast : (build d).lastUpdate ∉ xs.map Prod.snd := by
    intro hmem
    obtain ⟨x, hx, hx0⟩ := List.mem_map.mp hmem
    exact hnz x hx hx0
  have hrep0 : Represents (build d) [[], []] := by
    have := represents_build d hvalid
    rw [hd] at this
    exact this
  obtain ⟨⟨_, hb, _⟩, hdef⟩ := appendAll_of_distinct xs (build d) _ hrep0
    (by show d.bucketCount ≠ []; rw [hd]; simp) hids hnz hlast
  have hdef1 : (appendAll (build d) xs).ttwDef.bucketCount = [c0, c1] := by
    rw [hdef]; exact hd
  have hcaps : (build d).ttwDef.bucketCount = [c0, c1] := hd
  rw [hdef1, hcaps] at hb
  have hmod : (xs.length - 1) % c0 < c0 := Nat.mod_lt _ (by omega)
  have hdm : c0 * ((xs.length - 1) / c0) + (xs.length - 1) % c0 = xs.length - 1 :=
    Nat.div_add_mod _ _
  have hlen : (xs.map Prod.fst).length =
      (xs.length - 1) / c0 * c0 + ((xs.length - 1) % c0 + 1) := by
    rw [List.length_map, Nat.mul_comm]; omega
  rw [storeAll_two c0 c1 h0 h1 (xs.map Prod.fst) ((xs.length - 1) / c0)
    ((xs.length - 1) % c0 + 1) hlen (by omega) (by omega)] at hb
  have hvs : ∀ v ∈ xs.map Prod.fst, v ≠ TTW_BUCKET_UNUSED := by
    intro v hv
    obtain ⟨x, hx, rfl⟩ := List.mem_map.mp hv
    exact Nat.ne_of_lt (hval x hx)
  rw [map_sumSlots_eq_groupSums c0 _ _ hvs] at hb
  have hrev : ((xs.map Prod.fst).drop ((xs.length - 1) / c0 * c0)).reverse =
      (xs.map Prod.fst).reverse.take ((xs.length - 1) % c0 + 1) := by
    rw [List.take_reverse]
    congr 2
    omega
  rw [hrev] at hb
  unfold getBuckets
  rw [hb]
  simp only [render, List.append_nil]
  apply List.take_of_length_le
  rw [List.length_append, padLevel_length, padLevel_length]
  · rw [List.length_take]; omega
  · rw [List.length_take, List.length_reverse, List.length_map]; omega

set_option maxRecDepth 100000 in
/-- Instance of `getBuckets_two_granularities`: the second half of
`TestTiltedTimeWindow::slidingWindow`, thirteen appends to a window with 4 `Q`
and 2 `H` buckets, reads `[40, U, U, U, 120, 80]`. -/
theorem getBuckets_two_granularities_witness :
    doubleGranularityDefinition.bucketCount = [4, 2] ∧ 1 ≤ 4 ∧ 1 ≤ 2 ∧
    1 ≤ doubleGranularityAppends.length ∧
    (doubleGranularityAppends.map Prod.snd).Nodup ∧
    (∀ x ∈ doubleGranularityAppends, x.2 ≠ 0) ∧
    (∀ x ∈ doubleGranularityAppends, x.1 < TTW_BUCKET_UNUSED) ∧
    (appendAll (build doubleGranularityDefinition) doubleGranularityAppends).getBuckets (4 + 2) =
      [40, TTW_BUCKET_UNUSED, TTW_BUCKET_UNUSED, TTW_BUCKET_UNUSED, 120, 80] :=
  ⟨rfl, by decide, by decide, by decide, by decide, by decide, by decide,
    getBuckets_two_granularities doubleGranularityDefinition 4 2 doubleGranularityAppends rfl
      (by decide) (by decide) (by decide) (by decide) (by decide) (by decide)⟩

end TiltedTimeWindow

namespace TiltedTimeWindow

theorem headUsed_storeLevels (caps : List Nat) (levels : List (List SupportCount))
    (s : SupportCount) (hfit : LevelsFit caps levels) (hne : caps ≠ []) :
    HeadUsed (storeLevels caps levels s) := by
  cases caps with
  | nil => exact absurd rfl hne
  | cons c cs =>
    cases levels with
    | nil => exact absurd hfit (by simp [LevelsFit])
    | cons q qs =>
      unfold storeLevels
      split
      · exact trivial
      · split <;> exact trivial

theorem headUsed_foldLevels (levels : List (List SupportCount)) (s : SupportCount)
    (h : HeadUsed levels) : HeadUsed (foldLevels levels s) := by
  match levels, h with
  | (_ :: _) :: _, _ => exact trivial

theorem levelsFit_foldLevels (caps : List Nat) (levels : List (List SupportCount))
    (s : SupportCount) (h : LevelsFit caps levels) : LevelsFit caps (foldLevels levels s) := by
  match levels with
  | [] => exact h
  | [] :: _ => exact h
  | (b :: q) :: qs =>
    cases caps with
    | nil => exact absurd h (by simp [LevelsFit])
    | cons c cs => exact h

/-- A folding append on a window that holds `levels`, granularity 0 not empty. -/
theorem append_fold_of_represents (w : TiltedTimeWindow) (levels : List (List SupportCount))
    (s : SupportCount) (u : Nat) (hrep : Represents w levels) (hhead : HeadUsed levels)
    (hu : u ≠ 0 ∧ u = w.lastUpdate) :
    w.append s u =
      { w with buckets := render w.ttwDef.bucketCount (foldLevels levels s) } ∧
    (foldLevels levels s).map List.length = levels.map List.length := by
  obtain ⟨hfit, hb, _⟩ := hrep
  match levels, hhead with
  | (b :: q) :: qs, _ =>
    cases hcaps : w.ttwDef.bucketCount with
    | nil => rw [hcaps] at hfit; exact absurd hfit (by simp [LevelsFit])
    | cons c cs =>
      rw [hcaps] at hb
      have hb1 : w.buckets = b :: (q ++ List.replicate (c - (q.length + 1)) TTW_BUCKET_UNUSED ++
          render cs qs) := by
        rw [hb]; rfl
      refine ⟨?_, rfl⟩
      unfold append
      rw [if_pos hu, hb1]
      rfl

theorem represents_append_levels (w : TiltedTimeWindow) (levels : List (List SupportCount))
    (s : SupportCount) (u : Nat) (hrep : Represents w levels)
    (hne : w.ttwDef.bucketCount ≠ []) (hhead : w.lastUpdate ≠ 0 → HeadUsed levels) :
    Represents (w.append s u)
      (appendLevels w.ttwDef.bucketCount levels w.lastUpdate s u) ∧
    HeadUsed (appendLevels w.ttwDef.bucketCount levels w.lastUpdate s u) := by
  unfold appendLevels
  by_cases hu : u ≠ 0 ∧ u = w.lastUpdate
  · rw [if_pos hu]
    have hh : HeadUsed levels := hhead (by rw [← hu.2]; exact hu.1)
    obtain ⟨hap, hlen⟩ := append_fold_of_represents w levels s u hrep hh hu
    rw [hap]
    exact ⟨⟨levelsFit_foldLevels _ _ _ hrep.1, rfl, by rw [hlen]; exact hrep.2.2⟩,
      headUsed_foldLevels _ _ hh⟩
  · rw [if_neg hu]
    exact ⟨represents_append w levels s u hrep hne hu,
      headUsed_storeLevels _ _ _ hrep.1 hne⟩

theorem length_render : ∀ (caps : List Nat) (levels : List (List SupportCount)),
    LevelsFit caps levels → (render caps levels).length = caps.sum := by
  intro caps
  induction caps with
  | nil => intro levels _; cases levels <;> rfl
  | cons c cs ih =>
    intro levels h
    cases levels with
    | nil => exact absurd h (by simp [LevelsFit])
    | cons q qs =>
      rw [render, List.length_append, padLevel_length c q h.2.1, ih qs h.2.2, List.sum_cons]

theorem length_of_levelsFit : ∀ (caps : List Nat) (levels : List (List SupportCount)),
    LevelsFit caps levels → levels.length = caps.length := by
  intro caps
  induction caps with
  | nil => intro levels h; cases levels with
    | nil => rfl
    | cons _ _ => exact absurd h (by simp [LevelsFit])
  | cons c cs ih =>
    intro levels h
    cases levels with
    | nil => exact absurd h (by simp [LevelsFit])
    | cons q qs => rw [List.length_cons, List.length_cons, ih qs h.2.2]

theorem caps_pos_of_levelsFit : ∀ (caps : List Nat) (levels : List (List SupportCount)),
    LevelsFit caps levels → ∀ n ∈ caps, 1 ≤ n := by
  intro caps
  induction caps with
  | nil => intro _ _ n hn; cases hn
  | cons c cs ih =>
    intro levels h n hn
    cases levels with
    | nil => exact absurd h (by simp [LevelsFit])
    | cons q qs =>
      rcases List.mem_cons.mp hn with rfl | hn
      · exact h.1
      · exact ih qs h.2.2 n hn

theorem levelsFit_dropLevels : ∀ (caps : List Nat) (levels : List (List SupportCount))
    (g : Nat), LevelsFit caps levels → LevelsFit caps (dropLevels g levels) := by
  intro caps
  induction caps with
  | nil =>
    intro levels g h
    cases levels with
    | nil => simpa [dropLevels] using h
    | cons _ _ => exact absurd h (by simp [LevelsFit])
  | cons c cs ih =>
    intro levels g h
    cases levels with
    | nil => exact absurd h (by simp [LevelsFit])
    | cons q qs =>
      cases g with
      | zero =>
        have := levelsFit_replicate_nil (c :: cs) (caps_pos_of_levelsFit _ _ h)
        rw [← length_of_levelsFit _ _ h] at this
        simpa [dropLevels] using this
      | succ g =>
        have := ih qs g h.2.2
        exact ⟨h.1, h.2.1, by simpa [dropLevels] using this⟩

theorem render_dropLevels : ∀ (caps : List Nat) (levels : List (List SupportCount))
    (g : Nat), LevelsFit caps levels →
    (render caps levels).take (caps.take g).sum ++
      List.replicate ((render caps levels).length - (caps.take g).sum) TTW_BUCKET_UNUSED =
    render caps (dropLevels g levels) := by
  intro caps
  induction caps with
  | nil =>
    intro levels g h
    cases levels with
    | nil => simp [render, dropLevels]
    | cons _ _ => exact absurd h (by simp [LevelsFit])
  | cons c cs ih =>
    intro levels g h
    cases levels with
    | nil => exact absurd h (by simp [LevelsFit])
    | cons q qs =>
      cases g with
      | zero =>
        have h1 := render_replicate_nil (c :: cs)
        rw [← length_of_levelsFit _ _ h] at h1
        rw [List.take_zero, List.sum_nil, List.take_zero, List.nil_append, Nat.sub_zero,
          length_render _ _ h]
        have : dropLevels 0 (q :: qs) = List.replicate (q :: qs).length [] := by
          simp [dropLevels]
        rw [this, h1]
      | succ g =>
        have hlen : (padLevel c q).length = c := padLevel_length c q h.2.1
        have hd : dropLevels (g + 1) (q :: qs) = q :: dropLevels g qs := by
          simp [dropLevels]
        rw [hd, render, render, ← ih qs g h.2.2, List.take_succ_cons, List.sum_cons,
          List.length_append, hlen]
        have ht : (padLevel c q ++ render cs qs).take (c + (cs.take g).sum) =
            padLevel c q ++ (render cs qs).take (cs.take g).sum := by
          rw [List.take_append_eq_append_take, hlen, List.take_of_length_le (by omega)]
          congr 2
          omega
        rw [ht, List.append_assoc]
        congr 3
        omega

/-- The method `dropTail(g)` empties the granularities from `g` on. -/
theorem represents_dropTail (w : TiltedTimeWindow) (levels : List (List SupportCount))
    (g : Granularity) (hrep : Represents w levels) :
    Represents (w.dropTail g) (dropLevels g levels) := by
  obtain ⟨hfit, hb, hu⟩ := hrep
  refine ⟨levelsFit_dropLevels _ _ g hfit, ?_, ?_⟩
  · show w.buckets.take (w.ttwDef.bucketOffset g) ++ _ = _
    rw [hb]
    exact render_dropLevels _ _ g hfit
  · show w.capacityUsed.take g ++ _ = _
    rw [hu]
    simp [dropLevels, List.map_take]

theorem headUsed_dropLevels (levels : List (List SupportCount)) (g : Nat) (hg : 1 ≤ g)
    (h : HeadUsed levels) : HeadUsed (dropLevels g levels) := by
  match levels, h with
  | (b :: q) :: qs, _ =>
    obtain ⟨g0, rfl⟩ : ∃ g0, g = g0 + 1 := ⟨g - 1, by omega⟩
    have : dropLevels (g0 + 1) ((b :: q) :: qs) = (b :: q) :: dropLevels g0 qs := by
      simp [dropLevels]
    rw [this]
    exact trivial

end TiltedTimeWindow

namespace TiltedTimeWindow

theorem le_sum_of_mem_nat : ∀ (q : List Nat) (v : Nat), v ∈ q → v ≤ q.sum := by
  intro q
  induction q with
  | nil => intro v hv; cases hv
  | cons a q ih =>
    intro v hv
    rw [List.sum_cons]
    rcases List.mem_cons.mp hv with rfl | hv
    · exact Nat.le_add_right _ _
    · exact Nat.le_trans (ih v hv) (Nat.le_add_left _ _)

theorem sum_le_levelsTotal (levels : List (List SupportCount)) (q : List SupportCount)
    (hq : q ∈ levels) : q.sum ≤ levelsTotal levels :=
  le_sum_of_mem_nat _ _ (List.mem_map_of_mem _ hq)

theorem entry_le_levelsTotal (levels : List (List SupportCount)) (q : List SupportCount)
    (v : SupportCount) (hq : q ∈ levels) (hv : v ∈ q) : v ≤ levelsTotal levels :=
  Nat.le_trans (le_sum_of_mem_nat q v hv) (sum_le_levelsTotal levels q hq)

theorem unused_lt_modulus : TTW_BUCKET_UNUSED < SUPPORT_MODULUS := by decide

theorem sumSlots_of_sum_lt (q : List SupportCount) (h : q.sum < TTW_BUCKET_UNUSED) :
    sumSlots q = q.sum := by
  rw [sumSlots_of_ne_unused q (fun v hv => Nat.ne_of_lt
    (Nat.lt_of_le_of_lt (le_sum_of_mem_nat q v hv) h))]
  exact Nat.mod_eq_of_lt (Nat.lt_trans h unused_lt_modulus)

theorem levelsTotal_cons (q : List SupportCount) (qs : List (List SupportCount)) :
    levelsTotal (q :: qs) = q.sum + levelsTotal qs := by
  unfold levelsTotal
  rw [List.map_cons, List.sum_cons]

theorem sum_take_le (q : List Nat) (n : Nat) : (q.take n).sum ≤ q.sum := by
  have h := congrArg List.sum (List.take_append_drop n q)
  rw [List.sum_append] at h
  omega

/-- The shift-cascade keeps the sum of the used values, plus the stored value,
unless every granularity is full, in which case the oldest value of the
coarsest granularity is lost. -/
theorem levelsTotal_storeLevels : ∀ (caps : List Nat) (levels : List (List SupportCount))
    (s : SupportCount), LevelsFit caps levels → levelsTotal levels < TTW_BUCKET_UNUSED →
    levelsTotal (storeLevels caps levels s) ≤ levelsTotal levels + s ∧
    (levels.map List.length ≠ caps →
      levelsTotal (storeLevels caps levels s) = levelsTotal levels + s) := by
  intro caps
  induction caps with
  | nil =>
    intro levels s h _
    cases levels with
    | nil => exact ⟨Nat.le_add_right _ _, fun hne => absurd rfl hne⟩
    | cons _ _ => exact absurd h (by simp [LevelsFit])
  | cons c cs ih =>
    intro levels s h htot
    cases levels with
    | nil => exact absurd h (by simp [LevelsFit])
    | cons q qs =>
      obtain ⟨hc, hq, hfit⟩ := h
      rw [levelsTotal_cons] at htot
      unfold storeLevels
      split
      · rw [levelsTotal_cons, levelsTotal_cons, List.sum_cons]
        exact ⟨by omega, fun _ => by omega⟩
      · have hqlen : q.length = c := by omega
        have hqsum : q.sum < TTW_BUCKET_UNUSED := by
          simp only [SupportCount] at *
          omega
        have hsum : sumSlots q = q.sum := sumSlots_of_sum_lt q hqsum
        split
        · have hqs : levelsTotal qs < TTW_BUCKET_UNUSED := by omega
          obtain ⟨ih1, ih2⟩ := ih qs q.sum hfit hqs
          rw [hsum, levelsTotal_cons, levelsTotal_cons, List.sum_singleton]
          refine ⟨by simp only [SupportCount] at *; omega, ?_⟩
          intro hne
          have : qs.map List.length ≠ cs := by
            intro heq
            apply hne
            rw [List.map_cons, hqlen, heq]
          have := ih2 this
          simp only [SupportCount] at *
          omega
        · rename_i hcs
          have hcs1 : cs = [] := by
            by_contra hh
            exact hcs hh
          subst hcs1
          have hqs : qs = [] := by
            cases qs with
            | nil => rfl
            | cons _ _ => exact absurd hfit (by simp [LevelsFit])
          subst hqs
          rw [levelsTotal_cons, levelsTotal_cons, List.sum_cons]
          have := sum_take_le q (c - 1)
          refine ⟨by omega, ?_⟩
          intro hne
          exact absurd (by rw [List.map_cons, hqlen]; rfl) hne

theorem levelsTotal_foldLevels (levels : List (List SupportCount)) (s : SupportCount)
    (hhead : HeadUsed levels) (htot : levelsTotal levels + s < TTW_BUCKET_UNUSED) :
    levelsTotal (foldLevels levels s) = levelsTotal levels + s := by
  match levels, hhead with
  | (b :: q) :: qs, _ =>
    have hlt : b + s < SUPPORT_MODULUS := by
      rw [levelsTotal_cons, List.sum_cons] at htot
      have := unused_lt_modulus
      simp only [SupportCount] at *
      omega
    show levelsTotal ((((b + s) % SUPPORT_MODULUS) :: q) :: qs) = _
    rw [Nat.mod_eq_of_lt hlt, levelsTotal_cons, levelsTotal_cons, List.sum_cons, List.sum_cons]
    omega

theorem levelsTotal_replicate_nil (n : Nat) :
    levelsTotal (List.replicate n ([] : List SupportCount)) = 0 := by
  induction n with
  | zero => rfl
  | succ n ih => rw [List.replicate_succ, levelsTotal_cons, ih]; rfl

theorem levelsTotal_dropLevels : ∀ (levels : List (List SupportCount)) (g : Nat),
    levelsTotal (dropLevels g levels) ≤ levelsTotal levels := by
  intro levels
  induction levels with
  | nil => intro g; simp [dropLevels, levelsTotal]
  | cons q qs ih =>
    intro g
    cases g with
    | zero =>
      have : dropLevels 0 (q :: qs) = List.replicate (q :: qs).length [] := by
        simp [dropLevels]
      rw [this, levelsTotal_replicate_nil]
      exact Nat.zero_le _
    | succ g =>
      have : dropLevels (g + 1) (q :: qs) = q :: dropLevels g qs := by
        simp [dropLevels]
      rw [this, levelsTotal_cons, levelsTotal_cons]
      have := ih g
      omega

end TiltedTimeWindow

namespace TiltedTimeWindow

theorem getD_replicate_unused (n i : Nat) :
    (List.replicate n TTW_BUCKET_UNUSED).getD i TTW_BUCKET_UNUSED = TTW_BUCKET_UNUSED := by
  induction n generalizing i with
  | zero => rfl
  | succ n ih =>
    cases i with
    | zero => rfl
    | succ i => exact ih i

theorem getD_padLevel (c : Nat) (q : List SupportCount) (i : Nat) :
    (padLevel c q).getD i TTW_BUCKET_UNUSED = q.getD i TTW_BUCKET_UNUSED := by
  unfold padLevel
  by_cases h : i < q.length
  · rw [List.getD_append _ _ _ _ h]
  · rw [List.getD_append_right _ _ _ _ (Nat.le_of_not_lt h), getD_replicate_unused,
      List.getD_eq_default _ _ (Nat.le_of_not_lt h)]

/-- Slot `i` of granularity `g` in the rendering of `levels` is the `i`-th used
value of that granularity, or `UNUSED` when there is none. -/
theorem getD_render : ∀ (caps : List Nat) (levels : List (List SupportCount)) (g i : Nat),
    LevelsFit caps levels → g < caps.length → i < caps.getD g 0 →
    (render caps levels).getD ((caps.take g).sum + i) TTW_BUCKET_UNUSED =
      (levels.getD g []).getD i TTW_BUCKET_UNUSED := by
  intro caps
  induction caps with
  | nil => intro levels g i _ hg _; simp at hg
  | cons c cs ih =>
    intro levels g i h hg hi
    cases levels with
    | nil => exact absurd h (by simp [LevelsFit])
    | cons q qs =>
      have hlen : (padLevel c q).length = c := padLevel_length c q h.2.1
      cases g with
      | zero =>
        have hi1 : i < c := hi
        rw [List.take_zero, List.sum_nil, Nat.zero_add, render,
          List.getD_append _ _ _ _ (by rw [hlen]; exact hi1), getD_padLevel]
        rfl
      | succ g =>
        have hg1 : g < cs.length := by
          rw [List.length_cons] at hg; omega
        have hi1 : i < cs.getD g 0 := hi
        rw [List.take_succ_cons, List.sum_cons, render,
          List.getD_append_right _ _ _ _ (by rw [hlen]; omega), hlen]
        have : c + (cs.take g).sum + i - c = (cs.take g).sum + i := by omega
        rw [this, ih qs g i h.2.2 hg1 hi1]
        rfl

theorem getD_map_length (levels : List (List SupportCount)) (g : Nat) :
    (levels.map List.length).getD g 0 = (levels.getD g []).length := by
  induction levels generalizing g with
  | nil => rfl
  | cons q qs ih =>
    cases g with
    | zero => rfl
    | succ g => exact ih g

theorem mem_of_getD_mem (levels : List (List SupportCount)) (g : Nat) (v : SupportCount)
    (hv : v ∈ levels.getD g []) : levels.getD g [] ∈ levels := by
  induction levels generalizing g with
  | nil => simp at hv
  | cons q qs ih =>
    cases g with
    | zero => exact List.mem_cons_self _ _
    | succ g => exact List.mem_cons_of_mem _ (ih g hv)

/-- A window that holds `levels`, whose values add up to less than the
sentinel, has its used slots at the start of every granularity. -/
theorem usedSlotsContiguous_of_represents (w : TiltedTimeWindow)
    (levels : List (List SupportCount)) (hrep : Represents w levels)
    (htot : levelsTotal levels < TTW_BUCKET_UNUSED) : UsedSlotsContiguous w := by
  intro g i hg hi
  obtain ⟨hfit, hb, hu⟩ := hrep
  have hget := getD_render w.ttwDef.bucketCount levels g i hfit hg hi
  have hused : w.getCapacityUsed g = (levels.getD g []).length := by
    unfold getCapacityUsed
    rw [hu, getD_map_length]
  rw [hused]
  show w.buckets.getD ((w.ttwDef.bucketCount.take g).sum + i) TTW_BUCKET_UNUSED ≠ _ ↔ _
  rw [hb, hget]
  constructor
  · intro hne
    by_contra hlt
    exact hne (List.getD_eq_default _ _ (Nat.le_of_not_lt hlt))
  · intro hlt heq
    rw [List.getD_eq_getElem _ _ hlt] at heq
    have hmem : (levels.getD g [])[i] ∈ levels.getD g [] := List.getElem_mem _
    have hle := entry_le_levelsTotal levels _ _ (mem_of_getD_mem levels g _ hmem) hmem
    rw [heq] at hle
    exact Nat.lt_irrefl _ (Nat.lt_of_le_of_lt hle htot)

theorem levelsTotal_appendLevels (caps : List Nat) (levels : List (List SupportCount))
    (lastUpdate : Nat) (s : SupportCount) (u : Nat) (hfit : LevelsFit caps levels)
    (hhead : lastUpdate ≠ 0 → HeadUsed levels)
    (htot : levelsTotal levels + s < TTW_BUCKET_UNUSED) :
    levelsTotal (appendLevels caps levels lastUpdate s u) ≤ levelsTotal levels + s := by
  unfold appendLevels
  split
  · rename_i hu
    rw [levelsTotal_foldLevels levels s (hhead (by rw [← hu.2]; exact hu.1)) htot]
  · exact (levelsTotal_storeLevels caps levels s hfit (by omega)).1

/-- The used values of a window after a sequence of `append` and `dropTail`
calls that never drops granularity 0. -/
theorem represents_applyTTWOps : ∀ (ops : List TTWOp) (w : TiltedTimeWindow)
    (levels : List (List SupportCount)), Represents w levels → w.ttwDef.bucketCount ≠ [] →
    (w.lastUpdate ≠ 0 → HeadUsed levels) → KeepsFirstGranularity ops →
    levelsTotal levels + opsSupport ops < TTW_BUCKET_UNUSED →
    ∃ levels1, Represents (applyTTWOps w ops) levels1 ∧
      levelsTotal levels1 ≤ levelsTotal levels + opsSupport ops := by
  intro ops
  induction ops with
  | nil => intro w levels hrep _ _ _ _; exact ⟨levels, hrep, Nat.le_refl _⟩
  | cons op rest ih =>
    intro w levels hrep hne hhead hkeep htot
    cases op with
    | append s u =>
      have htot1 : levelsTotal levels + (s + opsSupport rest) < TTW_BUCKET_UNUSED := htot
      obtain ⟨hrep1, hhead1⟩ := represents_append_levels w levels s u hrep hne hhead
      have hle := levelsTotal_appendLevels w.ttwDef.bucketCount levels w.lastUpdate s u hrep.1
        hhead (by simp only [SupportCount] at *; omega)
      obtain ⟨levels1, h1, h2⟩ := ih (w.append s u) _ hrep1
        (by rw [ttwDef_append]; exact hne) (fun _ => hhead1) hkeep
        (by simp only [SupportCount] at *; omega)
      refine ⟨levels1, h1, ?_⟩
      show _ ≤ levelsTotal levels + (s + opsSupport rest)
      simp only [SupportCount] at *
      omega
    | dropTail g =>
      obtain ⟨hg, hkeep1⟩ := hkeep
      have htot1 : levelsTotal levels + opsSupport rest < TTW_BUCKET_UNUSED := htot
      have hle := levelsTotal_dropLevels levels g
      obtain ⟨levels1, h1, h2⟩ := ih (w.dropTail g) _ (represents_dropTail w levels g hrep)
        hne (fun h0 => headUsed_dropLevels levels g hg (hhead h0)) hkeep1 (by omega)
      refine ⟨levels1, h1, ?_⟩
      show _ ≤ levelsTotal levels + opsSupport rest
      omega

/-- Away from `dropTail(0)` the used slots stay contiguous.  For every window
state reachable from a fresh window, of a definition with at least one
granularity and at least one bucket in each, by `append` and by `dropTail(g)`
with `g >= 1`, the appended supports adding up to less than the `UNUSED`
sentinel: within each granularity the non-`UNUSED` slots are exactly the first
`getCapacityUsed(g)` slots from the bucket offset of the granularity. -/
theorem usedSlotsContiguous_of_reachable (d : TTWDefinition) (ops : List TTWOp)
    (hne : d.bucketCount ≠ []) (hpos : ∀ n ∈ d.bucketCount, 1 ≤ n)
    (hkeep : KeepsFirstGranularity ops) (hsum : opsSupport ops < TTW_BUCKET_UNUSED) :
    UsedSlotsContiguous (applyTTWOps (build d) ops) := by
  have h0 : levelsTotal (List.replicate d.bucketCount.length ([] : List SupportCount)) = 0 :=
    levelsTotal_replicate_nil _
  obtain ⟨levels1, hrep, hle⟩ := represents_applyTTWOps ops (build d) _
    (represents_build d hpos) hne (fun h => absurd rfl h) hkeep (by rw [h0]; omega)
  exact usedSlotsContiguous_of_represents _ levels1 hrep (by omega)

set_option maxRecDepth 1000000 in
/-- Instance of `usedSlotsContiguous_of_reachable`: the calls of
`TestTiltedTimeWindow::basic`, 105 appends, `dropTail(1)` and a folding append. -/
theorem usedSlotsContiguous_of_reachable_witness :
    TTWDefinition.default.bucketCount ≠ [] ∧
    (∀ n ∈ TTWDefinition.default.bucketCount, 1 ≤ n) ∧
    KeepsFirstGranularity basicTestOps ∧ opsSupport basicTestOps < TTW_BUCKET_UNUSED ∧
    UsedSlotsContiguous (applyTTWOps (build TTWDefinition.default) basicTestOps) :=
  ⟨by decide, by decide, by decide, by decide,
    usedSlotsContiguous_of_reachable TTWDefinition.default basicTestOps (by decide) (by decide)
      (by decide) (by decide)⟩

end TiltedTimeWindow

namespace TiltedTimeWindow

theorem topFrom_cons (off c : Nat) (cs : List Nat) (q : List SupportCount)
    (qs : List (List SupportCount)) :
    topFrom off (c :: cs) (q :: qs) =
      max (if q = [] then 0 else off + (q.length - 1)) (topFrom (off + c) cs qs) := rfl

theorem le_topFrom_of_headUsed (off : Nat) (caps : List Nat) (levels : List (List SupportCount))
    (hfit : LevelsFit caps levels) (hhead : HeadUsed levels) :
    off ≤ topFrom off caps levels := by
  match levels, hhead with
  | (b :: q) :: qs, _ =>
    cases caps with
    | nil => exact absurd hfit (by simp [LevelsFit])
    | cons c cs =>
      unfold topFrom
      rw [if_neg (by simp)]
      apply le_max_of_le_left
      exact Nat.le_add_right _ _

/-- The shift-cascade never lowers the highest used slot. -/
theorem topFrom_storeLevels_ge : ∀ (caps : List Nat) (levels : List (List SupportCount))
    (off : Nat) (s : SupportCount), LevelsFit caps levels →
    topFrom off caps levels ≤ topFrom off caps (storeLevels caps levels s) := by
  intro caps
  induction caps with
  | nil => intro levels off s h; cases levels <;> exact Nat.le_refl _
  | cons c cs ih =>
    intro levels off s h
    cases levels with
    | nil => exact absurd h (by simp [LevelsFit])
    | cons q qs =>
      obtain ⟨hc, hq, hfit⟩ := h
      unfold storeLevels
      split
      · unfold topFrom
        rw [if_neg (List.cons_ne_nil _ _), List.length_cons, Nat.add_sub_cancel]
        apply max_le_max _ (Nat.le_refl _)
        split <;> omega
      · have hqlen : q.length = c := by omega
        have hqne : q ≠ [] := by
          intro h0; rw [h0] at hqlen; simp at hqlen; omega
        split
        · rename_i hcs
          have hih := ih qs (off + c) (sumSlots q) hfit
          have hhead := le_topFrom_of_headUsed (off + c) cs _
            (levelsFit_storeLevels cs qs (sumSlots q) hfit)
            (headUsed_storeLevels cs qs (sumSlots q) hfit hcs)
          unfold topFrom
          rw [if_neg hqne, if_neg (List.cons_ne_nil _ _), hqlen]
          apply max_le
          · apply le_max_of_le_right
            omega
          · exact le_max_of_le_right hih
        · unfold topFrom
          rw [if_neg hqne, if_neg (List.cons_ne_nil _ _), List.length_cons, List.length_take,
            hqlen]
          apply max_le_max _ (Nat.le_refl _)
          omega

/-- The oldest-bucket marker after the shift-cascade, when it was at least the
highest used slot before: the larger of the old marker and the new highest used
slot. -/
theorem storeMarker_eq : ∀ (caps : List Nat) (levels : List (List SupportCount))
    (off : Nat) (s : SupportCount) (m : Nat), LevelsFit caps levels →
    topFrom off caps levels ≤ m →
    storeMarker off caps levels m = max m (topFrom off caps (storeLevels caps levels s)) := by
  intro caps
  induction caps with
  | nil =>
    intro levels off s m h _
    cases levels <;> simp [storeMarker, storeLevels, topFrom]
  | cons c cs ih =>
    intro levels off s m h hm
    cases levels with
    | nil => exact absurd h (by simp [LevelsFit])
    | cons q qs =>
      obtain ⟨hc, hq, hfit⟩ := h
      have hrest : topFrom (off + c) cs qs ≤ m := by
        unfold topFrom at hm
        exact Nat.le_trans (le_max_right _ _) hm
      have hm1 : (if q = [] then 0 else off + (q.length - 1)) ≤ m := by
        unfold topFrom at hm
        exact Nat.le_trans (le_max_left _ _) hm
      by_cases hlt : q.length < c
      · have h1 : storeMarker off (c :: cs) (q :: qs) m = max m (off + q.length) := by
          simp only [storeMarker, if_pos hlt]
        have h2 : storeLevels (c :: cs) (q :: qs) s = (s :: q) :: qs := by
          simp only [storeLevels, if_pos hlt]
        rw [h1, h2]
        unfold topFrom
        rw [if_neg (List.cons_ne_nil _ _), List.length_cons, Nat.add_sub_cancel]
        simp only [Bucket]
        omega
      · have hqlen : q.length = c := by omega
        by_cases hcs : cs = []
        · subst hcs
          have hqs : qs = [] := by
            cases qs with
            | nil => rfl
            | cons _ _ => exact absurd hfit (by simp [LevelsFit])
          subst hqs
          have h1 : storeMarker off [c] [q] m = max m (off + c - 1) := by
            simp only [storeMarker, if_neg hlt, ne_eq, not_true_eq_false, if_false]
          have h2 : storeLevels [c] [q] s = [s :: q.take (c - 1)] := by
            simp only [storeLevels, if_neg hlt, ne_eq, not_true_eq_false, if_false]
          rw [h1, h2]
          unfold topFrom
          rw [if_neg (List.cons_ne_nil _ _), List.length_cons, List.length_take, hqlen]
          simp only [topFrom]
          simp only [Bucket]
          omega
        · have h1 : storeMarker off (c :: cs) (q :: qs) m =
              max (storeMarker (off + c) cs qs m) off := by
            simp only [storeMarker, if_neg hlt, ne_eq, hcs, not_false_eq_true, if_true]
          have h2 : storeLevels (c :: cs) (q :: qs) s =
              [s] :: storeLevels cs qs (sumSlots q) := by
            simp only [storeLevels, if_neg hlt, ne_eq, hcs, not_false_eq_true, if_true]
          rw [h1, h2, ih qs (off + c) (sumSlots q) m hfit hrest, topFrom_cons]
          rw [if_neg (List.cons_ne_nil _ _), List.length_singleton]
          simp only [Bucket]
          omega

theorem highestFilled_append : ∀ (a : List SupportCount) (i : Nat) (b : List SupportCount),
    highestFilled i (a ++ b) = max (highestFilled i a) (highestFilled (i + a.length) b) := by
  intro a
  induction a with
  | nil => intro i b; simp [highestFilled]
  | cons x a ih =>
    intro i b
    rw [List.cons_append, highestFilled, highestFilled, ih (i + 1) b, List.length_cons,
      max_assoc]
    congr 3
    omega

theorem highestFilled_replicate (n : Nat) : ∀ (i : Nat),
    highestFilled i (List.replicate n TTW_BUCKET_UNUSED) = 0 := by
  induction n with
  | zero => intro i; rfl
  | succ n ih =>
    intro i
    rw [List.replicate_succ, highestFilled, ih (i + 1), if_neg (by simp)]
    rfl

theorem highestFilled_of_ne : ∀ (q : List SupportCount) (i : Nat),
    (∀ v ∈ q, v ≠ TTW_BUCKET_UNUSED) →
    highestFilled i q = if q = [] then 0 else i + (q.length - 1) := by
  intro q
  induction q with
  | nil => intro i _; rfl
  | cons b q ih =>
    intro i h
    rw [highestFilled, if_pos (h b (List.mem_cons_self _ _)),
      ih (i + 1) (fun v hv => h v (List.mem_cons_of_mem _ hv)),
      if_neg (List.cons_ne_nil _ _), List.length_cons, Nat.add_sub_cancel]
    cases q with
    | nil => simp
    | cons x q =>
      rw [if_neg (List.cons_ne_nil _ _), List.length_cons]
      simp only [Nat.add_sub_cancel]
      omega

/-- The highest slot of the rendering that is not `UNUSED` is the highest used
slot, when no used value is the sentinel. -/
theorem highestFilled_render : ∀ (caps : List Nat) (levels : List (List SupportCount))
    (off : Nat), LevelsFit caps levels → (∀ q ∈ levels, ∀ v ∈ q, v ≠ TTW_BUCKET_UNUSED) →
    highestFilled off (render caps levels) = topFrom off caps levels := by
  intro caps
  induction caps with
  | nil => intro levels off _ _; cases levels <;> rfl
  | cons c cs ih =>
    intro levels off h hne
    cases levels with
    | nil => exact absurd h (by simp [LevelsFit])
    | cons q qs =>
      rw [render, highestFilled_append, padLevel_length c q h.2.1, topFrom_cons,
        ih qs (off + c) h.2.2 (fun q1 hq1 => hne q1 (List.mem_cons_of_mem _ hq1))]
      congr 1
      unfold padLevel
      rw [highestFilled_append, highestFilled_replicate,
        highestFilled_of_ne q off (hne q (List.mem_cons_self _ _))]
      exact max_eq_left (Nat.zero_le _)

theorem topFrom_foldLevels (off : Nat) (caps : List Nat) (levels : List (List SupportCount))
    (s : SupportCount) : topFrom off caps (foldLevels levels s) = topFrom off caps levels := by
  match levels with
  | [] => rfl
  | [] :: _ => rfl
  | (b :: q) :: qs =>
    cases caps with
    | nil => rfl
    | cons c cs =>
      show topFrom off (c :: cs) ((((b + s) % SUPPORT_MODULUS) :: q) :: qs) = _
      rw [topFrom_cons, topFrom_cons, if_neg (List.cons_ne_nil _ _),
        if_neg (List.cons_ne_nil _ _)]
      rfl

theorem ne_unused_of_levelsTotal_lt (levels : List (List SupportCount))
    (htot : levelsTotal levels < TTW_BUCKET_UNUSED) :
    ∀ q ∈ levels, ∀ v ∈ q, v ≠ TTW_BUCKET_UNUSED := by
  intro q hq v hv heq
  have := entry_le_levelsTotal levels q v hq hv
  rw [heq] at this
  exact Nat.lt_irrefl _ (Nat.lt_of_le_of_lt this htot)

/-- The oldest-bucket marker after `append(s, u)` on a window that holds
`levels` and whose marker is the highest used slot: the highest used slot
again. -/
theorem oldestBucketFilled_append_eq_topFrom (w : TiltedTimeWindow)
    (levels : List (List SupportCount)) (s : SupportCount) (u : Nat)
    (hrep : Represents w levels) (hne : w.ttwDef.bucketCount ≠ [])
    (hhead : w.lastUpdate ≠ 0 → HeadUsed levels)
    (hm : w.oldestBucketFilled = topFrom 0 w.ttwDef.bucketCount levels) :
    (w.append s u).oldestBucketFilled =
      topFrom 0 w.ttwDef.bucketCount
        (appendLevels w.ttwDef.bucketCount levels w.lastUpdate s u) := by
  unfold appendLevels
  by_cases hu : u ≠ 0 ∧ u = w.lastUpdate
  · rw [if_pos hu, topFrom_foldLevels,
      (append_fold_of_represents w levels s u hrep (hhead (by rw [← hu.2]; exact hu.1)) hu).1]
    exact hm
  · rw [if_neg hu, append_of_represents w levels s u hrep hne hu]
    show storeMarker 0 w.ttwDef.bucketCount levels w.oldestBucketFilled = _
    rw [storeMarker_eq _ levels 0 s _ hrep.1 (by rw [hm]), hm]
    exact max_eq_right (topFrom_storeLevels_ge _ levels 0 s hrep.1)

/-- The used values and the marker of a window after a sequence of appends. -/
theorem represents_appendAll : ∀ (xs : List (SupportCount × Nat)) (w : TiltedTimeWindow)
    (levels : List (List SupportCount)), Represents w levels → w.ttwDef.bucketCount ≠ [] →
    (w.lastUpdate ≠ 0 → HeadUsed levels) →
    levelsTotal levels + appendedSupport xs < TTW_BUCKET_UNUSED →
    w.oldestBucketFilled = topFrom 0 w.ttwDef.bucketCount levels →
    ∃ levels1, Represents (appendAll w xs) levels1 ∧
      levelsTotal levels1 ≤ levelsTotal levels + appendedSupport xs ∧
      (appendAll w xs).oldestBucketFilled =
        topFrom 0 (appendAll w xs).ttwDef.bucketCount levels1 := by
  intro xs
  induction xs with
  | nil => intro w levels hrep _ _ _ hm; exact ⟨levels, hrep, Nat.le_refl _, hm⟩
  | cons x rest ih =>
    intro w levels hrep hne hhead htot hm
    obtain ⟨s, u⟩ := x
    have htot1 : levelsTotal levels + (s + appendedSupport rest) < TTW_BUCKET_UNUSED := htot
    obtain ⟨hrep1, hhead1⟩ := represents_append_levels w levels s u hrep hne hhead
    have hle := levelsTotal_appendLevels w.ttwDef.bucketCount levels w.lastUpdate s u hrep.1
      hhead (by simp only [SupportCount] at *; omega)
    have hm1 := oldestBucketFilled_append_eq_topFrom w levels s u hrep hne hhead hm
    have hdef : (w.append s u).ttwDef = w.ttwDef := ttwDef_append w s u
    obtain ⟨levels1, h1, h2, h3⟩ := ih (w.append s u) _ hrep1
      (by rw [hdef]; exact hne) (fun _ => hhead1)
      (by simp only [SupportCount] at *; omega) (by rw [hdef]; exact hm1)
    refine ⟨levels1, h1, ?_, h3⟩
    show _ ≤ levelsTotal levels + (s + appendedSupport rest)
    simp only [SupportCount] at *
    omega

set_option maxRecDepth 1000000 in
/-- C16 (as stated, refuted). After the 105 appends of
`TestTiltedTimeWindow::basic` and `dropTail(1)`, `getOldestBucketFilled()` is 3,
as the test expects, while slot 0 is the only slot that holds a value. -/
theorem getOldestBucketFilled_after_dropTail :
    ((appendAll (build TTWDefinition.default) basicTestAppends).dropTail 1).getOldestBucketFilled
      = 3 ∧
    highestFilledBucket ((appendAll (build TTWDefinition.default) basicTestAppends).dropTail 1)
      = 0 := by
  decide

/-- C16 (amended). For every window state reachable from a fresh window, of a
definition with at least one granularity and at least one bucket in each, by
`append` calls whose supports add up to less than the `UNUSED` sentinel,
`getOldestBucketFilled()` equals the highest bucket index that holds a
non-`UNUSED` value, or 0 when the window is empty. -/
theorem getOldestBucketFilled_eq_highestFilledBucket (d : TTWDefinition)
    (xs : List (SupportCount × Nat)) (hne : d.bucketCount ≠ [])
    (hpos : ∀ n ∈ d.bucketCount, 1 ≤ n) (hsum : appendedSupport xs < TTW_BUCKET_UNUSED) :
    (appendAll (build d) xs).getOldestBucketFilled =
      highestFilledBucket (appendAll (build d) xs) := by
  have h0 : levelsTotal (List.replicate d.bucketCount.length ([] : List SupportCount)) = 0 :=
    levelsTotal_replicate_nil _
  have htop : ∀ (caps : List Nat) (off : Nat),
      topFrom off caps (List.replicate caps.length ([] : List SupportCount)) = 0 := by
    intro caps
    induction caps with
    | nil => intro off; rfl
    | cons c cs ih =>
      intro off
      rw [List.length_cons, List.replicate_succ, topFrom_cons, ih, if_pos rfl]
      rfl
  obtain ⟨levels1, hrep, hle, hm⟩ := represents_appendAll xs (build d) _
    (represents_build d hpos) hne (fun h => absurd rfl h) (by rw [h0]; omega)
    (by
      show 0 = topFrom 0 d.bucketCount (List.replicate d.bucketCount.length [])
      rw [htop])
  unfold getOldestBucketFilled highestFilledBucket
  rw [hm, hrep.2.1]
  exact (highestFilled_render _ levels1 0 hrep.1
    (ne_unused_of_levelsTotal_lt levels1 (by omega))).symm

set_option maxRecDepth 1000000 in
/-- Instance of `getOldestBucketFilled_eq_highestFilledBucket`: after the 105
appends of `TestTiltedTimeWindow::basic` the marker is 28, the slot of the day
bucket. -/
theorem getOldestBucketFilled_eq_highestFilledBucket_witness :
    TTWDefinition.default.bucketCount ≠ [] ∧
    (∀ n ∈ TTWDefinition.default.bucketCount, 1 ≤ n) ∧
    appendedSupport basicTestAppends < TTW_BUCKET_UNUSED ∧
    highestFilledBucket (appendAll (build TTWDefinition.default) basicTestAppends) = 28 ∧
    (appendAll (build TTWDefinition.default) basicTestAppends).getOldestBucketFilled =
      highestFilledBucket (appendAll (build TTWDefinition.default) basicTestAppends) :=
  ⟨by decide, by decide, by decide, by decide,
    getOldestBucketFilled_eq_highestFilledBucket TTWDefinition.default basicTestAppends
      (by decide) (by decide) (by decide)⟩

end TiltedTimeWindow

namespace TiltedTimeWindow

theorem filter_replicate_unused (n : Nat) :
    (List.replicate n TTW_BUCKET_UNUSED).filter (fun b => b != TTW_BUCKET_UNUSED) = [] := by
  induction n with
  | zero => rfl
  | succ n ih => rw [List.replicate_succ, List.filter_cons_of_neg (by simp), ih]

theorem sumSlots_padLevel (c : Nat) (q : List SupportCount) :
    sumSlots (padLevel c q) = sumSlots q := by
  unfold sumSlots padLevel
  rw [List.filter_append, filter_replicate_unused, List.append_nil]

/-- The sum that `getSupportForRange` computes over the whole rendering is the
sum of the used values, when that sum is below the sentinel. -/
theorem sumSlots_render : ∀ (caps : List Nat) (levels : List (List SupportCount)),
    LevelsFit caps levels → (∀ q ∈ levels, ∀ v ∈ q, v ≠ TTW_BUCKET_UNUSED) →
    ((render caps levels).filter (fun b => b != TTW_BUCKET_UNUSED)).sum = levelsTotal levels := by
  intro caps
  induction caps with
  | nil =>
    intro levels h _
    cases levels with
    | nil => rfl
    | cons _ _ => exact absurd h (by simp [LevelsFit])
  | cons c cs ih =>
    intro levels h hne
    cases levels with
    | nil => exact absurd h (by simp [LevelsFit])
    | cons q qs =>
      have hq : q.filter (fun b => b != TTW_BUCKET_UNUSED) = q := by
        rw [List.filter_eq_self]
        intro v hv
        simpa using hne q (List.mem_cons_self _ _) v hv
      rw [render, List.filter_append, List.sum_append, levelsTotal_cons,
        ih qs h.2.2 (fun q1 hq1 => hne q1 (List.mem_cons_of_mem _ hq1))]
      unfold padLevel
      rw [List.filter_append, filter_replicate_unused, List.append_nil, hq]

/-- The slots from the bucket offset of granularity `g` on start with the
slots of that granularity. -/
theorem drop_render : ∀ (caps : List Nat) (levels : List (List SupportCount)) (g : Nat),
    LevelsFit caps levels → g < caps.length →
    ∃ rest, (render caps levels).drop (caps.take g).sum =
      padLevel (caps.getD g 0) (levels.getD g []) ++ rest := by
  intro caps
  induction caps with
  | nil => intro levels g _ hg; simp at hg
  | cons c cs ih =>
    intro levels g h hg
    cases levels with
    | nil => exact absurd h (by simp [LevelsFit])
    | cons q qs =>
      cases g with
      | zero => exact ⟨render cs qs, rfl⟩
      | succ g =>
        have hg1 : g < cs.length := by
          rw [List.length_cons] at hg; omega
        obtain ⟨rest, hrest⟩ := ih qs g h.2.2 hg1
        refine ⟨rest, ?_⟩
        have hlen : (padLevel c q).length = c := padLevel_length c q h.2.1
        have hdrop : (padLevel c q ++ render cs qs).drop c = render cs qs := by
          have := List.drop_left (padLevel c q) (render cs qs)
          rw [hlen] at this
          exact this
        rw [List.take_succ_cons, List.sum_cons, render, ← List.drop_drop, hdrop, hrest]
        rfl

theorem levelsFit_getD : ∀ (caps : List Nat) (levels : List (List SupportCount)) (g : Nat),
    LevelsFit caps levels → (levels.getD g []).length ≤ caps.getD g 0 := by
  intro caps
  induction caps with
  | nil =>
    intro levels g h
    cases levels with
    | nil => exact Nat.le_refl _
    | cons _ _ => exact absurd h (by simp [LevelsFit])
  | cons c cs ih =>
    intro levels g h
    cases levels with
    | nil => exact absurd h (by simp [LevelsFit])
    | cons q qs =>
      cases g with
      | zero => exact h.2.1
      | succ g => exact ih qs g h.2.2

theorem usedBuckets_of_represents (w : TiltedTimeWindow) (levels : List (List SupportCount))
    (g : Granularity) (hrep : Represents w levels) (hg : g < w.ttwDef.numGranularities) :
    usedBuckets w g = levels.getD g [] := by
  obtain ⟨hfit, hb, hu⟩ := hrep
  obtain ⟨rest, hrest⟩ := drop_render w.ttwDef.bucketCount levels g hfit hg
  unfold usedBuckets getCapacityUsed
  rw [hu, getD_map_length, hb]
  show ((render w.ttwDef.bucketCount levels).drop (w.ttwDef.bucketCount.take g).sum).take _ = _
  rw [hrest]
  unfold padLevel
  rw [List.append_assoc, List.take_left]

theorem granularitySupport_of_represents (w : TiltedTimeWindow)
    (levels : List (List SupportCount)) (g : Granularity) (hrep : Represents w levels)
    (hg : g < w.ttwDef.numGranularities) :
    granularitySupport w g = sumSlots (levels.getD g []) := by
  obtain ⟨hfit, hb, _⟩ := hrep
  obtain ⟨rest, hrest⟩ := drop_render w.ttwDef.bucketCount levels g hfit hg
  have hlen := padLevel_length (w.ttwDef.bucketCount.getD g 0) (levels.getD g [])
    (levelsFit_getD _ _ g hfit)
  have hpos : 1 ≤ w.ttwDef.bucketCount.getD g 0 := by
    apply caps_pos_of_levelsFit _ _ hfit
    rw [List.getD_eq_getElem _ _ hg]
    exact List.getElem_mem _
  unfold granularitySupport getSupportForRange
  rw [hb]
  show sumSlots (((render w.ttwDef.bucketCount levels).drop
    (w.ttwDef.bucketCount.take g).sum).take
      ((w.ttwDef.bucketCount.take g).sum + w.ttwDef.bucketCount.getD g 0 - 1 + 1 -
        (w.ttwDef.bucketCount.take g).sum)) = _
  have harith : ∀ a b : Nat, 1 ≤ b → a + b - 1 + 1 - a = b := by
    intro a b hb; omega
  rw [harith _ _ hpos, hrest]
  nth_rewrite 1 [← hlen]
  rw [List.take_left, sumSlots_padLevel]

theorem head_storeLevels (caps : List Nat) (levels : List (List SupportCount))
    (s : SupportCount) (hfit : LevelsFit caps levels) (hne : caps ≠ []) :
    ∃ n, (storeLevels caps levels s).getD 0 [] = s :: (levels.getD 0 []).take n := by
  cases caps with
  | nil => exact absurd rfl hne
  | cons c cs =>
    cases levels with
    | nil => exact absurd hfit (by simp [LevelsFit])
    | cons q qs =>
      unfold storeLevels
      split
      · exact ⟨q.length, by simp⟩
      · split
        · exact ⟨0, by simp⟩
        · exact ⟨c - 1, by simp⟩

/-- What the shift-cascade does to a granularity other than the finest: nothing,
or it puts the sum of the values of the next finer granularity, which is full,
in front of some of the newest values. -/
theorem storeLevels_coarser : ∀ (caps : List Nat) (levels : List (List SupportCount))
    (s : SupportCount) (g : Nat), LevelsFit caps levels →
    (storeLevels caps levels s).getD (g + 1) [] = levels.getD (g + 1) [] ∨
    ((levels.getD g []).length = caps.getD g 0 ∧
      ∃ n, (storeLevels caps levels s).getD (g + 1) [] =
        sumSlots (levels.getD g []) :: (levels.getD (g + 1) []).take n) := by
  intro caps
  induction caps with
  | nil =>
    intro levels s g h
    left
    cases levels <;> rfl
  | cons c cs ih =>
    intro levels s g h
    cases levels with
    | nil => exact absurd h (by simp [LevelsFit])
    | cons q qs =>
      obtain ⟨hc, hq, hfit⟩ := h
      by_cases hlt : q.length < c
      · left
        simp only [storeLevels, if_pos hlt]
        rfl
      · have hqlen : q.length = c := by omega
        by_cases hcs : cs = []
        · left
          subst hcs
          have hqs : qs = [] := by
            cases qs with
            | nil => rfl
            | cons _ _ => exact absurd hfit (by simp [LevelsFit])
          subst hqs
          simp only [storeLevels, if_neg hlt, ne_eq, not_true_eq_false, if_false]
          rfl
        · have h2 : storeLevels (c :: cs) (q :: qs) s =
              [s] :: storeLevels cs qs (sumSlots q) := by
            simp only [storeLevels, if_neg hlt, ne_eq, hcs, not_false_eq_true, if_true]
          rw [h2]
          cases g with
          | zero =>
            right
            obtain ⟨n, hn⟩ := head_storeLevels cs qs (sumSlots q) hfit hcs
            exact ⟨hqlen, n, hn⟩
          | succ g =>
            rcases ih qs (sumSlots q) g hfit with hl | hr
            · left; exact hl
            · right; exact hr

theorem getD_succ_foldLevels (levels : List (List SupportCount)) (s : SupportCount) (g : Nat) :
    (foldLevels levels s).getD (g + 1) [] = levels.getD (g + 1) [] := by
  match levels with
  | [] => rfl
  | [] :: _ => rfl
  | (_ :: _) :: _ => rfl

theorem levelsTotal_appendLevels_eq (w : TiltedTimeWindow) (levels : List (List SupportCount))
    (s : SupportCount) (u : Nat) (hrep : Represents w levels)
    (hhead : w.lastUpdate ≠ 0 → HeadUsed levels)
    (htot : levelsTotal levels + s < TTW_BUCKET_UNUSED) (hkeep : ¬LosesValue w u) :
    levelsTotal (appendLevels w.ttwDef.bucketCount levels w.lastUpdate s u) =
      levelsTotal levels + s := by
  unfold appendLevels
  by_cases hu : u ≠ 0 ∧ u = w.lastUpdate
  · rw [if_pos hu]
    exact levelsTotal_foldLevels levels s (hhead (by rw [← hu.2]; exact hu.1)) htot
  · rw [if_neg hu]
    apply (levelsTotal_storeLevels _ levels s hrep.1 (by omega)).2
    intro heq
    apply hkeep
    exact ⟨hu, by rw [hrep.2.2, heq]⟩

/-- The used values of a window after a sequence of appends none of which makes
a value fall off: their sum is the sum of the appended supports. -/
theorem represents_appendAll_of_noValueFallsOff : ∀ (xs : List (SupportCount × Nat))
    (w : TiltedTimeWindow) (levels : List (List SupportCount)), Represents w levels →
    w.ttwDef.bucketCount ≠ [] → (w.lastUpdate ≠ 0 → HeadUsed levels) →
    levelsTotal levels + appendedSupport xs < TTW_BUCKET_UNUSED → NoValueFallsOff w xs →
    ∃ levels1, Represents (appendAll w xs) levels1 ∧
      levelsTotal levels1 = levelsTotal levels + appendedSupport xs ∧
      ((appendAll w xs).lastUpdate ≠ 0 → HeadUsed levels1) ∧
      (appendAll w xs).ttwDef = w.ttwDef := by
  intro xs
  induction xs with
  | nil =>
    intro w levels hrep _ hhead _ _
    exact ⟨levels, hrep, rfl, hhead, rfl⟩
  | cons x rest ih =>
    intro w levels hrep hne hhead htot hkeep
    obtain ⟨s, u⟩ := x
    obtain ⟨hkeep0, hkeep1⟩ := hkeep
    have htot1 : levelsTotal levels + (s + appendedSupport rest) < TTW_BUCKET_UNUSED := htot
    obtain ⟨hrep1, hhead1⟩ := represents_append_levels w levels s u hrep hne hhead
    have heq := levelsTotal_appendLevels_eq w levels s u hrep hhead
      (by simp only [SupportCount] at *; omega) hkeep0
    have hdef : (w.append s u).ttwDef = w.ttwDef := ttwDef_append w s u
    obtain ⟨levels1, h1, h2, h3, h4⟩ := ih (w.append s u) _ hrep1
      (by rw [hdef]; exact hne) (fun _ => hhead1)
      (by simp only [SupportCount] at *; omega) hkeep1
    refine ⟨levels1, h1, ?_, h3, by rw [← hdef]; exact h4⟩
    show _ = levelsTotal levels + (s + appendedSupport rest)
    simp only [SupportCount] at *
    omega

/-- C18. For every definition with at least one granularity and at least one
bucket in each, and every sequence of appends (any update IDs) to a fresh
window whose supports add up to less than the `UNUSED` sentinel: as long as no
value has fallen off the coarsest granularity, `getSupportForRange(0,
numBuckets - 1)`, the sum of all buckets with `UNUSED` counted as 0, equals the
sum of all appended supports; and whatever a further append changes in a
granularity `g + 1`, the bucket it adds there is the sum of the buckets of
granularity `g`, all `capacity(g)` of which are then in use, and the other
buckets of granularity `g + 1` are buckets it held before. -/
theorem getSupportForRange_eq_appendedSupport (d : TTWDefinition)
    (xs : List (SupportCount × Nat)) (hne : d.bucketCount ≠ [])
    (hpos : ∀ n ∈ d.bucketCount, 1 ≤ n) (hsum : appendedSupport xs < TTW_BUCKET_UNUSED)
    (hkeep : NoValueFallsOff (build d) xs) :
    (appendAll (build d) xs).getSupportForRange 0 (d.numBuckets - 1) = appendedSupport xs ∧
    ∀ (s : SupportCount) (u : Nat) (g : Granularity), g + 1 < d.numGranularities →
      usedBuckets ((appendAll (build d) xs).append s u) (g + 1) =
        usedBuckets (appendAll (build d) xs) (g + 1) ∨
      ((appendAll (build d) xs).getCapacityUsed g = d.capacity g ∧
        ∃ n, usedBuckets ((appendAll (build d) xs).append s u) (g + 1) =
          granularitySupport (appendAll (build d) xs) g ::
            (usedBuckets (appendAll (build d) xs) (g + 1)).take n) := by
  have h0 : levelsTotal (List.replicate d.bucketCount.length ([] : List SupportCount)) = 0 :=
    levelsTotal_replicate_nil _
  obtain ⟨levels1, hrep, htot, hhead, hdef⟩ := represents_appendAll_of_noValueFallsOff xs
    (build d) _ (represents_build d hpos) hne (fun h => absurd rfl h) (by rw [h0]; omega) hkeep
  have hdef1 : (appendAll (build d) xs).ttwDef = d := hdef
  rw [h0, Nat.zero_add] at htot
  constructor
  · have hlen : (appendAll (build d) xs).buckets.length = d.numBuckets := by
      rw [hrep.2.1, length_render _ _ hrep.1, hdef1]
      rfl
    unfold getSupportForRange
    rw [List.drop_zero, List.take_of_length_le (by rw [hlen]; omega), hrep.2.1]
    have hlt : levelsTotal levels1 < TTW_BUCKET_UNUSED := by rw [htot]; exact hsum
    unfold sumSlots
    rw [sumSlots_render _ levels1 hrep.1 (ne_unused_of_levelsTotal_lt levels1 hlt), htot]
    exact Nat.mod_eq_of_lt (Nat.lt_trans hsum unused_lt_modulus)
  · intro s u g hg
    have hne1 : (appendAll (build d) xs).ttwDef.bucketCount ≠ [] := by
      rw [hdef1]; exact hne
    obtain ⟨hrep1, _⟩ := represents_append_levels (appendAll (build d) xs) levels1 s u hrep
      hne1 hhead
    have hg0 : g + 1 < (appendAll (build d) xs).ttwDef.numGranularities := by
      rw [hdef1]; exact hg
    have hg1 : g + 1 < ((appendAll (build d) xs).append s u).ttwDef.numGranularities := by
      rw [ttwDef_append]; exact hg0
    rw [usedBuckets_of_represents _ _ (g + 1) hrep1 hg1,
      usedBuckets_of_represents _ _ (g + 1) hrep hg0,
      granularitySupport_of_represents _ _ g hrep (Nat.lt_of_succ_lt hg0)]
    have hused : (appendAll (build d) xs).getCapacityUsed g = (levels1.getD g []).length := by
      unfold getCapacityUsed
      rw [hrep.2.2, getD_map_length]
    rw [hused]
    unfold appendLevels
    by_cases hu : u ≠ 0 ∧ u = (appendAll (build d) xs).lastUpdate
    · left
      rw [if_pos hu, getD_succ_foldLevels]
    · rw [if_neg hu, hdef1]
      exact storeLevels_coarser d.bucketCount levels1 s g (by rw [← hdef1]; exact hrep.1)

/-- Instance of `getSupportForRange_eq_appendedSupport`: the first twelve
appends of the second half of `TestTiltedTimeWindow::slidingWindow` fill the
window `[30, 30, 30, 30, 80, 40]`, whose buckets add up to the appended 240. -/
theorem getSupportForRange_eq_appendedSupport_witness :
    doubleGranularityDefinition.bucketCount ≠ [] ∧
    (∀ n ∈ doubleGranularityDefinition.bucketCount, 1 ≤ n) ∧
    appendedSupport (doubleGranularityAppends.take 12) < TTW_BUCKET_UNUSED ∧
    NoValueFallsOff (build doubleGranularityDefinition) (doubleGranularityAppends.take 12) ∧
    appendedSupport (doubleGranularityAppends.take 12) = 240 ∧
    (appendAll (build doubleGranularityDefinition)
      (doubleGranularityAppends.take 12)).getSupportForRange 0
        (doubleGranularityDefinition.numBuckets - 1) =
      appendedSupport (doubleGranularityAppends.take 12) :=
  ⟨by decide, by decide, by decide, by decide, by decide,
    (getSupportForRange_eq_appendedSupport doubleGranularityDefinition
      (doubleGranularityAppends.take 12) (by decide) (by decide) (by decide) (by decide)).1⟩

end TiltedTimeWindow

namespace TiltedTimeWindow

/-- The thirteenth append of `TestTiltedTimeWindow::slidingWindow` finds both
granularities full: the oldest hour, 40, falls off, and the buckets
`[40, U, U, U, 120, 80]` add up to 240 while 280 was appended. -/
theorem thirteenth_append_loses_value :
    LosesValue (appendAll (build doubleGranularityDefinition)
      (doubleGranularityAppends.take 12)) 13 ∧
    ¬NoValueFallsOff (build doubleGranularityDefinition) doubleGranularityAppends ∧
    appendedSupport doubleGranularityAppends = 280 ∧
    (appendAll (build doubleGranularityDefinition) doubleGranularityAppends).getSupportForRange 0
      (doubleGranularityDefinition.numBuckets - 1) = 240 := by
  decide

end TiltedTimeWindow

namespace PatternTree

/-- What `getFrequentItemsetsForRange` returns, as a listing of the patterns. -/
theorem getFrequentItemsetsForRange_eq (t : PatternTree) (minSupport : SupportCount)
    (c : Constraints) (fromBucket toBucket : Bucket) :
    t.getFrequentItemsetsForRange minSupport c fromBucket toBucket =
      (t.patterns.filter (qualifies minSupport c fromBucket toBucket)).map
        (rangeItemset fromBucket toBucket) := by
  have h := getFrequentItemsetsForRangeChildren_of_forall minSupport c fromBucket toBucket
    t.root.getChildren
    (fun n _ => getFrequentItemsetsForRangeAt_eq minSupport c fromBucket toBucket n) []
  simp [getFrequentItemsetsForRange, FrequentItemset.default, h, patterns]

/-- C23 (as stated, refuted). On the tree of
`TestPatternTree::buildBasicPatternTree` the pattern `{1, 2}` has support 4 over
the whole range and matches the empty constraints, yet with `minSupport` 4 it is
not returned: only `{1, 4}`, of support 5, is.  With `minSupport` 0 the pattern
`{1}`, of support 0, is not returned either, as
`TestPatternTree::getFrequentItemsetsForRange` expects. -/
theorem getFrequentItemsetsForRange_excludes_equal_support :
    (buildBasicPatternTree.getPatternSupport [1, 2]).map
      (fun w => w.getSupportForRange 0 71) = some 4 ∧
    Constraints.none.matchItemset [1, 2] = true ∧
    buildBasicPatternTree.getFrequentItemsetsForRange 4 Constraints.none 0 71 =
      [{ itemset := [1, 4], support := 5 }] ∧
    (buildBasicPatternTree.getPatternSupport [1]).map
      (fun w => w.getSupportForRange 0 71) = some 0 ∧
    buildBasicPatternTree.getFrequentItemsetsForRange 0 Constraints.none 0 71 =
      [{ itemset := [1, 2], support := 4 }, { itemset := [1, 2, 3], support := 1 },
       { itemset := [1, 4], support := 5 }] := by
  decide

/-- C23 (amended). `getFrequentItemsetsForRange` returns exactly the patterns
whose support over the range is strictly greater than `minSupport` and whose
itemset matches the constraints: a frequent itemset is returned iff it is the
itemset and range support of such a pattern, and the itemset and range support
of a pattern whose support is `minSupport` or less is not returned. -/
theorem mem_getFrequentItemsetsForRange_iff (t : PatternTree) (minSupport : SupportCount)
    (c : Constraints) (fromBucket toBucket : Bucket) :
    (∀ fi : FrequentItemset,
      fi ∈ t.getFrequentItemsetsForRange minSupport c fromBucket toBucket ↔
        ∃ p ∈ t.patterns, minSupport < supportOver fromBucket toBucket p ∧
          c.matchItemset p.1 = true ∧ fi = rangeItemset fromBucket toBucket p) ∧
    (∀ p ∈ t.patterns, supportOver fromBucket toBucket p ≤ minSupport →
      rangeItemset fromBucket toBucket p ∉
        t.getFrequentItemsetsForRange minSupport c fromBucket toBucket) := by
  have hiff : ∀ fi : FrequentItemset,
      fi ∈ t.getFrequentItemsetsForRange minSupport c fromBucket toBucket ↔
        ∃ p ∈ t.patterns, minSupport < supportOver fromBucket toBucket p ∧
          c.matchItemset p.1 = true ∧ fi = rangeItemset fromBucket toBucket p := by
    intro fi
    rw [getFrequentItemsetsForRange_eq, List.mem_map]
    constructor
    · rintro ⟨p, hp, rfl⟩
      rw [List.mem_filter] at hp
      obtain ⟨hp1, hp2⟩ := hp
      simp only [qualifies, Bool.and_eq_true, decide_eq_true_eq] at hp2
      exact ⟨p, hp1, hp2.1, hp2.2, rfl⟩
    · rintro ⟨p, hp, h1, h2, rfl⟩
      refine ⟨p, ?_, rfl⟩
      rw [List.mem_filter]
      refine ⟨hp, ?_⟩
      simp only [qualifies, Bool.and_eq_true, decide_eq_true_eq]
      exact ⟨h1, h2⟩
  refine ⟨hiff, ?_⟩
  intro p _ hle hmem
  obtain ⟨q, _, hq, _, heq⟩ := (hiff _).mp hmem
  have hs : supportOver fromBucket toBucket p = supportOver fromBucket toBucket q := by
    have := congrArg FrequentItemset.support heq
    exact this
  rw [hs] at hle
  exact Nat.lt_irrefl _ (Nat.lt_of_lt_of_le hq hle)

/-- Instance of `mem_getFrequentItemsetsForRange_iff`: on the tree of
`TestPatternTree::buildBasicPatternTree` with `minSupport` 4, the pattern
`{1, 4}` of support 5 is returned. -/
theorem mem_getFrequentItemsetsForRange_iff_witness :
    ({ itemset := [1, 4], support := 5 } : FrequentItemset) ∈
      buildBasicPatternTree.getFrequentItemsetsForRange 4 Constraints.none 0 71 ↔
    ∃ p ∈ buildBasicPatternTree.patterns, 4 < supportOver 0 71 p ∧
      Constraints.none.matchItemset p.1 = true ∧
      ({ itemset := [1, 4], support := 5 } : FrequentItemset) = rangeItemset 0 71 p :=
  (mem_getFrequentItemsetsForRange_iff buildBasicPatternTree 4 Constraints.none 0 71).1 _

end PatternTree

namespace FPNode

variable {T : Type}

/-- The itemsets listed by `itemsetsBelow` are the itemsets of the pre-order
listing of the nodes below. -/
theorem itemsetsBelow_eq_map_preorderList : ∀ (cs : List (FPNode T)) (itemset : ItemIDList),
    (∀ c ∈ cs, ∀ path, itemsetsBelow path c.getChildren =
      (preorderList path c.getChildren).map Prod.fst) →
    itemsetsBelow itemset cs = (preorderList itemset cs).map Prod.fst := by
  intro cs
  induction cs with
  | nil => intro itemset _; simp [itemsetsBelow, preorderList]
  | cons c rest ih =>
    intro itemset h
    cases c with
    | mk i v cs1 =>
      rw [itemsetsBelow, preorderList, preorder, List.map_append, List.map_cons,
        ih itemset (fun c hc => h c (List.mem_cons_of_mem _ hc))]
      have := h (mk i v cs1) (List.mem_cons_self _ _) (itemset ++ [i])
      rw [PatternTree.getChildren_mk] at this
      rw [this]
      rfl

theorem itemsetsBelow_children (n : FPNode T) :
    ∀ path, itemsetsBelow path n.getChildren = (preorderList path n.getChildren).map Prod.fst := by
  induction n using FPNode.induct with
  | h i v cs ih =>
    intro path
    rw [PatternTree.getChildren_mk]
    exact itemsetsBelow_eq_map_preorderList cs path ih

end FPNode

namespace PatternTree

/-- C24. `getTotalSupportForRange` is the sum, in `uint` arithmetic (modulo
2^32, and exact when the sum is below 2^32), of `getSupportForRange(from, to)`
over exactly those nodes, the root included, whose subtree, the node included,
contains a node whose itemset (`ROOT_ITEMID` followed by its root path) matches
the constraints: the itemsets below a node are the itemsets of its descendants,
a node with a matching descendant is counted whether or not it matches itself,
and a node none of whose descendants match is counted iff it matches itself. -/
theorem getTotalSupportForRange_eq_sum_matching_subtrees (t : PatternTree) (c : Constraints)
    (fromBucket toBucket : Bucket) :
    t.getTotalSupportForRange c fromBucket toBucket =
      ((t.allNodes.filter (subtreeHasMatch c)).map (supportOver fromBucket toBucket)).sum %
        UINT_MODULUS ∧
    (((t.allNodes.filter (subtreeHasMatch c)).map (supportOver fromBucket toBucket)).sum <
        UINT_MODULUS →
      t.getTotalSupportForRange c fromBucket toBucket =
        ((t.allNodes.filter (subtreeHasMatch c)).map (supportOver fromBucket toBucket)).sum) ∧
    (∀ p ∈ t.allNodes,
      (subtreeHasMatch c p = true ↔
        c.matchItemset p.1 = true ∨
        ∃ q ∈ FPNode.preorderList p.1 p.2.getChildren, c.matchItemset q.1 = true) ∧
      ((∃ q ∈ FPNode.preorderList p.1 p.2.getChildren, c.matchItemset q.1 = true) →
        subtreeHasMatch c p = true) ∧
      ((∀ q ∈ FPNode.preorderList p.1 p.2.getChildren, c.matchItemset q.1 = false) →
        subtreeHasMatch c p = c.matchItemset p.1)) := by
  have hiff : ∀ p : ItemIDList × FPNode TiltedTimeWindow,
      (subtreeHasMatch c p = true ↔
        c.matchItemset p.1 = true ∨
        ∃ q ∈ FPNode.preorderList p.1 p.2.getChildren, c.matchItemset q.1 = true) := by
    intro p
    unfold subtreeHasMatch
    rw [FPNode.itemsetsBelow_children, Bool.or_eq_true, List.any_eq_true]
    constructor
    · rintro (h | ⟨x, hx, hm⟩)
      · exact Or.inl h
      · obtain ⟨q, hq, rfl⟩ := List.mem_map.mp hx
        exact Or.inr ⟨q, hq, hm⟩
    · rintro (h | ⟨q, hq, hm⟩)
      · exact Or.inl h
      · exact Or.inr ⟨q.1, List.mem_map_of_mem _ hq, hm⟩
  refine ⟨getTotalSupportForRange_eq_sum t c fromBucket toBucket, ?_, ?_⟩
  · intro hlt
    rw [getTotalSupportForRange_eq_sum, Nat.mod_eq_of_lt hlt]
  · intro p _
    refine ⟨hiff p, fun h => (hiff p).mpr (Or.inr h), ?_⟩
    intro hall
    cases hm : c.matchItemset p.1 with
    | true => exact (hiff p).mpr (Or.inl hm)
    | false =>
      cases hs : subtreeHasMatch c p with
      | false => rfl
      | true =>
        rcases (hiff p).mp hs with h | ⟨q, hq, hqm⟩
        · rw [hm] at h; cases h
        · rw [hall q hq] at hqm; cases hqm

/-- Instance of `getTotalSupportForRange_eq_sum_matching_subtrees`: on the tree
of `TestPatternTree::buildBasicPatternTree` the total is 5 with the positive
constraint on item 2 and 4 when the negative constraint on item 3 is added, as
`TestPatternTree::getTotalSupportForRange` expects. -/
theorem getTotalSupportForRange_eq_sum_matching_subtrees_witness :
    buildBasicPatternTree.getTotalSupportForRange positiveTwo 0 71 = 5 ∧
    buildBasicPatternTree.getTotalSupportForRange positiveTwoNegativeThree 0 71 = 4 ∧
    buildBasicPatternTree.getTotalSupportForRange positiveTwo 0 71 =
      ((buildBasicPatternTree.allNodes.filter (subtreeHasMatch positiveTwo)).map
        (supportOver 0 71)).sum % UINT_MODULUS :=
  ⟨by decide, by decide,
    (getTotalSupportForRange_eq_sum_matching_subtrees buildBasicPatternTree positiveTwo 0
      71).1⟩

end PatternTree

namespace FPNode

variable {T : Type}

theorem map_snd_preorderList_of_forall : ∀ (cs : List (FPNode T)) (path1 path2 : ItemIDList),
    (∀ c ∈ cs, ∀ p1 p2, (preorder p1 c).map Prod.snd = (preorder p2 c).map Prod.snd) →
    (preorderList path1 cs).map Prod.snd = (preorderList path2 cs).map Prod.snd := by
  intro cs
  induction cs with
  | nil => intro _ _ _; simp [preorderList]
  | cons c rest ih =>
    intro path1 path2 h
    rw [preorderList, preorderList, List.map_append, List.map_append,
      h c (List.mem_cons_self _ _) path1 path2,
      ih path1 path2 (fun c hc => h c (List.mem_cons_of_mem _ hc))]

/-- The nodes of the pre-order listing do not depend on the itemset the listing
starts from. -/
theorem map_snd_preorder (n : FPNode T) :
    ∀ p1 p2, (preorder p1 n).map Prod.snd = (preorder p2 n).map Prod.snd := by
  induction n using FPNode.induct with
  | h i v cs ih =>
    intro p1 p2
    rw [preorder, preorder, List.map_cons, List.map_cons,
      map_snd_preorderList_of_forall cs (p1 ++ [i]) (p2 ++ [i]) ih]

theorem map_snd_preorderList (cs : List (FPNode T)) (path1 path2 : ItemIDList) :
    (preorderList path1 cs).map Prod.snd = (preorderList path2 cs).map Prod.snd :=
  map_snd_preorderList_of_forall cs path1 path2 (fun c _ => map_snd_preorder c)

end FPNode

namespace TiltedTimeWindow

theorem sumSlots_of_all_unused (slots : List SupportCount)
    (h : ∀ b ∈ slots, b = TTW_BUCKET_UNUSED) : sumSlots slots = 0 := by
  unfold sumSlots
  rw [List.filter_eq_nil_iff.mpr (fun b hb => by simp [h b hb])]
  rfl

/-- An empty window has support 0 over every range. -/
theorem getSupportForRange_of_empty (w : TiltedTimeWindow) (fromBucket toBucket : Bucket)
    (h : ∀ b ∈ w.buckets, b = TTW_BUCKET_UNUSED) : w.getSupportForRange fromBucket toBucket = 0 := by
  unfold getSupportForRange
  apply sumSlots_of_all_unused
  intro b hb
  exact h b (List.mem_of_mem_drop (List.mem_of_mem_take hb))

end TiltedTimeWindow

namespace PatternTree

theorem sum_map_filter_pos {α : Type} (f : α → Nat) (l : List α) :
    ((l.filter (fun x => decide (0 < f x))).map f).sum = (l.map f).sum := by
  induction l with
  | nil => rfl
  | cons a l ih =>
    by_cases h : 0 < f a
    · rw [List.filter_cons_of_pos (by simpa using h), List.map_cons, List.map_cons,
        List.sum_cons, List.sum_cons, ih]
    · rw [List.filter_cons_of_neg (by simpa using h), List.map_cons, List.sum_cons, ih]
      omega

theorem matchItemset_none (itemset : ItemIDList) : Constraints.none.matchItemset itemset = true := by
  simp [Constraints.matchItemset, Constraints.none]

/-- The sum of the supports over the range of all nodes is the support of the
root plus the supports of the patterns. -/
theorem sum_allNodes_eq (t : PatternTree) (fromBucket toBucket : Bucket) :
    (t.allNodes.map (supportOver fromBucket toBucket)).sum =
      t.root.getValue.getSupportForRange fromBucket toBucket +
        (t.patterns.map (supportOver fromBucket toBucket)).sum := by
  have hsnd : ∀ l : List (ItemIDList × FPNode TiltedTimeWindow),
      l.map (supportOver fromBucket toBucket) =
        (l.map Prod.snd).map
          (fun n : FPNode TiltedTimeWindow => n.getValue.getSupportForRange fromBucket toBucket) := by
    intro l
    rw [List.map_map]
    rfl
  unfold allNodes patterns
  cases hr : t.root with
  | mk i v cs =>
    rw [FPNode.preorder, List.map_cons, List.sum_cons, hsnd, hsnd,
      FPNode.map_snd_preorderList cs ([] ++ [i]) []]
    rfl

/-- C25. For every pattern tree whose root window is empty (every slot
`UNUSED`) and every range, `getTotalSupportForRange` with empty constraints
equals, in `uint` arithmetic (modulo 2^32, exact when the sum is below 2^32),
the sum of the supports of the itemsets that `getFrequentItemsetsForRange`
returns for `minSupport` 0 and empty constraints, and that sum is the sum of
the range supports of all non-root nodes, internal ones included. -/
theorem getTotalSupportForRange_eq_sum_frequentItemsets (t : PatternTree)
    (fromBucket toBucket : Bucket)
    (hroot : ∀ b ∈ t.root.getValue.buckets, b = TTW_BUCKET_UNUSED) :
    t.getTotalSupportForRange Constraints.none fromBucket toBucket =
      ((t.getFrequentItemsetsForRange 0 Constraints.none fromBucket toBucket).map
        FrequentItemset.support).sum % UINT_MODULUS ∧
    ((t.getFrequentItemsetsForRange 0 Constraints.none fromBucket toBucket).map
        FrequentItemset.support).sum = (t.patterns.map (supportOver fromBucket toBucket)).sum ∧
    (((t.getFrequentItemsetsForRange 0 Constraints.none fromBucket toBucket).map
        FrequentItemset.support).sum < UINT_MODULUS →
      t.getTotalSupportForRange Constraints.none fromBucket toBucket =
        ((t.getFrequentItemsetsForRange 0 Constraints.none fromBucket toBucket).map
          FrequentItemset.support).sum) := by
  have hq : qualifies 0 Constraints.none fromBucket toBucket =
      fun p => decide (0 < supportOver fromBucket toBucket p) := by
    funext p
    simp [qualifies, matchItemset_none, supportOver]
  have hsum : ((t.getFrequentItemsetsForRange 0 Constraints.none fromBucket toBucket).map
      FrequentItemset.support).sum = (t.patterns.map (supportOver fromBucket toBucket)).sum := by
    rw [getFrequentItemsetsForRange_eq, List.map_map, hq]
    exact sum_map_filter_pos (supportOver fromBucket toBucket) t.patterns
  have htotal : t.getTotalSupportForRange Constraints.none fromBucket toBucket =
      (t.patterns.map (supportOver fromBucket toBucket)).sum % UINT_MODULUS := by
    rw [getTotalSupportForRange_eq_sum,
      List.filter_eq_self.mpr (fun p _ => subtreeHasMatch_none p), sum_allNodes_eq,
      TiltedTimeWindow.getSupportForRange_of_empty _ _ _ hroot, Nat.zero_add]
  refine ⟨by rw [hsum]; exact htotal, hsum, ?_⟩
  intro hlt
  rw [htotal, hsum]
  rw [hsum] at hlt
  exact Nat.mod_eq_of_lt hlt

/-- Instance of `getTotalSupportForRange_eq_sum_frequentItemsets`: on the tree of
`TestPatternTree::buildBasicPatternTree` the total over the whole range is 10,
the sum of the supports 4, 1 and 5 of the returned itemsets. -/
theorem getTotalSupportForRange_eq_sum_frequentItemsets_witness :
    (∀ b ∈ buildBasicPatternTree.root.getValue.buckets, b = TTW_BUCKET_UNUSED) ∧
    buildBasicPatternTree.getTotalSupportForRange Constraints.none 0 71 = 10 ∧
    ((buildBasicPatternTree.getFrequentItemsetsForRange 0 Constraints.none 0 71).map
      FrequentItemset.support) = [4, 1, 5] ∧
    buildBasicPatternTree.getTotalSupportForRange Constraints.none 0 71 =
      ((buildBasicPatternTree.getFrequentItemsetsForRange 0 Constraints.none 0 71).map
        FrequentItemset.support).sum % UINT_MODULUS :=
  ⟨by decide, by decide, by decide,
    (getTotalSupportForRange_eq_sum_frequentItemsets buildBasicPatternTree 0 71
      (by decide)).1⟩

end PatternTree

namespace FPNode

variable {T : Type}

/-- A node that exists after the walk of `addPattern` and did not exist before
lies on the path of the itemset. -/
theorem findNode_addPath_created (fresh : T) (f : T → T) (itemset : ItemIDList) :
    ∀ (n : FPNode T) (k : Nat) (other : ItemIDList), findNode other n = none →
      (findNode other (addPath fresh f itemset n k).1).isSome = true →
      ∃ rest, other ++ rest = itemset := by
  induction itemset with
  | nil =>
    intro n k other hnone hsome
    cases n with
    | mk i v cs =>
      cases other with
      | nil => simp [findNode] at hnone
      | cons y ys =>
        simp only [addPath, findNode, getChild_mk] at hsome hnone
        rw [hnone] at hsome
        cases hsome
  | cons x rest ih =>
    intro n k other hnone hsome
    cases other with
    | nil => simp [findNode] at hnone
    | cons y ys =>
      cases n with
      | mk i v cs =>
        rw [addPath] at hsome
        cases hc : (mk i v cs).getChild x with
        | none =>
          have hc1 : cs.find? (fun c => c.getItemID == x) = none := by
            rw [← getChild_mk i v cs x]; exact hc
          simp only [hc] at hsome
          by_cases hyx : y = x
          · subst hyx
            have hfind : (mk i v (cs ++ [(addPath fresh f rest (mk y fresh []) (k + 1)).1])).getChild y
                = some (addPath fresh f rest (mk y fresh []) (k + 1)).1 := by
              rw [getChild_mk]
              exact find_append_new y _ cs hc1 (by rw [getItemID_addPath]; rfl)
            simp only [findNode, hfind] at hsome
            cases ys with
            | nil => exact ⟨rest, rfl⟩
            | cons z zs =>
              have hfresh : findNode (z :: zs) (mk y fresh []) = none := by
                simp [findNode, getChild, getChildren]
              obtain ⟨r, hr⟩ := ih (mk y fresh []) (k + 1) (z :: zs) hfresh hsome
              exact ⟨r, by rw [List.cons_append, hr]⟩
          · have hfind : (mk i v (cs ++ [(addPath fresh f rest (mk x fresh []) (k + 1)).1])).getChild y
                = (mk i v cs).getChild y := by
              rw [getChild_mk, getChild_mk]
              exact find_append_ne y _ cs
                (by rw [getItemID_addPath]; exact fun h => hyx h.symm)
            simp only [findNode, hfind] at hsome
            simp only [findNode] at hnone
            rw [hnone] at hsome
            cases hsome
        | some c =>
          have hc1 : cs.find? (fun c => c.getItemID == x) = some c := by
            rw [← getChild_mk i v cs x]; exact hc
          have hid : (addPath fresh f rest c k).1.getItemID = x := by
            rw [getItemID_addPath]; exact getItemID_of_find x c cs hc1
          simp only [hc] at hsome
          by_cases hyx : y = x
          · subst hyx
            have hfind : (mk i v (replaceChild y (addPath fresh f rest c k).1 cs)).getChild y
                = some (addPath fresh f rest c k).1 := by
              rw [getChild_mk]
              exact find_replaceChild y _ c cs hc1 hid
            simp only [findNode, hfind] at hsome
            simp only [findNode, hc] at hnone
            obtain ⟨r, hr⟩ := ih c k ys hnone hsome
            exact ⟨r, by rw [List.cons_append, hr]⟩
          · have hfind : (mk i v (replaceChild x (addPath fresh f rest c k).1 cs)).getChild y
                = (mk i v cs).getChild y := by
              rw [getChild_mk, getChild_mk]
              exact find_replaceChild_ne x y _ cs hid hyx
            simp only [findNode, hfind] at hsome
            simp only [findNode] at hnone
            rw [hnone] at hsome
            cases hsome

theorem matchedLength_le (itemset : ItemIDList) :
    ∀ (n : FPNode T), matchedLength itemset n ≤ itemset.length := by
  induction itemset with
  | nil => intro n; exact Nat.le_refl _
  | cons x rest ih =>
    intro n
    rw [matchedLength]
    cases n.getChild x with
    | none => exact Nat.zero_le _
    | some c =>
      have := ih c
      simp only [List.length_cons]
      omega

/-- The initial parts of `itemset` that are paths from a node are those of
length at most `matchedLength`. -/
theorem findNode_take_isSome_iff (itemset : ItemIDList) :
    ∀ (n : FPNode T) (k : Nat), k ≤ itemset.length →
      ((findNode (itemset.take k) n).isSome = true ↔ k ≤ matchedLength itemset n) := by
  induction itemset with
  | nil =>
    intro n k hk
    simp only [List.length_nil, Nat.le_zero] at hk
    subst hk
    simp [findNode, matchedLength]
  | cons x rest ih =>
    intro n k hk
    cases k with
    | zero => simp [findNode]
    | succ k =>
      rw [List.take_succ_cons, findNode, matchedLength]
      cases n.getChild x with
      | none => simp
      | some c =>
        simp only
        rw [ih c k (by simp only [List.length_cons] at hk; omega)]
        omega

/-- The walk of `addPattern` creates one node per item that is not on an
existing path. -/
theorem addPath_nodeCount_eq (fresh : T) (f : T → T) (itemset : ItemIDList) :
    ∀ (n : FPNode T) (count : Nat),
      (addPath fresh f itemset n count).2 =
        count + (itemset.length - matchedLength itemset n) := by
  induction itemset with
  | nil =>
    intro n count
    cases n with
    | mk i v cs => rfl
  | cons x rest ih =>
    intro n count
    cases n with
    | mk i v cs =>
      rw [addPath, matchedLength]
      cases hc : (mk i v cs).getChild x with
      | none =>
        simp only
        rw [ih]
        have h0 : matchedLength rest (mk x fresh []) = 0 := by
          cases rest with
          | nil => rfl
          | cons y ys => simp [matchedLength, getChild, getChildren]
        rw [h0]
        simp only [List.length_cons]
        omega
      | some c =>
        simp only
        rw [ih]
        have := matchedLength_le rest c
        simp only [List.length_cons]
        omega

theorem shapeList_replaceChild (x : ItemID) (new c : FPNode T) :
    ∀ (cs : List (FPNode T)), cs.find? (fun c => c.getItemID == x) = some c →
      shape new = shape c → shapeList (replaceChild x new cs) = shapeList cs := by
  intro cs
  induction cs with
  | nil => intro h; simp at h
  | cons a rest ih =>
    intro h hs
    rw [replaceChild]
    by_cases ha : (a.getItemID == x) = true
    · rw [if_pos ha]
      simp only [List.find?_cons, ha] at h
      cases h
      rw [shapeList, shapeList, hs]
    · rw [if_neg ha]
      have ha1 : (a.getItemID == x) = false := by simpa using ha
      simp only [List.find?_cons, ha1] at h
      rw [shapeList, shapeList, ih h hs]

/-- The walk of `addPattern` along an existing path creates no node and keeps
the shape of the tree. -/
theorem addPath_of_existing (fresh : T) (f : T → T) (itemset : ItemIDList) :
    ∀ (n : FPNode T) (count : Nat), (findNode itemset n).isSome = true →
      (addPath fresh f itemset n count).2 = count ∧
      shape (addPath fresh f itemset n count).1 = shape n := by
  induction itemset with
  | nil =>
    intro n count _
    cases n with
    | mk i v cs => exact ⟨rfl, by simp [addPath, shape]⟩
  | cons x rest ih =>
    intro n count h
    cases n with
    | mk i v cs =>
      rw [findNode] at h
      rw [addPath]
      cases hc : (mk i v cs).getChild x with
      | none => rw [hc] at h; cases h
      | some c =>
        rw [hc] at h
        have hc1 : cs.find? (fun c => c.getItemID == x) = some c := by
          rw [← getChild_mk i v cs x]; exact hc
        obtain ⟨h1, h2⟩ := ih c count h
        refine ⟨h1, ?_⟩
        simp only
        rw [shape, shape, shapeList_replaceChild x _ c cs hc1 h2]

end FPNode

namespace PatternTree

/-- C27. `addPattern(itemset, s, u)` changes the window of the destination node
only: for every other itemset, a node that existed before keeps its window, and
a node that did not exist before and exists afterwards lies on the path of the
added itemset and has a freshly built window, with `lastUpdate` 0, usage 0 in
every granularity and every slot `UNUSED`. -/
theorem addPattern_frame (t : PatternTree) (pattern : FrequentItemset) (u : Nat)
    (other : ItemIDList) (hne : other ≠ pattern.itemset) :
    (∀ w, t.getPatternSupport other = some w →
      (t.addPattern pattern u).getPatternSupport other = some w) ∧
    (t.getPatternSupport other = none →
      ∀ w, (t.addPattern pattern u).getPatternSupport other = some w →
        w = TiltedTimeWindow.build t.ttwDef ∧ w.getLastUpdate = 0 ∧
        (∀ g, w.getCapacityUsed g = 0) ∧ (∀ b ∈ w.buckets, b = TTW_BUCKET_UNUSED) ∧
        ∃ rest, other ++ rest = pattern.itemset) := by
  constructor
  · intro w hw
    rcases getPatternSupport_addPattern_other t pattern u other hne with h | ⟨h, _⟩
    · rw [h]; exact hw
    · rw [h] at hw; cases hw
  · intro hnone w hw
    have hbuild : w = TiltedTimeWindow.build t.ttwDef := by
      rcases getPatternSupport_addPattern_other t pattern u other hne with h | ⟨_, h⟩
      · rw [h, hnone] at hw; cases hw
      · rw [h] at hw; exact (Option.some.inj hw).symm
    refine ⟨hbuild, ?_, ?_, ?_, ?_⟩
    · rw [hbuild]; rfl
    · intro g
      rw [hbuild]
      simp only [TiltedTimeWindow.getCapacityUsed, TiltedTimeWindow.build,
        List.getD_eq_getElem?_getD, List.getElem?_replicate]
      split <;> rfl
    · intro b hb
      rw [hbuild] at hb
      exact List.eq_of_mem_replicate hb
    · have hn : FPNode.findNode other t.root = none := by
        simp only [getPatternSupport, FPNode.findNodeByPattern, Option.map_eq_none'] at hnone
        exact hnone
      have hs : (FPNode.findNode other (t.addPattern pattern u).root).isSome = true := by
        simp only [getPatternSupport, FPNode.findNodeByPattern] at hw
        cases hf : FPNode.findNode other (t.addPattern pattern u).root with
        | none => rw [hf] at hw; cases hw
        | some _ => rfl
      exact FPNode.findNode_addPath_created _ _ pattern.itemset t.root t.nodeCount other hn hs

/-- Instance of `addPattern_frame`: adding `{1, 2, 3}` to the empty tree, as
`TestPatternTree::buildBasicPatternTree` does, creates the node of `{1}` with an
empty window (`getBuckets(0)` empty, `getLastUpdate() == 0` in
`TestPatternTree::basic`). -/
theorem addPattern_frame_witness :
    ([1] : ItemIDList) ≠ [1, 2, 3] ∧ emptyDefaultTree.getPatternSupport [1] = none ∧
    (emptyDefaultTree.addPattern { itemset := [1, 2, 3], support := 1 } 1).getPatternSupport [1] =
      some (TiltedTimeWindow.build TTWDefinition.default) ∧
    ((TiltedTimeWindow.build TTWDefinition.default).getLastUpdate = 0 ∧
      ∃ rest, ([1] : ItemIDList) ++ rest = [1, 2, 3]) :=
  ⟨by decide, by decide, by decide,
    have h := (addPattern_frame emptyDefaultTree { itemset := [1, 2, 3], support := 1 } 1 [1]
      (by decide)).2 (by decide) (TiltedTimeWindow.build TTWDefinition.default) (by decide)
    ⟨h.2.1, h.2.2.2.2⟩⟩

/-- C28. `addPattern` increases `nodeCount` by exactly the length of the itemset
minus the length of its longest initial part that is already a path from the
root (`matchedLength`: the initial parts that are paths are those of at most
that length); adding a pattern that is already present creates no node and
leaves the shape of the tree unchanged. -/
theorem addPattern_nodeCount_eq (t : PatternTree) (pattern : FrequentItemset) (u : Nat) :
    (∀ k, k ≤ pattern.itemset.length →
      ((t.getPatternSupport (pattern.itemset.take k)).isSome = true ↔
        k ≤ FPNode.matchedLength pattern.itemset t.root)) ∧
    FPNode.matchedLength pattern.itemset t.root ≤ pattern.itemset.length ∧
    (t.addPattern pattern u).nodeCount =
      t.nodeCount + (pattern.itemset.length - FPNode.matchedLength pattern.itemset t.root) ∧
    ((t.getPatternSupport pattern.itemset).isSome = true →
      (t.addPattern pattern u).nodeCount = t.nodeCount ∧
      FPNode.shape (t.addPattern pattern u).root = FPNode.shape t.root) := by
  have hsome : ∀ itemset, (t.getPatternSupport itemset).isSome =
      (FPNode.findNode itemset t.root).isSome := by
    intro itemset
    simp [getPatternSupport, FPNode.findNodeByPattern]
  refine ⟨?_, FPNode.matchedLength_le _ _, ?_, ?_⟩
  · intro k hk
    rw [hsome]
    exact FPNode.findNode_take_isSome_iff pattern.itemset t.root k hk
  · exact FPNode.addPath_nodeCount_eq _ _ pattern.itemset t.root t.nodeCount
  · intro h
    rw [hsome] at h
    exact FPNode.addPath_of_existing _ _ pattern.itemset t.root t.nodeCount h

/-- Instance of `addPattern_nodeCount_eq`: in
`TestPatternTree::buildBasicPatternTree` the pattern `{1, 2}` is added to a tree
that holds `{1, 2, 3}`, which creates no node, and `{1, 4}` then creates one. -/
theorem addPattern_nodeCount_eq_witness :
    ((emptyDefaultTree.addPattern { itemset := [1, 2, 3], support := 1 } 1).getPatternSupport
      [1, 2]).isSome = true ∧
    (emptyDefaultTree.addPattern { itemset := [1, 2, 3], support := 1 } 1).nodeCount = 3 ∧
    ((emptyDefaultTree.addPattern { itemset := [1, 2, 3], support := 1 } 1).addPattern
      { itemset := [1, 2], support := 2 } 1).nodeCount = 3 ∧
    buildBasicPatternTree.nodeCount = 4 ∧
    (((emptyDefaultTree.addPattern { itemset := [1, 2, 3], support := 1 } 1).addPattern
        { itemset := [1, 2], support := 2 } 1).nodeCount =
      (emptyDefaultTree.addPattern { itemset := [1, 2, 3], support := 1 } 1).nodeCount ∧
     FPNode.shape ((emptyDefaultTree.addPattern { itemset := [1, 2, 3], support := 1 } 1).addPattern
        { itemset := [1, 2], support := 2 } 1).root =
      FPNode.shape (emptyDefaultTree.addPattern { itemset := [1, 2, 3], support := 1 } 1).root) :=
  ⟨by decide, by decide, by decide, by decide,
    (addPattern_nodeCount_eq (emptyDefaultTree.addPattern { itemset := [1, 2, 3], support := 1 } 1)
      { itemset := [1, 2], support := 2 } 1).2.2.2 (by decide)⟩

end PatternTree

namespace TTWDefinition

/-- The legacy definition string of version 1 reads as 900 seconds with 4 `Q`,
24 `H`, 31 `D`, 12 `M` and 1 `Y` buckets. -/
theorem deserialize_legacyString : deserialize legacyString = some TTWDefinition.default := by
  decide

end TTWDefinition

namespace PatternTree

theorem ttwDef_loadPatternLine (ids : ItemName → ItemID) (updateID : Nat) (t : PatternTree)
    (line : JSONLine) : (loadPatternLine ids updateID t line).ttwDef = t.ttwDef := rfl

theorem ttwDef_foldl_loadPatternLine (ids : ItemName → ItemID) (updateID : Nat) :
    ∀ (lines : List JSONLine) (t : PatternTree),
      (lines.foldl (loadPatternLine ids updateID) t).ttwDef = t.ttwDef := by
  intro lines
  induction lines with
  | nil => intro t; rfl
  | cons line rest ih =>
    intro t
    rw [List.foldl_cons, ih, ttwDef_loadPatternLine]

/-- C22. When `PatternTree::deserialize` reads a metadata line of version 1 or 2
without the definition field, the definition of the tree becomes the legacy
definition (900 seconds with 4 `Q`, 24 `H`, 31 `D`, 12 `M` and 1 `Y` buckets),
the window of the root is rebuilt from it, the pattern lines are loaded and the
result is `true`; when the field is present and holds a definition string that
`TTWDefinition::deserialize` accepts, the same happens with the definition the
field gives. -/
theorem deserialize_definition (t : PatternTree) (json : JSONLine) (rest : List JSONLine)
    (ids : ItemName → ItemID) (updateID : Nat) (hv : json.v = 1 ∨ json.v = 2) :
    (json.definition = Option.none →
      t.deserialize (json :: rest) ids updateID =
        (true, { rest.foldl (loadPatternLine ids updateID)
                   (t.withDefinition TTWDefinition.default) with
                 currentQuarter := intToUint json.currentQuarter }) ∧
      (t.deserialize (json :: rest) ids updateID).2.ttwDef =
        { secPerWindow := 900, bucketCount := [4, 24, 31, 12, 1],
          granularityChar := ['Q', 'H', 'D', 'M', 'Y'] }) ∧
    (∀ (serialized : String) (d : TTWDefinition), json.definition = some serialized →
      TTWDefinition.deserialize serialized = some d →
      t.deserialize (json :: rest) ids updateID =
        (true, { rest.foldl (loadPatternLine ids updateID) (t.withDefinition d) with
                 currentQuarter := intToUint json.currentQuarter }) ∧
      (t.deserialize (json :: rest) ids updateID).2.ttwDef = d) := by
  constructor
  · intro hd
    have heq : t.deserialize (json :: rest) ids updateID =
        (true, { rest.foldl (loadPatternLine ids updateID)
                   (t.withDefinition TTWDefinition.default) with
                 currentQuarter := intToUint json.currentQuarter }) := by
      simp only [deserialize, hv, hd, if_true, TTWDefinition.deserialize_legacyString,
        Option.getD_some, withDefinition]
    refine ⟨heq, ?_⟩
    rw [heq]
    show (rest.foldl (loadPatternLine ids updateID) (t.withDefinition TTWDefinition.default)).ttwDef
      = _
    rw [ttwDef_foldl_loadPatternLine]
    rfl
  · intro serialized d hd hdes
    have heq : t.deserialize (json :: rest) ids updateID =
        (true, { rest.foldl (loadPatternLine ids updateID) (t.withDefinition d) with
                 currentQuarter := intToUint json.currentQuarter }) := by
      simp only [deserialize, hv, hd, if_true, hdes, withDefinition]
    refine ⟨heq, ?_⟩
    rw [heq]
    show (rest.foldl (loadPatternLine ids updateID) (t.withDefinition d)).ttwDef = _
    rw [ttwDef_foldl_loadPatternLine]
    rfl

/-- Instance of `deserialize_definition`: a version 1 metadata line followed by
the pattern line of `{a, b}` is loaded into a new tree with the legacy
definition, two nodes and quarter 3. -/
theorem deserialize_definition_witness :
    (legacyMetadataLine.v = 1 ∨ legacyMetadataLine.v = 2) ∧
    legacyMetadataLine.definition = Option.none ∧
    (PatternTree.new.deserialize
      [legacyMetadataLine, patternLine ["a", "b"] (TiltedTimeWindow.build TTWDefinition.default)]
      exampleIDs 1).2.nodeCount = 2 ∧
    (PatternTree.new.deserialize
      [legacyMetadataLine, patternLine ["a", "b"] (TiltedTimeWindow.build TTWDefinition.default)]
      exampleIDs 1).2.currentQuarter = 3 ∧
    (PatternTree.new.deserialize
      [legacyMetadataLine, patternLine ["a", "b"] (TiltedTimeWindow.build TTWDefinition.default)]
      exampleIDs 1).2.ttwDef =
        { secPerWindow := 900, bucketCount := [4, 24, 31, 12, 1],
          granularityChar := ['Q', 'H', 'D', 'M', 'Y'] } :=
  ⟨by decide, by decide, by decide, by decide,
    ((deserialize_definition PatternTree.new legacyMetadataLine
      [patternLine ["a", "b"] (TiltedTimeWindow.build TTWDefinition.default)] exampleIDs 1
      (by decide)).1 (by decide)).2⟩

end PatternTree

namespace FPNode

variable {T : Type}

theorem mem_preorderList_of_mem (path : ItemIDList) (c : FPNode T) :
    ∀ (cs : List (FPNode T)), c ∈ cs → ∀ p ∈ preorder path c, p ∈ preorderList path cs := by
  intro cs
  induction cs with
  | nil => intro h; cases h
  | cons a rest ih =>
    intro h p hp
    rw [preorderList]
    rcases List.mem_cons.mp h with rfl | h
    · exact List.mem_append_left _ hp
    · exact List.mem_append_right _ (ih h p hp)

theorem length_preorderList_of_forall : ∀ (cs : List (FPNode T)) (path : ItemIDList),
    (∀ c ∈ cs, ∀ p, (preorder p c).length = size c) →
    (preorderList path cs).length = sizeList cs := by
  intro cs
  induction cs with
  | nil => intro _ _; simp [preorderList, sizeList]
  | cons c rest ih =>
    intro path h
    rw [preorderList, List.length_append, sizeList, h c (List.mem_cons_self _ _) path,
      ih path (fun c hc => h c (List.mem_cons_of_mem _ hc))]

theorem length_preorder (n : FPNode T) : ∀ p, (preorder p n).length = size n := by
  induction n using FPNode.induct with
  | h i v cs ih =>
    intro p
    rw [preorder, List.length_cons, size, length_preorderList_of_forall cs (p ++ [i]) ih]
    omega

/-- The pre-order listing of the nodes below a node has one entry per node. -/
theorem length_preorderList (cs : List (FPNode T)) (path : ItemIDList) :
    (preorderList path cs).length = sizeList cs :=
  length_preorderList_of_forall cs path (fun c _ => length_preorder c)

end FPNode

namespace PatternTree

/-- The line `recursiveSerializer` writes for a listed node: the names of the
items of its itemset and its window. -/
theorem recursiveSerializerChildren_of_forall (names : ItemID → ItemName) :
    ∀ (cs : List (FPNode TiltedTimeWindow)) (path : ItemIDList),
    (∀ c ∈ cs, ∀ p, (∀ q ∈ FPNode.preorder p c, q.2.getItemID ≠ ROOT_ITEMID) →
      recursiveSerializer names c (p.map names) =
        (FPNode.preorder p c).map (fun q => patternLine (q.1.map names) q.2.getValue)) →
    (∀ q ∈ FPNode.preorderList path cs, q.2.getItemID ≠ ROOT_ITEMID) →
    recursiveSerializerChildren names cs (path.map names) =
      (FPNode.preorderList path cs).map (fun q => patternLine (q.1.map names) q.2.getValue) := by
  intro cs
  induction cs with
  | nil => intro _ _ _; simp [recursiveSerializerChildren, FPNode.preorderList]
  | cons c rest ih =>
    intro path h hitems
    rw [recursiveSerializerChildren, FPNode.preorderList, List.map_append,
      h c (List.mem_cons_self _ _) path
        (fun q hq => hitems q (by rw [FPNode.preorderList]; exact List.mem_append_left _ hq)),
      ih path (fun c hc => h c (List.mem_cons_of_mem _ hc))
        (fun q hq => hitems q (by rw [FPNode.preorderList]; exact List.mem_append_right _ hq))]

theorem recursiveSerializer_eq (names : ItemID → ItemName) (n : FPNode TiltedTimeWindow) :
    ∀ p, (∀ q ∈ FPNode.preorder p n, q.2.getItemID ≠ ROOT_ITEMID) →
      recursiveSerializer names n (p.map names) =
        (FPNode.preorder p n).map (fun q => patternLine (q.1.map names) q.2.getValue) := by
  induction n using FPNode.induct with
  | h i v cs ih =>
    intro p hitems
    have hi : i ≠ ROOT_ITEMID := by
      have := hitems (p ++ [i], FPNode.mk i v cs) (by rw [FPNode.preorder]; exact List.mem_cons_self _ _)
      exact this
    have hmap : p.map names ++ [names i] = (p ++ [i]).map names := by
      rw [List.map_append]; rfl
    rw [recursiveSerializer, if_pos hi, FPNode.preorder, List.map_cons, hmap,
      recursiveSerializerChildren_of_forall names cs (p ++ [i]) ih
        (fun q hq => hitems q (by rw [FPNode.preorder]; exact List.mem_cons_of_mem _ hq))]
    rfl

/-- C21. For a tree whose root carries `ROOT_ITEMID`, whose other nodes do not,
and whose `nodeCount` is its number of non-root nodes, `serialize` returns
`true` and writes the metadata line with `v = 2`, the `currentQuarter` of the
tree (cast to `int`) and its serialized definition, followed by exactly
`nodeCount` lines: one line for each non-root node, leaf or internal, in
depth-first pre-order, whose pattern is the list of the names of the items on
the root path of the node and whose window is the window of the node. -/
theorem serialize_lines (t : PatternTree) (names : ItemID → ItemName)
    (hroot : t.root.getItemID = ROOT_ITEMID)
    (hitems : ∀ p ∈ t.patterns, p.2.getItemID ≠ ROOT_ITEMID)
    (hcount : t.nodeCount = t.nonRootCount) :
    (t.serialize names).1 = true ∧
    (t.serialize names).2 =
      metadataLine t :: t.patterns.map (fun p => patternLine (p.1.map names) p.2.getValue) ∧
    (metadataLine t).v = 2 ∧
    (metadataLine t).currentQuarter = uintToInt t.currentQuarter ∧
    (t.currentQuarter < 2147483648 → (metadataLine t).currentQuarter = (t.currentQuarter : Int)) ∧
    (metadataLine t).definition = some t.ttwDef.serialize ∧
    (t.patterns.map (fun p => patternLine (p.1.map names) p.2.getValue)).length = t.nodeCount ∧
    (∀ p ∈ t.patterns,
      (patternLine (p.1.map names) p.2.getValue).pattern = p.1.map names ∧
      (patternLine (p.1.map names) p.2.getValue).ttw = p.2.getValue.toVariantMap) := by
  refine ⟨rfl, ?_, rfl, rfl, ?_, rfl, ?_, fun p _ => ⟨rfl, rfl⟩⟩
  · unfold serialize
    rw [recursiveSerializer_root names t.root hroot]
    have := recursiveSerializerChildren_of_forall names t.root.getChildren []
      (fun c _ => recursiveSerializer_eq names c) hitems
    rw [List.map_nil] at this
    rw [this]
    rfl
  · intro hq
    show uintToInt t.currentQuarter = _
    unfold uintToInt
    have hmod : t.currentQuarter % UINT_MODULUS = t.currentQuarter :=
      Nat.mod_eq_of_lt (Nat.lt_trans hq (by decide))
    rw [hmod, if_pos hq]
  · rw [List.length_map, hcount]
    exact FPNode.length_preorderList _ _

/-- Instance of `serialize_lines`: the tree of
`TestPatternTree::buildBasicPatternTree` is written as a metadata line and four
pattern lines, for `{a}`, `{a, b}`, `{a, b, c}` and `{a, d}`. -/
theorem serialize_lines_witness :
    buildBasicPatternTree.root.getItemID = ROOT_ITEMID ∧
    (∀ p ∈ buildBasicPatternTree.patterns, p.2.getItemID ≠ ROOT_ITEMID) ∧
    buildBasicPatternTree.nodeCount = buildBasicPatternTree.nonRootCount ∧
    buildBasicPatternTree.nodeCount = 4 ∧
    ((buildBasicPatternTree.serialize exampleNames).2.map JSONLine.pattern) =
      [[], ["a"], ["a", "b"], ["a", "b", "c"], ["a", "d"]] ∧
    (buildBasicPatternTree.serialize exampleNames).2 =
      metadataLine buildBasicPatternTree ::
        buildBasicPatternTree.patterns.map
          (fun p => patternLine (p.1.map exampleNames) p.2.getValue) :=
  ⟨by decide, by decide, by decide, by decide, by decide,
    (serialize_lines buildBasicPatternTree exampleNames (by decide) (by decide)
      (by decide)).2.1⟩

end PatternTree

namespace PatternTree

theorem numGranularities_pos_of_capacity_pos (d : TTWDefinition) (h : 0 < d.capacity 0) :
    0 < d.numGranularities := by
  unfold TTWDefinition.capacity at h
  unfold TTWDefinition.numGranularities
  cases hb : d.bucketCount with
  | nil => rw [hb] at h; simp at h
  | cons _ _ => simp

/-- A non-folding append into a granularity 0 that has room raises its usage by
one and keeps the number of usage counters. -/
theorem getCapacityUsed_append_of_not_full (w : TiltedTimeWindow) (s : SupportCount) (u : Nat)
    (hlen : w.capacityUsed.length = w.ttwDef.numGranularities)
    (hfold : u ≠ w.lastUpdate) (hused : w.getCapacityUsed 0 < w.ttwDef.capacity 0) :
    (w.append s u).getCapacityUsed 0 = w.getCapacityUsed 0 + 1 ∧
    (w.append s u).capacityUsed.length = (w.append s u).ttwDef.numGranularities := by
  have hpos : 0 < w.capacityUsed.length := by
    rw [hlen]
    exact numGranularities_pos_of_capacity_pos _ (Nat.lt_of_le_of_lt (Nat.zero_le _) hused)
  rw [TiltedTimeWindow.append_of_not_full w s u (Or.inr hfold) hused]
  constructor
  · exact TiltedTimeWindow.getCapacityUsed_set_zero _ _ hpos
  · show (w.capacityUsed.set 0 _).length = w.ttwDef.numGranularities
    rw [List.length_set, hlen]

theorem getPatternSupport_nextQuarter (t : PatternTree) (itemset : ItemIDList) :
    t.nextQuarter.getPatternSupport itemset = t.getPatternSupport itemset := rfl

/-- A pattern added once per quarter to a tree in which its window has at least
as many values in granularity 0 as quarters have passed, granularity 0 having
room for all additions but the last: each addition is a plain append. -/
theorem addEveryQuarter_eq_appendAll_aux (itemset : ItemIDList) :
    ∀ (xs : List (SupportCount × Nat)) (t : PatternTree) (w : TiltedTimeWindow), xs ≠ [] →
      t.destinationWindow itemset = w →
      w.capacityUsed.length = w.ttwDef.numGranularities →
      t.currentQuarter ≤ w.getCapacityUsed 0 →
      w.getCapacityUsed 0 + xs.length ≤ w.ttwDef.capacity 0 + 1 →
      (xs.map Prod.snd).Pairwise (fun a b => a < b) →
      (∀ x ∈ xs, x.2 ≠ w.lastUpdate) →
      (addEveryQuarter itemset t xs).getPatternSupport itemset =
        some (TiltedTimeWindow.appendAll w xs) := by
  intro xs
  induction xs with
  | nil => intro t w h; exact absurd rfl h
  | cons x rest ih =>
    intro t w _ hw hlen hq hroom hids hlast
    obtain ⟨s, u⟩ := x
    have hsync : syncAndAppend t.currentQuarter s u w = w.append s u := by
      unfold syncAndAppend
      rw [Nat.sub_eq_zero_of_le hq]
      rfl
    have hadd : (t.addPattern { itemset := itemset, support := s } u).getPatternSupport itemset =
        some (w.append s u) := by
      rw [getPatternSupport_addPattern, hw, hsync]
    cases rest with
    | nil => exact hadd
    | cons y ys =>
      have hused : w.getCapacityUsed 0 < w.ttwDef.capacity 0 := by
        simp only [List.length_cons] at hroom
        omega
      have hu : u ≠ w.lastUpdate := hlast (s, u) (List.mem_cons_self _ _)
      obtain ⟨h1, h2⟩ := getCapacityUsed_append_of_not_full w s u hlen hu hused
      rw [List.map_cons, List.pairwise_cons] at hids
      have hdest : (t.addPattern { itemset := itemset, support := s } u).nextQuarter.destinationWindow
          itemset = w.append s u := by
        unfold destinationWindow
        rw [getPatternSupport_nextQuarter, hadd]
        rfl
      have := ih (t.addPattern { itemset := itemset, support := s } u).nextQuarter (w.append s u)
        (List.cons_ne_nil _ _) hdest h2
        (by
          show t.currentQuarter + 1 ≤ _
          rw [h1]; omega)
        (by
          rw [h1, TiltedTimeWindow.ttwDef_append]
          simp only [List.length_cons] at hroom ⊢
          omega)
        hids.2
        (by
          intro z hz
          rw [lastUpdate_append]
          exact Nat.ne_of_gt (hids.1 z.2 (List.mem_map_of_mem _ hz)))
      exact this

/-- Up to the capacity of granularity 0 nothing is back-filled.  For a pattern
whose window is fresh in a tree at quarter 0 and that is added exactly once in
each of the quarters `0..q`, with `nextQuarter` called once between consecutive
quarters and strictly increasing non-zero update IDs, for every `q` up to the
capacity of granularity 0, its window equals the window obtained by appending
the same `q + 1` supports with the same update IDs directly to a fresh window. -/
theorem addEveryQuarter_eq_appendAll (t : PatternTree) (itemset : ItemIDList)
    (xs : List (SupportCount × Nat)) (hq0 : t.currentQuarter = 0)
    (hfresh : t.destinationWindow itemset = TiltedTimeWindow.build t.ttwDef)
    (hne : xs ≠ []) (hlen : xs.length ≤ t.ttwDef.capacity 0 + 1)
    (hids : (xs.map Prod.snd).Pairwise (fun a b => a < b)) (hnz : ∀ x ∈ xs, x.2 ≠ 0) :
    (addEveryQuarter itemset t xs).getPatternSupport itemset =
      some (TiltedTimeWindow.appendAll (TiltedTimeWindow.build t.ttwDef) xs) := by
  apply addEveryQuarter_eq_appendAll_aux itemset xs t _ hne hfresh
  · exact (built_build t.ttwDef).1
  · rw [hq0]; exact Nat.zero_le _
  · have h0 : (TiltedTimeWindow.build t.ttwDef).getCapacityUsed 0 = 0 := by
      simp only [TiltedTimeWindow.getCapacityUsed, TiltedTimeWindow.build,
        List.getD_eq_getElem?_getD, List.getElem?_replicate]
      split <;> rfl
    rw [h0, Nat.zero_add]
    exact hlen
  · exact hids
  · intro x hx
    exact hnz x hx

/-- Instance of `addEveryQuarter_eq_appendAll`: with the default definition a
pattern added in each of the quarters 0 to 4 has the window of five direct
appends, `[5, U, U, U, 10]`. -/
theorem addEveryQuarter_eq_appendAll_witness :
    emptyDefaultTree.currentQuarter = 0 ∧
    emptyDefaultTree.destinationWindow [1] = TiltedTimeWindow.build emptyDefaultTree.ttwDef ∧
    sixQuarters.take 5 ≠ [] ∧
    (sixQuarters.take 5).length ≤ emptyDefaultTree.ttwDef.capacity 0 + 1 ∧
    ((sixQuarters.take 5).map Prod.snd).Pairwise (fun a b => a < b) ∧
    (∀ x ∈ sixQuarters.take 5, x.2 ≠ 0) ∧
    (TiltedTimeWindow.appendAll (TiltedTimeWindow.build emptyDefaultTree.ttwDef)
      (sixQuarters.take 5)).getBuckets 5 =
        [5, TTW_BUCKET_UNUSED, TTW_BUCKET_UNUSED, TTW_BUCKET_UNUSED, 10] ∧
    (addEveryQuarter [1] emptyDefaultTree (sixQuarters.take 5)).getPatternSupport [1] =
      some (TiltedTimeWindow.appendAll (TiltedTimeWindow.build emptyDefaultTree.ttwDef)
        (sixQuarters.take 5)) :=
  ⟨by decide, by decide, by decide, by decide, by decide, by decide, by decide,
    addEveryQuarter_eq_appendAll emptyDefaultTree [1] (sixQuarters.take 5) (by decide)
      (by decide) (by decide) (by decide) (by decide) (by decide)⟩

end PatternTree

namespace JSONLogParser

theorem calculateBatchID_eq (secPerBatch minBatchID t : Nat) :
    calculateBatchID secPerBatch minBatchID t =
      (max minBatchID ((t / secPerBatch) % UINT_MODULUS),
       max minBatchID ((t / secPerBatch) % UINT_MODULUS)) := by
  unfold calculateBatchID
  simp only
  split
  · rename_i h
    rw [max_eq_right (Nat.le_of_lt h)]
  · split
    · rename_i h
      rw [max_eq_left (Nat.le_of_lt h)]
    · rename_i h1 h2
      have : (t / secPerBatch) % UINT_MODULUS = minBatchID := by omega
      rw [this, max_self]

theorem foldl_max_le (l : List Nat) : ∀ (a b : Nat), a ≤ b → l.foldl max a ≤ l.foldl max b := by
  induction l with
  | nil => intro a b h; exact h
  | cons x l ih =>
    intro a b h
    rw [List.foldl_cons, List.foldl_cons]
    exact ih _ _ (max_le_max h (Nat.le_refl _))

theorem le_foldl_max (l : List Nat) : ∀ (a : Nat), a ≤ l.foldl max a := by
  induction l with
  | nil => intro a; exact Nat.le_refl _
  | cons x l ih =>
    intro a
    rw [List.foldl_cons]
    exact Nat.le_trans (le_max_left a x) (ih _)

/-- The calls of `calculateBatchID` on times that fit a `uint`: the `k`-th
returned ID is the largest of `minBatchID` and the quotients so far. -/
theorem calculateBatchIDs_eq (secPerBatch : Nat) :
    ∀ (ts : List Nat) (minBatchID : Nat), (∀ t ∈ ts, t < UINT_MODULUS) →
      calculateBatchIDs secPerBatch minBatchID ts =
        (List.range ts.length).map
          (fun k => ((ts.take (k + 1)).map (fun t => t / secPerBatch)).foldl max minBatchID) := by
  intro ts
  induction ts with
  | nil => intro _ _; rfl
  | cons t ts ih =>
    intro m h
    have ht : t / secPerBatch % UINT_MODULUS = t / secPerBatch :=
      Nat.mod_eq_of_lt (Nat.lt_of_le_of_lt (Nat.div_le_self _ _) (h t (List.mem_cons_self _ _)))
    rw [calculateBatchIDs, calculateBatchID_eq, ht,
      ih _ (fun x hx => h x (List.mem_cons_of_mem _ hx)), List.length_cons,
      List.range_succ_eq_map, List.map_cons, List.map_map]
    rfl

theorem calculateBatchIDs_sorted (secPerBatch : Nat) :
    ∀ (ts : List Nat) (minBatchID : Nat),
      (calculateBatchIDs secPerBatch minBatchID ts).Pairwise (fun a b => a ≤ b) ∧
      ∀ x ∈ calculateBatchIDs secPerBatch minBatchID ts, minBatchID ≤ x := by
  intro ts
  induction ts with
  | nil => intro _; exact ⟨List.Pairwise.nil, fun x hx => by cases hx⟩
  | cons t ts ih =>
    intro m
    rw [calculateBatchIDs, calculateBatchID_eq]
    obtain ⟨h1, h2⟩ := ih (max m ((t / secPerBatch) % UINT_MODULUS))
    refine ⟨List.pairwise_cons.mpr ⟨h2, h1⟩, ?_⟩
    intro x hx
    rcases List.mem_cons.mp hx with rfl | hx
    · exact le_max_left _ _
    · exact Nat.le_trans (le_max_left _ _) (h2 x hx)

/-- C29. For every `secPerBatch > 0` and every sequence of calls
`calculateBatchID(t1)`, ..., `calculateBatchID(tn)` on times that fit a `uint`,
the first call finding the static `minBatchID` at 0: the `k`-th call returns
the maximum of `floor(ti / secPerBatch)` over the calls so far, and the
returned batch IDs are non-decreasing, whatever the order of the times. -/
theorem calculateBatchIDs_eq_running_maximum (secPerBatch : Nat) (ts : List Nat)
    (_hsec : 0 < secPerBatch) (htime : ∀ t ∈ ts, t < UINT_MODULUS) :
    (calculateBatchIDs secPerBatch 0 ts).length = ts.length ∧
    (∀ k, k < ts.length →
      (calculateBatchIDs secPerBatch 0 ts)[k]? =
        some (maximum ((ts.take (k + 1)).map (fun t => t / secPerBatch)))) ∧
    (calculateBatchIDs secPerBatch 0 ts).Pairwise (fun a b => a ≤ b) := by
  refine ⟨?_, ?_, (calculateBatchIDs_sorted secPerBatch ts 0).1⟩
  · rw [calculateBatchIDs_eq secPerBatch ts 0 htime, List.length_map, List.length_range]
  · intro k hk
    rw [calculateBatchIDs_eq secPerBatch ts 0 htime, List.getElem?_map,
      List.getElem?_range hk]
    rfl

/-- Instance of `calculateBatchIDs_eq_running_maximum`: with 900 seconds per
batch the times 1800, 950, 2700 and 100 get the batch IDs 2, 2, 3 and 3. -/
theorem calculateBatchIDs_eq_running_maximum_witness :
    0 < 900 ∧ (∀ t ∈ [1800, 950, 2700, 100], t < UINT_MODULUS) ∧
    calculateBatchIDs 900 0 [1800, 950, 2700, 100] = [2, 2, 3, 3] ∧
    (calculateBatchIDs 900 0 [1800, 950, 2700, 100]).Pairwise (fun a b => a ≤ b) :=
  ⟨by decide, by decide, by decide,
    (calculateBatchIDs_eq_running_maximum 900 [1800, 950, 2700, 100] (by decide)
      (by decide)).2.2⟩

theorem foldl_mapEpisode (names : Nat → String) (fields : String → String)
    (discretize : String → Int → List String → String) (sample : Sample) :
    ∀ (episodes : List Episode) (transactions : List (List String)),
      episodes.foldl (mapEpisode names fields discretize sample) (transactions, []) =
        (transactions ++ episodes.map (episodeTransaction names fields discretize sample), []) := by
  intro episodes
  induction episodes with
  | nil => intro transactions; simp
  | cons e rest ih =>
    intro transactions
    rw [List.foldl_cons]
    have : mapEpisode names fields discretize sample (transactions, []) e =
        (transactions ++ [episodeTransaction names fields discretize sample e], []) := by
      simp [mapEpisode, episodeTransaction]
    rw [this, ih, List.map_cons, List.append_assoc]
    rfl

/-- C30. For every sample, `mapSampleToTransactions` returns
`max(1, number of episodes)` transactions: with no episodes a single transaction
made of exactly the circumstances of the sample, otherwise one transaction per
episode, in episode order, consisting of the item `episode:<name>`, the item
`duration:<discretized duration>` and all the circumstances of the sample. -/
theorem mapSampleToTransactions_eq (names : Nat → String) (fields : String → String)
    (discretize : String → Int → List String → String) (sample : Sample) :
    (mapSampleToTransactions names fields discretize sample).length =
      max 1 sample.episodes.length ∧
    (sample.episodes = [] →
      mapSampleToTransactions names fields discretize sample = [sample.circumstances]) ∧
    (sample.episodes ≠ [] →
      mapSampleToTransactions names fields discretize sample =
        sample.episodes.map (fun episode =>
          ["episode:" ++ names episode.id,
           "duration:" ++ discretize (fields (names episode.id)) episode.duration
              sample.circumstances] ++ sample.circumstances)) := by
  have hfold := foldl_mapEpisode names fields discretize sample sample.episodes []
  have h1 : sample.episodes = [] →
      mapSampleToTransactions names fields discretize sample = [sample.circumstances] := by
    intro he
    unfold mapSampleToTransactions
    rw [he]
    rfl
  have h2 : sample.episodes ≠ [] →
      mapSampleToTransactions names fields discretize sample =
        sample.episodes.map (episodeTransaction names fields discretize sample) := by
    intro hne
    unfold mapSampleToTransactions
    simp only
    rw [hfold, if_neg (by simpa using hne), List.nil_append]
  refine ⟨?_, h1, fun hne => h2 hne⟩
  by_cases he : sample.episodes = []
  · rw [h1 he, he]
    rfl
  · rw [h2 he, List.length_map]
    have : 1 ≤ sample.episodes.length := List.length_pos.mpr he
    omega

/-- Instance of `mapSampleToTransactions_eq`: a sample with the episodes `css`
and `js` gives two transactions. -/
theorem mapSampleToTransactions_eq_witness :
    exampleSample.episodes ≠ [] ∧
    mapSampleToTransactions exampleEpisodeNames exampleFieldNames exampleDiscretize
        exampleSample =
      [["episode:css", "duration:fast", "url:/home", "status:200"],
       ["episode:js", "duration:slow", "url:/home", "status:200"]] ∧
    mapSampleToTransactions exampleEpisodeNames exampleFieldNames exampleDiscretize
        exampleSample =
      exampleSample.episodes.map (fun episode =>
        ["episode:" ++ exampleEpisodeNames episode.id,
         "duration:" ++ exampleDiscretize (exampleFieldNames (exampleEpisodeNames episode.id))
            episode.duration exampleSample.circumstances] ++ exampleSample.circumstances) :=
  ⟨by decide, by decide,
    (mapSampleToTransactions_eq exampleEpisodeNames exampleFieldNames exampleDiscretize
      exampleSample).2.2 (by decide)⟩

end JSONLogParser

namespace FPNode

variable {T : Type}

theorem fst_ne_nil_of_forall : ∀ (cs : List (FPNode T)),
    (∀ c ∈ cs, ∀ path, ∀ p ∈ preorder path c, p.1 ≠ []) →
    ∀ path, ∀ p ∈ preorderList path cs, p.1 ≠ [] := by
  intro cs
  induction cs with
  | nil => intro _ _ p hp; simp [preorderList] at hp
  | cons c rest ih =>
    intro h path p hp
    rw [preorderList] at hp
    rcases List.mem_append.mp hp with hp | hp
    · exact h c (List.mem_cons_self _ _) path p hp
    · exact ih (fun c hc => h c (List.mem_cons_of_mem _ hc)) path p hp

theorem fst_ne_nil_of_mem_preorder (n : FPNode T) :
    ∀ path, ∀ p ∈ preorder path n, p.1 ≠ [] := by
  induction n using FPNode.induct with
  | h i v cs ih =>
    intro path p hp
    rw [preorder] at hp
    rcases List.mem_cons.mp hp with rfl | hp
    · simp
    · exact fst_ne_nil_of_forall cs ih _ p hp

/-- No node listed below a node has the empty itemset. -/
theorem fst_ne_nil_of_mem_preorderList (cs : List (FPNode T)) (path : ItemIDList) :
    ∀ p ∈ preorderList path cs, p.1 ≠ [] :=
  fst_ne_nil_of_forall cs (fun c _ => fst_ne_nil_of_mem_preorder c) path

end FPNode

namespace PatternTree

/-- The tree of `TestPatternTree::buildBasicPatternTree` after one more call,
`addPattern` with the empty itemset and support 3: the total support over the
whole range grows from 10 to 13 and the frequent itemsets stay the same. -/
theorem addPattern_empty_itemset_example :
    buildBasicPatternTree.getTotalSupportForRange Constraints.none 0 71 = 10 ∧
    (buildBasicPatternTree.addPattern { itemset := [], support := 3 } 3).getTotalSupportForRange
      Constraints.none 0 71 = 13 ∧
    (buildBasicPatternTree.addPattern { itemset := [], support := 3 } 3).getFrequentItemsetsForRange
      0 Constraints.none 0 71 =
      [{ itemset := [1, 2], support := 4 }, { itemset := [1, 2, 3], support := 1 },
       { itemset := [1, 4], support := 5 }] ∧
    (buildBasicPatternTree.addPattern { itemset := [], support := 3 } 3).getNodeCount =
      buildBasicPatternTree.getNodeCount := by
  decide

/-- C36. For every tree, `addPattern` with an empty itemset creates no node
(the root keeps its item ID and its children, so the patterns of the tree are
the same), leaves `nodeCount` unchanged and appends the support to the window of
the root, after the zero appends that bring that window in sync with
`currentQuarter`.  Afterwards `getTotalSupportForRange` with empty constraints
is, in `uint` arithmetic, the support of the root window over the range plus the
supports of the patterns; with any constraints the support of the root window
is part of the total exactly when the tree holds a node that matches them, and
the other nodes contribute what they contributed before the call.
`getFrequentItemsetsForRange` returns what it returned before the call, for
every `minSupport` and constraints, and none of the itemsets it returns is the
empty itemset of the root. -/
theorem addPattern_empty_itemset (t : PatternTree) (support : SupportCount) (updateID : Nat)
    (minSupport : SupportCount) (c : Constraints) (fromBucket toBucket : Bucket) :
    (t.addPattern { itemset := [], support := support } updateID).root.getItemID =
      t.root.getItemID ∧
    (t.addPattern { itemset := [], support := support } updateID).root.getChildren =
      t.root.getChildren ∧
    (t.addPattern { itemset := [], support := support } updateID).patterns = t.patterns ∧
    (t.addPattern { itemset := [], support := support } updateID).nodeCount = t.nodeCount ∧
    (t.addPattern { itemset := [], support := support } updateID).root.getValue =
      (Nat.iterate (fun w => w.append 0 0)
        (t.currentQuarter - t.root.getValue.getCapacityUsed 0) t.root.getValue).append
        support updateID ∧
    (t.addPattern { itemset := [], support := support } updateID).getTotalSupportForRange
        Constraints.none fromBucket toBucket =
      ((t.addPattern { itemset := [], support := support } updateID).root.getValue.getSupportForRange
          fromBucket toBucket +
        (t.patterns.map (supportOver fromBucket toBucket)).sum) % UINT_MODULUS ∧
    (t.addPattern { itemset := [], support := support } updateID).getTotalSupportForRange
        c fromBucket toBucket =
      ((if subtreeHasMatch c ([t.root.getItemID], t.root) = true then
          (t.addPattern { itemset := [], support := support }
            updateID).root.getValue.getSupportForRange fromBucket toBucket
        else 0) +
        ((t.allNodes.tail.filter (subtreeHasMatch c)).map
          (supportOver fromBucket toBucket)).sum) % UINT_MODULUS ∧
    (t.addPattern { itemset := [], support := support } updateID).getFrequentItemsetsForRange
        minSupport c fromBucket toBucket =
      t.getFrequentItemsetsForRange minSupport c fromBucket toBucket ∧
    ∀ fi ∈ (t.addPattern { itemset := [], support := support } updateID).getFrequentItemsetsForRange
        minSupport c fromBucket toBucket, fi.itemset ≠ [] := by
  have hroot : (t.addPattern { itemset := [], support := support } updateID).root =
      FPNode.mk t.root.getItemID
        (syncAndAppend t.currentQuarter support updateID t.root.getValue) t.root.getChildren := by
    cases hr : t.root with
    | mk i v cs => simp [addPattern, hr, FPNode.addPath, FPNode.getItemID, FPNode.getValue,
        FPNode.getChildren]
  have hcount : (t.addPattern { itemset := [], support := support } updateID).nodeCount =
      t.nodeCount := by
    cases hr : t.root with
    | mk i v cs => simp [addPattern, hr, FPNode.addPath]
  have hpat : (t.addPattern { itemset := [], support := support } updateID).patterns =
      t.patterns := by
    simp only [patterns, hroot, getChildren_mk]
  refine ⟨by rw [hroot]; rfl, by rw [hroot]; rfl, hpat, hcount, by rw [hroot]; rfl, ?_, ?_, ?_, ?_⟩
  · rw [getTotalSupportForRange_eq_sum,
      List.filter_eq_self.mpr (fun p _ => subtreeHasMatch_none p), sum_allNodes_eq, hpat]
  · rw [getTotalSupportForRange_eq_sum]
    congr 1
    cases hr : t.root with
    | mk i v cs =>
      rw [hr] at hroot
      simp only [allNodes, hroot, hr, FPNode.preorder, getItemID_mk, getChildren_mk,
        List.filter_cons, List.tail_cons, subtreeHasMatch, FPNode.getValue, List.nil_append]
      by_cases hm : (c.matchItemset [i] ||
          (FPNode.itemsetsBelow [i] cs).any c.matchItemset) = true
      · simp only [hm, if_true, List.map_cons, List.sum_cons, supportOver, FPNode.getValue]
      · simp [hm]
  · rw [getFrequentItemsetsForRange_eq, getFrequentItemsetsForRange_eq, hpat]
  · intro fi hfi
    rw [getFrequentItemsetsForRange_eq, hpat] at hfi
    obtain ⟨p, hp, rfl⟩ := List.mem_map.mp hfi
    exact FPNode.fst_ne_nil_of_mem_preorderList _ _ p (List.mem_of_mem_filter hp)

end PatternTree

namespace JSONLogParser

theorem mapSampleToTransactions_ne_nil (names : Nat → String) (fields : String → String)
    (discretize : String → Int → List String → String) (sample : Sample) :
    mapSampleToTransactions names fields discretize sample ≠ [] := by
  have hfold := foldl_mapEpisode names fields discretize sample sample.episodes []
  unfold mapSampleToTransactions
  simp only
  rw [hfold]
  cases he : sample.episodes with
  | nil => simp
  | cons e rest => simp

theorem foldl_items (transactionGroup : List RawTransaction) :
    ∀ items : Nat,
      transactionGroup.foldl (fun items transaction => items + transaction.length) items =
        items + (transactionGroup.map List.length).sum := by
  induction transactionGroup with
  | nil => intro items; simp
  | cons t rest ih =>
    intro items
    rw [List.foldl_cons, ih, List.map_cons, List.sum_cons, Nat.add_assoc]

theorem foldl_mergeTransactionGroup (groupedTransactions : List (List RawTransaction)) :
    ∀ (data : List RawTransaction) (items : Nat),
      groupedTransactions.foldl mergeTransactionGroup (data, items) =
        (data ++ groupedTransactions.flatten,
         items + (groupedTransactions.flatten.map List.length).sum) := by
  induction groupedTransactions with
  | nil => intro data items; simp
  | cons g rest ih =>
    intro data items
    rw [List.foldl_cons, mergeTransactionGroup, ih, foldl_items]
    simp [Nat.add_assoc]

theorem length_le_sum_length {α : Type} (groups : List (List α)) (h : ∀ g ∈ groups, g ≠ []) :
    groups.length ≤ (groups.map List.length).sum := by
  induction groups with
  | nil => simp
  | cons g rest ih =>
    have hg : 1 ≤ g.length := List.length_pos.mpr (h g (List.mem_cons_self _ _))
    have := ih (fun g hg => h g (List.mem_cons_of_mem _ hg))
    simp only [List.length_cons, List.map_cons, List.sum_cons]
    omega

theorem processChunkOfBatch_of_ne_nil (mapper : Sample → List RawTransaction) (s : Batch Sample)
    (hne : s.data ≠ []) :
    ∃ first last, s.data.head? = some first ∧ s.data.getLast? = some last ∧
      processChunkOfBatch mapper s =
        some { meta :=
                 { s.meta with samples := s.data.length, startTime := first.time,
                               endTime := last.time,
                               items := ((s.data.map mapper).flatten.map List.length).sum,
                               transactions := (s.data.map mapper).flatten.length },
               data := (s.data.map mapper).flatten } := by
  obtain ⟨first, hfirst⟩ : ∃ first, s.data.head? = some first := by
    cases hd : s.data with
    | nil => exact absurd hd hne
    | cons a rest => exact ⟨a, rfl⟩
  obtain ⟨last, hlast⟩ : ∃ last, s.data.getLast? = some last := by
    cases hl : s.data.getLast? with
    | none => exact absurd (List.getLast?_eq_none_iff.mp hl) hne
    | some a => exact ⟨a, rfl⟩
  refine ⟨first, last, hfirst, hlast, ?_⟩
  unfold processChunkOfBatch
  rw [hfirst, hlast]
  simp only [foldl_mergeTransactionGroup, List.nil_append, Nat.zero_add]

/-- C31. For every batch with at least one sample, `processChunkOfBatch` emits a
batch whose transactions are the concatenation, in the order of the samples, of
the lists that `mapSampleToTransactions` returns for the samples;
`meta.transactions` is the number of these transactions (the sum of the lengths
of the per-sample lists), `meta.items` is the sum of the sizes of the
transactions, `meta.samples` is the number of samples, and
`meta.transactions >= meta.samples >= 1`. -/
theorem processChunkOfBatch_eq (names : Nat → String) (fields : String → String)
    (discretize : String → Int → List String → String) (s : Batch Sample) (hne : s.data ≠ []) :
    ∃ b, processChunkOfBatch (mapSampleToTransactions names fields discretize) s = some b ∧
      b.data = (s.data.map (mapSampleToTransactions names fields discretize)).flatten ∧
      b.meta.transactions = b.data.length ∧
      b.meta.transactions =
        ((s.data.map (mapSampleToTransactions names fields discretize)).map List.length).sum ∧
      b.meta.items = (b.data.map List.length).sum ∧
      b.meta.samples = s.data.length ∧
      b.meta.transactions ≥ b.meta.samples ∧ b.meta.samples ≥ 1 := by
  obtain ⟨first, last, _, _, h⟩ :=
    processChunkOfBatch_of_ne_nil (mapSampleToTransactions names fields discretize) s hne
  have hlen : (s.data.map (mapSampleToTransactions names fields discretize)).flatten.length =
      ((s.data.map (mapSampleToTransactions names fields discretize)).map List.length).sum :=
    List.length_flatten _
  have hle := length_le_sum_length (s.data.map (mapSampleToTransactions names fields discretize))
    (by
      intro g hg
      obtain ⟨sample, _, rfl⟩ := List.mem_map.mp hg
      exact mapSampleToTransactions_ne_nil names fields discretize sample)
  rw [List.length_map] at hle
  refine ⟨_, h, rfl, rfl, hlen, rfl, rfl, ?_, ?_⟩
  · show (s.data.map (mapSampleToTransactions names fields discretize)).flatten.length ≥
      s.data.length
    omega
  · exact List.length_pos.mpr hne

/-- Instance of `processChunkOfBatch_eq`: a batch of the example sample, with two
episodes, and a sample without episodes gives three transactions with nine
items in all. -/
theorem processChunkOfBatch_eq_witness :
    ([exampleSample, plainSample 1200] : List Sample) ≠ [] ∧
    processChunkOfBatch
        (mapSampleToTransactions exampleEpisodeNames exampleFieldNames exampleDiscretize)
        { meta := BatchMetadata.default, data := [exampleSample, plainSample 1200] } =
      some { meta := { BatchMetadata.default with samples := 2, startTime := 1000,
                                                  endTime := 1200, items := 9,
                                                  transactions := 3 },
             data := [["episode:css", "duration:fast", "url:/home", "status:200"],
                      ["episode:js", "duration:slow", "url:/home", "status:200"],
                      ["url:/home"]] } ∧
    ∃ b, processChunkOfBatch
        (mapSampleToTransactions exampleEpisodeNames exampleFieldNames exampleDiscretize)
        { meta := BatchMetadata.default, data := [exampleSample, plainSample 1200] } = some b ∧
      b.meta.transactions ≥ b.meta.samples ∧ b.meta.samples ≥ 1 := by
  refine ⟨by decide, by decide, ?_⟩
  obtain ⟨b, h1, _, _, _, _, _, h7, h8⟩ :=
    processChunkOfBatch_eq exampleEpisodeNames exampleFieldNames exampleDiscretize
      { meta := BatchMetadata.default, data := [exampleSample, plainSample 1200] } (by decide)
  exact ⟨b, h1, h7, h8⟩

end JSONLogParser

namespace JSONLogParser

theorem batchesWithinBounds_congr (PROCESS_CHUNK_SIZE : Nat) (l k : ParserState)
    (hb : k.b.data = l.b.data) (hp : k.processed = l.processed)
    (hl : BatchesWithinBounds PROCESS_CHUNK_SIZE l) : BatchesWithinBounds PROCESS_CHUNK_SIZE k := by
  unfold BatchesWithinBounds at *
  rw [hb, hp]
  exact hl

theorem batchesWithinBounds_processBatch (PROCESS_CHUNK_SIZE : Nat) (isLastChunk : Bool)
    (l : ParserState) (hl : BatchesWithinBounds PROCESS_CHUNK_SIZE l) (hne : l.b.data ≠ []) :
    BatchesWithinBounds PROCESS_CHUNK_SIZE (processBatch isLastChunk l) := by
  obtain ⟨h1, h2, h3⟩ := hl
  refine ⟨by simp [processBatch], by simp [processBatch], ?_⟩
  intro batch hb
  simp only [processBatch, List.mem_append, List.mem_singleton] at hb
  rcases hb with hb | rfl
  · exact h3 batch hb
  · exact ⟨List.length_pos.mpr hne, h1, h2⟩

theorem batchesWithinBounds_checkTime (secPerBatch PROCESS_CHUNK_SIZE CHECK_TIME_INTERVAL : Nat)
    (l : ParserState) (sample : Sample) (hl : BatchesWithinBounds PROCESS_CHUNK_SIZE l) :
    BatchesWithinBounds PROCESS_CHUNK_SIZE
      (checkTime secPerBatch CHECK_TIME_INTERVAL l sample) := by
  unfold checkTime
  simp only
  split
  · split
    · split
      · rename_i h
        refine batchesWithinBounds_congr PROCESS_CHUNK_SIZE _ _ rfl rfl
          (batchesWithinBounds_processBatch PROCESS_CHUNK_SIZE true _
            (batchesWithinBounds_congr PROCESS_CHUNK_SIZE l _ rfl rfl hl) ?_)
        simpa using h.2
      · exact batchesWithinBounds_congr PROCESS_CHUNK_SIZE l _ rfl rfl hl
    · exact batchesWithinBounds_congr PROCESS_CHUNK_SIZE l _ rfl rfl hl
  · split
    · split
      · rename_i h
        refine batchesWithinBounds_congr PROCESS_CHUNK_SIZE _ _ rfl rfl
          (batchesWithinBounds_processBatch PROCESS_CHUNK_SIZE true _
            (batchesWithinBounds_congr PROCESS_CHUNK_SIZE l _ rfl rfl hl) ?_)
        simpa using h.2
      · exact batchesWithinBounds_congr PROCESS_CHUNK_SIZE l _ rfl rfl hl
    · exact hl

theorem batchesWithinBounds_processSample
    (secPerBatch PROCESS_CHUNK_SIZE CHECK_TIME_INTERVAL : Nat) (markerMethod : WindowMarkerMethod)
    (hsize : 1 ≤ PROCESS_CHUNK_SIZE) (l : ParserState) (sample : Sample)
    (hl : BatchesWithinBounds PROCESS_CHUNK_SIZE l) :
    BatchesWithinBounds PROCESS_CHUNK_SIZE
      (processSample secPerBatch PROCESS_CHUNK_SIZE CHECK_TIME_INTERVAL markerMethod l sample) := by
  unfold processSample
  by_cases hc : sample.circumstances.isEmpty = true
  · rw [if_pos hc]
    exact batchesWithinBounds_congr PROCESS_CHUNK_SIZE l _ rfl rfl hl
  · have hcirc : sample.circumstances ≠ [] := by simpa using hc
    let l0 : ParserState := { l with sampleNumber := (l.sampleNumber + 1) % 65536 }
    let l1 : ParserState :=
      if markerMethod = WindowMarkerMethod.WindowMarkerMethodTimestamp then
        checkTime secPerBatch CHECK_TIME_INTERVAL l0 sample
      else l0
    let l2 : ParserState :=
      if l1.b.data.length = PROCESS_CHUNK_SIZE then processBatch false l1 else l1
    have heq : (if sample.circumstances.isEmpty = true then
          { l with discardedSamples := (l.discardedSamples + 1) % UINT_MODULUS }
        else
          let l := { l with sampleNumber := (l.sampleNumber + 1) % 65536 }
          let l :=
            if markerMethod = WindowMarkerMethod.WindowMarkerMethodTimestamp then
              checkTime secPerBatch CHECK_TIME_INTERVAL l sample
            else l
          let l := if l.b.data.length = PROCESS_CHUNK_SIZE then processBatch false l else l
          { l with b := { l.b with data := l.b.data ++ [sample] } }) =
        { l2 with b := { l2.b with data := l2.b.data ++ [sample] } } := by
      rw [if_neg hc]
    rw [heq]
    have h0 : BatchesWithinBounds PROCESS_CHUNK_SIZE l0 :=
      batchesWithinBounds_congr PROCESS_CHUNK_SIZE l l0 rfl rfl hl
    have h1 : BatchesWithinBounds PROCESS_CHUNK_SIZE l1 := by
      show BatchesWithinBounds PROCESS_CHUNK_SIZE
        (if markerMethod = WindowMarkerMethod.WindowMarkerMethodTimestamp then
          checkTime secPerBatch CHECK_TIME_INTERVAL l0 sample else l0)
      split
      · exact batchesWithinBounds_checkTime secPerBatch PROCESS_CHUNK_SIZE CHECK_TIME_INTERVAL l0
          sample h0
      · exact h0
    have h2 : BatchesWithinBounds PROCESS_CHUNK_SIZE l2 ∧
        l2.b.data.length < PROCESS_CHUNK_SIZE := by
      show BatchesWithinBounds PROCESS_CHUNK_SIZE
          (if l1.b.data.length = PROCESS_CHUNK_SIZE then processBatch false l1 else l1) ∧
        (if l1.b.data.length = PROCESS_CHUNK_SIZE then processBatch false l1
          else l1).b.data.length < PROCESS_CHUNK_SIZE
      by_cases hfull : l1.b.data.length = PROCESS_CHUNK_SIZE
      · rw [if_pos hfull]
        refine ⟨batchesWithinBounds_processBatch PROCESS_CHUNK_SIZE false l1 h1 ?_, ?_⟩
        · intro he
          rw [he] at hfull
          simp at hfull
          omega
        · simp only [processBatch, List.length_nil]
          omega
      · rw [if_neg hfull]
        exact ⟨h1, Nat.lt_of_le_of_ne h1.1 hfull⟩
    obtain ⟨⟨_, h22, h23⟩, hlt⟩ := h2
    refine ⟨?_, ?_, h23⟩
    · show (l2.b.data ++ [sample]).length ≤ PROCESS_CHUNK_SIZE
      rw [List.length_append, List.length_singleton]
      omega
    · intro s hs
      have hs1 : s ∈ l2.b.data ++ [sample] := hs
      simp only [List.mem_append, List.mem_singleton] at hs1
      rcases hs1 with hs1 | rfl
      · exact h22 s hs1
      · exact hcirc

theorem batchesWithinBounds_foldl_processSample
    (secPerBatch PROCESS_CHUNK_SIZE CHECK_TIME_INTERVAL : Nat) (markerMethod : WindowMarkerMethod)
    (hsize : 1 ≤ PROCESS_CHUNK_SIZE) (samples : List Sample) :
    ∀ l, BatchesWithinBounds PROCESS_CHUNK_SIZE l →
      BatchesWithinBounds PROCESS_CHUNK_SIZE
        (samples.foldl
          (processSample secPerBatch PROCESS_CHUNK_SIZE CHECK_TIME_INTERVAL markerMethod) l) := by
  induction samples with
  | nil => intro l hl; exact hl
  | cons s rest ih =>
    intro l hl
    rw [List.foldl_cons]
    exact ih _ (batchesWithinBounds_processSample secPerBatch PROCESS_CHUNK_SIZE
      CHECK_TIME_INTERVAL markerMethod hsize l s hl)

theorem batchesWithinBounds_processParsedChunk
    (secPerBatch PROCESS_CHUNK_SIZE CHECK_TIME_INTERVAL : Nat) (markerMethod : WindowMarkerMethod)
    (hsize : 1 ≤ PROCESS_CHUNK_SIZE) (l : ParserState) (samples : List Sample)
    (finishesTimeWindow forceProcessing : Bool)
    (hl : BatchesWithinBounds PROCESS_CHUNK_SIZE l) :
    BatchesWithinBounds PROCESS_CHUNK_SIZE
      (processParsedChunk secPerBatch PROCESS_CHUNK_SIZE CHECK_TIME_INTERVAL markerMethod l
        samples finishesTimeWindow forceProcessing) := by
  unfold processParsedChunk
  have h1 := batchesWithinBounds_foldl_processSample secPerBatch PROCESS_CHUNK_SIZE
    CHECK_TIME_INTERVAL markerMethod hsize samples { l with sampleNumber := 0 }
    (batchesWithinBounds_congr PROCESS_CHUNK_SIZE l _ rfl rfl hl)
  generalize samples.foldl
    (processSample secPerBatch PROCESS_CHUNK_SIZE CHECK_TIME_INTERVAL markerMethod)
    { l with sampleNumber := 0 } = l1 at h1
  simp only
  have h2 : BatchesWithinBounds PROCESS_CHUNK_SIZE
      (if ((finishesTimeWindow || forceProcessing) && !l1.b.data.isEmpty) = true then
        processBatch true l1 else l1) := by
    split
    · rename_i h
      refine batchesWithinBounds_processBatch PROCESS_CHUNK_SIZE true l1 h1 ?_
      simp only [Bool.and_eq_true, Bool.not_eq_true', List.isEmpty_eq_false] at h
      simpa using h.2
    · exact h1
  split
  · exact batchesWithinBounds_congr PROCESS_CHUNK_SIZE _ _ rfl rfl h2
  · exact h2

theorem batchesWithinBounds_processParsedChunks
    (secPerBatch PROCESS_CHUNK_SIZE CHECK_TIME_INTERVAL : Nat) (markerMethod : WindowMarkerMethod)
    (hsize : 1 ≤ PROCESS_CHUNK_SIZE) (calls : List (List Sample × Bool × Bool)) :
    ∀ l, BatchesWithinBounds PROCESS_CHUNK_SIZE l →
      BatchesWithinBounds PROCESS_CHUNK_SIZE
        (processParsedChunks secPerBatch PROCESS_CHUNK_SIZE CHECK_TIME_INTERVAL markerMethod l
          calls) := by
  induction calls with
  | nil => intro l hl; exact hl
  | cons c rest ih =>
    intro l hl
    unfold processParsedChunks
    rw [List.foldl_cons]
    exact ih _ (batchesWithinBounds_processParsedChunk secPerBatch PROCESS_CHUNK_SIZE
      CHECK_TIME_INTERVAL markerMethod hsize l c.1 c.2.1 c.2.2 hl)

theorem batchesWithinBounds_initial (PROCESS_CHUNK_SIZE : Nat) :
    BatchesWithinBounds PROCESS_CHUNK_SIZE ParserState.initial := by
  simp [BatchesWithinBounds, ParserState.initial]

/-- C32. Assuming `PROCESS_CHUNK_SIZE >= 1`, for every sequence of calls of
`processParsedChunk`, starting from the initial values of its static variables,
and for every marker method, `secPerBatch` and `CHECK_TIME_INTERVAL`: every
batch given to `processChunkOfBatch` holds at least 1 and at most
`PROCESS_CHUNK_SIZE` samples, every sample in it has circumstances, and
`processChunkOfBatch` finds a first and a last sample in it, whatever the
mapper. -/
theorem processParsedChunks_batches_within_bounds
    (secPerBatch PROCESS_CHUNK_SIZE CHECK_TIME_INTERVAL : Nat) (markerMethod : WindowMarkerMethod)
    (calls : List (List Sample × Bool × Bool)) (hsize : 1 ≤ PROCESS_CHUNK_SIZE) :
    ∀ batch ∈ (processParsedChunks secPerBatch PROCESS_CHUNK_SIZE CHECK_TIME_INTERVAL
        markerMethod ParserState.initial calls).processed,
      1 ≤ batch.data.length ∧ batch.data.length ≤ PROCESS_CHUNK_SIZE ∧
      (∀ sample ∈ batch.data, sample.circumstances ≠ []) ∧
      (batch.data.head?.isSome ∧ batch.data.getLast?.isSome) ∧
      ∀ mapper : Sample → List RawTransaction, (processChunkOfBatch mapper batch).isSome := by
  intro batch hb
  obtain ⟨h1, h2, h3⟩ := (batchesWithinBounds_processParsedChunks secPerBatch PROCESS_CHUNK_SIZE
    CHECK_TIME_INTERVAL markerMethod hsize calls ParserState.initial
    (batchesWithinBounds_initial PROCESS_CHUNK_SIZE)).2.2 batch hb
  have hne : batch.data ≠ [] := List.length_pos.mp h1
  refine ⟨h1, h2, h3, ?_, ?_⟩
  · obtain ⟨first, last, hf, hl, _⟩ := processChunkOfBatch_of_ne_nil (fun _ => []) batch hne
    rw [hf, hl]
    exact ⟨rfl, rfl⟩
  · intro mapper
    obtain ⟨first, last, _, _, h⟩ := processChunkOfBatch_of_ne_nil mapper batch hne
    rw [h]
    rfl

/-- Instance of `processParsedChunks_batches_within_bounds`, with a
`PROCESS_CHUNK_SIZE` of 2, batches of 900 seconds and a time check at every
sample: four batches are given to `processChunkOfBatch`, the first because the
batch under construction was full, the next two because the batch ID grew, the
last because processing was forced. -/
theorem processParsedChunks_batches_within_bounds_witness :
    1 ≤ 2 ∧
    (processParsedChunks 900 2 1 WindowMarkerMethod.WindowMarkerMethodTimestamp
        ParserState.initial exampleCalls).processed.map
      (fun batch => (batch.meta.batchID, batch.meta.isLastChunk, batch.meta.discardedSamples,
        batch.data.map Sample.time)) =
      [(1, false, 1, [1000, 1100]), (1, true, 0, [1200]), (2, true, 0, [2000, 2100]),
       (3, true, 0, [3000])] ∧
    ∀ batch ∈ (processParsedChunks 900 2 1 WindowMarkerMethod.WindowMarkerMethodTimestamp
        ParserState.initial exampleCalls).processed,
      1 ≤ batch.data.length ∧ batch.data.length ≤ 2 ∧
      (∀ sample ∈ batch.data, sample.circumstances ≠ []) ∧
      (batch.data.head?.isSome ∧ batch.data.getLast?.isSome) ∧
      ∀ mapper : Sample → List RawTransaction, (processChunkOfBatch mapper batch).isSome :=
  ⟨by decide, by decide,
    processParsedChunks_batches_within_bounds 900 2 1
      WindowMarkerMethod.WindowMarkerMethodTimestamp exampleCalls (by decide)⟩

end JSONLogParser

namespace JSONLogParser

namespace QHash

variable {κ ν : Type} [DecidableEq κ]

theorem value_eq_none_iff (h : QHash κ ν) (key : κ) :
    h.value key = none ↔ key ∉ h.entries.map Prod.fst := by
  simp only [value, Option.map_eq_none', List.find?_eq_none, decide_eq_true_eq, List.mem_map,
    not_exists, not_and]

theorem contains_iff (h : QHash κ ν) (key : κ) :
    h.contains key = true ↔ key ∈ h.entries.map Prod.fst := by
  rw [contains, Option.isSome_iff_ne_none, Ne, value_eq_none_iff, not_not]

theorem insert_of_not_mem (h : QHash κ ν) (key : κ) (v : ν)
    (hk : key ∉ h.entries.map Prod.fst) : h.insert key v = { entries := h.entries ++ [(key, v)] } := by
  have : h.contains key = false := by
    rw [← Bool.not_eq_true, contains_iff]
    exact hk
  simp [insert, this]

theorem value_append_of_some (l ext : List (κ × ν)) (key : κ) (v : ν)
    (hv : (QHash.mk l).value key = some v) : (QHash.mk (l ++ ext)).value key = some v := by
  simp only [value, Option.map_eq_some'] at hv ⊢
  obtain ⟨p, hp, hpv⟩ := hv
  exact ⟨p, by rw [List.find?_append, hp]; rfl, hpv⟩

theorem value_append_new (l : List (κ × ν)) (key : κ) (v : ν)
    (hk : key ∉ l.map Prod.fst) : (QHash.mk (l ++ [(key, v)])).value key = some v := by
  have hnone : l.find? (fun p => decide (p.1 = key)) = none := by
    have := (value_eq_none_iff (QHash.mk l) key).mpr hk
    simpa [value] using this
  simp [value, List.find?_append, hnone]

theorem value_eq_some_iff_mem (l : List (κ × ν)) (hl : (l.map Prod.fst).Nodup) (key : κ) (v : ν) :
    (QHash.mk l).value key = some v ↔ (key, v) ∈ l := by
  induction l with
  | nil => simp [value]
  | cons p rest ih =>
    rw [List.map_cons, List.nodup_cons] at hl
    by_cases hp : p.1 = key
    · have hval : (QHash.mk (p :: rest)).value key = some p.2 := by
        simp [value, List.find?_cons, hp]
      rw [hval]
      constructor
      · intro h
        have : p.2 = v := Option.some.inj h
        rw [← this, ← hp]
        exact List.mem_cons_self _ _
      · intro h
        rcases List.mem_cons.mp h with h | h
        · rw [← h]
        · exfalso
          apply hl.1
          rw [hp]
          exact List.mem_map_of_mem Prod.fst h
    · have hval : (QHash.mk (p :: rest)).value key = (QHash.mk rest).value key := by
        simp [value, List.find?_cons, hp]
      rw [hval, ih hl.2]
      constructor
      · exact fun h => List.mem_cons_of_mem _ h
      · intro h
        rcases List.mem_cons.mp h with h | h
        · exfalso
          apply hp
          rw [← h]
        · exact h

end QHash

theorem dedup_length_congr {α : Type} [DecidableEq α] (l k : List α)
    (h : ∀ x, x ∈ l ↔ x ∈ k) : l.dedup.length = k.dedup.length := by
  rw [← List.card_toFinset, ← List.card_toFinset]
  congr 1
  ext x
  simp [h x]

theorem dedup_length_le {α : Type} [DecidableEq α] (l k : List α)
    (h : ∀ x, x ∈ l → x ∈ k) : l.dedup.length ≤ k.dedup.length := by
  rw [← List.card_toFinset, ← List.card_toFinset]
  apply Finset.card_le_card
  intro x hx
  simp only [List.mem_toFinset] at hx ⊢
  exact h x hx

end JSONLogParser
namespace JSONLogParser

theorem mapEpisodeNameToID_of_mem (episodeIDRange : Nat) (hashes : EpisodeHashes)
    (name fieldName : String)
    (hmem : name ∈ hashes.episodeNameIDHash.entries.map Prod.fst) :
    mapEpisodeNameToID episodeIDRange hashes name fieldName =
      ((hashes.episodeNameIDHash.value name).getD 0, hashes) := by
  have hc := (QHash.contains_iff hashes.episodeNameIDHash name).mpr hmem
  simp [mapEpisodeNameToID, hc]

theorem mapEpisodeNameToID_of_not_mem (episodeIDRange : Nat) (hashes : EpisodeHashes)
    (name fieldName : String) (hinv : HashesConsistent hashes)
    (hnot : name ∉ hashes.episodeNameIDHash.entries.map Prod.fst)
    (hlt : hashes.episodeNameIDHash.entries.length < episodeIDRange) :
    mapEpisodeNameToID episodeIDRange hashes name fieldName =
      (hashes.episodeNameIDHash.entries.length,
       { episodeNameIDHash :=
           { entries := hashes.episodeNameIDHash.entries ++
               [(name, hashes.episodeNameIDHash.entries.length)] },
         episodeIDNameHash :=
           { entries := hashes.episodeIDNameHash.entries ++
               [(hashes.episodeNameIDHash.entries.length, name)] },
         episodeNameFieldNameHash := hashes.episodeNameFieldNameHash.insert name fieldName }) := by
  obtain ⟨h1, h2, _⟩ := hinv
  have hc : hashes.episodeNameIDHash.contains name = false := by
    rw [← Bool.not_eq_true, QHash.contains_iff]
    exact hnot
  have hid : hashes.episodeNameIDHash.entries.length ∉
      hashes.episodeIDNameHash.entries.map Prod.fst := by
    rw [h2, List.map_map]
    have : (Prod.fst ∘ Prod.swap : String × Nat → Nat) = Prod.snd := by
      funext p
      rfl
    rw [this, h1]
    simp
  simp only [mapEpisodeNameToID, hc, Bool.not_false, if_true, QHash.size, Nat.mod_eq_of_lt hlt,
    QHash.insert_of_not_mem _ _ _ hnot, QHash.insert_of_not_mem _ _ _ hid,
    QHash.value_append_new _ _ _ hnot, Option.getD_some]

theorem hashesConsistent_empty : HashesConsistent EpisodeHashes.empty := by
  simp [HashesConsistent, EpisodeHashes.empty, QHash.empty]

/-- What one call of `mapEpisodeNameToID` does to consistent hashes. -/
theorem mapEpisodeNameToID_facts (episodeIDRange : Nat) (hashes : EpisodeHashes)
    (name fieldName : String) (hinv : HashesConsistent hashes)
    (hlt : name ∉ hashes.episodeNameIDHash.entries.map Prod.fst →
      hashes.episodeNameIDHash.entries.length < episodeIDRange) :
    HashesConsistent (mapEpisodeNameToID episodeIDRange hashes name fieldName).2 ∧
    (mapEpisodeNameToID episodeIDRange hashes name fieldName).2.episodeNameIDHash.value name =
      some (mapEpisodeNameToID episodeIDRange hashes name fieldName).1 ∧
    (∃ ext, (mapEpisodeNameToID episodeIDRange hashes name fieldName).2.episodeNameIDHash.entries =
      hashes.episodeNameIDHash.entries ++ ext) ∧
    (∀ n, n ∈ (mapEpisodeNameToID episodeIDRange hashes name
        fieldName).2.episodeNameIDHash.entries.map Prod.fst ↔
      n ∈ hashes.episodeNameIDHash.entries.map Prod.fst ∨ n = name) ∧
    (name ∉ hashes.episodeNameIDHash.entries.map Prod.fst →
      (mapEpisodeNameToID episodeIDRange hashes name fieldName).1 =
        hashes.episodeNameIDHash.entries.length) := by
  by_cases hmem : name ∈ hashes.episodeNameIDHash.entries.map Prod.fst
  · rw [mapEpisodeNameToID_of_mem episodeIDRange hashes name fieldName hmem]
    refine ⟨hinv, ?_, ⟨[], by simp⟩, ?_, fun h => absurd hmem h⟩
    · cases hv : hashes.episodeNameIDHash.value name with
      | none => exact absurd ((QHash.value_eq_none_iff _ _).mp hv) (not_not.mpr hmem)
      | some v => rfl
    · intro n
      constructor
      · exact fun h => Or.inl h
      · rintro (h | rfl)
        · exact h
        · exact hmem
  · rw [mapEpisodeNameToID_of_not_mem episodeIDRange hashes name fieldName hinv hmem (hlt hmem)]
    obtain ⟨h1, h2, h3⟩ := hinv
    refine ⟨⟨?_, ?_, ?_⟩, QHash.value_append_new _ _ _ hmem, ⟨_, rfl⟩, ?_, fun _ => rfl⟩
    · simp only [List.map_append, List.map_cons, List.map_nil, List.length_append,
        List.length_singleton, List.range_succ, h1]
    · simp only [List.map_append, List.map_cons, List.map_nil, h2, Prod.swap]
    · simp only [List.map_append, List.map_cons, List.map_nil]
      rw [List.nodup_append]
      refine ⟨h3, List.nodup_singleton _, ?_⟩
      intro a ha hb
      rw [List.mem_singleton] at hb
      exact hmem (hb ▸ ha)
    · intro n
      simp only [List.map_append, List.map_cons, List.map_nil, List.mem_append,
        List.mem_singleton]

end JSONLogParser
namespace JSONLogParser

/-- What a sequence of calls of `mapEpisodeNameToID` does to consistent hashes,
as long as the type of the IDs has room for all the names. -/
theorem mapEpisodeNamesToIDs_facts (episodeIDRange : Nat) (calls : List (String × String)) :
    ∀ hashes : EpisodeHashes, HashesConsistent hashes →
      (hashes.episodeNameIDHash.entries.map Prod.fst ++ calls.map Prod.fst).dedup.length ≤
        episodeIDRange →
      HashesConsistent (mapEpisodeNamesToIDs episodeIDRange hashes calls).2 ∧
      (∃ ext, (mapEpisodeNamesToIDs episodeIDRange hashes calls).2.episodeNameIDHash.entries =
        hashes.episodeNameIDHash.entries ++ ext) ∧
      (∀ n, n ∈ (mapEpisodeNamesToIDs episodeIDRange hashes
          calls).2.episodeNameIDHash.entries.map Prod.fst ↔
        n ∈ hashes.episodeNameIDHash.entries.map Prod.fst ∨ n ∈ calls.map Prod.fst) ∧
      (∀ (i : Nat) (a : String × String), calls[i]? = some a →
        ∃ id, (mapEpisodeNamesToIDs episodeIDRange hashes calls).1[i]? = some id ∧
          (mapEpisodeNamesToIDs episodeIDRange hashes calls).2.episodeNameIDHash.value a.1 =
            some id) ∧
      (∀ before call after, calls = before ++ call :: after →
        call.1 ∉ hashes.episodeNameIDHash.entries.map Prod.fst →
        call.1 ∉ before.map Prod.fst →
        (mapEpisodeNamesToIDs episodeIDRange hashes calls).1[before.length]? =
          some (hashes.episodeNameIDHash.entries.map Prod.fst ++
            before.map Prod.fst).dedup.length) := by
  induction calls with
  | nil =>
    intro hashes hinv _
    refine ⟨hinv, ⟨[], by simp [mapEpisodeNamesToIDs]⟩, ?_, ?_, ?_⟩
    · intro n
      simp [mapEpisodeNamesToIDs]
    · intro i a h
      simp at h
    · intro before call after h
      exact absurd h (by simp)
  | cons c rest ih =>
    intro hashes hinv hM
    have hlt : c.1 ∉ hashes.episodeNameIDHash.entries.map Prod.fst →
        hashes.episodeNameIDHash.entries.length < episodeIDRange := by
      intro hnot
      have hnodup : (hashes.episodeNameIDHash.entries.map Prod.fst ++ [c.1]).Nodup := by
        rw [List.nodup_append]
        refine ⟨hinv.2.2, List.nodup_singleton _, ?_⟩
        intro a ha hb
        rw [List.mem_singleton] at hb
        exact hnot (hb ▸ ha)
      have hle := dedup_length_le (hashes.episodeNameIDHash.entries.map Prod.fst ++ [c.1])
        (hashes.episodeNameIDHash.entries.map Prod.fst ++ (c :: rest).map Prod.fst)
        (by
          intro x hx
          rcases List.mem_append.mp hx with hx | hx
          · exact List.mem_append_left _ hx
          · rw [List.mem_singleton] at hx
            rw [hx]
            exact List.mem_append_right _ (List.mem_cons_self _ _))
      rw [hnodup.dedup, List.length_append, List.length_singleton, List.length_map] at hle
      omega
    obtain ⟨s1, s2, ⟨ext1, s3⟩, s4, s5⟩ :=
      mapEpisodeNameToID_facts episodeIDRange hashes c.1 c.2 hinv hlt
    have hM1 : ((mapEpisodeNameToID episodeIDRange hashes c.1 c.2).2.episodeNameIDHash.entries.map
        Prod.fst ++ rest.map Prod.fst).dedup.length ≤ episodeIDRange := by
      refine Nat.le_trans (dedup_length_le _ _ ?_) hM
      intro x hx
      simp only [List.mem_append, List.map_cons, List.mem_cons] at hx ⊢
      rcases hx with hx | hx
      · rcases (s4 x).mp hx with h | h
        · exact Or.inl h
        · exact Or.inr (Or.inl h)
      · exact Or.inr (Or.inr hx)
    obtain ⟨r1, ⟨ext2, r2⟩, r3, r4, r5⟩ :=
      ih (mapEpisodeNameToID episodeIDRange hashes c.1 c.2).2 s1 hM1
    have hrun : mapEpisodeNamesToIDs episodeIDRange hashes (c :: rest) =
        ((mapEpisodeNameToID episodeIDRange hashes c.1 c.2).1 ::
          (mapEpisodeNamesToIDs episodeIDRange
            (mapEpisodeNameToID episodeIDRange hashes c.1 c.2).2 rest).1,
         (mapEpisodeNamesToIDs episodeIDRange
            (mapEpisodeNameToID episodeIDRange hashes c.1 c.2).2 rest).2) := rfl
    rw [hrun]
    refine ⟨r1, ⟨ext1 ++ ext2, by rw [r2, s3, List.append_assoc]⟩, ?_, ?_, ?_⟩
    · intro n
      rw [r3 n, s4 n]
      simp only [List.map_cons, List.mem_cons]
      tauto
    · intro i a hia
      cases i with
      | zero =>
        have hac : c = a := by simpa using hia
        subst hac
        refine ⟨(mapEpisodeNameToID episodeIDRange hashes c.1 c.2).1,
          List.getElem?_cons_zero, ?_⟩
        show (QHash.mk _).value c.1 = _
        rw [r2]
        exact QHash.value_append_of_some _ _ _ _ s2
      | succ i =>
        have hia1 : rest[i]? = some a := by simpa using hia
        obtain ⟨id, h1, h2⟩ := r4 i a hia1
        exact ⟨id, by simpa using h1, h2⟩
    · intro before call after heq hnot hnb
      cases before with
      | nil =>
        have hc : c = call := by
          simp only [List.nil_append, List.cons.injEq] at heq
          exact heq.1
        subst hc
        simp only [List.length_nil, List.getElem?_cons_zero, List.map_nil, List.append_nil,
          hinv.2.2.dedup, List.length_map]
        rw [s5 hnot]
      | cons b before1 =>
        simp only [List.cons_append, List.cons.injEq] at heq
        obtain ⟨hcb, hrest⟩ := heq
        subst hcb
        have hne : call.1 ≠ c.1 := by
          intro h
          apply hnb
          rw [List.map_cons, h]
          exact List.mem_cons_self _ _
        have hnot1 : call.1 ∉ (mapEpisodeNameToID episodeIDRange hashes c.1
            c.2).2.episodeNameIDHash.entries.map Prod.fst := by
          intro h
          rcases (s4 call.1).mp h with h | h
          · exact hnot h
          · exact hne h
        have hnb1 : call.1 ∉ before1.map Prod.fst := by
          intro h
          apply hnb
          rw [List.map_cons]
          exact List.mem_cons_of_mem _ h
        have := r5 before1 call after hrest hnot1 hnb1
        simp only [List.length_cons, List.getElem?_cons_succ]
        rw [this]
        congr 1
        apply dedup_length_congr
        intro x
        simp only [List.mem_append, List.map_cons, List.mem_cons]
        rw [s4 x]
        tauto

end JSONLogParser
namespace JSONLogParser

/-- C33. For every sequence of calls of `mapEpisodeNameToID` by one thread,
starting from the empty static hashes, with no more names than the type of the
IDs has values: two calls with the same name return the same ID; a call with a
name that no earlier call had returns the number of distinct names of the
earlier calls; the IDs in the name-to-ID hash are 0, 1, ..., k-1 for the k
distinct names; and the ID-to-name hash is the inverse of the name-to-ID
hash. -/
theorem mapEpisodeNamesToIDs_consistent (episodeIDRange : Nat)
    (calls : List (String × String))
    (hrange : (calls.map Prod.fst).dedup.length ≤ episodeIDRange) :
    (∀ (i j : Nat) (a b : String × String), calls[i]? = some a → calls[j]? = some b →
      a.1 = b.1 →
      ∃ id, (mapEpisodeNamesToIDs episodeIDRange EpisodeHashes.empty calls).1[i]? = some id ∧
        (mapEpisodeNamesToIDs episodeIDRange EpisodeHashes.empty calls).1[j]? = some id) ∧
    (∀ before call after, calls = before ++ call :: after → call.1 ∉ before.map Prod.fst →
      (mapEpisodeNamesToIDs episodeIDRange EpisodeHashes.empty calls).1[before.length]? =
        some (before.map Prod.fst).dedup.length) ∧
    (mapEpisodeNamesToIDs episodeIDRange EpisodeHashes.empty
        calls).2.episodeNameIDHash.entries.map Prod.snd =
      List.range (mapEpisodeNamesToIDs episodeIDRange EpisodeHashes.empty
        calls).2.episodeNameIDHash.size ∧
    (mapEpisodeNamesToIDs episodeIDRange EpisodeHashes.empty calls).2.episodeNameIDHash.size =
      (calls.map Prod.fst).dedup.length ∧
    (∀ (name : String) (id : Nat),
      (mapEpisodeNamesToIDs episodeIDRange EpisodeHashes.empty
          calls).2.episodeNameIDHash.value name = some id ↔
        (mapEpisodeNamesToIDs episodeIDRange EpisodeHashes.empty
          calls).2.episodeIDNameHash.value id = some name) := by
  obtain ⟨⟨h1, h2, h3⟩, _, hkeys, hids, hnew⟩ :=
    mapEpisodeNamesToIDs_facts episodeIDRange calls EpisodeHashes.empty hashesConsistent_empty
      (by simpa [EpisodeHashes.empty, QHash.empty] using hrange)
  refine ⟨?_, ?_, h1, ?_, ?_⟩
  · intro i j a b hi hj hab
    obtain ⟨id, hid1, hid2⟩ := hids i a hi
    obtain ⟨id', hid1', hid2'⟩ := hids j b hj
    rw [hab, hid2'] at hid2
    rw [Option.some.inj hid2] at hid1'
    exact ⟨id, hid1, hid1'⟩
  · intro before call after heq hnb
    have := hnew before call after heq (by simp [EpisodeHashes.empty, QHash.empty]) hnb
    simpa [EpisodeHashes.empty, QHash.empty] using this
  · have hlen : (mapEpisodeNamesToIDs episodeIDRange EpisodeHashes.empty
        calls).2.episodeNameIDHash.size =
        ((mapEpisodeNamesToIDs episodeIDRange EpisodeHashes.empty
          calls).2.episodeNameIDHash.entries.map Prod.fst).dedup.length := by
      rw [h3.dedup, List.length_map]
      rfl
    rw [hlen]
    apply dedup_length_congr
    intro x
    rw [hkeys x]
    simp [EpisodeHashes.empty, QHash.empty]
  · intro name id
    have hvals : ((mapEpisodeNamesToIDs episodeIDRange EpisodeHashes.empty
        calls).2.episodeIDNameHash.entries.map Prod.fst).Nodup := by
      rw [h2, List.map_map]
      have : (Prod.fst ∘ Prod.swap : String × Nat → Nat) = Prod.snd := by
        funext p
        rfl
      rw [this, h1]
      exact List.nodup_range _
    show (QHash.mk _).value name = some id ↔ (QHash.mk _).value id = some name
    rw [QHash.value_eq_some_iff_mem _ h3, QHash.value_eq_some_iff_mem _ hvals, h2]
    constructor
    · intro h
      exact List.mem_map.mpr ⟨(name, id), h, rfl⟩
    · intro h
      obtain ⟨p, hp, hpe⟩ := List.mem_map.mp h
      have : p = (name, id) := by
        cases p with
        | mk x y =>
          simp only [Prod.swap, Prod.mk.injEq] at hpe
          rw [hpe.1, hpe.2]
      rw [← this]
      exact hp

/-- Instance of `mapEpisodeNamesToIDs_consistent`: five calls with three names,
the IDs being 8-bit values. -/
theorem mapEpisodeNamesToIDs_consistent_witness :
    (exampleNameCalls.map Prod.fst).dedup.length ≤ 256 ∧
    (mapEpisodeNamesToIDs 256 EpisodeHashes.empty exampleNameCalls).1 = [0, 1, 0, 2, 0] ∧
    (mapEpisodeNamesToIDs 256 EpisodeHashes.empty exampleNameCalls).2.episodeNameIDHash.entries =
      [("css", 0), ("js", 1), ("totaltime", 2)] ∧
    (mapEpisodeNamesToIDs 256 EpisodeHashes.empty exampleNameCalls).2.episodeIDNameHash.entries =
      [(0, "css"), (1, "js"), (2, "totaltime")] ∧
    (mapEpisodeNamesToIDs 256 EpisodeHashes.empty
        exampleNameCalls).2.episodeNameIDHash.entries.map Prod.snd =
      List.range (mapEpisodeNamesToIDs 256 EpisodeHashes.empty
        exampleNameCalls).2.episodeNameIDHash.size :=
  ⟨by decide, by decide, by decide, by decide,
    (mapEpisodeNamesToIDs_consistent 256 exampleNameCalls (by decide)).2.2.1⟩

/-- With an ID type of two values the third name receives the ID 0, which the
first name holds: the bound on the number of names is needed. -/
theorem mapEpisodeNamesToIDs_wraps_beyond_range :
    (mapEpisodeNamesToIDs 2 EpisodeHashes.empty exampleNameCalls).1 = [0, 1, 0, 0, 0] ∧
    (mapEpisodeNamesToIDs 2 EpisodeHashes.empty exampleNameCalls).2.episodeIDNameHash.entries =
      [(0, "totaltime"), (1, "js")] := by
  decide

end JSONLogParser

namespace JSONLogParser

theorem QVariantMap.contains_iff_mem_keys {ν : Type} (m : QVariantMap ν) (key : String) :
    m.contains key = true ↔ key ∈ m.keys := by
  simp only [QVariantMap.contains, QVariantMap.keys, List.any_eq_true, decide_eq_true_eq,
    List.mem_map]

theorem mem_insertCircumstance (circumstances : List String) (value c : String) :
    c ∈ insertCircumstance circumstances value ↔ c ∈ circumstances ∨ c = value := by
  unfold insertCircumstance
  split
  · rename_i h
    constructor
    · exact fun hc => Or.inl hc
    · rintro (hc | rfl)
      · exact hc
      · exact h
  · simp

theorem processNormal_of_parent (x : Externals) (categoricalAttributes : QHash String Attribute)
    (normals : QVariantMap String) (circumstances : List String) (key : String)
    (attr : Attribute) (parentAttribute : String)
    (hattr : categoricalAttributes.value key = some attr)
    (hparent : attr.parentAttribute = some parentAttribute) :
    processNormal x categoricalAttributes normals circumstances key =
      if normals.contains parentAttribute then
        insertCircumstance circumstances
          (attr.name ++ ":" ++ normals.value parentAttribute "" ++ ":" ++ normals.value key "")
      else circumstances := by
  unfold processNormal
  rw [hattr]
  simp only
  rw [hparent]

/-- C34. In the loop of `parseSample` over the normal fields, for a key whose
categorical attribute has a parent attribute: when the parent attribute is among
the keys of the normal fields, the pass for the key inserts the circumstance
`<name>:<parent value>:<value>` and nothing else; when it is missing the pass
leaves the circumstances as they were.  So a circumstance that the sample did
not hold before the pass is held after it iff the parent attribute is present,
and with a missing parent the loop gives what it gives without the key: the
keys before and after it are processed as usual. -/
theorem processNormal_parentAttribute (x : Externals)
    (categoricalAttributes : QHash String Attribute) (normals : QVariantMap String)
    (key : String) (attr : Attribute) (parentAttribute : String)
    (hattr : categoricalAttributes.value key = some attr)
    (hparent : attr.parentAttribute = some parentAttribute) :
    (∀ circumstances, parentAttribute ∈ normals.keys →
      processNormal x categoricalAttributes normals circumstances key =
        insertCircumstance circumstances
          (attr.name ++ ":" ++ normals.value parentAttribute "" ++ ":" ++
            normals.value key "")) ∧
    (∀ circumstances, parentAttribute ∉ normals.keys →
      processNormal x categoricalAttributes normals circumstances key = circumstances) ∧
    (∀ circumstances,
      attr.name ++ ":" ++ normals.value parentAttribute "" ++ ":" ++ normals.value key "" ∉
        circumstances →
      (attr.name ++ ":" ++ normals.value parentAttribute "" ++ ":" ++ normals.value key "" ∈
          processNormal x categoricalAttributes normals circumstances key ↔
        parentAttribute ∈ normals.keys)) ∧
    (parentAttribute ∉ normals.keys →
      ∀ before after circumstances,
        processNormals x categoricalAttributes normals (before ++ key :: after) circumstances =
          processNormals x categoricalAttributes normals (before ++ after) circumstances) := by
  have hstep := fun circumstances => processNormal_of_parent x categoricalAttributes normals
    circumstances key attr parentAttribute hattr hparent
  have hpresent : ∀ circumstances, parentAttribute ∈ normals.keys →
      processNormal x categoricalAttributes normals circumstances key =
        insertCircumstance circumstances
          (attr.name ++ ":" ++ normals.value parentAttribute "" ++ ":" ++
            normals.value key "") := by
    intro circumstances hmem
    rw [hstep, if_pos ((QVariantMap.contains_iff_mem_keys normals parentAttribute).mpr hmem)]
  have hmissing : ∀ circumstances, parentAttribute ∉ normals.keys →
      processNormal x categoricalAttributes normals circumstances key = circumstances := by
    intro circumstances hmem
    rw [hstep, if_neg (fun h => hmem ((QVariantMap.contains_iff_mem_keys normals parentAttribute).mp h))]
  refine ⟨hpresent, hmissing, ?_, ?_⟩
  · intro circumstances hnot
    constructor
    · intro hin
      by_contra hmem
      rw [hmissing circumstances hmem] at hin
      exact hnot hin
    · intro hmem
      rw [hpresent circumstances hmem, mem_insertCircumstance]
      exact Or.inr rfl
  · intro hmem before after circumstances
    unfold processNormals
    rw [List.foldl_append, List.foldl_append, List.foldl_cons, hmissing _ hmem]

/-- Instance of `processNormal_parentAttribute`: the attribute `browser` with the
parent attribute `os`.  With `os` among the normal fields the loop gives
`browser:linux:firefox` and `status:200`; without it the loop gives `status:200`
alone, and `parseSample` returns a sample with that circumstance. -/
theorem processNormal_parentAttribute_witness :
    exampleAttributes.value "browser" =
      some { name := "browser", field := "browser", isEpisode := false,
             parentAttribute := some "os", hierarchySeparator := Option.none } ∧
    processNormals exampleExternals exampleAttributes exampleNormalsWithParent
      exampleNormalsWithParent.keys [] = ["browser:linux:firefox", "status:200"] ∧
    processNormals exampleExternals exampleAttributes exampleNormalsWithoutParent
      exampleNormalsWithoutParent.keys [] = ["status:200"] ∧
    (parseSample exampleExternals exampleConfig EpisodeHashes.empty "x").map
      (fun r => r.1.circumstances) = some ["status:200"] ∧
    (∀ circumstances, "os" ∉ exampleNormalsWithoutParent.keys →
      processNormal exampleExternals exampleAttributes exampleNormalsWithoutParent circumstances
        "browser" = circumstances) :=
  ⟨by decide, by decide, by decide, by decide,
    (processNormal_parentAttribute exampleExternals exampleAttributes exampleNormalsWithoutParent
      "browser" { name := "browser", field := "browser", isEpisode := false,
                  parentAttribute := some "os", hierarchySeparator := Option.none }
      "os" (by decide) rfl).2.1⟩

end JSONLogParser

namespace JSONLogParser

theorem charAt_zero_eq_none_iff (s : String) : charAt s 0 = none ↔ s = "" := by
  unfold charAt
  constructor
  · intro h
    have hl : s.toList = [] := by
      cases hs : s.toList with
      | nil => rfl
      | cons c cs => rw [hs] at h; simp at h
    exact String.ext hl
  · intro h
    rw [h]
    rfl

/-- `parseSample` returns a sample exactly for the lines that are not empty. -/
theorem parseSample_isSome_iff (x : Externals) (config : Config) (hashes : EpisodeHashes)
    (rawSample : String) :
    (parseSample x config hashes rawSample).isSome = true ↔ rawSample ≠ "" := by
  rw [Ne, ← charAt_zero_eq_none_iff]
  unfold parseSample
  cases h : charAt rawSample 0 with
  | none => simp
  | some first =>
    simp only
    split
    · simp
    · split
      · simp
      · split <;> simp

/-- A checkpoint line, one that starts with `#`, gives a sample without
circumstances and leaves the static hashes as they were. -/
theorem parseSample_checkpoint_line (x : Externals) (config : Config) (hashes : EpisodeHashes)
    (rawSample : String) (h : charAt rawSample 0 = some '#') :
    parseSample x config hashes rawSample =
      some ({ circumstances := [], episodes := [], time := 0 }, hashes) := by
  unfold parseSample
  rw [h]
  simp

/-- With the marker method of the class `Parser`, every pass of the loop of
`Parser::parse` keeps the lines read so far in `chunk` or in the chunk of a call
of `processParsedChunk`, and adds the line it reads. -/
theorem parseLine_covers (timeWindowMarkerLine : String) (PARSE_CHUNK_SIZE : Nat)
    (forceProcessingDefault : Bool) (state : List String × List (List String × Bool × Bool))
    (line l : String)
    (hl : l = line ∨ l ∈ state.1 ∨ ∃ call ∈ state.2, l ∈ call.1) :
    l ∈ (parseLine getWindowMarkerMethod timeWindowMarkerLine PARSE_CHUNK_SIZE
        forceProcessingDefault state line).1 ∨
      ∃ call ∈ (parseLine getWindowMarkerMethod timeWindowMarkerLine PARSE_CHUNK_SIZE
        forceProcessingDefault state line).2, l ∈ call.1 := by
  have hchunk : l ∈ state.1 ++ [line] ∨ ∃ call ∈ state.2, l ∈ call.1 := by
    rcases hl with rfl | hl | hl
    · exact Or.inl (List.mem_append_right _ (List.mem_singleton_self _))
    · exact Or.inl (List.mem_append_left _ hl)
    · exact Or.inr hl
  have hmethod : (getWindowMarkerMethod = WindowMarkerMethod.WindowMarkerMethodMarkerLine) =
      False := by
    simp [getWindowMarkerMethod]
  unfold parseLine
  simp only [hmethod, if_false]
  split
  · right
    rcases hchunk with h | ⟨call, hc, h⟩
    · exact ⟨_, List.mem_append_right _ (List.mem_singleton_self _), h⟩
    · exact ⟨call, List.mem_append_left _ hc, h⟩
  · exact hchunk

theorem foldl_parseLine_covers (timeWindowMarkerLine : String) (PARSE_CHUNK_SIZE : Nat)
    (forceProcessingDefault : Bool) (l : String) (lines : List String) :
    ∀ state : List String × List (List String × Bool × Bool),
      (l ∈ lines ∨ l ∈ state.1 ∨ ∃ call ∈ state.2, l ∈ call.1) →
      l ∈ (lines.foldl (parseLine getWindowMarkerMethod timeWindowMarkerLine PARSE_CHUNK_SIZE
          forceProcessingDefault) state).1 ∨
        ∃ call ∈ (lines.foldl (parseLine getWindowMarkerMethod timeWindowMarkerLine
          PARSE_CHUNK_SIZE forceProcessingDefault) state).2, l ∈ call.1 := by
  induction lines with
  | nil =>
    intro state h
    rcases h with h | h | h
    · cases h
    · exact Or.inl h
    · exact Or.inr h
  | cons line rest ih =>
    intro state h
    rw [List.foldl_cons]
    apply ih
    rcases h with h | h | h
    · rcases List.mem_cons.mp h with h | h
      · exact Or.inr (parseLine_covers timeWindowMarkerLine PARSE_CHUNK_SIZE
          forceProcessingDefault state line l (Or.inl h))
      · exact Or.inl h
    · exact Or.inr (parseLine_covers timeWindowMarkerLine PARSE_CHUNK_SIZE
        forceProcessingDefault state line l (Or.inr (Or.inl h)))
    · exact Or.inr (parseLine_covers timeWindowMarkerLine PARSE_CHUNK_SIZE
        forceProcessingDefault state line l (Or.inr (Or.inr h)))

/-- With the marker method of the class `Parser`, every line of the file is in
the chunk of a call of `processParsedChunk`. -/
theorem mem_parse_of_mem (timeWindowMarkerLine : String) (PARSE_CHUNK_SIZE : Nat)
    (forceProcessingDefault : Bool) (lines : List String) (l : String) (hl : l ∈ lines) :
    ∃ call ∈ parse getWindowMarkerMethod timeWindowMarkerLine PARSE_CHUNK_SIZE
      forceProcessingDefault lines, l ∈ call.1 := by
  have h := foldl_parseLine_covers timeWindowMarkerLine PARSE_CHUNK_SIZE forceProcessingDefault
    l lines ([], []) (Or.inl hl)
  unfold parse
  simp only
  split
  · rcases h with h | ⟨call, hc, h⟩
    · exact ⟨_, List.mem_append_right _ (List.mem_singleton_self _), h⟩
    · exact ⟨call, List.mem_append_left _ hc, h⟩
  · rename_i hlen
    rcases h with h | h
    · exfalso
      apply hlen
      exact List.length_pos_of_mem h
    · exact h

/-- C35 (the code at the failing input). For every file with an empty line,
read with the marker method of the class `Parser`, the empty line is in a chunk
given to `processParsedChunk`, whose mapper parses every line of the chunk; on
the empty line the check `rawSample.at(0) == '#'` reads position 0 of a string
of size 0, outside its bounds, and `parseSample` returns no sample.  For every
other line position 0 is inside the string and a sample is returned, without
circumstances for a line that starts with `#`. -/
theorem parseSample_empty_line (x : Externals) (config : Config) (hashes : EpisodeHashes)
    (timeWindowMarkerLine : String) (PARSE_CHUNK_SIZE : Nat) (forceProcessingDefault : Bool)
    (before after : List String) :
    (∃ call ∈ parse getWindowMarkerMethod timeWindowMarkerLine PARSE_CHUNK_SIZE
        forceProcessingDefault (before ++ "" :: after), "" ∈ call.1) ∧
    "".length = 0 ∧ charAt "" 0 = none ∧
    parseSample x config hashes "" = none ∧
    (∀ rawSample, (parseSample x config hashes rawSample).isSome = true ↔ rawSample ≠ "") ∧
    (∀ rawSample, charAt rawSample 0 = some '#' →
      parseSample x config hashes rawSample =
        some ({ circumstances := [], episodes := [], time := 0 }, hashes)) := by
  refine ⟨mem_parse_of_mem timeWindowMarkerLine PARSE_CHUNK_SIZE forceProcessingDefault _ ""
    (List.mem_append_right _ (List.mem_cons_self _ _)), rfl, rfl, rfl,
    parseSample_isSome_iff x config hashes, parseSample_checkpoint_line x config hashes⟩

/-- A file with a sample, an empty line and another sample, read in chunks of
at most 4000 lines: the three lines form the chunk of the only call of
`processParsedChunk`, and `parseSample` returns no sample for the second. -/
theorem parse_file_with_empty_line :
    parse getWindowMarkerMethod getWindowMarkerLine 4000 false ["x", "", "y"] =
      [(["x", "", "y"], false, true)] ∧
    (parseSample exampleExternals exampleConfig EpisodeHashes.empty "x").isSome = true ∧
    parseSample exampleExternals exampleConfig EpisodeHashes.empty "" = none := by
  decide

end JSONLogParser

namespace JSONLogParser

/-- With a `PROCESS_CHUNK_SIZE` of 0 the first sample with circumstances finds
`b.data.size() == PROCESS_CHUNK_SIZE` on the empty batch, which is given to
`processChunkOfBatch`: the bound on `PROCESS_CHUNK_SIZE` is needed. -/
theorem processParsedChunk_zero_chunk_size :
    (processParsedChunks 900 0 1 WindowMarkerMethod.WindowMarkerMethodTimestamp
        ParserState.initial [([plainSample 1000], false, false)]).processed.map
      (fun batch => batch.data) = [[]] ∧
    processChunkOfBatch
      (mapSampleToTransactions exampleEpisodeNames exampleFieldNames exampleDiscretize)
      { meta := BatchMetadata.default, data := [] } = none := by
  decide

end JSONLogParser

end Analytics
